import Mathlib

/-!
Verification of the graph-stuff engine: a shallow embedding of the graph
data model, identifier allocators, and the algorithm library (shortest
paths, minimum spanning trees, coloring, Hamiltonian search, graph-type
transition), together with theorems settling the specified properties.

Conventions of the embedding:
* JavaScript numbers (edge weights, distances, priorities) are modelled by
  an arbitrary linear ordered commutative ring `W`; the library uses only
  `0`, `1`, `+` and the order on weights, so every general theorem holds
  for any such `W` (in particular `ℚ`).  Concrete witnesses instantiate
  `W := ℤ`, whose arithmetic the kernel can evaluate.  `Infinity` becomes
  `⊤` in `WithTop W`.
* A JS `Map` is an insertion-ordered association list; `set` replaces the
  value in place when the key is present and appends otherwise.
* A JS `Set` is an insertion-ordered duplicate-free list.
* Loops without a structural measure take explicit fuel, so that they stay
  kernel-computable; the fuel values used are sufficient for the loop to
  run to its genuine end (each choice is justified where it is made).
* graphology's mutators throw on duplicate keys / missing endpoints; those
  faults are modelled as `Except.error`.
-/

namespace GraphStuff

/-! ## JS collection primitives: insertion-ordered Map and Set -/

/-- JS `Map.get`: value of the first (unique) matching key. -/
def mapGet {α : Type} (m : List (String × α)) (k : String) : Option α :=
  match m with
  | [] => none
  | (k', v) :: rest => if k' = k then some v else mapGet rest k

/-- JS `Map.set`: replace in place when the key exists, else append. -/
def mapSet {α : Type} (m : List (String × α)) (k : String) (v : α) :
    List (String × α) :=
  match m with
  | [] => [(k, v)]
  | (k', v') :: rest =>
    if k' = k then (k, v) :: rest else (k', v') :: mapSet rest k v

/-- JS `Map.delete` / `Set.delete`: remove the entry with the given key. -/
def mapDelete {α : Type} (m : List (String × α)) (k : String) :
    List (String × α) :=
  match m with
  | [] => []
  | (k', v') :: rest =>
    if k' = k then rest else (k', v') :: mapDelete rest k

/-- JS `Set.add`: append when absent. -/
def setAdd (s : List String) (x : String) : List String :=
  if x ∈ s then s else s ++ [x]

/-- JS `Set.delete`. -/
def setDelete (s : List String) (x : String) : List String :=
  s.filter (fun y => y ≠ x)

/-- Lexicographic comparison of character lists by code point; the model of
JS string `<=` (for code points below the surrogate range the JS UTF-16
order coincides with code-point order). -/
def charListLe : List Char → List Char → Bool
  | [], _ => true
  | _ :: _, [] => false
  | a :: as, b :: bs =>
    if a.toNat < b.toNat then true
    else if b.toNat < a.toNat then false
    else charListLe as bs

/-- JS string `s <= t`. -/
def strLe (s t : String) : Bool := charListLe s.toList t.toList

/-- JS string `s < t`. -/
def strLt (s t : String) : Bool := ¬ charListLe t.toList s.toList

/-- Characters before the first `'#'`; models JS `s.split('#')[0]`. -/
def takeUntilHash : List Char → List Char
  | [] => []
  | c :: cs => if c = '#' then [] else c :: takeUntilHash cs

/-! ## Edge naming service (`EdgeNamingService.ts`)

The edge-key allocator keeps one integer counter per canonical key. -/

namespace EdgeNamingService

/-- `private edgeCounters = new Map<string, number>()`. -/
structure State where
  edgeCounters : List (String × Nat)
  deriving DecidableEq, Repr

def reset : State := ⟨[]⟩

/-- `normalizeEdgeKey`: sort the endpoints lexicographically. -/
def normalizeEdgeKey (source target : String) : String :=
  if strLe source target then source ++ "-" ++ target
  else target ++ "-" ++ source

/-- `generateEdgeId`: derive the ID from the canonical key and its counter. -/
def generateEdgeId (st : State) (source target : String)
    (isDirected : Bool) : String × State :=
  let edgeKey := if isDirected then source ++ "-" ++ target
                 else normalizeEdgeKey source target
  let currentCount := (mapGet st.edgeCounters edgeKey).getD 0
  let st' : State := ⟨mapSet st.edgeCounters edgeKey (currentCount + 1)⟩
  if currentCount = 0 then (edgeKey, st')
  else (edgeKey ++ "#" ++ toString (currentCount + 1), st')

/-- `releaseEdgeId`: strip any `#n` suffix, decrement that key's counter
(never below zero). -/
def releaseEdgeId (st : State) (edgeId : String) : State :=
  let baseKey := String.mk (takeUntilHash edgeId.toList)
  let currentCount := (mapGet st.edgeCounters baseKey).getD 0
  if currentCount > 0 then ⟨mapSet st.edgeCounters baseKey (currentCount - 1)⟩
  else st

/-- `getEdgeCount`. -/
def getEdgeCount (st : State) (source target : String)
    (isDirected : Bool) : Nat :=
  let edgeKey := if isDirected then source ++ "-" ++ target
                 else normalizeEdgeKey source target
  (mapGet st.edgeCounters edgeKey).getD 0

end EdgeNamingService

/-! ## Vertex naming service (`VertexNamingService.ts`) -/

namespace VertexNamingService

/-- `private usedNames = new Set<string>()`. -/
structure State where
  usedNames : List String
  deriving DecidableEq, Repr

def reset : State := ⟨[]⟩

def alphabet : List Char := "ABCDEFGHIJKLMNOPQRSTUVWXYZ".toList

/-- `generateName`: first free single letter, then first free double letter,
then a random UUID.  The UUID branch calls `crypto.randomUUID()`, whose
randomness has no counterpart in a pure model; it is represented by a fixed
token and is not reached by any theorem below (it needs 702 used names). -/
def generateName (st : State) : String × State :=
  match alphabet.find? (fun c => ¬ (String.mk [c]) ∈ st.usedNames) with
  | some c => (String.mk [c], ⟨setAdd st.usedNames (String.mk [c])⟩)
  | none =>
    match (alphabet.flatMap (fun i => alphabet.map (fun j => String.mk [i, j]))).find?
        (fun s => ¬ s ∈ st.usedNames) with
    | some s => (s, ⟨setAdd st.usedNames s⟩)
    | none => ("crypto.randomUUID", st)

/-- `reserveName`: true and marks used if unused. -/
def reserveName (st : State) (name : String) : Bool × State :=
  if name ∈ st.usedNames then (false, st)
  else (true, ⟨setAdd st.usedNames name⟩)

/-- `releaseName`. -/
def releaseName (st : State) (name : String) : State :=
  ⟨setDelete st.usedNames name⟩

def isNameAvailable (st : State) (name : String) : Bool :=
  ¬ name ∈ st.usedNames

end VertexNamingService

/-! ## The Graph Store (`GraphModel.ts` over graphology's `MultiGraph`) -/

inductive GraphType
  | directed
  | undirected
  deriving DecidableEq, Repr

structure MGEdge (W : Type) where
  id : String
  source : String
  target : String
  weight : W
  deriving DecidableEq, Repr

/-- graphology `MultiGraph`: node list, edge records with their stored
`weight` attribute, both in insertion order. -/
structure MultiGraph (W : Type) where
  type : GraphType
  nodes : List String
  edgeRecs : List (MGEdge W)
  deriving DecidableEq, Repr

namespace MultiGraph

variable {W : Type}

def hasNode (g : MultiGraph W) (id : String) : Bool := id ∈ g.nodes

def addNode (g : MultiGraph W) (id : String) :
    Except String (MultiGraph W) :=
  if g.hasNode id then .error "node already exists"
  else .ok { g with nodes := g.nodes ++ [id] }

/-- `dropNode` cascades: incident edges are removed with the node. -/
def dropNode (g : MultiGraph W) (id : String) : MultiGraph W :=
  { g with nodes := g.nodes.filter (fun v => v ≠ id),
           edgeRecs := g.edgeRecs.filter
             (fun e => e.source ≠ id ∧ e.target ≠ id) }

def hasEdge (g : MultiGraph W) (key : String) : Bool :=
  g.edgeRecs.any (fun e => e.id = key)

def addEdgeWithKey (g : MultiGraph W) (key source target : String)
    (weight : W) : Except String (MultiGraph W) :=
  if g.hasEdge key then .error "edge key already exists"
  else if ¬ g.hasNode source ∨ ¬ g.hasNode target then
    .error "edge endpoint node does not exist"
  else .ok { g with edgeRecs := g.edgeRecs ++ [⟨key, source, target, weight⟩] }

def dropEdge (g : MultiGraph W) (key : String) : MultiGraph W :=
  { g with edgeRecs := g.edgeRecs.filter (fun e => e.id ≠ key) }

def setEdgeAttributeWeight (g : MultiGraph W) (key : String) (w : W) :
    Except String (MultiGraph W) :=
  let f : MGEdge W → MGEdge W :=
    fun e => if e.id = key then { e with weight := w } else e
  if g.hasEdge key then .ok { g with edgeRecs := g.edgeRecs.map f }
  else .error "edge does not exist"

end MultiGraph

/-- The Graph Store: one graph plus the two process-scoped allocators
(`defaultNamingService`, `defaultEdgeNamingService`). -/
structure Store (W : Type) where
  graph : MultiGraph W
  vertexNames : VertexNamingService.State
  edgeNames : EdgeNamingService.State
  deriving DecidableEq, Repr

namespace Store

variable {W : Type} [LinearOrderedCommRing W]

/-- `createGraph`: reset both allocators, fresh multigraph. -/
def createGraph (type : GraphType) : Store W :=
  ⟨⟨type, [], []⟩, VertexNamingService.reset, EdgeNamingService.reset⟩

/-- `addVertex(g, id?)`. -/
def addVertex (S : Store W) (id : Option String) :
    Except String (String × Store W) :=
  match id with
  | some id =>
    match VertexNamingService.reserveName S.vertexNames id with
    | (false, _) =>
      .error ("Vertex with ID '" ++ id ++ "' already exists")
    | (true, vns) =>
      (S.graph.addNode id).map (fun g => (id, ⟨g, vns, S.edgeNames⟩))
  | none =>
    let r := VertexNamingService.generateName S.vertexNames
    (S.graph.addNode r.1).map (fun g => (r.1, ⟨g, r.2, S.edgeNames⟩))

def getVertices (g : MultiGraph W) : List String := g.nodes

/-- `getEdges`: maps each stored weight through `attributes.weight || 1`,
so the falsy weight `0` is reported as `1`. -/
def getEdges (g : MultiGraph W) : List (MGEdge W) :=
  g.edgeRecs.map (fun e =>
    { e with weight := if e.weight = 0 then 1 else e.weight })

/-- `addEdge(g, source, target, weight = 1)`. -/
def addEdge (S : Store W) (source target : String) (weight : W) :
    Except String (String × Store W) :=
  let isDirected := S.graph.type = GraphType.directed
  let r := EdgeNamingService.generateEdgeId S.edgeNames source target
    isDirected
  (S.graph.addEdgeWithKey r.1 source target weight).map
    (fun g => (r.1, ⟨g, S.vertexNames, r.2⟩))

/-- `updateEdgeWeight`. -/
def updateEdgeWeight (S : Store W) (edgeKey : String) (weight : W) :
    Except String (Store W) :=
  (S.graph.setEdgeAttributeWeight edgeKey weight).map
    (fun g => { S with graph := g })

/-- `removeVertex`: no-op when absent; drops the node (cascading over its
incident edges) and releases the vertex name — and only the vertex name. -/
def removeVertex (S : Store W) (id : String) : Store W :=
  if S.graph.hasNode id then
    ⟨S.graph.dropNode id,
     VertexNamingService.releaseName S.vertexNames id, S.edgeNames⟩
  else S

/-- `removeEdge`: no-op when absent; drops the edge and releases its ID. -/
def removeEdge (S : Store W) (edgeId : String) : Store W :=
  if S.graph.hasEdge edgeId then
    ⟨S.graph.dropEdge edgeId, S.vertexNames,
     EdgeNamingService.releaseEdgeId S.edgeNames edgeId⟩
  else S

end Store

/-! ## The read-only algorithm interface (`GraphAPI`)

Algorithms consume the store through `getVertices` / `getEdges` /
`getGraphType` only; an input to an algorithm is therefore just the triple
of those query results. -/

structure GraphAPI (W : Type) where
  vertices : List String
  edges : List (MGEdge W)
  graphType : GraphType
  deriving DecidableEq, Repr

/-! ## Priority queue (`PriorityQueue.ts`), min-heap configuration

The heap is an array of `{item, priority}` pairs; only the min-heap
comparator `(a, b) => a < b` is exercised by the services below. -/

namespace PriorityQueue

variable {α W : Type} [LinearOrderedCommRing W]

/-- Swap two in-bounds heap slots. -/
def hswap (l : List (α × W)) (i j : Nat) : List (α × W) :=
  match l.get? i, l.get? j with
  | some a, some b => (l.set i b).set j a
  | _, _ => l

omit [LinearOrderedCommRing W] in
theorem hswap_length (l : List (α × W)) (i j : Nat) :
    (hswap l i j).length = l.length := by
  unfold hswap
  cases l.get? i <;> cases l.get? j <;> simp

/-- `heap[a].priority < heap[b].priority` (both in bounds). -/
def prioLt (l : List (α × W)) (a b : Nat) : Bool :=
  match l.get? a, l.get? b with
  | some x, some y => decide (x.2 < y.2)
  | _, _ => false

/-- The `heapifyUp` loop body, structurally recursive on explicit fuel so
that it evaluates inside the kernel.  The index strictly decreases at each
step, so the `i + 1` units of fuel supplied by `heapifyUp` always suffice. -/
def heapifyUpGo : Nat → List (α × W) → Nat → List (α × W)
  | 0, l, _ => l
  | fuel + 1, l, i =>
    if 0 < i then
      let parent := (i - 1) / 2
      if prioLt l i parent then heapifyUpGo fuel (hswap l i parent) parent
      else l
    else l

/-- `heapifyUp`: bubble the slot at `i` towards the root. -/
def heapifyUp (l : List (α × W)) (i : Nat) : List (α × W) :=
  heapifyUpGo (i + 1) l i

/-- The `heapifyDown` loop body with explicit fuel.  The index strictly
increases while staying below the (preserved) length, so the `l.length + 1`
units of fuel supplied by `heapifyDown` always suffice. -/
def heapifyDownGo : Nat → List (α × W) → Nat → List (α × W)
  | 0, l, _ => l
  | fuel + 1, l, i =>
    let t1 := if 2 * i + 1 < l.length ∧ prioLt l (2 * i + 1) i then 2 * i + 1
              else i
    let t2 := if 2 * i + 2 < l.length ∧ prioLt l (2 * i + 2) t1 then 2 * i + 2
              else t1
    if t2 = i then l
    else heapifyDownGo fuel (hswap l i t2) t2

/-- `heapifyDown`: sink the slot at `i` towards the leaves. -/
def heapifyDown (l : List (α × W)) (i : Nat) : List (α × W) :=
  heapifyDownGo (l.length + 1) l i

end PriorityQueue

structure PriorityQueue (α W : Type) where
  heap : List (α × W)
  deriving DecidableEq, Repr

namespace PriorityQueue

variable {α W : Type} [LinearOrderedCommRing W]

def empty : PriorityQueue α W := ⟨[]⟩

def enqueue (q : PriorityQueue α W) (item : α) (priority : W) :
    PriorityQueue α W :=
  ⟨heapifyUp (q.heap ++ [(item, priority)]) q.heap.length⟩

/-- `dequeue`: remove and return the root; the last slot moves to the root
and sinks. -/
def dequeue (q : PriorityQueue α W) :
    Option α × PriorityQueue α W :=
  match q.heap with
  | [] => (none, q)
  | [x] => (some x.1, ⟨[]⟩)
  | x :: rest =>
    let last := rest.getLastD x
    let l := ((x :: rest).dropLast).set 0 last
    (some x.1, ⟨heapifyDown l 0⟩)

def isEmpty (q : PriorityQueue α W) : Bool := q.heap.isEmpty

end PriorityQueue

/-! ## Shortest-path solvers (`ShortestPathService.ts`) -/

namespace ShortestPathService

inductive SPErrorType
  | validation
  | negative_cycle
  | unreachable
  | negative_weights
  deriving DecidableEq, Repr

structure ShortestPathError where
  type : SPErrorType
  message : String
  deriving DecidableEq, Repr

structure ShortestPathResult (W : Type) where
  distances : List (String × WithTop W)
  predecessors : List (String × Option String)
  path : List String
  totalDistance : WithTop W
  hasNegativeCycle : Option Bool
  deriving DecidableEq

inductive SPOutcome (W : Type)
  | ok (r : ShortestPathResult W)
  | err (e : ShortestPathError)
  deriving DecidableEq

inductive SPAlgorithm
  | dijkstra
  | bellmanFord
  deriving DecidableEq, Repr

variable {W : Type} [LinearOrderedCommRing W]

/-- `validateGraph`: vertex-count check, then (Dijkstra only) the
negative-weight scan.  The source/target existence checks are *not* here —
they happen later, inside each solver. -/
def validateGraph (graph : GraphAPI W) (algorithm : SPAlgorithm) :
    Option ShortestPathError :=
  if graph.vertices.length < 2 then
    some ⟨.validation, "Shortest path computation requires at least 2 vertices"⟩
  else if algorithm = .dijkstra ∧ graph.edges.any (fun e => e.weight < 0) then
    some ⟨.negative_weights,
      "Dijkstra algorithm cannot handle negative edge weights. Use Bellman-Ford instead."⟩
  else none

/-- Append `v` to the adjacency bucket of `k` (creating the bucket). -/
def pushAdj (m : List (String × List String)) (k v : String) :
    List (String × List String) :=
  mapSet m k ((mapGet m k).getD [] ++ [v])

/-- The unweighted adjacency map built inside `isReachable`. -/
def reachAdjacency (graph : GraphAPI W) : List (String × List String) :=
  graph.edges.foldl
    (fun m e =>
      let m := pushAdj m e.source e.target
      if graph.graphType = GraphType.directed then m
      else pushAdj m e.target e.source)
    []

/-- BFS worklist loop of `isReachable`.  The fuel only caps the iteration
count; one unit is spent per loop iteration, and the iteration count is
bounded by the total number of queue insertions, which is at most
1 + (total adjacency length), below the fuel passed in by `isReachable`. -/
def isReachableLoop (adj : List (String × List String)) (target : String) :
    Nat → List String → List String → Bool
  | 0, _, _ => false
  | _, [], _ => false
  | fuel + 1, current :: queue, visited =>
    if current = target then true
    else if current ∈ visited then isReachableLoop adj target fuel queue visited
    else
      let visited := visited ++ [current]
      let neighbors := (mapGet adj current).getD []
      let queue := queue ++ neighbors.filter (fun n => ¬ n ∈ visited)
      isReachableLoop adj target fuel queue visited

def adjTotalLen (adj : List (String × List String)) : Nat :=
  (adj.map (fun p => p.2.length)).sum

/-- `isReachable`: breadth-first search respecting edge direction. -/
def isReachable (graph : GraphAPI W) (source target : String) : Bool :=
  if source = target then true
  else
    let adj := reachAdjacency graph
    isReachableLoop adj target (adjTotalLen adj + 2) [source] []

/-- `predecessors.get(current) || null`: JS maps both a missing entry and
the falsy empty string to `null`. -/
def jsOrNull (x : Option (Option String)) : Option String :=
  match x with
  | some (some s) => if s = "" then none else some s
  | _ => none

/-- The `while (current !== null)` loop of `reconstructPath`; the in-loop
cycle guard (`path.length > predecessors.size + 1`) breaks after at most
`size + 2` iterations, so the fuel passed in by `reconstructPath` is never
exhausted. -/
def reconstructGo (preds : List (String × Option String)) :
    Nat → Option String → List String → List String
  | 0, _, path => path
  | _, none, path => path
  | fuel + 1, some c, path =>
    let path := c :: path
    let nxt := jsOrNull (mapGet preds c)
    if path.length > preds.length + 1 then path
    else reconstructGo preds fuel nxt path

/-- `reconstructPath`: walk predecessors from target back to source. -/
def reconstructPath (preds : List (String × Option String))
    (source target : String) : List String :=
  let path := reconstructGo preds (preds.length + 2) (some target) []
  match path with
  | [] => []
  | p0 :: _ => if p0 ≠ source then [] else path

/-- A frontier entry `{node, distance}` of Dijkstra's queue. -/
structure DijkItem (W : Type) where
  node : String
  distance : W
  deriving DecidableEq, Repr

/-- Append a weighted neighbor to the adjacency bucket of `k`. -/
def pushWAdj (m : List (String × List (String × W))) (k : String)
    (v : String × W) : List (String × List (String × W)) :=
  mapSet m k ((mapGet m k).getD [] ++ [v])

/-- Dijkstra's weighted adjacency map (`useWeights=false` turns every
weight into 1). -/
def dijkstraAdjacency (graph : GraphAPI W) (isWeighted : Bool) :
    List (String × List (String × W)) :=
  graph.edges.foldl
    (fun m e =>
      let m := pushWAdj m e.source
        (e.target, if isWeighted then e.weight else 1)
      if graph.graphType = GraphType.directed then m
      else pushWAdj m e.target
        (e.source, if isWeighted then e.weight else 1))
    []

structure DijkState (W : Type) where
  distances : List (String × WithTop W)
  predecessors : List (String × Option String)
  visited : List String
  pq : PriorityQueue (DijkItem W) W
  deriving DecidableEq

/-- `currentDistance > distances.get(currentNode)!`; a missing entry is JS
`undefined`, and every comparison against `undefined` is false. -/
def distGt (ds : List (String × WithTop W)) (v : String) (c : W) : Bool :=
  match mapGet ds v with
  | some d => decide ((c : WithTop W) > d)
  | none => false

/-- Relax the neighbor list of the vertex just removed from the frontier.
A neighbor without a distance entry is JS `undefined`; `newDistance <
undefined` is false, so no update happens. -/
def dijkstraRelax (currentNode : String) (currentDistance : W)
    (neighbors : List (String × W)) (st : DijkState W) : DijkState W :=
  neighbors.foldl
    (fun st p =>
      if p.1 ∈ st.visited then st
      else
        let newDistance := currentDistance + p.2
        match mapGet st.distances p.1 with
        | some currentNeighborDistance =>
          if (newDistance : WithTop W) < currentNeighborDistance then
            { st with
              distances := mapSet st.distances p.1 (newDistance : WithTop W),
              predecessors := mapSet st.predecessors p.1 (some currentNode),
              pq := st.pq.enqueue ⟨p.1, newDistance⟩ newDistance }
          else st
        | none => st)
    st

/-- The `while (!pq.isEmpty())` loop of Dijkstra.  One fuel unit per
iteration; every iteration removes one queue entry, entries are only added
by relaxations, each vertex is relaxed from at most once, so the iteration
count is at most 1 + (total adjacency length) — below the fuel passed in
by `dijkstra`. -/
def dijkstraLoop (adj : List (String × List (String × W)))
    (target : String) : Nat → DijkState W → DijkState W
  | 0, st => st
  | fuel + 1, st =>
    match st.pq.dequeue with
    | (none, _) => st
    | (some current, pq') =>
      let st := { st with pq := pq' }
      if current.node ∈ st.visited ∨
          distGt st.distances current.node current.distance then
        dijkstraLoop adj target fuel st
      else
        let st := { st with visited := setAdd st.visited current.node }
        if current.node = target then st
        else
          let neighbors := (mapGet adj current.node).getD []
          dijkstraLoop adj target fuel
            (dijkstraRelax current.node current.distance neighbors st)

def wAdjTotalLen (adj : List (String × List (String × W))) : Nat :=
  (adj.map (fun p => p.2.length)).sum

/-- `ShortestPathService.dijkstra`. -/
def dijkstra (graph : GraphAPI W) (source target : String)
    (isWeighted : Bool := true) : SPOutcome W :=
  match validateGraph graph .dijkstra with
  | some e => .err e
  | none =>
    if ¬ source ∈ graph.vertices then
      .err ⟨.validation,
        "Source vertex \"" ++ source ++ "\" does not exist in the graph"⟩
    else if ¬ target ∈ graph.vertices then
      .err ⟨.validation,
        "Target vertex \"" ++ target ++ "\" does not exist in the graph"⟩
    else if source = target then
      .ok ⟨[(source, (0 : WithTop W))], [(source, none)], [source], 0, none⟩
    else if ¬ isReachable graph source target then
      .err ⟨.unreachable,
        "Target vertex \"" ++ target ++
          "\" is not reachable from source vertex \"" ++ source ++ "\""⟩
    else
      let distances := graph.vertices.foldl
        (fun m v => mapSet m v (if v = source then (0 : WithTop W) else ⊤)) []
      let predecessors := graph.vertices.foldl
        (fun m v => mapSet m v none) []
      let adj := dijkstraAdjacency graph isWeighted
      let st0 : DijkState W :=
        ⟨distances, predecessors, [], PriorityQueue.empty.enqueue ⟨source, 0⟩ 0⟩
      let stF := dijkstraLoop adj target (wAdjTotalLen adj + 2) st0
      let path := reconstructPath stF.predecessors source target
      let totalDistance := (mapGet stF.distances target).getD ⊤
      .ok ⟨stF.distances, stF.predecessors, path, totalDistance, none⟩

/-- Relax one edge of Bellman-Ford's edge list.  `distances.get` on a
vertex missing from the map is JS `undefined`: the `!== Infinity` guard
passes but the arithmetic comparison is false, so no update happens. -/
def bfRelaxEdge (isWeighted : Bool)
    (st : List (String × WithTop W) × List (String × Option String) × Bool)
    (e : MGEdge W) :
    List (String × WithTop W) × List (String × Option String) × Bool :=
  let weight := if isWeighted then e.weight else 1
  match mapGet st.1 e.source, mapGet st.1 e.target with
  | some du, some dv =>
    match du with
    | (u : W) =>
      if (((u + weight : W) : WithTop W) < dv) then
        (mapSet st.1 e.target ((u + weight : W) : WithTop W),
         mapSet st.2.1 e.target (some e.source), true)
      else st
    | ⊤ => st
  | _, _ => st

/-- One relaxation round over the whole edge list, tracking `hasUpdate`. -/
def bfRound (edgeList : List (MGEdge W)) (isWeighted : Bool)
    (dists : List (String × WithTop W))
    (preds : List (String × Option String)) :
    List (String × WithTop W) × List (String × Option String) × Bool :=
  edgeList.foldl (bfRelaxEdge isWeighted) (dists, preds, false)

/-- The `nodeCount - 1` relaxation rounds with the early exit. -/
def bfRounds (edgeList : List (MGEdge W)) (isWeighted : Bool) :
    Nat → List (String × WithTop W) → List (String × Option String) →
    List (String × WithTop W) × List (String × Option String)
  | 0, dists, preds => (dists, preds)
  | n + 1, dists, preds =>
    let r := bfRound edgeList isWeighted dists preds
    if r.2.2 then bfRounds edgeList isWeighted n r.1 r.2.1
    else (r.1, r.2.1)

/-- Does some edge still admit a relaxation? (the negative-cycle scan). -/
def bfHasRelaxable (edgeList : List (MGEdge W)) (isWeighted : Bool)
    (dists : List (String × WithTop W)) : Bool :=
  edgeList.any (fun e =>
    let weight := if isWeighted then e.weight else 1
    match mapGet dists e.source, mapGet dists e.target with
    | some du, some dv =>
      match du with
      | (u : W) => decide (((u + weight : W) : WithTop W) < dv)
      | ⊤ => false
    | _, _ => false)

/-- `ShortestPathService.bellmanFord` after its validation prologue. -/
def bellmanFordMain (graph : GraphAPI W) (source target : String)
    (isWeighted : Bool) : SPOutcome W :=
  if ¬ source ∈ graph.vertices then
    .err ⟨.validation,
      "Source vertex \"" ++ source ++ "\" does not exist in the graph"⟩
  else if ¬ target ∈ graph.vertices then
    .err ⟨.validation,
      "Target vertex \"" ++ target ++ "\" does not exist in the graph"⟩
  else if source = target then
    .ok ⟨[(source, (0 : WithTop W))], [(source, none)], [source], 0, some false⟩
  else if ¬ isReachable graph source target then
    .err ⟨.unreachable,
      "Target vertex \"" ++ target ++
        "\" is not reachable from source vertex \"" ++ source ++ "\""⟩
  else
    let distances := graph.vertices.foldl
      (fun m v => mapSet m v (if v = source then (0 : WithTop W) else ⊤)) []
    let predecessors := graph.vertices.foldl
      (fun m v => mapSet m v none) []
    let edgeList := graph.edges ++
      (if graph.graphType = GraphType.directed then []
       else graph.edges.map (fun e =>
         ⟨e.id ++ "_reverse", e.target, e.source,
          if isWeighted then e.weight else 1⟩))
    let r := bfRounds edgeList isWeighted (graph.vertices.length - 1)
      distances predecessors
    if bfHasRelaxable edgeList isWeighted r.1 then
      .err ⟨.negative_cycle,
        "Graph contains a negative-weight cycle reachable from the source"⟩
    else
      let path := reconstructPath r.2 source target
      let totalDistance := (mapGet r.1 target).getD ⊤
      .ok ⟨r.1, r.2, path, totalDistance, some false⟩

/-- `ShortestPathService.bellmanFord`.  The validation prologue discards a
`negative_weights` validation result — which `validateGraph` never
produces for Bellman-Ford — and the remaining checks run in
`bellmanFordMain`. -/
def bellmanFord (graph : GraphAPI W) (source target : String)
    (isWeighted : Bool := true) : SPOutcome W :=
  match validateGraph graph .bellmanFord with
  | some e =>
    if e.type ≠ SPErrorType.negative_weights then .err e
    else bellmanFordMain graph source target isWeighted
  | none => bellmanFordMain graph source target isWeighted

/-- The path of a successful outcome. -/
def SPOutcome.pathOf : SPOutcome W → Option (List String)
  | .ok r => some r.path
  | .err _ => none

/-- The total distance of a successful outcome. -/
def SPOutcome.totalOf : SPOutcome W → Option (WithTop W)
  | .ok r => some r.totalDistance
  | .err _ => none

end ShortestPathService

/-! ## Shared graph utilities (`GraphUtils.ts`, `GraphConnectivity.ts`) -/

namespace GraphUtils

variable {W : Type}

/-- `buildAdjacencyList`: vertex → `Set` of neighbors.  All vertices get a
bucket first; `adjacencyList.get(...)?.add(...)` is a no-op for a missing
bucket (an edge endpoint that is not a vertex). -/
def buildAdjacencyList (graph : GraphAPI W) : List (String × List String) :=
  let init := graph.vertices.foldl (fun m v => mapSet m v []) []
  graph.edges.foldl
    (fun m e =>
      let m := match mapGet m e.source with
               | some s => mapSet m e.source (setAdd s e.target)
               | none => m
      if graph.graphType = GraphType.undirected then
        match mapGet m e.target with
        | some s => mapSet m e.target (setAdd s e.source)
        | none => m
      else m)
    init

/-- `calculateVertexDegrees`: per-vertex edge count; an undirected non-loop
edge counts for both endpoints, a self-loop only once. -/
def calculateVertexDegrees (graph : GraphAPI W) : List (String × Nat) :=
  let init := graph.vertices.foldl (fun m v => mapSet m v 0) []
  graph.edges.foldl
    (fun m e =>
      let m := mapSet m e.source ((mapGet m e.source).getD 0 + 1)
      if graph.graphType = GraphType.undirected ∧ e.source ≠ e.target then
        mapSet m e.target ((mapGet m e.target).getD 0 + 1)
      else m)
    init

/-- The iterative DFS shared by the connectivity checks; the JS stack pops
from the array's end.  One fuel unit per iteration; iterations are bounded
by total stack pushes, at most 1 + (total adjacency length), below the
fuel passed in by the callers. -/
def dfsLoop (adj : List (String × List String)) :
    Nat → List String → List String → List String
  | 0, _, visited => visited
  | fuel + 1, stack, visited =>
    match stack.getLast? with
    | none => visited
    | some current =>
      let stack := stack.dropLast
      if current ∈ visited then dfsLoop adj fuel stack visited
      else
        let visited := visited ++ [current]
        let neighbors := (mapGet adj current).getD []
        let stack := stack ++ neighbors.filter (fun n => ¬ n ∈ visited)
        dfsLoop adj fuel stack visited

def dfsAdjTotalLen (adj : List (String × List String)) : Nat :=
  (adj.map (fun p => p.2.length)).sum

/-- `isGraphConnected` (GraphConnectivity.ts): undirected DFS treating all
edges as bidirectional. -/
def isGraphConnected (graph : GraphAPI W) : Bool :=
  if graph.vertices.length = 0 then true
  else if graph.vertices.length = 1 then true
  else
    let init := graph.vertices.foldl (fun m v => mapSet m v []) []
    let adj := graph.edges.foldl
      (fun m e =>
        let m := match mapGet m e.source with
                 | some s => mapSet m e.source (setAdd s e.target)
                 | none => m
        match mapGet m e.target with
        | some s => mapSet m e.target (setAdd s e.source)
        | none => m)
      init
    let visited := dfsLoop adj (dfsAdjTotalLen adj + 2)
      [graph.vertices.headD ""] []
    visited.length = graph.vertices.length

/-- `isDirectedGraphStronglyConnected` (Kosaraju's two passes). -/
def isDirectedGraphStronglyConnected (graph : GraphAPI W) : Bool :=
  if graph.vertices.length ≤ 1 then true
  else
    let init := graph.vertices.foldl (fun m v => mapSet m v []) []
    let adj := graph.edges.foldl
      (fun m e =>
        match mapGet m e.source with
        | some s => mapSet m e.source (setAdd s e.target)
        | none => m)
      init
    let radj := graph.edges.foldl
      (fun m e =>
        match mapGet m e.target with
        | some s => mapSet m e.target (setAdd s e.source)
        | none => m)
      init
    let v1 := dfsLoop adj (dfsAdjTotalLen adj + 2)
      [graph.vertices.headD ""] []
    if v1.length ≠ graph.vertices.length then false
    else
      let v2 := dfsLoop radj (dfsAdjTotalLen radj + 2)
        [graph.vertices.headD ""] []
      decide (v2.length = graph.vertices.length)

/-- `GraphUtils.isConnected`: dispatch on the graph type. -/
def isConnected (graph : GraphAPI W) : Bool :=
  if graph.graphType = GraphType.directed then
    isDirectedGraphStronglyConnected graph
  else isGraphConnected graph

/-- `Math.min(...l)` over a non-empty list, `0` when empty (as guarded in
`analyzeGraph`). -/
def listMinD (l : List Nat) : Nat :=
  match l with
  | [] => 0
  | h :: t => t.foldl min h

def listMaxD (l : List Nat) : Nat :=
  match l with
  | [] => 0
  | h :: t => t.foldl max h

end GraphUtils

/-! ## Hamiltonian-path solver (`HamiltonianPathService.ts`) -/

namespace HamiltonianPathService

structure SearchStats where
  nodesExplored : Nat
  backtrackCount : Nat
  maxDepth : Nat
  deriving DecidableEq, Repr

structure HamiltonianPathResult where
  hasHamiltonianPath : Bool
  hasHamiltonianCycle : Bool
  path : Option (List String)
  startVertex : Option String
  endVertex : Option String
  reason : Option String
  searchStats : Option SearchStats
  deriving DecidableEq, Repr

structure HamiltonianAnalysis where
  vertexCount : Nat
  edgeCount : Nat
  minDegree : Nat
  maxDegree : Nat
  isConnected : Bool
  vertexDegrees : List (String × Nat)
  deriving DecidableEq, Repr

/-- `MAX_VERTICES_FOR_EXHAUSTIVE_SEARCH`. -/
def maxVerticesForExhaustiveSearch : Nat := 15

variable {W : Type}

/-- `analyzeGraph` (delegating to `GraphUtils.analyzeGraph`). -/
def analyzeGraph (graph : GraphAPI W) : HamiltonianAnalysis :=
  if graph.vertices.length = 0 then ⟨0, 0, 0, 0, true, []⟩
  else
    let vertexDegrees := GraphUtils.calculateVertexDegrees graph
    let degrees := vertexDegrees.map (fun p => p.2)
    ⟨graph.vertices.length, graph.edges.length,
     GraphUtils.listMinD degrees, GraphUtils.listMaxD degrees,
     GraphUtils.isConnected graph, vertexDegrees⟩

/-- The `for (const neighbor of neighbors)` loop of
`backtrackHamiltonian`: try each unvisited neighbor through `recurse`,
counting a backtrack for each failed try. -/
def tryNeighborsWith
    (recurse : String → List String → List String → SearchStats →
      Option (List String) × SearchStats)
    (currentPath visited : List String) :
    SearchStats → List String → Option (List String) × SearchStats
  | stats, [] => (none, stats)
  | stats, n :: rest =>
    if n ∈ visited then tryNeighborsWith recurse currentPath visited stats rest
    else
      match recurse n (currentPath ++ [n]) (setAdd visited n) stats with
      | (some p, stats') => (some p, stats')
      | (none, stats') =>
        tryNeighborsWith recurse currentPath visited
          { stats' with backtrackCount := stats'.backtrackCount + 1 } rest

/-- `backtrackHamiltonian`.  The fuel bounds the recursion *depth* (each
nested call extends the path by one vertex), so `totalVertices + 1` units
— as supplied by `searchStarts` — suffice whenever every adjacency target
is a vertex of the graph. -/
def backtrackGo (adj : List (String × List String)) (totalVertices : Nat) :
    Nat → String → List String → List String → SearchStats →
    Option (List String) × SearchStats
  | 0, _, _, _, stats => (none, stats)
  | fuel + 1, currentVertex, currentPath, visited, stats =>
    let stats := { stats with
      nodesExplored := stats.nodesExplored + 1,
      maxDepth := max stats.maxDepth currentPath.length }
    if currentPath.length = totalVertices then (some currentPath, stats)
    else
      tryNeighborsWith (backtrackGo adj totalVertices fuel) currentPath
        visited stats ((mapGet adj currentVertex).getD [])

/-- The `for (const startVertex of vertices)` loop of
`searchHamiltonianPath`, with its two break conditions. -/
def searchStarts (adj : List (String × List String)) (n : Nat) :
    List String → SearchStats → Option (List String) → Bool →
    Option (List String) × Bool × SearchStats
  | [], stats, bestPath, hasCycle => (bestPath, hasCycle, stats)
  | startVertex :: rest, stats, bestPath, hasCycle =>
    match backtrackGo adj n (n + 1) startVertex [startVertex] [startVertex]
        stats with
    | (some path, stats') =>
      let bestPath := some path
      let lastVertex := path.getLastD ""
      let neighbors := (mapGet adj lastVertex).getD []
      if startVertex ∈ neighbors ∧ path.length = n then
        (bestPath, true, stats')
      else if path.length = n then (bestPath, hasCycle, stats')
      else searchStarts adj n rest stats' bestPath hasCycle
    | (none, stats') => searchStarts adj n rest stats' bestPath hasCycle

/-- `searchHamiltonianPath`: the backtracking search over all starts. -/
def searchHamiltonianPath (graph : GraphAPI W) : HamiltonianPathResult :=
  let vertices := graph.vertices
  let adjacencyList := GraphUtils.buildAdjacencyList graph
  match searchStarts adjacencyList vertices.length vertices ⟨0, 0, 0⟩
      none false with
  | (some bestPath, hasCycle, stats) =>
    ⟨true, hasCycle, some bestPath, some (bestPath.headD ""),
     some (bestPath.getLastD ""), none, some stats⟩
  | (none, _, stats) =>
    ⟨false, false, none, none, none,
     some "No Hamiltonian path found after exhaustive search", some stats⟩

/-- `satisfiesOreTheorem`: every non-adjacent pair's degree sum reaches
`n`. -/
def satisfiesOreTheorem (graph : GraphAPI W)
    (analysis : HamiltonianAnalysis) : Bool :=
  let vertices := graph.vertices
  let n := vertices.length
  if n < 3 then false
  else
    let adjacencyList := GraphUtils.buildAdjacencyList graph
    (List.range n).all (fun i => (List.range n).all (fun j =>
      if i < j then
        let u := vertices.getD i ""
        let v := vertices.getD j ""
        let uNeighbors := (mapGet adjacencyList u).getD []
        if ¬ v ∈ uNeighbors then
          decide ((mapGet analysis.vertexDegrees u).getD 0 +
            (mapGet analysis.vertexDegrees v).getD 0 ≥ n)
        else true
      else true))

/-- `findHamiltonianPath`.  The JS Dirac test `minDegree >= n / 2` uses
real division; over naturals it is written in the equivalent cross-
multiplied form `2 * minDegree ≥ n`. -/
def findHamiltonianPath (graph : GraphAPI W) : HamiltonianPathResult :=
  let analysis := analyzeGraph graph
  let vertices := graph.vertices
  if vertices.length = 0 then
    ⟨true, true, some [], none, none,
     some "Empty graph has trivial Hamiltonian path", none⟩
  else if vertices.length = 1 then
    ⟨true, true, some [vertices.headD ""], some (vertices.headD ""),
     some (vertices.headD ""),
     some "Single vertex is trivial Hamiltonian path", none⟩
  else if analysis.edgeCount = 0 then
    ⟨false, false, none, none, none, some "Graph has no edges", none⟩
  else if ¬ analysis.isConnected then
    ⟨false, false, none, none, none, some "Graph is not connected", none⟩
  else if 2 * analysis.minDegree ≥ vertices.length ∧
      (searchHamiltonianPath graph).hasHamiltonianPath then
    { searchHamiltonianPath graph with
      reason := some "Graph satisfies Dirac's theorem (every vertex degree ≥ n/2)" }
  else if satisfiesOreTheorem graph analysis = true ∧
      (searchHamiltonianPath graph).hasHamiltonianPath then
    { searchHamiltonianPath graph with
      reason := some "Graph satisfies Ore's theorem" }
  else if vertices.length > maxVerticesForExhaustiveSearch then
    ⟨false, false, none, none, none,
     some ("Graph has " ++ toString vertices.length ++
       " vertices. Hamiltonian path search is limited to " ++
       toString maxVerticesForExhaustiveSearch ++
       " vertices due to computational complexity."), none⟩
  else searchHamiltonianPath graph

end HamiltonianPathService

/-! ## Disjoint-set structure (`UnionFind.ts`), instantiated at vertex IDs -/

namespace UnionFindService

/-- `parent` / `rank` maps plus the live component count. -/
structure UnionFind where
  parent : List (String × String)
  rank : List (String × Nat)
  componentCount : Nat
  deriving DecidableEq, Repr

/-- The constructor: every element is its own root with rank 0. -/
def init (elements : List String) : UnionFind :=
  elements.foldl
    (fun uf e => ⟨mapSet uf.parent e e, mapSet uf.rank e 0, uf.componentCount + 1⟩)
    ⟨[], [], 0⟩

/-- `find` with path compression, state-passing.  `none` models the JS
`throw` on an unregistered element.  The fuel bounds the parent-chain
length, which (chains being acyclic and the map finite) is at most
`parent.length`; callers pass `parent.length + 1`. -/
def findGo : Nat → UnionFind → String → Option String × UnionFind
  | 0, uf, _ => (none, uf)
  | fuel + 1, uf, element =>
    match mapGet uf.parent element with
    | none => (none, uf)
    | some p =>
      if p = element then (some element, uf)
      else
        match findGo fuel uf p with
        | (some root, uf') =>
          (some root, { uf' with parent := mapSet uf'.parent element root })
        | (none, uf') => (none, uf')

def find (uf : UnionFind) (element : String) : Option String × UnionFind :=
  findGo (uf.parent.length + 1) uf element

/-- `union` by rank.  The `none` find results model the JS `throw` on an
unregistered element; the only caller below (Kruskal, after validation)
passes registered vertices of well-formed graphs, so those branches are
unreachable there and return `false` without effect. -/
def union (uf : UnionFind) (element1 element2 : String) : Bool × UnionFind :=
  match find uf element1 with
  | (none, uf) => (false, uf)
  | (some root1, uf) =>
    match find uf element2 with
    | (none, uf) => (false, uf)
    | (some root2, uf) =>
      if root1 = root2 then (false, uf)
      else
        let rank1 := (mapGet uf.rank root1).getD 0
        let rank2 := (mapGet uf.rank root2).getD 0
        if rank1 < rank2 then
          (true, { uf with parent := mapSet uf.parent root1 root2,
                           componentCount := uf.componentCount - 1 })
        else if rank1 > rank2 then
          (true, { uf with parent := mapSet uf.parent root2 root1,
                           componentCount := uf.componentCount - 1 })
        else
          (true, ⟨mapSet uf.parent root2 root1,
                  mapSet uf.rank root1 (rank1 + 1),
                  uf.componentCount - 1⟩)

end UnionFindService

/-! ## Minimum-spanning-tree solvers (`MinimumSpanningTreeService.ts`)

The MST validator checks `edge.weight === undefined || edge.weight ===
null`, so its graphs carry `Option W` weights (`none` = undefined).  After
validation every weight is defined; the `getD 0` defaults below mirror the
JS code's unchecked number use and are unreachable past validation. -/

namespace MinimumSpanningTreeService

inductive MSTErrorType
  | not_connected
  | not_weighted
  | insufficient_vertices
  | directed_graph
  deriving DecidableEq, Repr

structure MSTError where
  type : MSTErrorType
  message : String
  deriving DecidableEq, Repr

structure MSTResult (W : Type) where
  edges : List (MGEdge (Option W))
  totalWeight : W
  algorithm : String
  deriving DecidableEq

inductive MSTResponse (W : Type)
  | success (result : MSTResult W)
  | failure (error : MSTError)
  deriving DecidableEq

variable {W : Type} [LinearOrderedCommRing W]

/-- `validateGraph`: directed, then vertex count, then missing weights. -/
def validateGraph (graph : GraphAPI (Option W)) : Option MSTError :=
  if graph.graphType = GraphType.directed then
    some ⟨.directed_graph, "MST can only be computed for undirected graphs"⟩
  else if graph.vertices.length < 2 then
    some ⟨.insufficient_vertices, "MST requires at least 2 vertices"⟩
  else if graph.edges.any (fun e => e.weight = none) then
    some ⟨.not_weighted, "MST requires all edges to have weights"⟩
  else none

/-- `validateAndCheckConnectivity`: the above, then the §4.5 DFS check. -/
def validateAndCheckConnectivity (graph : GraphAPI (Option W)) :
    Option MSTError :=
  match validateGraph graph with
  | some e => some e
  | none =>
    if ¬ GraphUtils.isGraphConnected graph then
      some ⟨.not_connected, "Graph must be connected to compute MST"⟩
    else none

/-- Stable insertion of an edge after all edges of weight ≤ its own. -/
def insertByWeight (e : MGEdge (Option W)) :
    List (MGEdge (Option W)) → List (MGEdge (Option W))
  | [] => [e]
  | x :: xs =>
    if x.weight.getD 0 ≤ e.weight.getD 0 then x :: insertByWeight e xs
    else e :: x :: xs

/-- `[...edges].sort((a, b) => a.weight - b.weight)`: a *stable* ascending
sort (ES2019 requires Array.sort stability).  Any stable sort by the same
key yields the same list, so a stable insertion sort models it exactly. -/
def sortByWeight (edges : List (MGEdge (Option W))) :
    List (MGEdge (Option W)) :=
  edges.foldl (fun acc e => insertByWeight e acc) []

/-- Kruskal's accepting loop with its `|V|-1` early break. -/
def kruskalLoop (nV : Nat) :
    List (MGEdge (Option W)) → UnionFindService.UnionFind →
    List (MGEdge (Option W)) → W → List (MGEdge (Option W)) × W
  | [], _, acc, tw => (acc, tw)
  | e :: rest, uf, acc, tw =>
    match UnionFindService.union uf e.source e.target with
    | (true, uf') =>
      let acc := acc ++ [e]
      let tw := tw + e.weight.getD 0
      if acc.length = nV - 1 then (acc, tw)
      else kruskalLoop nV rest uf' acc tw
    | (false, uf') => kruskalLoop nV rest uf' acc tw

/-- `kruskalMST`. -/
def kruskalMST (graph : GraphAPI (Option W)) : MSTResponse W :=
  match validateAndCheckConnectivity graph with
  | some e => .failure e
  | none =>
    let sortedEdges := sortByWeight graph.edges
    let uf := UnionFindService.init graph.vertices
    let r := kruskalLoop graph.vertices.length sortedEdges uf [] 0
    .success ⟨r.1, r.2, "kruskal"⟩

/-- A frontier record `{vertex, weight, edgeId, from}` of Prim's queue. -/
structure PrimItem (W : Type) where
  vertex : String
  weight : Option W
  edgeId : String
  fromV : String
  deriving DecidableEq, Repr

/-- Prim's adjacency: both endpoint directions, `?.push` ignoring foreign
endpoints. -/
def primAdjacency (graph : GraphAPI (Option W)) :
    List (String × List (String × Option W × String)) :=
  let init := graph.vertices.foldl (fun m v => mapSet m v []) []
  graph.edges.foldl
    (fun m e =>
      let m := match mapGet m e.source with
               | some l => mapSet m e.source (l ++ [(e.target, e.weight, e.id)])
               | none => m
      match mapGet m e.target with
      | some l => mapSet m e.target (l ++ [(e.source, e.weight, e.id)])
      | none => m)
    init

def primAdjTotalLen
    (adj : List (String × List (String × Option W × String))) : Nat :=
  (adj.map (fun p => p.2.length)).sum

/-- Prim's main loop.  One fuel unit per iteration; iterations are bounded
by total queue insertions, at most 1 + (total adjacency length), below the
fuel passed in by `primMST`. -/
def primLoop (adj : List (String × List (String × Option W × String)))
    (nV : Nat) :
    Nat → PriorityQueue (PrimItem W) W → List String →
    List (MGEdge (Option W)) → W → List (MGEdge (Option W)) × W
  | 0, _, _, mstEdges, tw => (mstEdges, tw)
  | fuel + 1, pq, visited, mstEdges, tw =>
    if pq.isEmpty ∨ ¬ mstEdges.length < nV - 1 then (mstEdges, tw)
    else
      match pq.dequeue with
      | (none, pq') => primLoop adj nV fuel pq' visited mstEdges tw
      | (some current, pq') =>
        if current.vertex ∈ visited then
          primLoop adj nV fuel pq' visited mstEdges tw
        else
          let visited := setAdd visited current.vertex
          let mstEdges := mstEdges ++
            [⟨current.edgeId, current.fromV, current.vertex, current.weight⟩]
          let tw := tw + current.weight.getD 0
          let neighbors := (mapGet adj current.vertex).getD []
          let pq := neighbors.foldl
            (fun pq n =>
              if n.1 ∈ visited then pq
              else pq.enqueue ⟨n.1, n.2.1, n.2.2, current.vertex⟩
                (n.2.1.getD 0))
            pq'
          primLoop adj nV fuel pq visited mstEdges tw

/-- `primMST`.  `startVertex || vertices[0]` treats the empty-string
vertex as falsy. -/
def primMST (graph : GraphAPI (Option W)) (startVertex : Option String) :
    MSTResponse W :=
  match validateAndCheckConnectivity graph with
  | some e => .failure e
  | none =>
    let vertices := graph.vertices
    let start := match startVertex with
                 | some s => if s = "" then vertices.headD "" else s
                 | none => vertices.headD ""
    let adj := primAdjacency graph
    let startNeighbors := (mapGet adj start).getD []
    let pq0 : PriorityQueue (PrimItem W) W := startNeighbors.foldl
      (fun pq n => pq.enqueue ⟨n.1, n.2.1, n.2.2, start⟩ (n.2.1.getD 0))
      PriorityQueue.empty
    let r := primLoop adj vertices.length (primAdjTotalLen adj + 2) pq0
      [start] [] 0
    .success ⟨r.1, r.2, "prim"⟩

/-- The total weight of a successful response. -/
def MSTResponse.totalOf : MSTResponse W → Option W
  | .success r => some r.totalWeight
  | .failure _ => none

/-- The error of a failed response. -/
def MSTResponse.errorOf : MSTResponse W → Option MSTError
  | .success _ => none
  | .failure e => some e

end MinimumSpanningTreeService

/-! ## Graph-coloring solver (`GraphColoringService.ts`, DSatur) -/

namespace GraphColoringService

structure ColoringResult where
  coloring : List (String × Nat)
  numColors : Nat
  colorClasses : List (List String)
  deriving DecidableEq, Repr

variable {W : Type}

/-- One edge-scan step of `getAdjacentVertices`. -/
def adjStep (vertexId : String) (acc : List String) (e : MGEdge W) :
    List String :=
  if e.source = e.target then acc
  else if e.source = vertexId then acc ++ [e.target]
  else if e.target = vertexId then acc ++ [e.source]
  else acc

/-- `getAdjacentVertices`: all non-self-loop neighbors, by edge scan (with
multiplicity, in edge order). -/
def getAdjacentVertices (graph : GraphAPI W) (vertexId : String) :
    List String :=
  graph.edges.foldl (adjStep vertexId) []

/-- One comparison step of `selectNextVertex` over the running best
`(vertex, saturation, degree)`. -/
def selStep (saturation vertexDegrees : List (String × Nat))
    (best : String × Int × Int) (vertex : String) : String × Int × Int :=
  let sat : Int := (mapGet saturation vertex).getD 0
  let deg : Int := (mapGet vertexDegrees vertex).getD 0
  if sat > best.2.1 ∨ (sat = best.2.1 ∧ deg > best.2.2) ∨
      (sat = best.2.1 ∧ deg = best.2.2 ∧ strLt vertex best.1) then
    (vertex, sat, deg)
  else best

/-- `selectNextVertex`: highest saturation, then highest degree, then
smallest vertex ID; the running best starts at `('', -1, -1)`. -/
def selectNextVertex (uncolored : List String)
    (saturation vertexDegrees : List (String × Nat)) : String :=
  (uncolored.foldl (selStep saturation vertexDegrees) ("", -1, -1)).1

/-- The `while (adjacentColors.has(color)) color++` loop.  At most
`|adjacentColors|` consecutive colors can be blocked, so the fuel
`length + 1` supplied by `getSmallestAvailableColor` is never exhausted. -/
def getSmallestAvailableColorGo (adjacentColors : List Nat) :
    Nat → Nat → Nat
  | 0, color => color
  | fuel + 1, color =>
    if color ∈ adjacentColors then
      getSmallestAvailableColorGo adjacentColors fuel (color + 1)
    else color

def getSmallestAvailableColor (adjacentColors : List Nat) : Nat :=
  getSmallestAvailableColorGo adjacentColors (adjacentColors.length + 1) 0

/-- One neighbor step of `updateAdjacentSaturation`. -/
def updAdjStep (color : Nat) (uncolored : List String)
    (st : List (String × Nat) × List (String × List Nat))
    (adjacentVertex : String) :
    List (String × Nat) × List (String × List Nat) :=
  if adjacentVertex ∈ uncolored then
    let colors := (mapGet st.2 adjacentVertex).getD []
    if ¬ color ∈ colors then
      let colors := colors ++ [color]
      (mapSet st.1 adjacentVertex colors.length,
       mapSet st.2 adjacentVertex colors)
    else st
  else st

/-- `updateAdjacentSaturation`: record the new color with every *uncolored*
neighbor and refresh its saturation to the set's size. -/
def updateAdjacentSaturation (graph : GraphAPI W) (coloredVertex : String)
    (color : Nat) (uncolored : List String)
    (saturation : List (String × Nat))
    (adjacentColors : List (String × List Nat)) :
    List (String × Nat) × List (String × List Nat) :=
  (getAdjacentVertices graph coloredVertex).foldl
    (updAdjStep color uncolored) (saturation, adjacentColors)

structure ColorState where
  coloring : List (String × Nat)
  saturation : List (String × Nat)
  adjacentColors : List (String × List Nat)
  uncolored : List String
  deriving DecidableEq, Repr

/-- The `while (uncolored.size > 0)` loop of `colorGraph`.  Each iteration
colors and removes the selected vertex (a member of `uncolored`), so the
`|vertices| + 1` units of fuel supplied by `colorGraph` are never
exhausted. -/
def colorLoop (graph : GraphAPI W) (vertexDegrees : List (String × Nat)) :
    Nat → ColorState → ColorState
  | 0, st => st
  | fuel + 1, st =>
    if st.uncolored.isEmpty then st
    else
      let selectedVertex :=
        selectNextVertex st.uncolored st.saturation vertexDegrees
      let color := getSmallestAvailableColor
        ((mapGet st.adjacentColors selectedVertex).getD [])
      let coloring := mapSet st.coloring selectedVertex color
      let uncolored := setDelete st.uncolored selectedVertex
      let r := updateAdjacentSaturation graph selectedVertex color uncolored
        st.saturation st.adjacentColors
      colorLoop graph vertexDegrees fuel ⟨coloring, r.1, r.2, uncolored⟩

/-- Insert into a JS sparse array at index `color`, padding with `[]`. -/
def addToClass (classes : List (List String)) (color : Nat) (v : String) :
    List (List String) :=
  let classes :=
    if classes.length ≤ color then
      classes ++ List.replicate (color + 1 - classes.length) []
    else classes
  classes.set color ((classes.getD color []) ++ [v])

/-- Stable lexicographic insertion (JS default `sort()` on strings). -/
def insertStr (v : String) : List String → List String
  | [] => [v]
  | x :: xs => if strLe x v then x :: insertStr v xs else v :: x :: xs

def sortStrings (l : List String) : List String :=
  l.foldl (fun acc v => insertStr v acc) []

/-- `groupVerticesByColor`: bucket by color index in coloring-insertion
order, then sort each class. -/
def groupVerticesByColor (coloring : List (String × Nat)) :
    List (List String) :=
  (coloring.foldl (fun classes p => addToClass classes p.2 p.1) []).map
    sortStrings

/-- `colorGraph` (DSatur). -/
def colorGraph (graph : GraphAPI W) : ColoringResult :=
  if graph.vertices.length = 0 then ⟨[], 0, []⟩
  else
    let vertexDegrees := GraphUtils.calculateVertexDegrees graph
    let saturation := graph.vertices.foldl (fun m v => mapSet m v 0) []
    let adjacentColors := graph.vertices.foldl (fun m v => mapSet m v []) []
    let uncolored := graph.vertices.foldl setAdd []
    let stF := colorLoop graph vertexDegrees (uncolored.length + 1)
      ⟨[], saturation, adjacentColors, uncolored⟩
    let colorClasses := groupVerticesByColor stF.coloring
    ⟨stF.coloring, colorClasses.length, colorClasses⟩

/-- `validateColoring`: no non-self-loop edge joins two vertices that both
carry the same color; vertices absent from the coloring are
unconstrained. -/
def validateColoring (graph : GraphAPI W) (coloring : List (String × Nat)) :
    Bool :=
  graph.edges.all (fun e =>
    if e.source = e.target then true
    else
      match mapGet coloring e.source, mapGet coloring e.target with
      | some fromColor, some toColor => ¬ fromColor = toColor
      | _, _ => true)

/-- Two distinct-endpoint vertices joined by some edge (in either stored
orientation). -/
def Adjacent (graph : GraphAPI W) (u v : String) : Prop :=
  ∃ e ∈ graph.edges, e.source ≠ e.target ∧
    ((e.source = u ∧ e.target = v) ∨ (e.source = v ∧ e.target = u))

/-- The invariant of the DSatur loop: the partial coloring is proper; every
still-uncolored vertex's `adjacentColors` set covers the colors of all its
colored neighbors; a vertex is uncolored exactly when it is in the
`uncolored` worklist; and the worklist holds only vertices of the graph. -/
structure ColorInv (graph : GraphAPI W) (st : ColorState) : Prop where
  valid : ∀ e ∈ graph.edges, e.source ≠ e.target →
    ∀ c1 c2, mapGet st.coloring e.source = some c1 →
      mapGet st.coloring e.target = some c2 → c1 ≠ c2
  seen : ∀ u v cu, Adjacent graph u v → mapGet st.coloring v = none →
    mapGet st.coloring u = some cu →
    cu ∈ (mapGet st.adjacentColors v).getD []
  nonecover : ∀ v ∈ graph.vertices,
    (mapGet st.coloring v = none ↔ v ∈ st.uncolored)
  sub : ∀ v ∈ st.uncolored, v ∈ graph.vertices

end GraphColoringService

/-! ## Graph-type transition (`GraphTransitionService.ts`)

The transition service drives the Graph Store's own mutators, so it works
over `Store` states; `createGraph` resets both allocators before the new
graph is built.  An uncaught graphology fault surfaces as `Except.error`. -/

namespace GraphTransitionService

structure GraphTransitionResult (W : Type) where
  newGraph : MultiGraph W
  vertexMapping : List (String × String)
  edgeMapping : List (String × List String)
  deriving DecidableEq, Repr

variable {W : Type} [LinearOrderedCommRing W]

/-- One step of the vertex-copy loop. -/
def copyVertexStep (acc : Store W × List (String × String)) (v : String) :
    Except String (Store W × List (String × String)) := do
  let r ← Store.addVertex acc.1 (some v)
  pure (r.2, mapSet acc.2 v r.1)

/-- The vertex-copy loop: `addVertex(newGraph, oldVertexId)` for each old
vertex, recording the (identity) mapping. -/
def copyVertices (vertices : List String) (S : Store W) :
    Except String (Store W × List (String × String)) :=
  vertices.foldlM copyVertexStep (S, [])

/-- One step of `transitionUndirectedToDirected`. -/
def undToDirStep (acc : Store W × List (String × List String))
    (e : MGEdge W) : Except String (Store W × List (String × List String)) := do
  let r1 ← Store.addEdge acc.1 e.source e.target e.weight
  let r2 ← Store.addEdge r1.2 e.target e.source e.weight
  pure (r2.2, mapSet acc.2 e.id [r1.1, r2.1])

/-- `transitionUndirectedToDirected`: each edge becomes two directed
edges, the old ID mapping to both new IDs. -/
def undirectedToDirected (currentEdges : List (MGEdge W))
    (S : Store W) (edgeMapping : List (String × List String)) :
    Except String (Store W × List (String × List String)) :=
  currentEdges.foldlM undToDirStep (S, edgeMapping)

/-- `${source}-${target}` sorted by JS `<`, as in the directed→undirected
merge. -/
def canonicalPairKey (source target : String) : String :=
  if strLt source target then source ++ "-" ++ target
  else target ++ "-" ++ source

/-- One step of `transitionDirectedToUndirected` (the reverse-edge lookup
scans the whole original edge list `currentEdges`). -/
def dirToUndStep (currentEdges : List (MGEdge W))
    (acc : Store W × List (String × List String) × List String)
    (e : MGEdge W) :
    Except String (Store W × List (String × List String) × List String) :=
  let canonicalPair := canonicalPairKey e.source e.target
  if canonicalPair ∈ acc.2.2 then
    match (Store.getEdges acc.1.graph).find? (fun x =>
        (x.source = e.source ∧ x.target = e.target) ∨
        (x.source = e.target ∧ x.target = e.source)) with
    | some existingEdge =>
      pure (acc.1, mapSet acc.2.1 e.id [existingEdge.id], acc.2.2)
    | none => pure acc
  else
    let processed := setAdd acc.2.2 canonicalPair
    do
      let r ← Store.addEdge acc.1 e.source e.target e.weight
      let mapping := mapSet acc.2.1 e.id [r.1]
      let mapping :=
        match currentEdges.find? (fun x =>
            x.source = e.target ∧ x.target = e.source ∧ x.id ≠ e.id) with
        | some reverseEdge => mapSet mapping reverseEdge.id [r.1]
        | none => mapping
      pure (r.2, mapping, processed)

/-- `transitionDirectedToUndirected`: merge edges by canonical endpoint
pair; the first edge of a pair creates the undirected edge, later ones
only map onto it. -/
def directedToUndirected (currentEdges : List (MGEdge W))
    (S : Store W) (edgeMapping : List (String × List String)) :
    Except String (Store W × List (String × List String) × List String) :=
  currentEdges.foldlM (dirToUndStep currentEdges) (S, edgeMapping, [])

/-- The two directed edge records the undirected→directed pass creates for
one undirected edge record. -/
def dirTwin (e : MGEdge W) : List (MGEdge W) :=
  [⟨e.source ++ "-" ++ e.target, e.source, e.target, e.weight⟩,
   ⟨e.target ++ "-" ++ e.source, e.target, e.source, e.weight⟩]

/-- The single undirected edge record the directed→undirected pass keeps
for a pair of twin directed edges. -/
def undMerge (e : MGEdge W) : MGEdge W :=
  ⟨EdgeNamingService.normalizeEdgeKey e.source e.target,
   e.source, e.target, e.weight⟩

/-- The directed edge keys `${source}-${target}` / `${target}-${source}`
the undirected→directed pass requests, in request order. -/
def orderedKeys (l : List (MGEdge W)) : List String :=
  l.flatMap (fun e =>
    [e.source ++ "-" ++ e.target, e.target ++ "-" ++ e.source])

/-- `transitionGraphType`. -/
def transitionGraphType (currentGraph : MultiGraph W)
    (targetType : GraphType) : Except String (GraphTransitionResult W) :=
  let currentType := currentGraph.type
  if currentType = targetType then
    .ok ⟨currentGraph,
      (Store.getVertices currentGraph).foldl (fun m v => mapSet m v v) [],
      (Store.getEdges currentGraph).foldl
        (fun m e => mapSet m e.id [e.id]) []⟩
  else do
    let rV ← copyVertices (Store.getVertices currentGraph)
      (Store.createGraph targetType)
    let currentEdges := Store.getEdges currentGraph
    if currentType = GraphType.undirected ∧
        targetType = GraphType.directed then do
      let rE ← undirectedToDirected currentEdges rV.1 []
      pure ⟨rE.1.graph, rV.2, rE.2⟩
    else if currentType = GraphType.directed ∧
        targetType = GraphType.undirected then do
      let rE ← directedToUndirected currentEdges rV.1 []
      pure ⟨rE.1.graph, rV.2, rE.2.1⟩
    else
      pure ⟨rV.1.graph, rV.2, []⟩

end GraphTransitionService

/-! ## Proof-support predicates for the shortest-path solvers -/

namespace PriorityQueue

variable {α W : Type} [LinearOrderedCommRing W]

/-- The binary min-heap layout invariant: every parent is `≤` both its
children. -/
def HeapProp (l : List (α × W)) : Prop :=
  ∀ i j x y, (j = 2 * i + 1 ∨ j = 2 * i + 2) →
    l.get? i = some x → l.get? j = some y → x.2 ≤ y.2

/-- The bubbling-up invariant: a heap with one hole at `i`, whose
grandparent already bounds the hole's children. -/
def UpInv (l : List (α × W)) (i : Nat) : Prop :=
  (∀ p j x y, (j = 2 * p + 1 ∨ j = 2 * p + 2) → j ≠ i →
    l.get? p = some x → l.get? j = some y → x.2 ≤ y.2) ∧
  (0 < i → ∀ j x y, (j = 2 * i + 1 ∨ j = 2 * i + 2) →
    l.get? ((i - 1) / 2) = some x → l.get? j = some y → x.2 ≤ y.2)

/-- The sinking-down invariant: a heap with one hole at `i`, whose
parent already bounds the hole's children. -/
def DownInv (l : List (α × W)) (i : Nat) : Prop :=
  (∀ p j x y, (j = 2 * p + 1 ∨ j = 2 * p + 2) → p ≠ i →
    l.get? p = some x → l.get? j = some y → x.2 ≤ y.2) ∧
  (∀ pi j x y, (i = 2 * pi + 1 ∨ i = 2 * pi + 2) →
    (j = 2 * i + 1 ∨ j = 2 * i + 2) →
    l.get? pi = some x → l.get? j = some y → x.2 ≤ y.2)

end PriorityQueue

namespace ShortestPathService

variable {W : Type} [LinearOrderedCommRing W]

/-- One directed hop as both solvers see it: each stored edge yields its
forward arc, plus the reverse arc on undirected graphs. -/
def Arc (G : GraphAPI W) (u v : String) (w : W) : Prop :=
  (∃ e ∈ G.edges, e.source = u ∧ e.target = v ∧ e.weight = w) ∨
  (¬ G.graphType = GraphType.directed ∧
    ∃ e ∈ G.edges, e.source = v ∧ e.target = u ∧ e.weight = w)

/-- A walk from `u` to `v` of total weight `c`, following arcs. -/
inductive WalkCost (G : GraphAPI W) (u : String) : String → W → Prop
  | refl : WalkCost G u u 0
  | step {v x : String} {c w : W} :
      WalkCost G u v c → Arc G v x w → WalkCost G u x (c + w)

/-- Total adjacency length over the not-yet-visited buckets; the
termination potential of Dijkstra's loop. -/
def unvisitedAdjLen (adj : List (String × List (String × W)))
    (visited : List String) : Nat :=
  ((adj.filter (fun p => ¬ p.1 ∈ visited)).map (fun p => p.2.length)).sum

/-- Bellman-Ford's working edge list (forward edges plus, on undirected
graphs, the synthesized reverse edges), at `useWeights = true`. -/
def bfEdgeList (G : GraphAPI W) : List (MGEdge W) :=
  G.edges ++
    (if G.graphType = GraphType.directed then []
     else G.edges.map (fun e =>
       ⟨e.id ++ "_reverse", e.target, e.source, e.weight⟩))

/-- The loop invariant of Bellman-Ford's distance map: every vertex has an
entry, the source entry is `≤ 0`, and every finite entry is the cost of an
actual walk from the source. -/
structure BFInv (G : GraphAPI W) (s : String)
    (ds : List (String × WithTop W)) : Prop where
  dom : ∀ v ∈ G.vertices, ∃ d, mapGet ds v = some d
  src : ∃ d, mapGet ds s = some d ∧ d ≤ 0
  sound : ∀ v (c : W), mapGet ds v = some ((c : W) : WithTop W) →
    WalkCost G s v c

/-- The core loop invariant of Dijkstra's state: domain/source/soundness
of the distance map, well-formedness and soundness of the frontier heap,
optimality of the visited set, and the presence of a current-distance
frontier entry for every finite unvisited vertex. -/
structure DijkCore (G : GraphAPI W) (s : String) (st : DijkState W) :
    Prop where
  dom : ∀ v ∈ G.vertices, ∃ d, mapGet st.distances v = some d
  src : ∃ d, mapGet st.distances s = some d ∧ d ≤ 0
  sound : ∀ v (c : W),
    mapGet st.distances v = some ((c : W) : WithTop W) → WalkCost G s v c
  pq_pair : ∀ p ∈ st.pq.heap, p.2 = p.1.distance
  pq_sound : ∀ p ∈ st.pq.heap, WalkCost G s p.1.node p.1.distance
  pq_dom : ∀ p ∈ st.pq.heap, ∃ d, mapGet st.distances p.1.node = some d ∧
    d ≤ ((p.1.distance : W) : WithTop W)
  heap : PriorityQueue.HeapProp st.pq.heap
  vis_opt : ∀ u ∈ st.visited, ∃ du : W,
    mapGet st.distances u = some ((du : W) : WithTop W) ∧
    ∀ c : W, WalkCost G s u c → du ≤ c
  unvis_entry : ∀ v, ¬ v ∈ st.visited → ∀ dv : W,
    mapGet st.distances v = some ((dv : W) : WithTop W) →
    ∃ p ∈ st.pq.heap, p.1.node = v ∧ p.1.distance = dv

/-- The arc `u → v` (weight `w`) is accounted for: its head is visited, or
its tail's entry is within `w` of its head's entry. -/
def VisArc (G : GraphAPI W) (st : DijkState W) (u v : String) (w : W) :
    Prop :=
  v ∈ st.visited ∨ ∃ du dv, mapGet st.distances u = some du ∧
    mapGet st.distances v = some dv ∧ dv ≤ du + ((w : W) : WithTop W)

/-- The full loop invariant: the core plus every arc out of a visited
vertex being accounted for. -/
structure DijkInv (G : GraphAPI W) (s : String) (st : DijkState W)
    extends DijkCore G s st : Prop where
  vis_arc : ∀ u ∈ st.visited, ∀ v w, Arc G u v w → VisArc G st u v w

end ShortestPathService

/-! ## Proof-support notions for the MST solvers -/

/-- A chain of elements consecutively related by `R`. -/
def RelChain (R : String → String → Prop) : List String → Prop
  | [] => True
  | [_] => True
  | a :: b :: rest => R a b ∧ RelChain R (b :: rest)

namespace MinimumSpanningTreeService

variable {W : Type} [LinearOrderedCommRing W]

/-- The numeric weight the JS code computes with (`weight` after
validation; `getD 0` mirrors the unchecked use). -/
def ekey (e : MGEdge (Option W)) : W := e.weight.getD 0

/-- `e` joins `u` and `v`, in either orientation. -/
def Joins (e : MGEdge (Option W)) (u v : String) : Prop :=
  (e.source = u ∧ e.target = v) ∨ (e.source = v ∧ e.target = u)

/-- Some member of `S` joins `u` and `v`. -/
def SStep (S : List (MGEdge (Option W))) (u v : String) : Prop :=
  ∃ e ∈ S, Joins e u v

/-- `u` and `v` are connected by edges of `S`, read undirected. -/
inductive EWalk (S : List (MGEdge (Option W))) (a : String) :
    String → Prop
  | refl : EWalk S a a
  | step {b c : String} : EWalk S a b → SStep S b c → EWalk S a c

/-- `S` connects every pair of vertices of `V`. -/
def Connects (V : List String) (S : List (MGEdge (Option W))) : Prop :=
  ∀ u ∈ V, ∀ v ∈ V, EWalk S u v

/-- Total weight of an edge list. -/
def sumW (S : List (MGEdge (Option W))) : W := (S.map ekey).sum

/-- `e` is an orientation of an edge of `G` (same weight). -/
def LinkOf (G : GraphAPI (Option W)) (e : MGEdge (Option W)) : Prop :=
  ∃ e0 ∈ G.edges, e0.weight = e.weight ∧ Joins e0 e.source e.target

/-- A spanning-tree list of `G`: orientations of `G`-edges connecting all
vertices, of length `|V| - 1`. -/
def IsSTree (G : GraphAPI (Option W)) (S : List (MGEdge (Option W))) :
    Prop :=
  (∀ e ∈ S, LinkOf G e) ∧ Connects G.vertices S ∧
    S.length = G.vertices.length - 1

/-- A minimum spanning-tree list. -/
def IsMinSTree (G : GraphAPI (Option W)) (M : List (MGEdge (Option W))) :
    Prop :=
  IsSTree G M ∧ ∀ T, IsSTree G T → sumW M ≤ sumW T

/-- The union-find invariant: the parent map encodes, through `ρ`, the
partition of `V` into the connected components of the accepted edges
`acc`.  Chains to the root are duplicate-free, so the fuel `parent.length
+ 1` always suffices. -/
structure UFState (V : List String) (acc : List (MGEdge (Option W)))
    (ρ : String → String) (uf : UnionFindService.UnionFind) : Prop where
  plen : uf.parent.length = V.length
  nodom : ∀ v, ¬ v ∈ V → mapGet uf.parent v = none
  chains : ∀ v ∈ V, ∃ l, l ≠ [] ∧ l.head? = some v ∧
    l.getLast? = some (ρ v) ∧ l.Nodup ∧ (∀ x ∈ l, x ∈ V) ∧
    RelChain (fun a b => mapGet uf.parent a = some b) l
  root_self : ∀ v ∈ V, mapGet uf.parent (ρ v) = some (ρ v)
  root_mem : ∀ v ∈ V, ρ v ∈ V
  root_idem : ∀ v ∈ V, ρ (ρ v) = ρ v
  parent_compat : ∀ v p, mapGet uf.parent v = some p → ρ v = ρ p ∧ p ∈ V
  compl : ∀ u ∈ V, ∀ v ∈ V, (EWalk acc u v ↔ ρ u = ρ v)

/-- Total adjacency length over the not-yet-visited buckets; the
termination potential of Prim's loop. -/
def primUnvisitedAdjLen
    (adj : List (String × List (String × Option W × String)))
    (visited : List String) : Nat :=
  ((adj.filter (fun p => ¬ p.1 ∈ visited)).map (fun p => p.2.length)).sum

end MinimumSpanningTreeService

/-! ## Concrete inputs used by the theorems -/

/-- The store after `createGraph('undirected'); addVertex('A');
addVertex('B'); addEdge('A','B',1); removeVertex('A')`. -/
def storeAfterCascade : Option (Store ℤ) :=
  (Store.addVertex (Store.createGraph .undirected) (some "A")).toOption.bind
    (fun r1 => (Store.addVertex r1.2 (some "B")).toOption.bind
      (fun r2 => (Store.addEdge r2.2 "A" "B" 1).toOption.map
        (fun r3 => Store.removeVertex r3.2 "A")))

/-- The same prefix of operations, but removing the edge through
`removeEdge` instead of cascading through `removeVertex`. -/
def storeAfterRemoveEdge : Option (Store ℤ) :=
  (Store.addVertex (Store.createGraph .undirected) (some "A")).toOption.bind
    (fun r1 => (Store.addVertex r1.2 (some "B")).toOption.bind
      (fun r2 => (Store.addEdge r2.2 "A" "B" 1).toOption.map
        (fun r3 => Store.removeEdge r3.2 r3.1)))

/-- The store after `createGraph('undirected'); addVertex('A');
addVertex('B'); addEdge('A','B',0)`. -/
def storeWithZeroWeightEdge : Option (Store ℤ) :=
  (Store.addVertex (Store.createGraph .undirected) (some "A")).toOption.bind
    (fun r1 => (Store.addVertex r1.2 (some "B")).toOption.bind
      (fun r2 => (Store.addEdge r2.2 "A" "B" 0).toOption.map Prod.snd))

/-- The store after additionally re-weighting that edge to 5 and then back
to 0 through `updateEdgeWeight`. -/
def storeWithZeroedWeightEdge : Option (Store ℤ) :=
  storeWithZeroWeightEdge.bind (fun S =>
    (Store.updateEdgeWeight S "A-B" 5).toOption.bind (fun S5 =>
      (Store.updateEdgeWeight S5 "A-B" 0).toOption))

/-- A tie graph: `A-B` (1), `B-C` (1), `A-C` (2); both `A→C` routes cost 2.
Dijkstra relaxes `A-C` directly from `A` and keeps predecessor `A`;
Bellman-Ford's first round relaxes `A-B` then `B-C` before `A-C` cannot
improve, keeping predecessor `B`. -/
def spTieGraph : GraphAPI ℤ :=
  ⟨["A", "B", "C"],
   [⟨"A-B", "A", "B", 1⟩, ⟨"B-C", "B", "C", 1⟩, ⟨"A-C", "A", "C", 2⟩],
   GraphType.undirected⟩

/-- Two vertices, one negative edge; the probe source `C` is absent. -/
def spNegAbsentGraph : GraphAPI ℤ :=
  ⟨["A", "B"], [⟨"A-B", "A", "B", -1⟩], GraphType.undirected⟩

def k16Names : List String :=
  ["A", "B", "C", "D", "E", "F", "G", "H",
   "I", "J", "K", "L", "M", "N", "O", "P"]

/-- The complete graph on 16 vertices: every degree is 15 ≥ 16/2, so it
satisfies Dirac's condition. -/
def k16 : GraphAPI ℤ :=
  ⟨k16Names,
   k16Names.flatMap (fun u => k16Names.filterMap (fun v =>
     if strLt u v then some ⟨u ++ "-" ++ v, u, v, (1 : ℤ)⟩ else none)),
   GraphType.undirected⟩

/-- The path graph on the same 16 vertices: connected, more than 15
vertices, minimum degree 1, and Ore's condition fails. -/
def p16 : GraphAPI ℤ :=
  ⟨k16Names,
   (k16Names.zip k16Names.tail).map (fun p =>
     ⟨p.1 ++ "-" ++ p.2, p.1, p.2, (1 : ℤ)⟩),
   GraphType.undirected⟩

/-- The spec's scenario (b): the disconnected undirected graph
`{A-B, C-D}` on four vertices, all weights defined. -/
def mstDisconnectedGraph : GraphAPI (Option ℤ) :=
  ⟨["A", "B", "C", "D"],
   [⟨"A-B", "A", "B", some 1⟩, ⟨"C-D", "C", "D", some 1⟩],
   GraphType.undirected⟩

/-- A connected weighted triangle (`A-B` 1, `B-C` 1, `A-C` 2): the C6
witness input, with a weight tie between its two spanning trees of
weight 3. -/
def mstWitnessGraph : GraphAPI (Option ℤ) :=
  ⟨["A", "B", "C"],
   [⟨"A-B", "A", "B", some 1⟩, ⟨"B-C", "B", "C", some 1⟩,
    ⟨"A-C", "A", "C", some 2⟩],
   GraphType.undirected⟩

/-- The round trip undirected → directed → undirected, observed through
`getEdges` (`none` = one of the transitions threw). -/
def roundTripEdges (g : MultiGraph ℤ) :
    Option (List (String × String × ℤ)) :=
  (GraphTransitionService.transitionGraphType g GraphType.directed).toOption.bind
    (fun r1 =>
      (GraphTransitionService.transitionGraphType r1.newGraph
        GraphType.undirected).toOption.map
        (fun r2 => (Store.getEdges r2.newGraph).map
          (fun e => (e.source, e.target, e.weight))))

/-- A simple undirected graph (distinct endpoint pairs, no self-loops, no
parallel edges) whose dash-carrying vertex names make the two distinct
pairs `(a-b, c)` and `(a, b-c)` share the canonical key string `a-b-c`. -/
def dashGraph : MultiGraph ℤ :=
  ⟨GraphType.undirected, ["a-b", "c", "a", "b-c"],
   [⟨"a-b-c", "a-b", "c", 1⟩, ⟨"a-b-c#2", "a", "b-c", 5⟩]⟩

/-- A simple undirected path `A-B` (2), `B-C` (3) whose vertex names are
free of `'-'`. -/
def rtWitnessGraph : MultiGraph ℤ :=
  ⟨GraphType.undirected, ["A", "B", "C"],
   [⟨"A-B", "A", "B", 2⟩, ⟨"B-C", "B", "C", 3⟩]⟩

/-- The 5-cycle (the spec's odd-cycle coloring scenario). -/
def cycle5 : GraphAPI ℤ :=
  ⟨["A", "B", "C", "D", "E"],
   [⟨"e0", "A", "B", 1⟩, ⟨"e1", "B", "C", 1⟩, ⟨"e2", "C", "D", 1⟩,
    ⟨"e3", "D", "E", 1⟩, ⟨"e4", "E", "A", 1⟩],
   GraphType.undirected⟩

/-! ## Library lemmas about the JS Map/Set primitives -/

theorem mapGet_mapSet_self {α : Type} (m : List (String × α)) (k : String)
    (v : α) : mapGet (mapSet m k v) k = some v := by
  induction m with
  | nil => simp [mapSet, mapGet]
  | cons h t ih =>
    obtain ⟨a, b⟩ := h
    by_cases hk : a = k
    · simp [mapSet, hk, mapGet]
    · simp [mapSet, hk, mapGet, ih]

theorem mapGet_mapSet_ne {α : Type} (m : List (String × α)) (k k' : String)
    (v : α) (h : k' ≠ k) : mapGet (mapSet m k v) k' = mapGet m k' := by
  have hne : ¬ k = k' := fun hh => h hh.symm
  induction m with
  | nil => simp [mapSet, mapGet, hne]
  | cons hd t ih =>
    obtain ⟨a, b⟩ := hd
    by_cases hk : a = k
    · subst hk
      simp [mapSet, mapGet, hne]
    · simp [mapSet, hk, mapGet, ih]

theorem mem_setAdd (s : List String) (x y : String) :
    y ∈ setAdd s x ↔ y ∈ s ∨ y = x := by
  unfold setAdd
  by_cases h : x ∈ s
  · rw [if_pos h]
    constructor
    · exact Or.inl
    · rintro (hy | rfl)
      · exact hy
      · exact h
  · rw [if_neg h]
    simp

theorem mem_setDelete (s : List String) (x y : String) :
    y ∈ setDelete s x ↔ y ∈ s ∧ y ≠ x := by
  simp [setDelete, List.mem_filter]

theorem mem_foldl_setAdd :
    ∀ (l init : List String) (v : String),
      v ∈ l.foldl setAdd init ↔ v ∈ init ∨ v ∈ l := by
  intro l
  induction l with
  | nil => simp
  | cons h t ih =>
    intro init v
    rw [List.foldl_cons, ih, mem_setAdd]
    constructor
    · rintro ((hv | hv) | hv)
      · exact Or.inl hv
      · exact Or.inr (List.mem_cons.2 (Or.inl hv))
      · exact Or.inr (List.mem_cons.2 (Or.inr hv))
    · rintro (hv | hv)
      · exact Or.inl (Or.inl hv)
      · rcases List.mem_cons.1 hv with hv | hv
        · exact Or.inl (Or.inr hv)
        · exact Or.inr hv

/-! ## Lemmas about the DSatur helper functions -/

theorem selStep_eq_or (sat deg : List (String × Nat))
    (b : String × Int × Int) (v : String) :
    (GraphColoringService.selStep sat deg b v).1 = v ∨
    GraphColoringService.selStep sat deg b v = b := by
  unfold GraphColoringService.selStep
  dsimp only
  split
  · left; rfl
  · right; rfl

theorem selFold_mem (sat deg : List (String × Nat)) :
    ∀ (l : List String) (b : String × Int × Int),
      (l.foldl (GraphColoringService.selStep sat deg) b).1 = b.1 ∨
      (l.foldl (GraphColoringService.selStep sat deg) b).1 ∈ l := by
  intro l
  induction l with
  | nil => intro b; left; rfl
  | cons h t ih =>
    intro b
    rw [List.foldl_cons]
    rcases ih (GraphColoringService.selStep sat deg b h) with h1 | h1
    · rcases selStep_eq_or sat deg b h with h2 | h2
      · right; rw [h1, h2]; exact List.mem_cons_self _ _
      · left; rw [h1, h2]
    · right; exact List.mem_cons_of_mem _ h1

theorem selectNextVertex_mem (uncolored : List String)
    (sat deg : List (String × Nat)) (h : uncolored ≠ []) :
    GraphColoringService.selectNextVertex uncolored sat deg ∈ uncolored := by
  match uncolored, h with
  | hd :: t, _ =>
    unfold GraphColoringService.selectNextVertex
    rw [List.foldl_cons]
    have hsel : GraphColoringService.selStep sat deg ("", -1, -1) hd
        = (hd, ((mapGet sat hd).getD 0 : Int), ((mapGet deg hd).getD 0 : Int)) := by
      unfold GraphColoringService.selStep
      rw [if_pos]
      exact Or.inl (lt_of_lt_of_le (by norm_num) (Int.natCast_nonneg _))
    rw [hsel]
    rcases selFold_mem sat deg t (hd, _, _) with h1 | h1
    · rw [h1]; exact List.mem_cons_self _ _
    · exact List.mem_cons_of_mem _ h1

theorem filter_length_mono (p q : Nat → Bool)
    (h : ∀ x, p x = true → q x = true) :
    ∀ l : List Nat, (l.filter p).length ≤ (l.filter q).length := by
  intro l
  induction l with
  | nil => simp
  | cons a t ih =>
    by_cases hp : p a = true
    · rw [List.filter_cons_of_pos hp, List.filter_cons_of_pos (h a hp)]
      simpa using ih
    · rw [List.filter_cons_of_neg (by simpa using hp)]
      by_cases hq : q a = true
      · rw [List.filter_cons_of_pos hq]
        exact le_trans ih (by simp)
      · rw [List.filter_cons_of_neg (by simpa using hq)]
        exact ih

theorem filter_ge_strict (s : List Nat) (c : Nat) (hc : c ∈ s) :
    (s.filter (fun x => decide (c + 1 ≤ x))).length <
    (s.filter (fun x => decide (c ≤ x))).length := by
  induction s with
  | nil => cases hc
  | cons a t ih =>
    rcases List.mem_cons.1 hc with rfl | hc
    · rw [List.filter_cons_of_neg (by simp), List.filter_cons_of_pos (by simp)]
      have := filter_length_mono (fun x => decide (c + 1 ≤ x))
        (fun x => decide (c ≤ x)) (by intro x hx; simp at hx ⊢; omega) t
      simpa using Nat.lt_succ_of_le this
    · by_cases ha : c + 1 ≤ a
      · rw [List.filter_cons_of_pos (by simpa using ha),
          List.filter_cons_of_pos (by simp; omega)]
        simpa using ih hc
      · rw [List.filter_cons_of_neg (by simpa using ha)]
        by_cases ha2 : c ≤ a
        · rw [List.filter_cons_of_pos (by simpa using ha2)]
          exact lt_trans (ih hc) (by simp)
        · rw [List.filter_cons_of_neg (by simpa using ha2)]
          exact ih hc

theorem smallestGo_not_mem (s : List Nat) :
    ∀ (fuel c : Nat),
      (s.filter (fun x => decide (c ≤ x))).length < fuel →
      GraphColoringService.getSmallestAvailableColorGo s fuel c ∉ s := by
  intro fuel
  induction fuel with
  | zero => intro c h; omega
  | succ fuel ih =>
    intro c h
    rw [GraphColoringService.getSmallestAvailableColorGo]
    by_cases hc : c ∈ s
    · rw [if_pos hc]
      exact ih (c + 1) (by have := filter_ge_strict s c hc; omega)
    · rw [if_neg hc]
      exact hc

theorem getSmallestAvailableColor_not_mem (s : List Nat) :
    GraphColoringService.getSmallestAvailableColor s ∉ s := by
  apply smallestGo_not_mem
  have := List.length_filter_le (fun x => decide (0 ≤ x)) s
  omega

theorem updAdj_mono (c : Nat) (unc : List String) :
    ∀ (l : List String)
      (st : List (String × Nat) × List (String × List Nat))
      (v : String) (x : Nat),
      x ∈ (mapGet st.2 v).getD [] →
      x ∈ (mapGet (l.foldl (GraphColoringService.updAdjStep c unc) st).2
        v).getD [] := by
  intro l
  induction l with
  | nil => intro st v x hx; exact hx
  | cons a t ih =>
    intro st v x hx
    rw [List.foldl_cons]
    apply ih
    unfold GraphColoringService.updAdjStep
    by_cases ha : a ∈ unc
    · rw [if_pos ha]
      by_cases hcc : ¬ c ∈ (mapGet st.2 a).getD []
      · rw [if_pos hcc]
        by_cases hv : v = a
        · subst hv
          simp only [mapGet_mapSet_self, Option.getD_some]
          exact List.mem_append_left _ hx
        · simpa only [mapGet_mapSet_ne _ _ _ _ hv] using hx
      · rw [if_neg hcc]; exact hx
    · rw [if_neg ha]; exact hx

theorem updAdj_adds (c : Nat) (unc : List String) :
    ∀ (l : List String)
      (st : List (String × Nat) × List (String × List Nat)) (v : String),
      v ∈ unc → v ∈ l →
      c ∈ (mapGet (l.foldl (GraphColoringService.updAdjStep c unc) st).2
        v).getD [] := by
  intro l
  induction l with
  | nil => intro st v _ hv; cases hv
  | cons a t ih =>
    intro st v hvu hvl
    rw [List.foldl_cons]
    rcases List.mem_cons.1 hvl with rfl | hvt
    · apply updAdj_mono
      unfold GraphColoringService.updAdjStep
      rw [if_pos hvu]
      by_cases hcc : ¬ c ∈ (mapGet st.2 v).getD []
      · rw [if_pos hcc]
        simp only [mapGet_mapSet_self, Option.getD_some]
        exact List.mem_append_right _ (List.mem_singleton_self _)
      · rw [if_neg hcc]
        exact not_not.1 hcc
    · exact ih _ v hvu hvt

theorem adjFold_mono {W : Type} (vid : String) :
    ∀ (l : List (MGEdge W)) (acc : List String) (v : String),
      v ∈ acc → v ∈ l.foldl (GraphColoringService.adjStep vid) acc := by
  intro l
  induction l with
  | nil => intro acc v hv; exact hv
  | cons a t ih =>
    intro acc v hv
    rw [List.foldl_cons]
    apply ih
    unfold GraphColoringService.adjStep
    split
    · exact hv
    · split
      · exact List.mem_append_left _ hv
      · split
        · exact List.mem_append_left _ hv
        · exact hv

theorem mem_getAdjacentVertices {W : Type} (G : GraphAPI W) (s v : String)
    (h : GraphColoringService.Adjacent G s v) :
    v ∈ GraphColoringService.getAdjacentVertices G s := by
  obtain ⟨e, he, hne, hcase⟩ := h
  unfold GraphColoringService.getAdjacentVertices
  have aux : ∀ (l : List (MGEdge W)) (acc : List String), e ∈ l →
      v ∈ l.foldl (GraphColoringService.adjStep s) acc := by
    intro l
    induction l with
    | nil => intro acc hl; cases hl
    | cons a t ih =>
      intro acc hl
      rw [List.foldl_cons]
      rcases List.mem_cons.1 hl with heq | hl
      · subst heq
        apply adjFold_mono
        unfold GraphColoringService.adjStep
        rcases hcase with ⟨h1, h2⟩ | ⟨h1, h2⟩
        · rw [if_neg hne, if_pos h1, h2]
          exact List.mem_append_right _ (List.mem_singleton_self _)
        · by_cases hvs : e.source = s
          · have htv : e.target = v := by rw [h2, ← hvs, h1]
            rw [if_neg hne, if_pos hvs, htv]
            exact List.mem_append_right _ (List.mem_singleton_self _)
          · rw [if_neg hne, if_neg hvs, if_pos h2, h1]
            exact List.mem_append_right _ (List.mem_singleton_self _)
      · exact ih _ hl
  exact aux G.edges [] he

theorem colorLoop_inv {W : Type} (G : GraphAPI W)
    (hwf : ∀ e ∈ G.edges, e.source ∈ G.vertices ∧ e.target ∈ G.vertices)
    (deg : List (String × Nat)) :
    ∀ (fuel : Nat) (st : GraphColoringService.ColorState),
      GraphColoringService.ColorInv G st →
      GraphColoringService.ColorInv G
        (GraphColoringService.colorLoop G deg fuel st) := by
  intro fuel
  induction fuel with
  | zero => intro st h; exact h
  | succ fuel ih =>
    intro st hinv
    rw [GraphColoringService.colorLoop]
    by_cases hemp : st.uncolored.isEmpty
    · rw [if_pos hemp]; exact hinv
    · rw [if_neg hemp]
      apply ih
      have hne : st.uncolored ≠ [] := by
        simpa [List.isEmpty_iff] using hemp
      set s := GraphColoringService.selectNextVertex st.uncolored
        st.saturation deg with hsdef
      have hsmem : s ∈ st.uncolored := selectNextVertex_mem _ _ _ hne
      have hsv : s ∈ G.vertices := hinv.sub s hsmem
      have hsnone : mapGet st.coloring s = none :=
        (hinv.nonecover s hsv).2 hsmem
      set c := GraphColoringService.getSmallestAvailableColor
        ((mapGet st.adjacentColors s).getD []) with hcdef
      have hcnot : c ∉ (mapGet st.adjacentColors s).getD [] :=
        getSmallestAvailableColor_not_mem _
      set unc := setDelete st.uncolored s with huncdef
      constructor
      · -- the extended coloring stays proper
        intro e he hnl c1 c2 h1 h2
        by_cases hse : e.source = s
        · rw [hse, mapGet_mapSet_self] at h1
          have ht : e.target ≠ s := fun hh => hnl (hse.trans hh.symm)
          rw [mapGet_mapSet_ne _ _ _ _ ht] at h2
          have hadj : GraphColoringService.Adjacent G e.target s :=
            ⟨e, he, hnl, Or.inr ⟨hse, rfl⟩⟩
          have := hinv.seen e.target s c2 hadj hsnone h2
          rintro rfl
          cases h1
          exact hcnot this
        · rw [mapGet_mapSet_ne _ _ _ _ hse] at h1
          by_cases hte : e.target = s
          · rw [hte, mapGet_mapSet_self] at h2
            have hadj : GraphColoringService.Adjacent G e.source s :=
              ⟨e, he, hnl, Or.inl ⟨rfl, hte⟩⟩
            have := hinv.seen e.source s c1 hadj hsnone h1
            rintro rfl
            cases h2
            exact hcnot this
          · rw [mapGet_mapSet_ne _ _ _ _ hte] at h2
            exact hinv.valid e he hnl c1 c2 h1 h2
      · -- uncolored vertices keep seeing all colored neighbors' colors
        intro u v cu hadj hvn hu
        have hvs : v ≠ s := by
          rintro rfl
          rw [mapGet_mapSet_self] at hvn
          cases hvn
        rw [mapGet_mapSet_ne _ _ _ _ hvs] at hvn
        have hvvert : v ∈ G.vertices := by
          obtain ⟨e, he, -, hcase⟩ := hadj
          rcases hcase with ⟨-, h2⟩ | ⟨h1, -⟩
          · exact h2 ▸ (hwf e he).2
          · exact h1 ▸ (hwf e he).1
        have hvun : v ∈ unc := by
          rw [huncdef, mem_setDelete]
          exact ⟨(hinv.nonecover v hvvert).1 hvn, hvs⟩
        by_cases hus : u = s
        · rw [hus, mapGet_mapSet_self] at hu
          cases hu
          apply updAdj_adds
          · exact hvun
          · exact mem_getAdjacentVertices G s v (hus ▸ hadj)
        · rw [mapGet_mapSet_ne _ _ _ _ hus] at hu
          exact updAdj_mono _ _ _ _ v cu (hinv.seen u v cu hadj hvn hu)
      · -- a vertex is uncolored exactly when it is on the worklist
        intro v hv
        by_cases hvs : v = s
        · subst hvs
          rw [mapGet_mapSet_self]
          simp [huncdef, mem_setDelete]
        · rw [mapGet_mapSet_ne _ _ _ _ hvs, huncdef, mem_setDelete]
          rw [hinv.nonecover v hv]
          exact ⟨fun hh => ⟨hh, hvs⟩, fun hh => hh.1⟩
      · -- the worklist shrinks within the vertex set
        intro v hv
        rw [huncdef, mem_setDelete] at hv
        exact hinv.sub v hv.1

/-! ## C8: `colorGraph`'s coloring always passes `validateColoring` -/

/-- C8: for every graph whose edge endpoints are vertices of the graph (the
§3 store invariant; on other inputs the JS `colorGraph` crashes on an
`undefined` lookup), `validateColoring` accepts the coloring produced by
`colorGraph`. -/
theorem colorGraph_coloring_validates {W : Type} (G : GraphAPI W)
    (hwf : ∀ e ∈ G.edges, e.source ∈ G.vertices ∧ e.target ∈ G.vertices) :
    GraphColoringService.validateColoring G
      (GraphColoringService.colorGraph G).coloring = true := by
  have hval : ∀ coloring : List (String × Nat),
      (∀ e ∈ G.edges, e.source ≠ e.target →
        ∀ c1 c2, mapGet coloring e.source = some c1 →
          mapGet coloring e.target = some c2 → c1 ≠ c2) →
      GraphColoringService.validateColoring G coloring = true := by
    intro coloring hv
    unfold GraphColoringService.validateColoring
    rw [List.all_eq_true]
    intro e he
    by_cases hl : e.source = e.target
    · simp [hl]
    · rw [if_neg hl]
      cases h1 : mapGet coloring e.source with
      | none => simp
      | some c1 =>
        cases h2 : mapGet coloring e.target with
        | none => simp
        | some c2 => simpa using hv e he hl c1 c2 h1 h2
  rw [GraphColoringService.colorGraph]
  by_cases hz : G.vertices.length = 0
  · rw [if_pos hz]
    apply hval
    intro e he hnl c1 c2 h1 h2
    cases h1
  · rw [if_neg hz]
    have hinv0 : GraphColoringService.ColorInv G
        ⟨[], G.vertices.foldl (fun m v => mapSet m v 0) [],
         G.vertices.foldl (fun m v => mapSet m v []) [],
         G.vertices.foldl setAdd []⟩ := by
      constructor
      · intro e he hnl c1 c2 h1 h2
        cases h1
      · intro u v cu hadj hvn hu
        cases hu
      · intro v hv
        constructor
        · intro _
          exact (mem_foldl_setAdd G.vertices [] v).2 (Or.inr hv)
        · intro _
          rfl
      · intro v hv
        rcases (mem_foldl_setAdd G.vertices [] v).1 hv with h | h
        · cases h
        · exact h
    have hinvF := colorLoop_inv G hwf
      (GraphUtils.calculateVertexDegrees G)
      ((G.vertices.foldl setAdd []).length + 1) _ hinv0
    exact hval _ hinvF.valid

/-- C8 witness: the coloring of the 5-cycle validates. -/
theorem colorGraph_coloring_validates_witness :
    GraphColoringService.validateColoring cycle5
      (GraphColoringService.colorGraph cycle5).coloring = true :=
  colorGraph_coloring_validates cycle5 (by decide)

/-! ## Lemmas about the JS string order and the `-`-joined edge keys -/

theorem charListLe_total (a : List Char) :
    ∀ b : List Char, charListLe a b = true ∨ charListLe b a = true := by
  induction a with
  | nil => intro b; left; simp [charListLe]
  | cons x xs ih =>
    intro b
    cases b with
    | nil => right; simp [charListLe]
    | cons y ys =>
      by_cases hxy : x.toNat < y.toNat
      · left; simp [charListLe, hxy]
      · by_cases hyx : y.toNat < x.toNat
        · right; simp [charListLe, hyx]
        · rcases ih ys with h | h
          · left; simp [charListLe, hxy, hyx, h]
          · right; simp [charListLe, hxy, hyx, h]

theorem charListLe_antisymm (a : List Char) :
    ∀ b : List Char, charListLe a b = true → charListLe b a = true →
      a = b := by
  induction a with
  | nil =>
    intro b _ hba
    cases b with
    | nil => rfl
    | cons y ys => simp [charListLe] at hba
  | cons x xs ih =>
    intro b hab hba
    cases b with
    | nil => simp [charListLe] at hab
    | cons y ys =>
      by_cases hxy : x.toNat < y.toNat
      · have hyx : ¬ y.toNat < x.toNat := by omega
        simp [charListLe, hxy, hyx] at hba
      · by_cases hyx : y.toNat < x.toNat
        · simp [charListLe, hxy, hyx] at hab
        · have hn : x.toNat = y.toNat := by omega
          have hx : x = y := Char.ext (UInt32.ext hn)
          simp only [charListLe, if_neg hxy, if_neg hyx] at hab hba
          rw [hx, ih ys hab hba]

theorem string_data_inj (s t : String) (h : s.data = t.data) : s = t := by
  cases s; cases t; simp only at h; rw [h]

theorem strLe_antisymm (s t : String) (hst : strLe s t = true)
    (hts : strLe t s = true) : s = t :=
  string_data_inj s t (charListLe_antisymm s.data t.data hst hts)

theorem normalizeEdgeKey_comm (s t : String) :
    EdgeNamingService.normalizeEdgeKey s t
      = EdgeNamingService.normalizeEdgeKey t s := by
  unfold EdgeNamingService.normalizeEdgeKey
  by_cases hst : strLe s t = true
  · by_cases hts : strLe t s = true
    · rw [strLe_antisymm s t hst hts]
    · rw [if_pos hst, if_neg hts]
  · have hts : strLe t s = true := (charListLe_total t.data s.data).resolve_right hst
    rw [if_neg hst, if_pos hts]

theorem canonicalPairKey_eq_normalize (s t : String) (h : s ≠ t) :
    GraphTransitionService.canonicalPairKey s t
      = EdgeNamingService.normalizeEdgeKey s t := by
  unfold GraphTransitionService.canonicalPairKey EdgeNamingService.normalizeEdgeKey
  by_cases hst : strLe s t = true
  · have hts : ¬ strLe t s = true := fun hts => h (strLe_antisymm s t hst hts)
    rw [if_pos (by simpa [strLt, strLe] using hts), if_pos hst]
  · have hts : strLe t s = true := (charListLe_total t.data s.data).resolve_right hst
    rw [if_neg (by simpa [strLt, strLe] using hts), if_neg hst]

theorem append_dash_inj (a : List Char) :
    ∀ (c b d : List Char), ('-' : Char) ∉ a → ('-' : Char) ∉ c →
      a ++ '-' :: b = c ++ '-' :: d → a = c ∧ b = d := by
  induction a with
  | nil =>
    intro c b d _ hc h
    cases c with
    | nil => simpa using h
    | cons y cs =>
      simp only [List.nil_append, List.cons_append, List.cons.injEq] at h
      obtain ⟨h1, _⟩ := h
      exact absurd (h1 ▸ List.mem_cons_self y cs) hc
  | cons x xs ih =>
    intro c b d ha hc h
    cases c with
    | nil =>
      simp only [List.cons_append, List.nil_append, List.cons.injEq] at h
      obtain ⟨h1, _⟩ := h
      exact absurd (h1 ▸ List.mem_cons_self x xs) ha
    | cons y cs =>
      simp only [List.cons_append, List.cons.injEq] at h
      obtain ⟨rfl, h2⟩ := h
      have hr := ih cs b d (fun hm => ha (List.mem_cons_of_mem _ hm))
        (fun hm => hc (List.mem_cons_of_mem _ hm)) h2
      exact ⟨by rw [hr.1], hr.2⟩

theorem dash_key_inj (s t u v : String)
    (hs : ('-' : Char) ∉ s.data) (hu : ('-' : Char) ∉ u.data)
    (h : s ++ "-" ++ t = u ++ "-" ++ v) : s = u ∧ t = v := by
  have hd : s.data ++ '-' :: t.data = u.data ++ '-' :: v.data := by
    have := congrArg String.data h
    simpa using this
  have hr := append_dash_inj s.data u.data t.data v.data hs hu hd
  exact ⟨string_data_inj _ _ hr.1, string_data_inj _ _ hr.2⟩

theorem normalize_eq_of_orderedKey_eq (s t u v : String)
    (hs : ('-' : Char) ∉ s.data) (_ht : ('-' : Char) ∉ t.data)
    (hu : ('-' : Char) ∉ u.data) (hv : ('-' : Char) ∉ v.data)
    (h : s ++ "-" ++ t = u ++ "-" ++ v ∨ s ++ "-" ++ t = v ++ "-" ++ u) :
    EdgeNamingService.normalizeEdgeKey s t
      = EdgeNamingService.normalizeEdgeKey u v := by
  rcases h with h | h
  · obtain ⟨h1, h2⟩ := dash_key_inj s t u v hs hu h
    rw [h1, h2]
  · obtain ⟨h1, h2⟩ := dash_key_inj s t v u hs hv h
    rw [h1, h2, normalizeEdgeKey_comm]

theorem orderedKeys_nodup {W : Type} (l : List (MGEdge W))
    (hdash : ∀ e ∈ l, ('-' : Char) ∉ e.source.data ∧ ('-' : Char) ∉ e.target.data)
    (hloop : ∀ e ∈ l, e.source ≠ e.target)
    (hsimple : (l.map (fun e =>
      EdgeNamingService.normalizeEdgeKey e.source e.target)).Nodup) :
    (GraphTransitionService.orderedKeys l).Nodup := by
  induction l with
  | nil => simp [GraphTransitionService.orderedKeys]
  | cons e rest ih =>
    have hde := hdash e (List.mem_cons_self e rest)
    have hle := hloop e (List.mem_cons_self e rest)
    rw [List.map_cons, List.nodup_cons] at hsimple
    rw [show GraphTransitionService.orderedKeys (e :: rest)
        = [e.source ++ "-" ++ e.target, e.target ++ "-" ++ e.source]
          ++ GraphTransitionService.orderedKeys rest from rfl,
      List.nodup_append]
    refine ⟨?_, ih (fun e' he' => hdash e' (List.mem_cons_of_mem _ he'))
      (fun e' he' => hloop e' (List.mem_cons_of_mem _ he')) hsimple.2, ?_⟩
    · refine List.nodup_cons.mpr ⟨?_, List.nodup_singleton _⟩
      intro hk
      rw [List.mem_singleton] at hk
      exact hle (dash_key_inj _ _ _ _ hde.1 hde.2 hk).1
    · intro k hk1 hk2
      simp only [List.mem_cons, List.mem_singleton, List.not_mem_nil,
        or_false] at hk1
      simp only [GraphTransitionService.orderedKeys, List.mem_flatMap,
        List.mem_cons, List.not_mem_nil, or_false] at hk2
      obtain ⟨e', he', hke'⟩ := hk2
      have hde' := hdash e' (List.mem_cons_of_mem _ he')
      apply hsimple.1
      have heq : EdgeNamingService.normalizeEdgeKey e.source e.target
          = EdgeNamingService.normalizeEdgeKey e'.source e'.target := by
        rcases hk1 with rfl | rfl
        · exact normalize_eq_of_orderedKey_eq _ _ _ _ hde.1 hde.2
            hde'.1 hde'.2 hke'
        · rw [normalizeEdgeKey_comm]
          exact normalize_eq_of_orderedKey_eq _ _ _ _ hde.2 hde.1
            hde'.1 hde'.2 hke'
      rw [heq]
      exact List.mem_map_of_mem _ he'

/-! ## Freshness lemmas about the store mutators -/

theorem generateEdgeId_fresh_true (st : EdgeNamingService.State)
    (s t : String)
    (h : mapGet st.edgeCounters (s ++ "-" ++ t) = none) :
    EdgeNamingService.generateEdgeId st s t true
      = (s ++ "-" ++ t, ⟨mapSet st.edgeCounters (s ++ "-" ++ t) 1⟩) := by
  unfold EdgeNamingService.generateEdgeId
  simp [h]

theorem generateEdgeId_fresh_false (st : EdgeNamingService.State)
    (s t : String)
    (h : mapGet st.edgeCounters (EdgeNamingService.normalizeEdgeKey s t)
      = none) :
    EdgeNamingService.generateEdgeId st s t false
      = (EdgeNamingService.normalizeEdgeKey s t,
         ⟨mapSet st.edgeCounters (EdgeNamingService.normalizeEdgeKey s t) 1⟩) := by
  unfold EdgeNamingService.generateEdgeId
  simp [h]

theorem hasEdge_false_of_fresh {W : Type} (g : MultiGraph W) (k : String)
    (h : ∀ er ∈ g.edgeRecs, er.id ≠ k) : g.hasEdge k = false := by
  simp only [MultiGraph.hasEdge, List.any_eq_false, decide_eq_true_eq]
  exact h

theorem addEdge_fresh_directed {W : Type} [LinearOrderedCommRing W]
    (S : Store W) (s t : String) (w : W)
    (htype : S.graph.type = GraphType.directed)
    (hc : mapGet S.edgeNames.edgeCounters (s ++ "-" ++ t) = none)
    (hid : ∀ er ∈ S.graph.edgeRecs, er.id ≠ s ++ "-" ++ t)
    (hs : s ∈ S.graph.nodes) (ht : t ∈ S.graph.nodes) :
    Store.addEdge S s t w = .ok (s ++ "-" ++ t,
      ⟨{ S.graph with
           edgeRecs := S.graph.edgeRecs ++ [⟨s ++ "-" ++ t, s, t, w⟩] },
       S.vertexNames,
       ⟨mapSet S.edgeNames.edgeCounters (s ++ "-" ++ t) 1⟩⟩) := by
  have h1 : EdgeNamingService.generateEdgeId S.edgeNames s t
      (decide (S.graph.type = GraphType.directed))
      = (s ++ "-" ++ t, ⟨mapSet S.edgeNames.edgeCounters (s ++ "-" ++ t) 1⟩) := by
    rw [htype]
    exact generateEdgeId_fresh_true S.edgeNames s t hc
  simp only [Store.addEdge, h1]
  simp [MultiGraph.addEdgeWithKey, hasEdge_false_of_fresh S.graph _ hid,
    MultiGraph.hasNode, hs, ht, Except.map]

theorem addEdge_fresh_undirected {W : Type} [LinearOrderedCommRing W]
    (S : Store W) (s t : String) (w : W)
    (htype : S.graph.type = GraphType.undirected)
    (hc : mapGet S.edgeNames.edgeCounters
      (EdgeNamingService.normalizeEdgeKey s t) = none)
    (hid : ∀ er ∈ S.graph.edgeRecs,
      er.id ≠ EdgeNamingService.normalizeEdgeKey s t)
    (hs : s ∈ S.graph.nodes) (ht : t ∈ S.graph.nodes) :
    Store.addEdge S s t w = .ok (EdgeNamingService.normalizeEdgeKey s t,
      ⟨{ S.graph with
           edgeRecs := S.graph.edgeRecs
             ++ [⟨EdgeNamingService.normalizeEdgeKey s t, s, t, w⟩] },
       S.vertexNames,
       ⟨mapSet S.edgeNames.edgeCounters
         (EdgeNamingService.normalizeEdgeKey s t) 1⟩⟩) := by
  have h1 : EdgeNamingService.generateEdgeId S.edgeNames s t
      (decide (S.graph.type = GraphType.directed))
      = (EdgeNamingService.normalizeEdgeKey s t,
         ⟨mapSet S.edgeNames.edgeCounters
           (EdgeNamingService.normalizeEdgeKey s t) 1⟩) := by
    rw [htype]
    exact generateEdgeId_fresh_false S.edgeNames s t hc
  simp only [Store.addEdge, h1]
  simp [MultiGraph.addEdgeWithKey, hasEdge_false_of_fresh S.graph _ hid,
    MultiGraph.hasNode, hs, ht, Except.map]

theorem addVertex_fresh {W : Type} [LinearOrderedCommRing W]
    (S : Store W) (v : String)
    (hn : v ∉ S.vertexNames.usedNames) (hg : v ∉ S.graph.nodes) :
    Store.addVertex S (some v) = .ok (v,
      ⟨{ S.graph with nodes := S.graph.nodes ++ [v] },
       ⟨S.vertexNames.usedNames ++ [v]⟩, S.edgeNames⟩) := by
  simp [Store.addVertex, VertexNamingService.reserveName, hn, setAdd,
    MultiGraph.addNode, MultiGraph.hasNode, hg, Except.map]

theorem mapWeightObs_eq_of_nonzero {W : Type} [LinearOrderedCommRing W] :
    ∀ l : List (MGEdge W), (∀ e ∈ l, e.weight ≠ 0) →
      l.map (fun e =>
        { e with weight := if e.weight = 0 then 1 else e.weight }) = l := by
  intro l
  induction l with
  | nil => simp
  | cons e rest ih =>
    intro h
    rw [List.map_cons, ih (fun e' he' => h e' (List.mem_cons_of_mem _ he'))]
    have he := h e (List.mem_cons_self e rest)
    obtain ⟨i0, s0, t0, w0⟩ := e
    simp only at he
    simp [he]

theorem getEdges_eq_of_nonzero {W : Type} [LinearOrderedCommRing W]
    (g : MultiGraph W) (h : ∀ e ∈ g.edgeRecs, e.weight ≠ 0) :
    Store.getEdges g = g.edgeRecs :=
  mapWeightObs_eq_of_nonzero g.edgeRecs h

theorem getEdges_weight_ne_zero {W : Type} [LinearOrderedCommRing W]
    (g : MultiGraph W) : ∀ e ∈ Store.getEdges g, e.weight ≠ 0 := by
  intro e he
  unfold Store.getEdges at he
  obtain ⟨e0, _, rfl⟩ := List.mem_map.mp he
  show (if e0.weight = 0 then 1 else e0.weight) ≠ 0
  split
  · exact one_ne_zero
  · next hne => exact hne

theorem except_bind_ok {α β : Type} (a : α) (f : α → Except String β) :
    ((Except.ok a : Except String α) >>= f) = f a := rfl

/-- The vertex-copy pass succeeds on duplicate-free vertex lists and
produces exactly the node list, the used-name list and an unchanged edge
state. -/
theorem copyVertices_fold {W : Type} [LinearOrderedCommRing W]
    (type : GraphType) (es : List (MGEdge W))
    (ens : EdgeNamingService.State) :
    ∀ (todo done : List String) (vmap : List (String × String)),
      (done ++ todo).Nodup →
      todo.foldlM GraphTransitionService.copyVertexStep
        ((⟨⟨type, done, es⟩, ⟨done⟩, ens⟩ : Store W), vmap)
        = .ok (⟨⟨type, done ++ todo, es⟩, ⟨done ++ todo⟩, ens⟩,
               todo.foldl (fun m v => mapSet m v v) vmap) := by
  intro todo
  induction todo with
  | nil => intro done vmap _; simp only [List.append_nil]; rfl
  | cons v rest ih =>
    intro done vmap h
    have hv1 : v ∉ done := by
      intro hv
      exact (List.nodup_append.mp h).2.2 hv (List.mem_cons_self v rest)
    have hstep : GraphTransitionService.copyVertexStep
        ((⟨⟨type, done, es⟩, ⟨done⟩, ens⟩ : Store W), vmap) v
        = .ok (⟨⟨type, done ++ [v], es⟩, ⟨done ++ [v]⟩, ens⟩,
               mapSet vmap v v) := by
      unfold GraphTransitionService.copyVertexStep
      dsimp only
      rw [addVertex_fresh (⟨⟨type, done, es⟩, ⟨done⟩, ens⟩ : Store W) v hv1 hv1,
        except_bind_ok]
      rfl
    rw [List.foldlM_cons, hstep, except_bind_ok]
    have hr := ih (done ++ [v]) (mapSet vmap v v) (by simpa using h)
    have hl : (done ++ [v]) ++ rest = done ++ v :: rest := by simp
    rw [hl] at hr
    exact hr

/-- The undirected→directed edge pass succeeds when all requested directed
keys are pairwise distinct and fresh, and appends exactly the twin edge
records in order. -/
theorem undToDir_fold {W : Type} [LinearOrderedCommRing W]
    (names : List String) :
    ∀ (todo : List (MGEdge W)) (S : Store W)
      (emap : List (String × List String)),
      S.graph.type = GraphType.directed →
      S.graph.nodes = names →
      (∀ a ∈ todo, a.source ∈ names ∧ a.target ∈ names) →
      (GraphTransitionService.orderedKeys todo).Nodup →
      (∀ k ∈ GraphTransitionService.orderedKeys todo,
        mapGet S.edgeNames.edgeCounters k = none ∧
        ∀ er ∈ S.graph.edgeRecs, er.id ≠ k) →
      ∃ ens emap',
        GraphTransitionService.undirectedToDirected todo S emap
          = .ok (⟨{ S.graph with
                     edgeRecs := S.graph.edgeRecs
                       ++ todo.flatMap GraphTransitionService.dirTwin },
                  S.vertexNames, ens⟩, emap') := by
  intro todo
  induction todo with
  | nil =>
    intro S emap _ _ _ _ _
    refine ⟨S.edgeNames, emap, ?_⟩
    simp only [GraphTransitionService.undirectedToDirected,
      List.flatMap_nil, List.append_nil]
    rfl
  | cons a rest ih =>
    intro S emap htype hnodes hep hkeys hfresh
    have hepa := hep a (List.mem_cons_self a rest)
    have hkel : GraphTransitionService.orderedKeys (a :: rest)
        = (a.source ++ "-" ++ a.target) :: (a.target ++ "-" ++ a.source)
          :: GraphTransitionService.orderedKeys rest := rfl
    rw [hkel] at hkeys
    have hk1n : (a.source ++ "-" ++ a.target)
        ∉ (a.target ++ "-" ++ a.source)
          :: GraphTransitionService.orderedKeys rest :=
      (List.nodup_cons.mp hkeys).1
    have hk12 : a.source ++ "-" ++ a.target ≠ a.target ++ "-" ++ a.source :=
      fun hEq => hk1n (by rw [hEq]; exact List.mem_cons_self _ _)
    have hk1r : (a.source ++ "-" ++ a.target)
        ∉ GraphTransitionService.orderedKeys rest :=
      fun hm => hk1n (List.mem_cons_of_mem _ hm)
    have hk2n := List.nodup_cons.mp (List.nodup_cons.mp hkeys).2
    have hf1 := hfresh (a.source ++ "-" ++ a.target)
      (by rw [hkel]; exact List.mem_cons_self _ _)
    have hf2 := hfresh (a.target ++ "-" ++ a.source)
      (by rw [hkel]; exact List.mem_cons_of_mem _ (List.mem_cons_self _ _))
    have h1 := addEdge_fresh_directed S a.source a.target a.weight htype
      hf1.1 hf1.2 (by rw [hnodes]; exact hepa.1) (by rw [hnodes]; exact hepa.2)
    have h2 := addEdge_fresh_directed
      (⟨{ S.graph with edgeRecs := S.graph.edgeRecs
            ++ [⟨a.source ++ "-" ++ a.target, a.source, a.target, a.weight⟩] },
        S.vertexNames,
        ⟨mapSet S.edgeNames.edgeCounters (a.source ++ "-" ++ a.target) 1⟩⟩
        : Store W)
      a.target a.source a.weight (by exact htype)
      (by show mapGet (mapSet S.edgeNames.edgeCounters
            (a.source ++ "-" ++ a.target) 1) (a.target ++ "-" ++ a.source)
            = none
          rw [mapGet_mapSet_ne _ _ _ _ (fun hEq => hk12 hEq.symm)]
          exact hf2.1)
      (by intro er her
          rcases List.mem_append.mp her with her | her
          · exact hf2.2 er her
          · rw [List.mem_singleton] at her
            subst her
            exact hk12)
      (by show a.target ∈ S.graph.nodes; rw [hnodes]; exact hepa.2)
      (by show a.source ∈ S.graph.nodes; rw [hnodes]; exact hepa.1)
    have hstep : GraphTransitionService.undToDirStep (S, emap) a
        = .ok ((⟨{ S.graph with edgeRecs := (S.graph.edgeRecs
                ++ [⟨a.source ++ "-" ++ a.target, a.source, a.target, a.weight⟩])
                ++ [⟨a.target ++ "-" ++ a.source, a.target, a.source, a.weight⟩] },
              S.vertexNames,
              ⟨mapSet (mapSet S.edgeNames.edgeCounters
                  (a.source ++ "-" ++ a.target) 1)
                (a.target ++ "-" ++ a.source) 1⟩⟩ : Store W),
            mapSet emap a.id
              [a.source ++ "-" ++ a.target, a.target ++ "-" ++ a.source]) := by
      unfold GraphTransitionService.undToDirStep
      dsimp only
      rw [h1, except_bind_ok]
      dsimp only
      rw [h2, except_bind_ok]
      rfl
    have hCons : (a :: rest).flatMap GraphTransitionService.dirTwin
        = ⟨a.source ++ "-" ++ a.target, a.source, a.target, a.weight⟩
          :: ⟨a.target ++ "-" ++ a.source, a.target, a.source, a.weight⟩
          :: rest.flatMap GraphTransitionService.dirTwin := rfl
    obtain ⟨ens, emap', heq⟩ := ih
      (⟨{ S.graph with edgeRecs := (S.graph.edgeRecs
            ++ [⟨a.source ++ "-" ++ a.target, a.source, a.target, a.weight⟩])
            ++ [⟨a.target ++ "-" ++ a.source, a.target, a.source, a.weight⟩] },
        S.vertexNames,
        ⟨mapSet (mapSet S.edgeNames.edgeCounters
            (a.source ++ "-" ++ a.target) 1)
          (a.target ++ "-" ++ a.source) 1⟩⟩ : Store W)
      (mapSet emap a.id
        [a.source ++ "-" ++ a.target, a.target ++ "-" ++ a.source])
      (by exact htype) (by exact hnodes)
      (fun e' he' => hep e' (List.mem_cons_of_mem _ he'))
      hk2n.2
      (by intro k hk
          have hne1 : k ≠ a.source ++ "-" ++ a.target :=
            fun hEq => hk1r (by rw [← hEq]; exact hk)
          have hne2 : k ≠ a.target ++ "-" ++ a.source :=
            fun hEq => hk2n.1 (by rw [← hEq]; exact hk)
          have hfk := hfresh k
            (by rw [hkel]
                exact List.mem_cons_of_mem _ (List.mem_cons_of_mem _ hk))
          refine ⟨?_, ?_⟩
          · show mapGet (mapSet (mapSet S.edgeNames.edgeCounters
                (a.source ++ "-" ++ a.target) 1)
              (a.target ++ "-" ++ a.source) 1) k = none
            rw [mapGet_mapSet_ne _ _ _ _ hne2, mapGet_mapSet_ne _ _ _ _ hne1]
            exact hfk.1
          · intro er her
            rcases List.mem_append.mp her with her | her
            · rcases List.mem_append.mp her with her | her
              · exact hfk.2 er her
              · rw [List.mem_singleton] at her
                subst her
                exact fun hc => hne1 hc.symm
            · rw [List.mem_singleton] at her
              subst her
              exact fun hc => hne2 hc.symm)
    refine ⟨ens, emap', ?_⟩
    simp only [GraphTransitionService.undirectedToDirected] at heq ⊢
    rw [List.foldlM_cons, hstep, except_bind_ok]
    exact heq.trans (by
      rw [hCons]
      simp [List.append_assoc])

/-- The directed→undirected merge pass, run on the twin expansion of a
list of loop-free edges with pairwise-distinct fresh canonical keys,
succeeds and appends exactly one merged record per original edge. -/
theorem dirToUnd_fold {W : Type} [LinearOrderedCommRing W]
    (full : List (MGEdge W)) (names : List String) :
    ∀ (R : List (MGEdge W)) (S : Store W)
      (emap : List (String × List String)) (processed : List String),
      S.graph.type = GraphType.undirected →
      S.graph.nodes = names →
      (∀ a ∈ R, a.source ∈ names ∧ a.target ∈ names ∧ a.source ≠ a.target) →
      ((R.map (fun a =>
        EdgeNamingService.normalizeEdgeKey a.source a.target)).Nodup) →
      (∀ k ∈ R.map (fun a =>
          EdgeNamingService.normalizeEdgeKey a.source a.target),
        k ∉ processed ∧ mapGet S.edgeNames.edgeCounters k = none ∧
        ∀ er ∈ S.graph.edgeRecs, er.id ≠ k) →
      ∃ ens emap' processed',
        (R.flatMap GraphTransitionService.dirTwin).foldlM
            (GraphTransitionService.dirToUndStep full) (S, emap, processed)
          = .ok (⟨{ S.graph with
                     edgeRecs := S.graph.edgeRecs
                       ++ R.map GraphTransitionService.undMerge },
                  S.vertexNames, ens⟩, emap', processed') := by
  intro R
  induction R with
  | nil =>
    intro S emap processed _ _ _ _ _
    exact ⟨S.edgeNames, emap, processed, by
      simp only [List.flatMap_nil, List.map_nil, List.append_nil]
      rfl⟩
  | cons a rest ih =>
    intro S emap processed htype hnodes hep hkeys hfresh
    have hepa := hep a (List.mem_cons_self a rest)
    rw [List.map_cons, List.nodup_cons] at hkeys
    have hfa := hfresh (EdgeNamingService.normalizeEdgeKey a.source a.target)
      (by rw [List.map_cons]; exact List.mem_cons_self _ _)
    have hcanon : GraphTransitionService.canonicalPairKey a.source a.target
        = EdgeNamingService.normalizeEdgeKey a.source a.target :=
      canonicalPairKey_eq_normalize a.source a.target hepa.2.2
    have hcanon2 : GraphTransitionService.canonicalPairKey a.target a.source
        = EdgeNamingService.normalizeEdgeKey a.source a.target := by
      rw [canonicalPairKey_eq_normalize a.target a.source
        (fun hEq => hepa.2.2 hEq.symm), normalizeEdgeKey_comm]
    have hsa : setAdd processed
          (EdgeNamingService.normalizeEdgeKey a.source a.target)
        = processed
          ++ [EdgeNamingService.normalizeEdgeKey a.source a.target] := by
      unfold setAdd
      rw [if_neg hfa.1]
    have haddE := addEdge_fresh_undirected S a.source a.target a.weight htype
      hfa.2.1 hfa.2.2 (by rw [hnodes]; exact hepa.1)
      (by rw [hnodes]; exact hepa.2.1)
    obtain ⟨m1, hstep1⟩ : ∃ m1,
        GraphTransitionService.dirToUndStep full (S, emap, processed)
          ⟨a.source ++ "-" ++ a.target, a.source, a.target, a.weight⟩
        = .ok ((⟨{ S.graph with edgeRecs := S.graph.edgeRecs
              ++ [⟨EdgeNamingService.normalizeEdgeKey a.source a.target,
                   a.source, a.target, a.weight⟩] },
            S.vertexNames,
            ⟨mapSet S.edgeNames.edgeCounters
              (EdgeNamingService.normalizeEdgeKey a.source a.target) 1⟩⟩
            : Store W),
          m1,
          processed
            ++ [EdgeNamingService.normalizeEdgeKey a.source a.target]) :=
      ⟨_, by
        unfold GraphTransitionService.dirToUndStep
        dsimp only
        rw [hcanon, if_neg hfa.1, haddE, except_bind_ok, hsa]
        rfl⟩
    have hstep2 : GraphTransitionService.dirToUndStep full
        ((⟨{ S.graph with edgeRecs := S.graph.edgeRecs
              ++ [⟨EdgeNamingService.normalizeEdgeKey a.source a.target,
                   a.source, a.target, a.weight⟩] },
            S.vertexNames,
            ⟨mapSet S.edgeNames.edgeCounters
              (EdgeNamingService.normalizeEdgeKey a.source a.target) 1⟩⟩
            : Store W),
          m1,
          processed
            ++ [EdgeNamingService.normalizeEdgeKey a.source a.target])
          ⟨a.target ++ "-" ++ a.source, a.target, a.source, a.weight⟩
        = .ok ((⟨{ S.graph with edgeRecs := S.graph.edgeRecs
              ++ [⟨EdgeNamingService.normalizeEdgeKey a.source a.target,
                   a.source, a.target, a.weight⟩] },
            S.vertexNames,
            ⟨mapSet S.edgeNames.edgeCounters
              (EdgeNamingService.normalizeEdgeKey a.source a.target) 1⟩⟩
            : Store W),
          (match (Store.getEdges { S.graph with
              edgeRecs := S.graph.edgeRecs
                ++ [⟨EdgeNamingService.normalizeEdgeKey a.source a.target,
                     a.source, a.target, a.weight⟩] }).find? (fun x =>
              (x.source = a.target ∧ x.target = a.source) ∨
              (x.source = a.source ∧ x.target = a.target)) with
            | some ex => mapSet m1 (a.target ++ "-" ++ a.source) [ex.id]
            | none => m1),
          processed
            ++ [EdgeNamingService.normalizeEdgeKey a.source a.target]) := by
      unfold GraphTransitionService.dirToUndStep
      dsimp only
      rw [hcanon2, if_pos (List.mem_append.mpr
        (Or.inr (List.mem_singleton.mpr rfl)))]
      cases (Store.getEdges { S.graph with
          edgeRecs := S.graph.edgeRecs
            ++ [⟨EdgeNamingService.normalizeEdgeKey a.source a.target,
                 a.source, a.target, a.weight⟩] }).find? (fun x =>
          (x.source = a.target ∧ x.target = a.source) ∨
          (x.source = a.source ∧ x.target = a.target)) with
      | some ex => rfl
      | none => rfl
    obtain ⟨m2, hstep2'⟩ : ∃ m2,
        GraphTransitionService.dirToUndStep full
          ((⟨{ S.graph with edgeRecs := S.graph.edgeRecs
                ++ [⟨EdgeNamingService.normalizeEdgeKey a.source a.target,
                     a.source, a.target, a.weight⟩] },
              S.vertexNames,
              ⟨mapSet S.edgeNames.edgeCounters
                (EdgeNamingService.normalizeEdgeKey a.source a.target) 1⟩⟩
              : Store W),
            m1,
            processed
              ++ [EdgeNamingService.normalizeEdgeKey a.source a.target])
          ⟨a.target ++ "-" ++ a.source, a.target, a.source, a.weight⟩
        = .ok ((⟨{ S.graph with edgeRecs := S.graph.edgeRecs
                ++ [⟨EdgeNamingService.normalizeEdgeKey a.source a.target,
                     a.source, a.target, a.weight⟩] },
              S.vertexNames,
              ⟨mapSet S.edgeNames.edgeCounters
                (EdgeNamingService.normalizeEdgeKey a.source a.target) 1⟩⟩
              : Store W),
            m2,
            processed
              ++ [EdgeNamingService.normalizeEdgeKey a.source a.target]) :=
      ⟨_, hstep2⟩
    obtain ⟨ens, emap', processed', heq⟩ := ih
      (⟨{ S.graph with edgeRecs := S.graph.edgeRecs
            ++ [⟨EdgeNamingService.normalizeEdgeKey a.source a.target,
                 a.source, a.target, a.weight⟩] },
          S.vertexNames,
          ⟨mapSet S.edgeNames.edgeCounters
            (EdgeNamingService.normalizeEdgeKey a.source a.target) 1⟩⟩
          : Store W)
      m2
      (processed ++ [EdgeNamingService.normalizeEdgeKey a.source a.target])
      (by exact htype) (by exact hnodes)
      (fun e' he' => hep e' (List.mem_cons_of_mem _ he'))
      hkeys.2
      (by intro k hk
          have hne : k ≠ EdgeNamingService.normalizeEdgeKey a.source a.target :=
            fun hEq => hkeys.1 (by rw [← hEq]; exact hk)
          have hfk := hfresh k
            (by rw [List.map_cons]; exact List.mem_cons_of_mem _ hk)
          refine ⟨?_, ?_, ?_⟩
          · intro hm
            rcases List.mem_append.mp hm with hm | hm
            · exact hfk.1 hm
            · rw [List.mem_singleton] at hm
              exact hne hm
          · show mapGet (mapSet S.edgeNames.edgeCounters
                (EdgeNamingService.normalizeEdgeKey a.source a.target) 1) k
              = none
            rw [mapGet_mapSet_ne _ _ _ _ hne]
            exact hfk.2.1
          · intro er her
            rcases List.mem_append.mp her with her | her
            · exact hfk.2.2 er her
            · rw [List.mem_singleton] at her
              subst her
              exact fun hc => hne hc.symm)
    refine ⟨ens, emap', processed', ?_⟩
    rw [show (a :: rest).flatMap GraphTransitionService.dirTwin
        = ⟨a.source ++ "-" ++ a.target, a.source, a.target, a.weight⟩
          :: ⟨a.target ++ "-" ++ a.source, a.target, a.source, a.weight⟩
          :: rest.flatMap GraphTransitionService.dirTwin from rfl]
    rw [List.foldlM_cons, hstep1, except_bind_ok]
    dsimp only
    rw [List.foldlM_cons, hstep2', except_bind_ok]
    exact heq.trans (by
      simp [GraphTransitionService.undMerge, List.append_assoc])

/-! ## C7: the type-transition round trip -/

/-- C7 (counterexample): `dashGraph` is a simple undirected graph — two
edges with distinct unordered endpoint pairs, no self-loops — yet the
undirected→directed→undirected round trip drops its second edge: the two
distinct pairs `(a-b, c)` and `(a, b-c)` collide on the canonical key
string `a-b-c`, so the directed→undirected merge treats them as one
connection. -/
theorem transition_round_trip_drops_colliding_pairs :
    dashGraph.type = GraphType.undirected ∧
    dashGraph.nodes.Nodup ∧
    (∀ e ∈ dashGraph.edgeRecs,
      e.source ∈ dashGraph.nodes ∧ e.target ∈ dashGraph.nodes) ∧
    (∀ e ∈ dashGraph.edgeRecs, e.source ≠ e.target) ∧
    (∀ e1 ∈ dashGraph.edgeRecs, ∀ e2 ∈ dashGraph.edgeRecs, e1.id ≠ e2.id →
      ¬ ((e1.source = e2.source ∧ e1.target = e2.target) ∨
         (e1.source = e2.target ∧ e1.target = e2.source))) ∧
    (Store.getEdges dashGraph).map (fun e => (e.source, e.target, e.weight))
      = [("a-b", "c", (1 : ℤ)), ("a", "b-c", 5)] ∧
    roundTripEdges dashGraph = some [("a-b", "c", 1)] ∧
    some [("a-b", "c", (1 : ℤ))] ≠ some [("a-b", "c", (1 : ℤ)), ("a", "b-c", 5)] := by
  decide

/-- C7 (amended).  On a simple undirected graph whose vertex names are
duplicate-free and contain no `'-'` — edge endpoints among the vertices,
no self-loops, pairwise-distinct unordered endpoint pairs (stated through
the canonical keys the transition service compares) — transitioning to
directed and back to undirected succeeds and reproduces the original
edge set as observed through `getEdges`: the same source/target/weight
triples in the same order, and the same vertex list.  The dash-free-name
hypothesis cannot be dropped: see
the counterexample on `dashGraph`, whose colliding canonical keys make
the merge pass drop an edge. -/
theorem transition_round_trip {W : Type} [LinearOrderedCommRing W]
    (g : MultiGraph W)
    (hund : g.type = GraphType.undirected)
    (hnodup : g.nodes.Nodup)
    (hwf : ∀ e ∈ g.edgeRecs, e.source ∈ g.nodes ∧ e.target ∈ g.nodes)
    (hloop : ∀ e ∈ g.edgeRecs, e.source ≠ e.target)
    (hsimple : (g.edgeRecs.map (fun e =>
      EdgeNamingService.normalizeEdgeKey e.source e.target)).Nodup)
    (hdash : ∀ v ∈ g.nodes, ('-' : Char) ∉ v.data) :
    ∃ r1 r2,
      GraphTransitionService.transitionGraphType g GraphType.directed
        = .ok r1 ∧
      GraphTransitionService.transitionGraphType r1.newGraph
        GraphType.undirected = .ok r2 ∧
      r2.newGraph.nodes = g.nodes ∧
      (Store.getEdges r2.newGraph).map
          (fun e => (e.source, e.target, e.weight))
        = (Store.getEdges g).map
            (fun e => (e.source, e.target, e.weight)) := by
  have hEep : ∀ e ∈ Store.getEdges g,
      e.source ∈ g.nodes ∧ e.target ∈ g.nodes := by
    intro e he
    obtain ⟨e0, he0, rfl⟩ := List.mem_map.mp he
    exact hwf e0 he0
  have hEloop : ∀ e ∈ Store.getEdges g, e.source ≠ e.target := by
    intro e he
    obtain ⟨e0, he0, rfl⟩ := List.mem_map.mp he
    exact hloop e0 he0
  have hEdash : ∀ e ∈ Store.getEdges g,
      ('-' : Char) ∉ e.source.data ∧ ('-' : Char) ∉ e.target.data := by
    intro e he
    have h1 := hEep e he
    exact ⟨hdash _ h1.1, hdash _ h1.2⟩
  have hEsimple : ((Store.getEdges g).map (fun e =>
      EdgeNamingService.normalizeEdgeKey e.source e.target)).Nodup := by
    have hmm : (Store.getEdges g).map (fun e =>
        EdgeNamingService.normalizeEdgeKey e.source e.target)
      = g.edgeRecs.map (fun e =>
        EdgeNamingService.normalizeEdgeKey e.source e.target) := by
      unfold Store.getEdges
      rw [List.map_map]
      rfl
    rw [hmm]
    exact hsimple
  have hCV := copyVertices_fold (W := W) GraphType.directed [] ⟨[]⟩
    g.nodes [] [] (by simpa using hnodup)
  simp only [List.nil_append] at hCV
  obtain ⟨ens1, emap1, hU⟩ := undToDir_fold (W := W) g.nodes
    (Store.getEdges g)
    (⟨⟨GraphType.directed, g.nodes, []⟩, ⟨g.nodes⟩, ⟨[]⟩⟩ : Store W)
    [] rfl rfl hEep
    (orderedKeys_nodup (Store.getEdges g) hEdash hEloop hEsimple)
    (by intro k _
        exact ⟨rfl, fun er her => absurd her (List.not_mem_nil er)⟩)
  have hT1 : GraphTransitionService.transitionGraphType g GraphType.directed
      = .ok ⟨⟨GraphType.directed, g.nodes,
              (Store.getEdges g).flatMap GraphTransitionService.dirTwin⟩,
             g.nodes.foldl (fun m v => mapSet m v v) [], emap1⟩ := by
    unfold GraphTransitionService.transitionGraphType
    dsimp only
    rw [if_neg (by rw [hund]; simp)]
    rw [show GraphTransitionService.copyVertices (Store.getVertices g)
          (Store.createGraph GraphType.directed)
        = .ok ((⟨⟨GraphType.directed, g.nodes, []⟩, ⟨g.nodes⟩, ⟨[]⟩⟩
            : Store W),
           g.nodes.foldl (fun m v => mapSet m v v) []) from hCV,
      except_bind_ok]
    dsimp only
    rw [if_pos ⟨hund, rfl⟩]
    rw [hU, except_bind_ok]
    rfl
  have hDw : ∀ e ∈ (⟨GraphType.directed, g.nodes,
      (Store.getEdges g).flatMap GraphTransitionService.dirTwin⟩
        : MultiGraph W).edgeRecs, e.weight ≠ 0 := by
    intro e he
    rw [show (⟨GraphType.directed, g.nodes,
        (Store.getEdges g).flatMap GraphTransitionService.dirTwin⟩
          : MultiGraph W).edgeRecs
      = (Store.getEdges g).flatMap GraphTransitionService.dirTwin from rfl,
      List.mem_flatMap] at he
    obtain ⟨e0, he0, hee⟩ := he
    have hw := getEdges_weight_ne_zero g e0 he0
    simp only [GraphTransitionService.dirTwin, List.mem_cons,
      List.not_mem_nil, or_false] at hee
    rcases hee with rfl | rfl
    · exact hw
    · exact hw
  have hE2 : Store.getEdges (⟨GraphType.directed, g.nodes,
      (Store.getEdges g).flatMap GraphTransitionService.dirTwin⟩
        : MultiGraph W)
      = (Store.getEdges g).flatMap GraphTransitionService.dirTwin :=
    getEdges_eq_of_nonzero _ hDw
  have hCV2 := copyVertices_fold (W := W) GraphType.undirected [] ⟨[]⟩
    g.nodes [] [] (by simpa using hnodup)
  simp only [List.nil_append] at hCV2
  obtain ⟨ens2, emap2, proc2, hD2⟩ := dirToUnd_fold (W := W)
    ((Store.getEdges g).flatMap GraphTransitionService.dirTwin) g.nodes
    (Store.getEdges g)
    (⟨⟨GraphType.undirected, g.nodes, []⟩, ⟨g.nodes⟩, ⟨[]⟩⟩ : Store W)
    [] [] rfl rfl
    (fun a ha => ⟨(hEep a ha).1, (hEep a ha).2, hEloop a ha⟩)
    hEsimple
    (by intro k _
        exact ⟨List.not_mem_nil k, rfl,
          fun er her => absurd her (List.not_mem_nil er)⟩)
  have hT2 : GraphTransitionService.transitionGraphType
      (⟨GraphType.directed, g.nodes,
        (Store.getEdges g).flatMap GraphTransitionService.dirTwin⟩
          : MultiGraph W) GraphType.undirected
      = .ok ⟨⟨GraphType.undirected, g.nodes,
              (Store.getEdges g).map GraphTransitionService.undMerge⟩,
             g.nodes.foldl (fun m v => mapSet m v v) [], emap2⟩ := by
    unfold GraphTransitionService.transitionGraphType
    dsimp only
    rw [if_neg (by decide)]
    rw [show GraphTransitionService.copyVertices
          (Store.getVertices (⟨GraphType.directed, g.nodes,
            (Store.getEdges g).flatMap GraphTransitionService.dirTwin⟩
              : MultiGraph W))
          (Store.createGraph GraphType.undirected)
        = .ok ((⟨⟨GraphType.undirected, g.nodes, []⟩, ⟨g.nodes⟩, ⟨[]⟩⟩
            : Store W),
           g.nodes.foldl (fun m v => mapSet m v v) []) from hCV2,
      except_bind_ok]
    dsimp only
    rw [if_neg (by decide)]
    rw [if_pos ⟨rfl, rfl⟩]
    rw [hE2]
    rw [show GraphTransitionService.directedToUndirected
          ((Store.getEdges g).flatMap GraphTransitionService.dirTwin)
          (⟨⟨GraphType.undirected, g.nodes, []⟩, ⟨g.nodes⟩, ⟨[]⟩⟩ : Store W)
          []
        = .ok (⟨⟨GraphType.undirected, g.nodes,
              (Store.getEdges g).map GraphTransitionService.undMerge⟩,
            ⟨g.nodes⟩, ens2⟩, emap2, proc2) from hD2,
      except_bind_ok]
    rfl
  refine ⟨⟨⟨GraphType.directed, g.nodes,
      (Store.getEdges g).flatMap GraphTransitionService.dirTwin⟩,
      g.nodes.foldl (fun m v => mapSet m v v) [], emap1⟩,
    ⟨⟨GraphType.undirected, g.nodes,
      (Store.getEdges g).map GraphTransitionService.undMerge⟩,
      g.nodes.foldl (fun m v => mapSet m v v) [], emap2⟩,
    hT1, hT2, rfl, ?_⟩
  have hUw : ∀ e ∈ (⟨GraphType.undirected, g.nodes,
      (Store.getEdges g).map GraphTransitionService.undMerge⟩
        : MultiGraph W).edgeRecs, e.weight ≠ 0 := by
    intro e he
    rw [show (⟨GraphType.undirected, g.nodes,
        (Store.getEdges g).map GraphTransitionService.undMerge⟩
          : MultiGraph W).edgeRecs
      = (Store.getEdges g).map GraphTransitionService.undMerge from rfl] at he
    obtain ⟨e0, he0, rfl⟩ := List.mem_map.mp he
    exact getEdges_weight_ne_zero g e0 he0
  rw [show Store.getEdges (⟨⟨GraphType.undirected, g.nodes,
        (Store.getEdges g).map GraphTransitionService.undMerge⟩,
      g.nodes.foldl (fun m v => mapSet m v v) [],
      emap2⟩ : GraphTransitionService.GraphTransitionResult W).newGraph
    = (Store.getEdges g).map GraphTransitionService.undMerge from
      getEdges_eq_of_nonzero _ hUw]
  rw [List.map_map]
  rfl

/-- C7 witness: the amended round-trip theorem applied to the concrete
dash-free path `A-B` (2), `B-C` (3). -/
theorem transition_round_trip_witness :
    ∃ r1 r2,
      GraphTransitionService.transitionGraphType rtWitnessGraph
        GraphType.directed = .ok r1 ∧
      GraphTransitionService.transitionGraphType r1.newGraph
        GraphType.undirected = .ok r2 ∧
      r2.newGraph.nodes = rtWitnessGraph.nodes ∧
      (Store.getEdges r2.newGraph).map
          (fun e => (e.source, e.target, e.weight))
        = (Store.getEdges rtWitnessGraph).map
            (fun e => (e.source, e.target, e.weight)) :=
  transition_round_trip rtWitnessGraph (by decide) (by decide) (by decide)
    (by decide) (by decide) (by decide)

/-! ## C10: the edge-key allocator can re-issue a still-allocated ID -/

/-- C10: issuing `A-B` then `A-B#2`, releasing `A-B`, and issuing again for
the same pair returns `A-B#2` — identical to the second, never-released ID,
so outstanding IDs are not pairwise distinct. -/
theorem edge_id_reissued_while_allocated :
    (EdgeNamingService.generateEdgeId EdgeNamingService.reset
        "A" "B" false).1 = "A-B" ∧
    (EdgeNamingService.generateEdgeId
        (EdgeNamingService.generateEdgeId EdgeNamingService.reset
          "A" "B" false).2
        "A" "B" false).1 = "A-B#2" ∧
    mapGet (EdgeNamingService.releaseEdgeId
        (EdgeNamingService.generateEdgeId
          (EdgeNamingService.generateEdgeId EdgeNamingService.reset
            "A" "B" false).2
          "A" "B" false).2 "A-B").edgeCounters "A-B" = some 1 ∧
    (EdgeNamingService.generateEdgeId
        (EdgeNamingService.releaseEdgeId
          (EdgeNamingService.generateEdgeId
            (EdgeNamingService.generateEdgeId EdgeNamingService.reset
              "A" "B" false).2
            "A" "B" false).2 "A-B") "A" "B" false).1 = "A-B#2" ∧
    (EdgeNamingService.generateEdgeId
        (EdgeNamingService.releaseEdgeId
          (EdgeNamingService.generateEdgeId
            (EdgeNamingService.generateEdgeId EdgeNamingService.reset
              "A" "B" false).2
            "A" "B" false).2 "A-B") "A" "B" false).1
      = (EdgeNamingService.generateEdgeId
          (EdgeNamingService.generateEdgeId EdgeNamingService.reset
            "A" "B" false).2
          "A" "B" false).1 := by
  decide

/-! ## C4: the allocator/graph correspondence across store operations -/

/-- C4: after `addVertex A; addVertex B; addEdge A B 1; removeVertex A`,
the graph holds no edge with canonical key `A-B`, yet the edge allocator's
counter for `A-B` is still 1 — `removeVertex` cascades over the incident
edge without releasing its ID, breaking the claimed 1:1 correspondence
(whereas a direct `removeEdge` does release, returning the counter to 0). -/
theorem removeVertex_leaks_edge_counters :
    (storeAfterCascade.map (fun S =>
        (S.graph.edgeRecs, mapGet S.edgeNames.edgeCounters "A-B",
         S.vertexNames.usedNames)))
      = some ([], some 1, ["B"]) ∧
    (storeAfterRemoveEdge.map (fun S =>
        (S.graph.edgeRecs, mapGet S.edgeNames.edgeCounters "A-B")))
      = some ([], some 0) := by
  decide

/-! ## Binary-heap verification for the priority queue -/

theorem get?_lt_length {β : Type} (l : List β) (i : Nat) (x : β)
    (h : l.get? i = some x) : i < l.length := by
  by_contra hc
  push_neg at hc
  rw [List.get?_eq_none.mpr hc] at h
  exact Option.noConfusion h

theorem get?_exists {β : Type} (l : List β) (i : Nat) (h : i < l.length) :
    ∃ x, l.get? i = some x :=
  ⟨l.get ⟨i, h⟩, List.get?_eq_get h⟩

theorem childOf_parent_eq {i p p' : Nat}
    (h : i = 2 * p + 1 ∨ i = 2 * p + 2)
    (h' : i = 2 * p' + 1 ∨ i = 2 * p' + 2) : p = p' := by omega

theorem childOf_lt {i p : Nat}
    (h : i = 2 * p + 1 ∨ i = 2 * p + 2) : p < i := by omega

theorem parent_childOf {i : Nat} (h : 0 < i) :
    i = 2 * ((i - 1) / 2) + 1 ∨ i = 2 * ((i - 1) / 2) + 2 := by omega

theorem hswap_get? {α W : Type} [LinearOrderedCommRing W]
    (l : List (α × W)) (i j : Nat) (a b : α × W)
    (hi : l.get? i = some a) (hj : l.get? j = some b) :
    (PriorityQueue.hswap l i j).get? i = some b ∧
    (PriorityQueue.hswap l i j).get? j = some a ∧
    ∀ k, k ≠ i → k ≠ j →
      (PriorityQueue.hswap l i j).get? k = l.get? k := by
  have hil : i < l.length := get?_lt_length l i a hi
  have hjl : j < l.length := get?_lt_length l j b hj
  unfold PriorityQueue.hswap
  rw [hi, hj]
  by_cases hij : i = j
  · subst hij
    have hab : a = b := Option.some.inj (hi.symm.trans hj)
    subst hab
    refine ⟨?_, ?_, ?_⟩
    · rw [List.get?_set_eq_of_lt _ (by simpa using hil)]
    · rw [List.get?_set_eq_of_lt _ (by simpa using hil)]
    · intro k hk _
      rw [List.get?_set_ne _ _ (fun hh => hk hh.symm),
        List.get?_set_ne _ _ (fun hh => hk hh.symm)]
  · refine ⟨?_, ?_, ?_⟩
    · rw [List.get?_set_ne _ _ (fun hh => hij hh.symm),
        List.get?_set_eq_of_lt _ hil]
    · rw [List.get?_set_eq_of_lt _ (by simpa using hjl)]
    · intro k hk1 hk2
      rw [List.get?_set_ne _ _ (fun hh => hk2 hh.symm),
        List.get?_set_ne _ _ (fun hh => hk1 hh.symm)]

theorem hswap_mem {α W : Type} [LinearOrderedCommRing W]
    (l : List (α × W)) (i j : Nat) (a b : α × W)
    (hi : l.get? i = some a) (hj : l.get? j = some b) (x : α × W) :
    x ∈ PriorityQueue.hswap l i j ↔ x ∈ l := by
  obtain ⟨h1, h2, h3⟩ := hswap_get? l i j a b hi hj
  constructor
  · intro hx
    obtain ⟨k, hk⟩ := List.mem_iff_get?.mp hx
    by_cases hki : k = i
    · subst hki
      rw [h1] at hk
      obtain rfl := Option.some.inj hk
      exact List.get?_mem hj
    · by_cases hkj : k = j
      · subst hkj
        rw [h2] at hk
        obtain rfl := Option.some.inj hk
        exact List.get?_mem hi
      · rw [h3 k hki hkj] at hk
        exact List.get?_mem hk
  · intro hx
    obtain ⟨k, hk⟩ := List.mem_iff_get?.mp hx
    by_cases hki : k = i
    · subst hki
      obtain rfl : x = a := Option.some.inj (hk.symm.trans hi)
      exact List.get?_mem h2
    · by_cases hkj : k = j
      · subst hkj
        obtain rfl : x = b := Option.some.inj (hk.symm.trans hj)
        exact List.get?_mem h1
      · exact List.get?_mem ((h3 k hki hkj).trans hk)

theorem heapProp_root_min {α W : Type} [LinearOrderedCommRing W]
    (l : List (α × W)) (hp : PriorityQueue.HeapProp l) (r : α × W)
    (hr : l.get? 0 = some r) : ∀ x ∈ l, r.2 ≤ x.2 := by
  have main : ∀ k, ∀ x, l.get? k = some x → r.2 ≤ x.2 := by
    intro k
    induction k using Nat.strong_induction_on with
    | _ k ih =>
      intro x hk
      rcases Nat.eq_zero_or_pos k with rfl | hkpos
      · obtain rfl := Option.some.inj (hr.symm.trans hk)
        exact le_refl _
      · have hparent := parent_childOf hkpos
        have hplt : (k - 1) / 2 < k := by omega
        have hpbound : (k - 1) / 2 < l.length := by
          have := get?_lt_length l k x hk
          omega
        obtain ⟨xp, hxp⟩ := get?_exists l ((k - 1) / 2) hpbound
        exact le_trans (ih _ hplt xp hxp)
          (hp _ k xp x hparent hxp hk)
  intro x hx
  obtain ⟨k, hk⟩ := List.mem_iff_get?.mp hx
  exact main k x hk

theorem prioLt_true_iff {α W : Type} [LinearOrderedCommRing W]
    (l : List (α × W)) (a b : Nat) :
    PriorityQueue.prioLt l a b = true ↔
    ∃ x y, l.get? a = some x ∧ l.get? b = some y ∧ x.2 < y.2 := by
  unfold PriorityQueue.prioLt
  cases ha : l.get? a with
  | none => cases hb : l.get? b <;> simp
  | some x =>
    cases hb : l.get? b with
    | none => simp
    | some y => simp

theorem prioLt_false {α W : Type} [LinearOrderedCommRing W]
    (l : List (α × W)) (a b : Nat) (x y : α × W)
    (hx : l.get? a = some x) (hy : l.get? b = some y)
    (h : ¬ PriorityQueue.prioLt l a b = true) : y.2 ≤ x.2 := by
  rw [prioLt_true_iff] at h
  push_neg at h
  exact h x y hx hy

theorem heapifyUpGo_spec {α W : Type} [LinearOrderedCommRing W] :
    ∀ (fuel : Nat) (l : List (α × W)) (i : Nat), i < fuel →
      PriorityQueue.UpInv l i →
      PriorityQueue.HeapProp (PriorityQueue.heapifyUpGo fuel l i) ∧
      (∀ x, x ∈ PriorityQueue.heapifyUpGo fuel l i ↔ x ∈ l) ∧
      (PriorityQueue.heapifyUpGo fuel l i).length = l.length := by
  intro fuel
  induction fuel with
  | zero => intro l i h; omega
  | succ fuel ih =>
    intro l i hfuel hinv
    rw [show PriorityQueue.heapifyUpGo (fuel + 1) l i
        = if 0 < i then
            (if PriorityQueue.prioLt l i ((i - 1) / 2) then
              PriorityQueue.heapifyUpGo fuel
                (PriorityQueue.hswap l i ((i - 1) / 2)) ((i - 1) / 2)
            else l)
          else l from rfl]
    by_cases hipos : 0 < i
    · rw [if_pos hipos]
      by_cases hlt : PriorityQueue.prioLt l i ((i - 1) / 2) = true
      · rw [if_pos hlt]
        obtain ⟨xi, xp, hgi, hgp, hxlt⟩ :=
          (prioLt_true_iff l i ((i - 1) / 2)).mp hlt
        obtain ⟨hs1, hs2, hs3⟩ := hswap_get? l i ((i - 1) / 2) xi xp hgi hgp
        have hnew : PriorityQueue.UpInv
            (PriorityQueue.hswap l i ((i - 1) / 2)) ((i - 1) / 2) := by
          constructor
          · intro q j x y hc hjp hq hj
            by_cases hji : j = i
            · subst j
              have hqp : q = (i - 1) / 2 :=
                childOf_parent_eq hc (parent_childOf hipos)
              subst hqp
              obtain rfl : x = xi := Option.some.inj (hq.symm.trans hs2)
              obtain rfl : y = xp := Option.some.inj (hj.symm.trans hs1)
              exact le_of_lt hxlt
            · rw [hs3 j hji hjp] at hj
              by_cases hqp : q = (i - 1) / 2
              · subst hqp
                obtain rfl : x = xi := Option.some.inj (hq.symm.trans hs2)
                exact le_of_lt (lt_of_lt_of_le hxlt
                  (hinv.1 _ j xp y hc hji hgp hj))
              · by_cases hqi : q = i
                · subst q
                  obtain rfl : x = xp := Option.some.inj (hq.symm.trans hs1)
                  exact hinv.2 hipos j x y hc hgp hj
                · rw [hs3 q hqi hqp] at hq
                  exact hinv.1 q j x y hc hji hq hj
          · intro hppos j x y hc hg hj
            have hgne_p : ((i - 1) / 2 - 1) / 2 ≠ (i - 1) / 2 := by omega
            have hgne_i : ((i - 1) / 2 - 1) / 2 ≠ i := by omega
            rw [hs3 _ hgne_i hgne_p] at hg
            by_cases hji : j = i
            · subst j
              obtain rfl : y = xp := Option.some.inj (hj.symm.trans hs1)
              exact hinv.1 _ _ x y (parent_childOf hppos)
                (by omega) hg hgp
            · by_cases hjp : j = (i - 1) / 2
              · exact absurd hjp (by have := childOf_lt hc; omega)
              · rw [hs3 j hji hjp] at hj
                exact le_trans
                  (hinv.1 _ _ x xp (parent_childOf hppos) (by omega) hg hgp)
                  (hinv.1 _ j xp y hc hji hgp hj)
        have hrec := ih (PriorityQueue.hswap l i ((i - 1) / 2)) ((i - 1) / 2)
          (by omega) hnew
        refine ⟨hrec.1, ?_, ?_⟩
        · intro x
          exact (hrec.2.1 x).trans
            (hswap_mem l i ((i - 1) / 2) xi xp hgi hgp x)
        · exact hrec.2.2.trans (PriorityQueue.hswap_length l i ((i - 1) / 2))
      · rw [if_neg hlt]
        refine ⟨?_, fun x => Iff.rfl, rfl⟩
        intro p j x y hc hp hj
        by_cases hji : j = i
        · subst j
          have hpp : p = (i - 1) / 2 :=
            childOf_parent_eq hc (parent_childOf hipos)
          subst hpp
          exact prioLt_false l i ((i - 1) / 2) y x hj hp hlt
        · exact hinv.1 p j x y hc hji hp hj
    · rw [if_neg hipos]
      refine ⟨?_, fun x => Iff.rfl, rfl⟩
      intro p j x y hc hp hj
      have hji : j ≠ i := by omega
      exact hinv.1 p j x y hc hji hp hj

/-- After swapping the hole `i` with a strictly smaller child `t` that is
also no larger than the sibling, the sinking invariant moves to `t`. -/
theorem downInv_swap {α W : Type} [LinearOrderedCommRing W]
    (l : List (α × W)) (i t : Nat) (hinv : PriorityQueue.DownInv l i)
    (hti : t = 2 * i + 1 ∨ t = 2 * i + 2)
    (vi xt : α × W) (hvi : l.get? i = some vi) (hxt : l.get? t = some xt)
    (hlt : xt.2 ≤ vi.2)
    (hsib : ∀ j xj, (j = 2 * i + 1 ∨ j = 2 * i + 2) → j ≠ t →
      l.get? j = some xj → xt.2 ≤ xj.2) :
    PriorityQueue.DownInv (PriorityQueue.hswap l i t) t := by
  obtain ⟨hs1, hs2, hs3⟩ := hswap_get? l i t vi xt hvi hxt
  have hit : i ≠ t := by have := childOf_lt hti; omega
  constructor
  · intro q j x y hc hqt hq hj
    by_cases hqi : q = i
    · subst q
      obtain rfl : x = xt := Option.some.inj (hq.symm.trans hs1)
      by_cases hjt : j = t
      · subst j
        obtain rfl : y = vi := Option.some.inj (hj.symm.trans hs2)
        exact hlt
      · by_cases hji : j = i
        · exact absurd hji (by have := childOf_lt hc; omega)
        · rw [hs3 j hji hjt] at hj
          exact hsib j y hc hjt hj
    · by_cases hji : j = i
      · subst j
        obtain rfl : y = xt := Option.some.inj (hj.symm.trans hs1)
        rw [hs3 q hqi hqt] at hq
        exact hinv.2 q t x y hc hti hq hxt
      · by_cases hjt : j = t
        · subst j
          exact absurd (childOf_parent_eq hc hti) hqi
        · rw [hs3 q hqi hqt] at hq
          rw [hs3 j hji hjt] at hj
          exact hinv.1 q j x y hc hqi hq hj
  · intro pi j x y hcpi hc hpi hj
    have hpii : pi = i := childOf_parent_eq hcpi hti
    subst pi
    obtain rfl : x = xt := Option.some.inj (hpi.symm.trans hs1)
    have hji : j ≠ i := by have h1 := childOf_lt hc; have h2 := childOf_lt hti; omega
    have hjt : j ≠ t := by have := childOf_lt hc; omega
    rw [hs3 j hji hjt] at hj
    exact hinv.1 t j x y hc (fun hh => hit hh.symm) hxt hj

theorem heapifyDownGo_spec {α W : Type} [LinearOrderedCommRing W] :
    ∀ (fuel : Nat) (l : List (α × W)) (i : Nat), l.length ≤ i + fuel →
      PriorityQueue.DownInv l i →
      PriorityQueue.HeapProp (PriorityQueue.heapifyDownGo fuel l i) ∧
      (∀ x, x ∈ PriorityQueue.heapifyDownGo fuel l i ↔ x ∈ l) ∧
      (PriorityQueue.heapifyDownGo fuel l i).length = l.length := by
  intro fuel
  induction fuel with
  | zero =>
    intro l i hlen hinv
    refine ⟨?_, fun x => Iff.rfl, rfl⟩
    intro p j x y hc hp hj
    by_cases hpi : p = i
    · subst p
      have hjb := get?_lt_length l j y hj
      omega
    · exact hinv.1 p j x y hc hpi hp hj
  | succ fuel ih =>
    intro l i hlen hinv
    by_cases h1 : 2 * i + 1 < l.length ∧ PriorityQueue.prioLt l (2 * i + 1) i = true
    · by_cases h2 : 2 * i + 2 < l.length ∧
          PriorityQueue.prioLt l (2 * i + 2) (2 * i + 1) = true
      · -- both children beat: t2 = 2i+2
        have heq : PriorityQueue.heapifyDownGo (fuel + 1) l i
            = PriorityQueue.heapifyDownGo fuel
                (PriorityQueue.hswap l i (2 * i + 2)) (2 * i + 2) := by
          have hne : ¬ (2 * i + 2 = i) := by omega
          simp only [PriorityQueue.heapifyDownGo, h1, h2, and_self,
            if_true, hne, if_false]
        rw [heq]
        obtain ⟨xc2, xc1, hg2, hg1, hlt21⟩ :=
          (prioLt_true_iff l (2 * i + 2) (2 * i + 1)).mp h2.2
        obtain ⟨xc1', vi, hg1', hgi, hlt1i⟩ :=
          (prioLt_true_iff l (2 * i + 1) i).mp h1.2
        have hx11 : xc1' = xc1 := Option.some.inj (hg1'.symm.trans hg1)
        subst xc1'
        have hrec := ih (PriorityQueue.hswap l i (2 * i + 2)) (2 * i + 2)
          (by rw [PriorityQueue.hswap_length]; omega)
          (downInv_swap l i (2 * i + 2) hinv (Or.inr rfl) vi xc2 hgi hg2
            (le_of_lt (lt_trans hlt21 hlt1i))
            (by intro j xj hcj hjne hgj
                obtain rfl : j = 2 * i + 1 := by omega
                obtain rfl : xj = xc1 := Option.some.inj (hgj.symm.trans hg1)
                exact le_of_lt hlt21))
        refine ⟨hrec.1, ?_, ?_⟩
        · intro x
          exact (hrec.2.1 x).trans
            (hswap_mem l i (2 * i + 2) vi xc2 hgi hg2 x)
        · exact hrec.2.2.trans (PriorityQueue.hswap_length l i (2 * i + 2))
      · -- only the first child beats: t2 = 2i+1
        have heq : PriorityQueue.heapifyDownGo (fuel + 1) l i
            = PriorityQueue.heapifyDownGo fuel
                (PriorityQueue.hswap l i (2 * i + 1)) (2 * i + 1) := by
          have hne : ¬ (2 * i + 1 = i) := by omega
          simp only [PriorityQueue.heapifyDownGo, h1, h2, and_self,
            if_true, if_false, hne]
        rw [heq]
        obtain ⟨xc1, vi, hg1, hgi, hlt1i⟩ :=
          (prioLt_true_iff l (2 * i + 1) i).mp h1.2
        have hrec := ih (PriorityQueue.hswap l i (2 * i + 1)) (2 * i + 1)
          (by rw [PriorityQueue.hswap_length]; omega)
          (downInv_swap l i (2 * i + 1) hinv (Or.inl rfl) vi xc1 hgi hg1
            (le_of_lt hlt1i)
            (by intro j xj hcj hjne hgj
                obtain rfl : j = 2 * i + 2 := by omega
                refine prioLt_false l (2 * i + 2) (2 * i + 1) xj xc1 hgj hg1 ?_
                intro hcon
                exact h2 ⟨get?_lt_length l _ xj hgj, hcon⟩))
        refine ⟨hrec.1, ?_, ?_⟩
        · intro x
          exact (hrec.2.1 x).trans
            (hswap_mem l i (2 * i + 1) vi xc1 hgi hg1 x)
        · exact hrec.2.2.trans (PriorityQueue.hswap_length l i (2 * i + 1))
    · by_cases h2 : 2 * i + 2 < l.length ∧
          PriorityQueue.prioLt l (2 * i + 2) i = true
      · -- only the second child beats: t2 = 2i+2
        have heq : PriorityQueue.heapifyDownGo (fuel + 1) l i
            = PriorityQueue.heapifyDownGo fuel
                (PriorityQueue.hswap l i (2 * i + 2)) (2 * i + 2) := by
          have hne : ¬ (2 * i + 2 = i) := by omega
          simp only [PriorityQueue.heapifyDownGo, h1, h2, and_self,
            if_false, if_true, hne]
        rw [heq]
        obtain ⟨xc2, vi, hg2, hgi, hlt2i⟩ :=
          (prioLt_true_iff l (2 * i + 2) i).mp h2.2
        have hrec := ih (PriorityQueue.hswap l i (2 * i + 2)) (2 * i + 2)
          (by rw [PriorityQueue.hswap_length]; omega)
          (downInv_swap l i (2 * i + 2) hinv (Or.inr rfl) vi xc2 hgi hg2
            (le_of_lt hlt2i)
            (by intro j xj hcj hjne hgj
                obtain rfl : j = 2 * i + 1 := by omega
                have hvile : vi.2 ≤ xj.2 := by
                  refine prioLt_false l (2 * i + 1) i xj vi hgj hgi ?_
                  intro hcon
                  exact h1 ⟨get?_lt_length l _ xj hgj, hcon⟩
                exact le_trans (le_of_lt hlt2i) hvile))
        refine ⟨hrec.1, ?_, ?_⟩
        · intro x
          exact (hrec.2.1 x).trans
            (hswap_mem l i (2 * i + 2) vi xc2 hgi hg2 x)
        · exact hrec.2.2.trans (PriorityQueue.hswap_length l i (2 * i + 2))
      · -- no child beats: stop and the heap property holds
        have heq : PriorityQueue.heapifyDownGo (fuel + 1) l i = l := by
          simp only [PriorityQueue.heapifyDownGo, h1, h2, if_false, if_true]
        rw [heq]
        refine ⟨?_, fun x => Iff.rfl, rfl⟩
        intro p j x y hc hp hj
        by_cases hpi : p = i
        · subst p
          have hjb := get?_lt_length l j y hj
          rcases hc with rfl | rfl
          · refine prioLt_false l (2 * i + 1) i y x hj hp ?_
            intro hcon
            exact h1 ⟨hjb, hcon⟩
          · refine prioLt_false l (2 * i + 2) i y x hj hp ?_
            intro hcon
            exact h2 ⟨hjb, hcon⟩
        · exact hinv.1 p j x y hc hpi hp hj

theorem enqueue_spec {α W : Type} [LinearOrderedCommRing W]
    (q : PriorityQueue α W) (it : α) (pr : W)
    (hq : PriorityQueue.HeapProp q.heap) :
    PriorityQueue.HeapProp (q.enqueue it pr).heap ∧
    (∀ x, x ∈ (q.enqueue it pr).heap ↔ x ∈ q.heap ∨ x = (it, pr)) ∧
    (q.enqueue it pr).heap.length = q.heap.length + 1 := by
  have hui : PriorityQueue.UpInv (q.heap ++ [(it, pr)]) q.heap.length := by
    constructor
    · intro p j x y hc hji hp hj
      have hjb := get?_lt_length _ j y hj
      rw [List.length_append, List.length_singleton] at hjb
      have hjn : j < q.heap.length := by omega
      have hpn : p < q.heap.length := by
        have := childOf_lt hc
        omega
      rw [List.get?_append hjn] at hj
      rw [List.get?_append hpn] at hp
      exact hq p j x y hc hp hj
    · intro _ j x y hc _ hj
      have hjb := get?_lt_length _ j y hj
      rw [List.length_append, List.length_singleton] at hjb
      rcases hc with rfl | rfl <;> omega
  have hspec := heapifyUpGo_spec (q.heap.length + 1)
    (q.heap ++ [(it, pr)]) q.heap.length (by omega) hui
  refine ⟨hspec.1, ?_, ?_⟩
  · intro x
    rw [show (q.enqueue it pr).heap
        = PriorityQueue.heapifyUpGo (q.heap.length + 1)
            (q.heap ++ [(it, pr)]) q.heap.length from rfl]
    rw [hspec.2.1 x, List.mem_append, List.mem_singleton]
  · rw [show (q.enqueue it pr).heap
        = PriorityQueue.heapifyUpGo (q.heap.length + 1)
            (q.heap ++ [(it, pr)]) q.heap.length from rfl]
    rw [hspec.2.2, List.length_append, List.length_singleton]

theorem dequeue_spec {α W : Type} [LinearOrderedCommRing W]
    (q : PriorityQueue α W) (hq : PriorityQueue.HeapProp q.heap)
    (x : α × W) (rest : List (α × W)) (hx : q.heap = x :: rest) :
    q.dequeue.1 = some x.1 ∧
    PriorityQueue.HeapProp q.dequeue.2.heap ∧
    (∀ y ∈ q.dequeue.2.heap, y ∈ rest) ∧
    (∀ y ∈ rest, y ∈ q.dequeue.2.heap) ∧
    q.dequeue.2.heap.length = rest.length ∧
    (∀ y ∈ q.heap, x.2 ≤ y.2) := by
  have hmin : ∀ y ∈ q.heap, x.2 ≤ y.2 :=
    heapProp_root_min q.heap hq x (by rw [hx]; rfl)
  cases hrest : rest with
  | nil =>
    subst hrest
    have hdq : q.dequeue = (some x.1, ⟨[]⟩) := by
      rw [show q.dequeue = match q.heap with
          | [] => (none, q)
          | [y] => (some y.1, (⟨[]⟩ : PriorityQueue α W))
          | y :: r =>
            (some y.1, ⟨PriorityQueue.heapifyDown
              (((y :: r).dropLast).set 0 (r.getLastD y)) 0⟩) from rfl]
      rw [hx]
    rw [hdq]
    refine ⟨rfl, ?_, ?_, ?_, rfl, hmin⟩
    · intro i j a b hc ha hb
      simp at ha
    · intro y hy
      simp at hy
    · intro y hy
      exact absurd hy (List.not_mem_nil y)
  | cons r0 rtail =>
    subst hrest
    have hrne : (r0 :: rtail : List (α × W)) ≠ [] := by simp
    have hlast := List.getLast_mem hrne
    have hsplit := List.dropLast_concat_getLast hrne
    have hdq : q.dequeue = (some x.1,
        ⟨PriorityQueue.heapifyDown
          (((r0 :: rtail).getLastD x) :: (r0 :: rtail).dropLast) 0⟩) := by
      rw [show q.dequeue = match q.heap with
          | [] => (none, q)
          | [y] => (some y.1, (⟨[]⟩ : PriorityQueue α W))
          | y :: r =>
            (some y.1, ⟨PriorityQueue.heapifyDown
              (((y :: r).dropLast).set 0 (r.getLastD y)) 0⟩) from rfl]
      rw [hx]
      show (some x.1, (⟨PriorityQueue.heapifyDown
          (((x :: r0 :: rtail).dropLast).set 0 ((r0 :: rtail).getLastD x)) 0⟩
          : PriorityQueue α W))
        = (some x.1, ⟨PriorityQueue.heapifyDown
          (((r0 :: rtail).getLastD x) :: (r0 :: rtail).dropLast) 0⟩)
      rw [List.dropLast_cons_of_ne_nil hrne, List.set_cons_zero]
    have hgld : (r0 :: rtail).getLastD x = (r0 :: rtail).getLast hrne := by
      rw [List.getLastD_eq_getLast?, List.getLast?_eq_getLast _ hrne]
      rfl
    -- the pre-sink list: elements are exactly those of rest
    have hl0mem : ∀ y,
        (y ∈ ((r0 :: rtail).getLastD x) :: (r0 :: rtail).dropLast
          ↔ y ∈ r0 :: rtail) := by
      intro y
      constructor
      · intro hy
        rcases List.mem_cons.mp hy with rfl | hy
        · rw [hgld]; exact hlast
        · exact List.mem_of_mem_dropLast hy
      · intro hy
        rw [← hsplit] at hy
        rcases List.mem_append.mp hy with hy | hy
        · exact List.mem_cons_of_mem _ hy
        · rw [List.mem_singleton] at hy
          subst hy
          rw [hgld]
          exact List.mem_cons_self _ _
    have hl0len : (((r0 :: rtail).getLastD x)
        :: (r0 :: rtail).dropLast).length = (r0 :: rtail).length := by
      simp [List.length_dropLast]
    -- DownInv of the pre-sink list at the root
    have hdi : PriorityQueue.DownInv
        (((r0 :: rtail).getLastD x) :: (r0 :: rtail).dropLast) 0 := by
      constructor
      · intro p j a b hc hp0 hga hgb
        have hppos : 0 < p := Nat.pos_of_ne_zero hp0
        have hjpos : 0 < j := by have := childOf_lt hc; omega
        have hjb := get?_lt_length _ j b hgb
        rw [hl0len] at hjb
        -- translate positions ≥ 1 to the original heap
        have htrans : ∀ k c, 0 < k → k < (r0 :: rtail).length →
            (((r0 :: rtail).getLastD x)
              :: (r0 :: rtail).dropLast).get? k = some c →
            q.heap.get? k = some c := by
          intro k c hk hkb hg
          rw [show (((r0 :: rtail).getLastD x)
              :: (r0 :: rtail).dropLast).get? k
            = ((r0 :: rtail).dropLast).get? (k - 1) from by
              cases k with
              | zero => omega
              | succ k => rfl] at hg
          rw [List.get?_eq_getElem?, List.getElem?_dropLast,
            if_pos (by simp at hkb ⊢; omega)] at hg
          rw [hx]
          rw [show (x :: r0 :: rtail).get? k = (r0 :: rtail).get? (k - 1) from by
            cases k with
            | zero => omega
            | succ k => rfl]
          rw [List.get?_eq_getElem?]
          exact hg
        have hpb : p < (r0 :: rtail).length := by
          have := childOf_lt hc
          omega
        have ha' := htrans p a hppos hpb hga
        have hb' := htrans j b hjpos hjb hgb
        exact hq p j a b hc ha' hb'
      · intro pi j a b hcpi _ _ _
        have := childOf_lt hcpi
        omega
    have hds := heapifyDownGo_spec
      ((((r0 :: rtail).getLastD x) :: (r0 :: rtail).dropLast).length + 1)
      (((r0 :: rtail).getLastD x) :: (r0 :: rtail).dropLast) 0
      (by omega) hdi
    rw [hdq]
    refine ⟨rfl, hds.1, ?_, ?_, ?_, hmin⟩
    · intro y hy
      exact (hl0mem y).mp ((hds.2.1 y).mp hy)
    · intro y hy
      exact (hds.2.1 y).mpr ((hl0mem y).mpr hy)
    · exact hds.2.2.trans hl0len

/-! ## Shortest-path support: initial maps, adjacency, arcs, walks -/

theorem mapGet_foldl_init {β : Type} (f : String → β) :
    ∀ (l : List String) (init : List (String × β)) (x : String),
      mapGet (l.foldl (fun m v => mapSet m v (f v)) init) x
        = if x ∈ l then some (f x) else mapGet init x := by
  intro l
  induction l with
  | nil => intro init x; simp
  | cons v rest ih =>
    intro init x
    rw [List.foldl_cons, ih]
    by_cases hx : x ∈ rest
    · rw [if_pos hx, if_pos (List.mem_cons_of_mem _ hx)]
    · rw [if_neg hx]
      by_cases hxv : x = v
      · subst hxv
        rw [if_pos (List.mem_cons_self _ _), mapGet_mapSet_self]
      · rw [if_neg (by simp [hxv, hx]), mapGet_mapSet_ne _ _ _ _ hxv]

theorem mem_pushWAdj {W : Type} [LinearOrderedCommRing W]
    (m : List (String × List (String × W))) (k : String)
    (v : String × W) (u : String) (x : String × W) :
    x ∈ (mapGet (ShortestPathService.pushWAdj m k v) u).getD [] ↔
      x ∈ (mapGet m u).getD [] ∨ (u = k ∧ x = v) := by
  unfold ShortestPathService.pushWAdj
  by_cases hu : u = k
  · subst u
    rw [mapGet_mapSet_self]
    simp
  · rw [mapGet_mapSet_ne _ _ _ _ hu]
    simp [hu]

theorem dijkAdj_fold {W : Type} [LinearOrderedCommRing W]
    (G : GraphAPI W) (isW : Bool) :
    ∀ (es : List (MGEdge W)) (init : List (String × List (String × W)))
      (u : String) (x : String × W),
      x ∈ (mapGet (es.foldl
          (fun m e =>
            let m' := ShortestPathService.pushWAdj m e.source
              (e.target, if isW then e.weight else 1)
            if G.graphType = GraphType.directed then m'
            else ShortestPathService.pushWAdj m' e.target
              (e.source, if isW then e.weight else 1)) init) u).getD []
        ↔ x ∈ (mapGet init u).getD [] ∨
          (∃ e ∈ es, e.source = u ∧ e.target = x.1 ∧
            (if isW then e.weight else 1) = x.2) ∨
          (¬ G.graphType = GraphType.directed ∧ ∃ e ∈ es,
            e.target = u ∧ e.source = x.1 ∧
            (if isW then e.weight else 1) = x.2) := by
  intro es
  induction es with
  | nil => intro init u x; simp
  | cons e rest ih =>
    intro init u x
    rw [List.foldl_cons, ih]
    by_cases hdir : G.graphType = GraphType.directed
    · dsimp only
      rw [if_pos hdir]
      rw [mem_pushWAdj]
      constructor
      · rintro ((h | ⟨rfl, rfl⟩) | h | h)
        · exact Or.inl h
        · exact Or.inr (Or.inl ⟨e, List.mem_cons_self _ _, rfl, rfl, rfl⟩)
        · obtain ⟨e', he', h1, h2, h3⟩ := h
          exact Or.inr (Or.inl ⟨e', List.mem_cons_of_mem _ he', h1, h2, h3⟩)
        · exact absurd hdir h.1
      · rintro (h | h | h)
        · exact Or.inl (Or.inl h)
        · obtain ⟨e', he', h1, h2, h3⟩ := h
          rcases List.mem_cons.mp he' with rfl | he'
          · refine Or.inl (Or.inr ⟨h1.symm, ?_⟩)
            obtain ⟨x1, x2⟩ := x
            simp only at h2 h3
            rw [h2, h3]
          · exact Or.inr (Or.inl ⟨e', he', h1, h2, h3⟩)
        · exact absurd hdir h.1
    · dsimp only
      rw [if_neg hdir]
      rw [mem_pushWAdj, mem_pushWAdj]
      constructor
      · rintro (((h | ⟨rfl, rfl⟩) | ⟨rfl, rfl⟩) | h | h)
        · exact Or.inl h
        · exact Or.inr (Or.inl ⟨e, List.mem_cons_self _ _, rfl, rfl, rfl⟩)
        · exact Or.inr (Or.inr ⟨hdir, e, List.mem_cons_self _ _, rfl, rfl, rfl⟩)
        · obtain ⟨e', he', h1, h2, h3⟩ := h
          exact Or.inr (Or.inl ⟨e', List.mem_cons_of_mem _ he', h1, h2, h3⟩)
        · obtain ⟨hd, e', he', h1, h2, h3⟩ := h
          exact Or.inr (Or.inr ⟨hd, e', List.mem_cons_of_mem _ he', h1, h2, h3⟩)
      · rintro (h | h | h)
        · exact Or.inl (Or.inl (Or.inl h))
        · obtain ⟨e', he', h1, h2, h3⟩ := h
          rcases List.mem_cons.mp he' with rfl | he'
          · refine Or.inl (Or.inl (Or.inr ⟨h1.symm, ?_⟩))
            obtain ⟨x1, x2⟩ := x
            simp only at h2 h3
            rw [h2, h3]
          · exact Or.inr (Or.inl ⟨e', he', h1, h2, h3⟩)
        · obtain ⟨hd, e', he', h1, h2, h3⟩ := h
          rcases List.mem_cons.mp he' with rfl | he'
          · refine Or.inl (Or.inr ⟨h1.symm, ?_⟩)
            obtain ⟨x1, x2⟩ := x
            simp only at h2 h3
            rw [h2, h3]
          · exact Or.inr (Or.inr ⟨hd, e', he', h1, h2, h3⟩)

/-- The bucket of `u` inside Dijkstra's weighted adjacency holds exactly
the arcs out of `u`. -/
theorem dijkstraAdjacency_arc {W : Type} [LinearOrderedCommRing W]
    (G : GraphAPI W) (u : String) (x : String × W) :
    x ∈ (mapGet (ShortestPathService.dijkstraAdjacency G true) u).getD []
      ↔ ShortestPathService.Arc G u x.1 x.2 := by
  have h := dijkAdj_fold G true G.edges [] u x
  rw [show ShortestPathService.dijkstraAdjacency G true
      = G.edges.foldl
          (fun m e =>
            let m' := ShortestPathService.pushWAdj m e.source
              (e.target, if true then e.weight else 1)
            if G.graphType = GraphType.directed then m'
            else ShortestPathService.pushWAdj m' e.target
              (e.source, if true then e.weight else 1)) [] from rfl]
  rw [h]
  simp only [mapGet, Option.getD_none, List.not_mem_nil, false_or, if_true]
  unfold ShortestPathService.Arc
  constructor
  · rintro (⟨e, he, h1, h2, h3⟩ | ⟨hd, e, he, h1, h2, h3⟩)
    · exact Or.inl ⟨e, he, h1, h2, h3⟩
    · exact Or.inr ⟨hd, e, he, h2, h1, h3⟩
  · rintro (⟨e, he, h1, h2, h3⟩ | ⟨hd, e, he, h1, h2, h3⟩)
    · exact Or.inl ⟨e, he, h1, h2, h3⟩
    · exact Or.inr ⟨hd, e, he, h2, h1, h3⟩

theorem bfEdgeList_arc_fwd {W : Type} [LinearOrderedCommRing W]
    (G : GraphAPI W) (e : MGEdge W)
    (he : e ∈ ShortestPathService.bfEdgeList G) :
    ShortestPathService.Arc G e.source e.target e.weight := by
  unfold ShortestPathService.bfEdgeList at he
  rcases List.mem_append.mp he with he | he
  · exact Or.inl ⟨e, he, rfl, rfl, rfl⟩
  · by_cases hdir : G.graphType = GraphType.directed
    · rw [if_pos hdir] at he
      exact absurd he (List.not_mem_nil e)
    · rw [if_neg hdir] at he
      obtain ⟨e0, he0, rfl⟩ := List.mem_map.mp he
      exact Or.inr ⟨hdir, e0, he0, rfl, rfl, rfl⟩

theorem bfEdgeList_arc_rev {W : Type} [LinearOrderedCommRing W]
    (G : GraphAPI W) (u v : String) (w : W)
    (h : ShortestPathService.Arc G u v w) :
    ∃ e ∈ ShortestPathService.bfEdgeList G,
      e.source = u ∧ e.target = v ∧ e.weight = w := by
  unfold ShortestPathService.bfEdgeList
  rcases h with ⟨e, he, h1, h2, h3⟩ | ⟨hdir, e, he, h1, h2, h3⟩
  · exact ⟨e, List.mem_append_left _ he, h1, h2, h3⟩
  · refine ⟨⟨e.id ++ "_reverse", e.target, e.source, e.weight⟩,
      List.mem_append_right _ ?_, h2, h1, h3⟩
    rw [if_neg hdir]
    exact List.mem_map_of_mem _ he

theorem arc_endpoints {W : Type} [LinearOrderedCommRing W]
    (G : GraphAPI W)
    (hwf : ∀ e ∈ G.edges, e.source ∈ G.vertices ∧ e.target ∈ G.vertices)
    (u v : String) (w : W) (h : ShortestPathService.Arc G u v w) :
    u ∈ G.vertices ∧ v ∈ G.vertices := by
  rcases h with ⟨e, he, h1, h2, _⟩ | ⟨_, e, he, h1, h2, _⟩
  · exact ⟨h1 ▸ (hwf e he).1, h2 ▸ (hwf e he).2⟩
  · exact ⟨h2 ▸ (hwf e he).2, h1 ▸ (hwf e he).1⟩

theorem arc_nonneg {W : Type} [LinearOrderedCommRing W]
    (G : GraphAPI W) (hnn : ∀ e ∈ G.edges, 0 ≤ e.weight)
    (u v : String) (w : W) (h : ShortestPathService.Arc G u v w) :
    0 ≤ w := by
  rcases h with ⟨e, he, _, _, h3⟩ | ⟨_, e, he, _, _, h3⟩
  · exact h3 ▸ hnn e he
  · exact h3 ▸ hnn e he

/-! ## Bellman-Ford: invariant preservation and the fixpoint bound -/

theorem bfRelaxEdge_inv {W : Type} [LinearOrderedCommRing W]
    (G : GraphAPI W) (s : String)
    (st : List (String × WithTop W) × List (String × Option String) × Bool)
    (e : MGEdge W)
    (harc : ShortestPathService.Arc G e.source e.target e.weight)
    (hinv : ShortestPathService.BFInv G s st.1) :
    ShortestPathService.BFInv G s
      (ShortestPathService.bfRelaxEdge true st e).1 := by
  unfold ShortestPathService.bfRelaxEdge
  cases hsrc : mapGet st.1 e.source with
  | none => exact hinv
  | some du =>
    cases htgt : mapGet st.1 e.target with
    | none => exact hinv
    | some dv =>
      cases du with
      | top => exact hinv
      | coe u =>
        dsimp only
        by_cases hlt : ((u + (if true then e.weight else 1) : W)
            : WithTop W) < dv
        · rw [if_pos hlt]
          refine ⟨?_, ?_, ?_⟩
          · intro v hv
            obtain ⟨d, hd⟩ := hinv.dom v hv
            by_cases hveq : v = e.target
            · subst v
              exact ⟨_, mapGet_mapSet_self _ _ _⟩
            · exact ⟨d, (mapGet_mapSet_ne _ _ _ _ hveq).trans hd⟩
          · obtain ⟨d, hd, hd0⟩ := hinv.src
            by_cases hseq : s = e.target
            · subst hseq
              refine ⟨_, mapGet_mapSet_self _ _ _, ?_⟩
              have hdv : dv = d := Option.some.inj (htgt.symm.trans hd)
              subst hdv
              exact le_of_lt (lt_of_lt_of_le hlt hd0)
            · exact ⟨d, (mapGet_mapSet_ne _ _ _ _ hseq).trans hd, hd0⟩
          · intro v c hc
            by_cases hveq : v = e.target
            · subst v
              rw [mapGet_mapSet_self] at hc
              have hcv : ((u + (if true then e.weight else 1) : W)
                  : WithTop W) = ((c : W) : WithTop W) :=
                Option.some.inj hc
              rw [WithTop.coe_eq_coe] at hcv
              rw [← hcv]
              show ShortestPathService.WalkCost G s e.target (u + e.weight)
              exact ShortestPathService.WalkCost.step
                (hinv.sound e.source u hsrc) harc
            · rw [mapGet_mapSet_ne _ _ _ _ hveq] at hc
              exact hinv.sound v c hc
        · rw [if_neg hlt]
          exact hinv

theorem bfRound_inv {W : Type} [LinearOrderedCommRing W]
    (G : GraphAPI W) (s : String) :
    ∀ (es : List (MGEdge W))
      (st : List (String × WithTop W) × List (String × Option String) × Bool),
      (∀ e ∈ es, ShortestPathService.Arc G e.source e.target e.weight) →
      ShortestPathService.BFInv G s st.1 →
      ShortestPathService.BFInv G s
        (es.foldl (ShortestPathService.bfRelaxEdge true) st).1 := by
  intro es
  induction es with
  | nil => intro st _ hinv; exact hinv
  | cons e rest ih =>
    intro st harcs hinv
    rw [List.foldl_cons]
    exact ih _ (fun e' he' => harcs e' (List.mem_cons_of_mem _ he'))
      (bfRelaxEdge_inv G s st e (harcs e (List.mem_cons_self _ _)) hinv)

theorem bfRounds_inv {W : Type} [LinearOrderedCommRing W]
    (G : GraphAPI W) (s : String) (es : List (MGEdge W))
    (harcs : ∀ e ∈ es, ShortestPathService.Arc G e.source e.target e.weight) :
    ∀ (n : Nat) (dists : List (String × WithTop W))
      (preds : List (String × Option String)),
      ShortestPathService.BFInv G s dists →
      ShortestPathService.BFInv G s
        (ShortestPathService.bfRounds es true n dists preds).1 := by
  intro n
  induction n with
  | zero => intro dists preds hinv; exact hinv
  | succ n ih =>
    intro dists preds hinv
    rw [show ShortestPathService.bfRounds es true (n + 1) dists preds
        = (let r := ShortestPathService.bfRound es true dists preds
           if r.2.2 then ShortestPathService.bfRounds es true n r.1 r.2.1
           else (r.1, r.2.1)) from rfl]
    dsimp only
    by_cases hupd : (ShortestPathService.bfRound es true dists preds).2.2 = true
    · rw [if_pos hupd]
      exact ih _ _ (bfRound_inv G s es (dists, preds, false) harcs hinv)
    · rw [if_neg hupd]
      exact bfRound_inv G s es (dists, preds, false) harcs hinv

theorem bfHasRelaxable_false {W : Type} [LinearOrderedCommRing W]
    (es : List (MGEdge W)) (ds : List (String × WithTop W))
    (h : ShortestPathService.bfHasRelaxable es true ds = false) :
    ∀ e ∈ es, ∀ (u : W) (dv : WithTop W),
      mapGet ds e.source = some ((u : W) : WithTop W) →
      mapGet ds e.target = some dv →
      dv ≤ ((u + e.weight : W) : WithTop W) := by
  intro e he u dv hu hv
  by_contra hcon
  push_neg at hcon
  have htrue : ShortestPathService.bfHasRelaxable es true ds = true := by
    rw [ShortestPathService.bfHasRelaxable, List.any_eq_true]
    refine ⟨e, he, ?_⟩
    dsimp only
    rw [hu, hv]
    show decide (((u + e.weight : W) : WithTop W) < dv) = true
    rw [decide_eq_true_eq]
    exact hcon
  rw [h] at htrue
  exact Bool.noConfusion htrue

/-- Every finite distance entry of a fixpoint map bounds every walk cost:
the Bellman-Ford lower-bound argument. -/
theorem bf_fixpoint_lb {W : Type} [LinearOrderedCommRing W]
    (G : GraphAPI W) (s : String)
    (hwf : ∀ e ∈ G.edges, e.source ∈ G.vertices ∧ e.target ∈ G.vertices)
    (ds : List (String × WithTop W))
    (hinv : ShortestPathService.BFInv G s ds)
    (hfix : ∀ e ∈ ShortestPathService.bfEdgeList G, ∀ (u : W) (dv : WithTop W),
      mapGet ds e.source = some ((u : W) : WithTop W) →
      mapGet ds e.target = some dv →
      dv ≤ ((u + e.weight : W) : WithTop W)) :
    ∀ z (c : W), ShortestPathService.WalkCost G s z c →
      ∃ dz, mapGet ds z = some dz ∧ dz ≤ ((c : W) : WithTop W) := by
  intro z c hw
  induction hw with
  | refl =>
    obtain ⟨d, hd, hd0⟩ := hinv.src
    exact ⟨d, hd, by simpa using hd0⟩
  | step hw harc ih =>
    obtain ⟨dy, hdy, hdyle⟩ := ih
    obtain ⟨yv, rfl, hyvle⟩ := WithTop.le_coe_iff.mp hdyle
    obtain ⟨e, he, hes, het, hew⟩ := bfEdgeList_arc_rev G _ _ _ harc
    have htv : e.target ∈ G.vertices := by
      rw [het]
      exact (arc_endpoints G hwf _ _ _ harc).2
    obtain ⟨dz, hdz⟩ := hinv.dom _ htv
    have hstep := hfix e he yv dz (by rw [hes]; exact hdy) hdz
    refine ⟨dz, het ▸ hdz, le_trans hstep ?_⟩
    rw [hew, WithTop.coe_le_coe]
    exact add_le_add_right hyvle _

/-! ## Dijkstra: the greedy lower-bound arguments -/

/-- Any lower bound of the frontier priorities bounds the cost of every
walk to an unvisited vertex. -/
theorem pop_min_bound {W : Type} [LinearOrderedCommRing W]
    (G : GraphAPI W) (s : String) (st : ShortestPathService.DijkState W)
    (hinv : ShortestPathService.DijkInv G s st)
    (hnn : ∀ e ∈ G.edges, 0 ≤ e.weight)
    (dmin : W) (hmin : ∀ p ∈ st.pq.heap, dmin ≤ p.2) :
    ∀ z (c : W), ShortestPathService.WalkCost G s z c →
      ¬ z ∈ st.visited → dmin ≤ c := by
  intro z c hw
  induction hw with
  | refl =>
    intro hz
    obtain ⟨d, hd, hd0⟩ := hinv.src
    have hd0' : d ≤ ((0 : W) : WithTop W) := by simpa using hd0
    obtain ⟨d0, rfl, hd0f⟩ := WithTop.le_coe_iff.mp hd0'
    obtain ⟨p, hp, hpn, hpd⟩ := hinv.unvis_entry s hz d0 hd
    have h1 := hmin p hp
    rw [hinv.pq_pair p hp, hpd] at h1
    exact le_trans h1 hd0f
  | @step v x c w hw harc ih =>
    intro hz
    have hwnn : 0 ≤ w := arc_nonneg G hnn _ _ _ harc
    by_cases hv : v ∈ st.visited
    · obtain ⟨du, hdu, hdopt⟩ := hinv.vis_opt v hv
      rcases hinv.vis_arc v hv _ _ harc with hxvis | ⟨du', dv, hdu', hdv, hle⟩
      · exact absurd hxvis hz
      · have hdueq : du' = ((du : W) : WithTop W) :=
          Option.some.inj (hdu'.symm.trans hdu)
        subst hdueq
        have hdvle : dv ≤ ((du + w : W) : WithTop W) := by
          rw [WithTop.coe_add]
          exact hle
        obtain ⟨dvf, rfl, hdvf⟩ := WithTop.le_coe_iff.mp hdvle
        obtain ⟨p, hp, hpn, hpd⟩ := hinv.unvis_entry _ hz dvf hdv
        have h1 := hmin p hp
        rw [hinv.pq_pair p hp, hpd] at h1
        have h2 := hdopt c hw
        calc dmin ≤ dvf := h1
          _ ≤ du + w := hdvf
          _ ≤ c + w := add_le_add_right h2 w
    · have h1 := ih hv
      linarith

/-- With an empty frontier, every vertex reachable by a walk is already
visited. -/
theorem empty_no_unvisited_walk {W : Type} [LinearOrderedCommRing W]
    (G : GraphAPI W) (s : String) (st : ShortestPathService.DijkState W)
    (hinv : ShortestPathService.DijkInv G s st)
    (hempty : st.pq.heap = []) :
    ∀ z (c : W), ShortestPathService.WalkCost G s z c →
      z ∈ st.visited := by
  intro z c hw
  induction hw with
  | refl =>
    by_contra hz
    obtain ⟨d, hd, hd0⟩ := hinv.src
    have hd0' : d ≤ ((0 : W) : WithTop W) := by simpa using hd0
    obtain ⟨d0, rfl, _⟩ := WithTop.le_coe_iff.mp hd0'
    obtain ⟨p, hp, _, _⟩ := hinv.unvis_entry s hz d0 hd
    rw [hempty] at hp
    exact absurd hp (List.not_mem_nil p)
  | @step v x c w hw harc ih =>
    by_contra hz
    rcases hinv.vis_arc v ih _ _ harc with hxv | ⟨du, dv, hdu, hdv, hle⟩
    · exact hz hxv
    · obtain ⟨duf, hduf, _⟩ := hinv.vis_opt v ih
      have hdueq : du = ((duf : W) : WithTop W) :=
        Option.some.inj (hdu.symm.trans hduf)
      subst hdueq
      have hdvle : dv ≤ ((duf + w : W) : WithTop W) := by
        rw [WithTop.coe_add]
        exact hle
      obtain ⟨dvf, rfl, _⟩ := WithTop.le_coe_iff.mp hdvle
      obtain ⟨p, hp, _, _⟩ := hinv.unvis_entry x hz dvf hdv
      rw [hempty] at hp
      exact absurd hp (List.not_mem_nil p)

theorem unvisitedAdjLen_mono {W : Type} [LinearOrderedCommRing W]
    (adj : List (String × List (String × W))) (vis : List String)
    (u : String) :
    ShortestPathService.unvisitedAdjLen adj (vis ++ [u])
      ≤ ShortestPathService.unvisitedAdjLen adj vis := by
  unfold ShortestPathService.unvisitedAdjLen
  induction adj with
  | nil => simp
  | cons p rest ih =>
    simp only [List.filter_cons]
    by_cases hp : p.1 ∈ vis
    · rw [if_neg (by simp [List.mem_append, hp]), if_neg (by simp [hp])]
      exact ih
    · by_cases hu : p.1 = u
      · rw [if_neg (by simp [List.mem_append, hu]), if_pos (by simp [hp])]
        simp only [List.map_cons, List.sum_cons]
        exact le_trans ih (Nat.le_add_left _ _)
      · rw [if_pos (by simp [List.mem_append, hp, hu]),
          if_pos (by simp [hp])]
        simp only [List.map_cons, List.sum_cons]
        exact Nat.add_le_add_left ih _

theorem unvisitedAdjLen_insert {W : Type} [LinearOrderedCommRing W]
    (adj : List (String × List (String × W))) (vis : List String)
    (u : String) (hu : ¬ u ∈ vis) :
    ShortestPathService.unvisitedAdjLen adj (vis ++ [u])
      + ((mapGet adj u).getD []).length
      ≤ ShortestPathService.unvisitedAdjLen adj vis := by
  induction adj with
  | nil => simp [ShortestPathService.unvisitedAdjLen, mapGet]
  | cons p rest ih =>
    obtain ⟨k, b⟩ := p
    unfold ShortestPathService.unvisitedAdjLen at ih ⊢
    simp only [List.filter_cons]
    by_cases hk : k = u
    · subst hk
      rw [show mapGet ((k, b) :: rest) k = some b from by
        simp [mapGet]]
      rw [if_neg (by simp [List.mem_append]), if_pos (by simp [hu])]
      simp only [List.map_cons, List.sum_cons, Option.getD_some]
      have := unvisitedAdjLen_mono rest vis k
      unfold ShortestPathService.unvisitedAdjLen at this
      omega
    · rw [show mapGet ((k, b) :: rest) u = mapGet rest u from by
        simp [mapGet, hk]]
      by_cases hkv : k ∈ vis
      · rw [if_neg (by simp [List.mem_append, hkv]), if_neg (by simp [hkv])]
        exact ih
      · rw [if_pos (by simp [List.mem_append, hkv, hk]),
          if_pos (by simp [hkv])]
        simp only [List.map_cons, List.sum_cons]
        omega

/-- One relaxation step out of a visited vertex `u` whose entry is frozen
at `↑dist`: the core invariant is preserved, the processed arc becomes
accounted for, and accounted arcs stay accounted. -/
theorem dijkstraRelax_step {W : Type} [LinearOrderedCommRing W]
    (G : GraphAPI W) (s : String)
    (hwf : ∀ e ∈ G.edges, e.source ∈ G.vertices ∧ e.target ∈ G.vertices)
    (u : String) (dist : W) (x : String × W)
    (st : ShortestPathService.DijkState W)
    (hcore : ShortestPathService.DijkCore G s st)
    (hu : u ∈ st.visited)
    (hdu : mapGet st.distances u = some ((dist : W) : WithTop W))
    (hwalk : ShortestPathService.WalkCost G s u dist)
    (harc : ShortestPathService.Arc G u x.1 x.2) :
    ShortestPathService.DijkCore G s
      (ShortestPathService.dijkstraRelax u dist [x] st) ∧
    (ShortestPathService.dijkstraRelax u dist [x] st).visited
      = st.visited ∧
    mapGet (ShortestPathService.dijkstraRelax u dist [x] st).distances u
      = some ((dist : W) : WithTop W) ∧
    ShortestPathService.VisArc G
      (ShortestPathService.dijkstraRelax u dist [x] st) u x.1 x.2 ∧
    (∀ u' v w, u' ∈ st.visited →
      ShortestPathService.VisArc G st u' v w →
      ShortestPathService.VisArc G
        (ShortestPathService.dijkstraRelax u dist [x] st) u' v w) ∧
    (ShortestPathService.dijkstraRelax u dist [x] st).pq.heap.length
      ≤ st.pq.heap.length + 1 := by
  have hx1V : x.1 ∈ G.vertices := (arc_endpoints G hwf _ _ _ harc).2
  rw [show ShortestPathService.dijkstraRelax u dist [x] st
      = (if x.1 ∈ st.visited then st else
        match mapGet st.distances x.1 with
        | some currentNeighborDistance =>
          if (((dist + x.2 : W) : WithTop W)) < currentNeighborDistance then
            { st with
              distances := mapSet st.distances x.1
                ((dist + x.2 : W) : WithTop W),
              predecessors := mapSet st.predecessors x.1 (some u),
              pq := st.pq.enqueue ⟨x.1, dist + x.2⟩ (dist + x.2) }
          else st
        | none => st) from rfl]
  by_cases hxv : x.1 ∈ st.visited
  · rw [if_pos hxv]
    exact ⟨hcore, rfl, hdu, Or.inl hxv, fun u' v w _ h => h, Nat.le_succ _⟩
  · rw [if_neg hxv]
    cases hnd : mapGet st.distances x.1 with
    | none =>
      obtain ⟨d, hd⟩ := hcore.dom x.1 hx1V
      rw [hnd] at hd
      exact Option.noConfusion hd
    | some cnd =>
      dsimp only
      by_cases hlt : (((dist + x.2 : W) : WithTop W)) < cnd
      · rw [if_pos hlt]
        have hux : u ≠ x.1 := fun h => hxv (h ▸ hu)
        have henq := enqueue_spec st.pq ⟨x.1, dist + x.2⟩ (dist + x.2)
          hcore.heap
        refine ⟨⟨?_, ?_, ?_, ?_, ?_, ?_, henq.1, ?_, ?_⟩, rfl,
          (mapGet_mapSet_ne _ _ _ _ hux).trans hdu, ?_, ?_, ?_⟩
        · intro v hv
          by_cases hveq : v = x.1
          · subst v
            exact ⟨_, mapGet_mapSet_self _ _ _⟩
          · obtain ⟨d, hd⟩ := hcore.dom v hv
            exact ⟨d, (mapGet_mapSet_ne _ _ _ _ hveq).trans hd⟩
        · obtain ⟨d, hd, hd0⟩ := hcore.src
          by_cases hseq : s = x.1
          · have hcd : cnd = d := by
              rw [hseq] at hd
              exact Option.some.inj (hnd.symm.trans hd)
            refine ⟨_, by rw [hseq]; exact mapGet_mapSet_self _ _ _, ?_⟩
            exact le_of_lt (lt_of_lt_of_le hlt (hcd ▸ hd0))
          · exact ⟨d, (mapGet_mapSet_ne _ _ _ _ hseq).trans hd, hd0⟩
        · intro v c hc
          by_cases hveq : v = x.1
          · subst v
            rw [mapGet_mapSet_self] at hc
            have hceq : ((dist + x.2 : W) : WithTop W)
                = ((c : W) : WithTop W) := Option.some.inj hc
            rw [WithTop.coe_eq_coe] at hceq
            rw [← hceq]
            exact ShortestPathService.WalkCost.step hwalk harc
          · rw [mapGet_mapSet_ne _ _ _ _ hveq] at hc
            exact hcore.sound v c hc
        · intro p hp
          rcases (henq.2.1 p).mp hp with hp | rfl
          · exact hcore.pq_pair p hp
          · rfl
        · intro p hp
          rcases (henq.2.1 p).mp hp with hp | rfl
          · exact hcore.pq_sound p hp
          · exact ShortestPathService.WalkCost.step hwalk harc
        · intro p hp
          rcases (henq.2.1 p).mp hp with hp | rfl
          · obtain ⟨d, hd, hdle⟩ := hcore.pq_dom p hp
            by_cases hpeq : p.1.node = x.1
            · have hcd : d = cnd := by
                rw [hpeq] at hd
                exact Option.some.inj (hd.symm.trans hnd)
              refine ⟨_, by rw [hpeq]; exact mapGet_mapSet_self _ _ _, ?_⟩
              exact le_trans (le_of_lt hlt) (hcd ▸ hdle)
            · exact ⟨d, (mapGet_mapSet_ne _ _ _ _ hpeq).trans hd, hdle⟩
          · exact ⟨_, mapGet_mapSet_self _ _ _, le_refl _⟩
        · intro u' hu'
          obtain ⟨du', hdu', hopt⟩ := hcore.vis_opt u' hu'
          have hne : u' ≠ x.1 := fun h => hxv (h ▸ hu')
          exact ⟨du', (mapGet_mapSet_ne _ _ _ _ hne).trans hdu', hopt⟩
        · intro v hvv dv hdv
          by_cases hveq : v = x.1
          · subst v
            rw [mapGet_mapSet_self] at hdv
            have hdveq : ((dist + x.2 : W) : WithTop W)
                = ((dv : W) : WithTop W) := Option.some.inj hdv
            rw [WithTop.coe_eq_coe] at hdveq
            exact ⟨(⟨x.1, dist + x.2⟩, dist + x.2),
              (henq.2.1 _).mpr (Or.inr rfl), rfl, hdveq⟩
          · rw [mapGet_mapSet_ne _ _ _ _ hveq] at hdv
            obtain ⟨p, hp, h1, h2⟩ := hcore.unvis_entry v hvv dv hdv
            exact ⟨p, (henq.2.1 p).mpr (Or.inl hp), h1, h2⟩
        · refine Or.inr ⟨((dist : W) : WithTop W),
            ((dist + x.2 : W) : WithTop W),
            (mapGet_mapSet_ne _ _ _ _ hux).trans hdu,
            mapGet_mapSet_self _ _ _, ?_⟩
          rw [← WithTop.coe_add]
        · intro u' v w hu'v hva
          rcases hva with hvv | ⟨du', dv', hdu', hdv', hle⟩
          · exact Or.inl hvv
          · have hne' : u' ≠ x.1 := fun h => hxv (h ▸ hu'v)
            by_cases hveq : v = x.1
            · have hcd : dv' = cnd := by
                rw [hveq] at hdv'
                exact Option.some.inj (hdv'.symm.trans hnd)
              refine Or.inr ⟨du', ((dist + x.2 : W) : WithTop W),
                (mapGet_mapSet_ne _ _ _ _ hne').trans hdu',
                by rw [hveq]; exact mapGet_mapSet_self _ _ _, ?_⟩
              exact le_trans (le_of_lt (hcd ▸ hlt)) hle
            · exact Or.inr ⟨du', dv',
                (mapGet_mapSet_ne _ _ _ _ hne').trans hdu',
                (mapGet_mapSet_ne _ _ _ _ hveq).trans hdv', hle⟩
        · rw [show ({ st with
              distances := mapSet st.distances x.1
                ((dist + x.2 : W) : WithTop W),
              predecessors := mapSet st.predecessors x.1 (some u),
              pq := st.pq.enqueue ⟨x.1, dist + x.2⟩ (dist + x.2) }
                : ShortestPathService.DijkState W).pq
            = st.pq.enqueue ⟨x.1, dist + x.2⟩ (dist + x.2) from rfl,
            henq.2.2]
      · rw [if_neg hlt]
        refine ⟨hcore, rfl, hdu, ?_, fun u' v w _ h => h, Nat.le_succ _⟩
        refine Or.inr ⟨((dist : W) : WithTop W), cnd, hdu, hnd, ?_⟩
        rw [← WithTop.coe_add]
        exact not_lt.mp hlt

/-- Relaxing the whole neighbor list of a visited, frozen vertex. -/
theorem dijkstraRelax_fold {W : Type} [LinearOrderedCommRing W]
    (G : GraphAPI W) (s : String)
    (hwf : ∀ e ∈ G.edges, e.source ∈ G.vertices ∧ e.target ∈ G.vertices)
    (u : String) (dist : W) :
    ∀ (todo : List (String × W)) (st : ShortestPathService.DijkState W),
      ShortestPathService.DijkCore G s st →
      u ∈ st.visited →
      mapGet st.distances u = some ((dist : W) : WithTop W) →
      ShortestPathService.WalkCost G s u dist →
      (∀ x ∈ todo, ShortestPathService.Arc G u x.1 x.2) →
      ShortestPathService.DijkCore G s
        (ShortestPathService.dijkstraRelax u dist todo st) ∧
      (ShortestPathService.dijkstraRelax u dist todo st).visited
        = st.visited ∧
      (∀ x ∈ todo, ShortestPathService.VisArc G
        (ShortestPathService.dijkstraRelax u dist todo st) u x.1 x.2) ∧
      (∀ u' v w, u' ∈ st.visited →
        ShortestPathService.VisArc G st u' v w →
        ShortestPathService.VisArc G
          (ShortestPathService.dijkstraRelax u dist todo st) u' v w) ∧
      (ShortestPathService.dijkstraRelax u dist todo st).pq.heap.length
        ≤ st.pq.heap.length + todo.length := by
  intro todo
  induction todo with
  | nil =>
    intro st hcore hu hdu hwalk _
    exact ⟨hcore, rfl, by simp, fun u' v w _ h => h,
      by simp [ShortestPathService.dijkstraRelax]⟩
  | cons x rest ih =>
    intro st hcore hu hdu hwalk harcs
    obtain ⟨hc1, hv1, hdu1, hvax, hmono1, hlen1⟩ :=
      dijkstraRelax_step G s hwf u dist x st hcore hu hdu hwalk
        (harcs x (List.mem_cons_self _ _))
    have hconn : ShortestPathService.dijkstraRelax u dist (x :: rest) st
        = ShortestPathService.dijkstraRelax u dist rest
            (ShortestPathService.dijkstraRelax u dist [x] st) := rfl
    rw [hconn]
    obtain ⟨hc2, hv2, hvarcs2, hmono2, hlen2⟩ :=
      ih (ShortestPathService.dijkstraRelax u dist [x] st)
        hc1 (by rw [hv1]; exact hu) hdu1 hwalk
        (fun x' hx' => harcs x' (List.mem_cons_of_mem _ hx'))
    refine ⟨hc2, hv2.trans hv1, ?_, ?_, ?_⟩
    · intro x' hx'
      rcases List.mem_cons.mp hx' with rfl | hx'
      · exact hmono2 u x'.1 x'.2 (by rw [hv1]; exact hu) hvax
      · exact hvarcs2 x' hx'
    · intro u' v w hu' hva
      exact hmono2 u' v w (by rw [hv1]; exact hu')
        (hmono1 u' v w hu' hva)
    · have h3 : (x :: rest).length = rest.length + 1 := rfl
      omega

/-- The main loop of Dijkstra, with enough fuel, yields a distance map
that is still sound and whose target entry bounds every walk cost. -/
theorem dijkstraLoop_spec {W : Type} [LinearOrderedCommRing W]
    (G : GraphAPI W) (s t : String)
    (hwf : ∀ e ∈ G.edges, e.source ∈ G.vertices ∧ e.target ∈ G.vertices)
    (hnn : ∀ e ∈ G.edges, 0 ≤ e.weight)
    (adj : List (String × List (String × W)))
    (hadj : ∀ u (x : String × W),
      x ∈ (mapGet adj u).getD [] ↔ ShortestPathService.Arc G u x.1 x.2) :
    ∀ (fuel : Nat) (st : ShortestPathService.DijkState W),
      ShortestPathService.DijkInv G s st →
      st.pq.heap.length
        + ShortestPathService.unvisitedAdjLen adj st.visited < fuel →
      (∀ v (c : W),
        mapGet (ShortestPathService.dijkstraLoop adj t fuel st).distances v
          = some ((c : W) : WithTop W) →
        ShortestPathService.WalkCost G s v c) ∧
      (∀ (c : W), ShortestPathService.WalkCost G s t c →
        ∀ dt,
          mapGet (ShortestPathService.dijkstraLoop adj t fuel st).distances t
            = some dt → dt ≤ ((c : W) : WithTop W)) ∧
      (∀ v ∈ G.vertices, ∃ d,
        mapGet (ShortestPathService.dijkstraLoop adj t fuel st).distances v
          = some d) := by
  intro fuel
  induction fuel with
  | zero => intro st _ hpot; omega
  | succ fuel ih =>
    intro st hinv hpot
    rw [show ShortestPathService.dijkstraLoop adj t (fuel + 1) st
        = (match st.pq.dequeue with
          | (none, _) => st
          | (some current, pq') =>
            let st' := { st with pq := pq' }
            if current.node ∈ st'.visited ∨
                ShortestPathService.distGt st'.distances current.node
                  current.distance then
              ShortestPathService.dijkstraLoop adj t fuel st'
            else
              let st'' := { st' with
                visited := setAdd st'.visited current.node }
              if current.node = t then st''
              else
                ShortestPathService.dijkstraLoop adj t fuel
                  (ShortestPathService.dijkstraRelax current.node
                    current.distance
                    ((mapGet adj current.node).getD []) st'')) from rfl]
    cases hheap : st.pq.heap with
    | nil =>
      have hdq : st.pq.dequeue = (none, st.pq) := by
        unfold PriorityQueue.dequeue
        rw [hheap]
      rw [hdq]
      refine ⟨hinv.sound, ?_, hinv.dom⟩
      intro c hw dt hdt
      have hvis := empty_no_unvisited_walk G s st hinv hheap t c hw
      obtain ⟨du, hdu, hopt⟩ := hinv.vis_opt t hvis
      have : dt = ((du : W) : WithTop W) := Option.some.inj (hdt.symm.trans hdu)
      rw [this]
      rw [WithTop.coe_le_coe]
      exact hopt c hw
    | cons x rest =>
      have hspec := dequeue_spec st.pq hinv.heap x rest hheap
      rcases hdqe : st.pq.dequeue with ⟨o, q2⟩
      rw [hdqe] at hspec
      dsimp only at hspec
      obtain ⟨ho, hq2heap, hq2sub, hq2sup, hq2len, hmin⟩ := hspec
      subst ho
      dsimp only
      have hxmem : x ∈ st.pq.heap := by
        rw [hheap]; exact List.mem_cons_self _ _
      have hlen1 : st.pq.heap.length = rest.length + 1 := by
        rw [hheap]; rfl
      have hmemq2 : ∀ p ∈ q2.heap, p ∈ st.pq.heap := by
        intro p hp
        rw [hheap]
        exact List.mem_cons_of_mem _ (hq2sub p hp)
      by_cases hskip : x.1.node ∈ st.visited ∨
          ShortestPathService.distGt st.distances x.1.node x.1.distance
            = true
      · rw [if_pos hskip]
        -- the stale/visited pop: drop the entry and recurse
        have hinv1 : ShortestPathService.DijkInv G s
            { st with pq := q2 } := by
          refine ⟨⟨hinv.dom, hinv.src, hinv.sound,
            fun p hp => hinv.pq_pair p (hmemq2 p hp),
            fun p hp => hinv.pq_sound p (hmemq2 p hp),
            fun p hp => hinv.pq_dom p (hmemq2 p hp),
            hq2heap, hinv.vis_opt, ?_⟩, hinv.vis_arc⟩
          intro v hv dv hdv
          obtain ⟨p, hp, hpn, hpd⟩ := hinv.unvis_entry v hv dv hdv
          have hpx : p ≠ x := by
            intro hpeq
            subst hpeq
            rcases hskip with hskip | hskip
            · rw [hpn] at hskip
              exact hv hskip
            · unfold ShortestPathService.distGt at hskip
              rw [hpn, hdv, hpd] at hskip
              simp at hskip

          have hprest : p ∈ rest := by
            have := hxmem
            rw [hheap] at hp
            rcases List.mem_cons.mp hp with hpeq | hp
            · exact absurd hpeq hpx
            · exact hp
          exact ⟨p, hq2sup p hprest, hpn, hpd⟩
        refine ih { st with pq := q2 } hinv1 ?_
        show q2.heap.length
          + ShortestPathService.unvisitedAdjLen adj st.visited < fuel
        omega
      · rw [if_neg hskip]
        push_neg at hskip
        obtain ⟨hnvis, hndist⟩ := hskip
        obtain ⟨d, hd, hdle⟩ := hinv.pq_dom x hxmem
        have hdnode : mapGet st.distances x.1.node
            = some ((x.1.distance : W) : WithTop W) := by
          rw [hd]
          congr 1
          have hge : ((x.1.distance : W) : WithTop W) ≤ d := by
            by_contra hcon
            push_neg at hcon
            apply hndist
            unfold ShortestPathService.distGt
            rw [hd]
            show decide (((x.1.distance : W) : WithTop W) > d) = true
            rw [decide_eq_true_eq]
            exact hcon
          exact le_antisymm hdle hge
        have hwalkx : ShortestPathService.WalkCost G s x.1.node
            x.1.distance := hinv.pq_sound x hxmem
        have hminD : ∀ p ∈ st.pq.heap, x.1.distance ≤ p.1.distance := by
          intro p hp
          have := hmin p hp
          rw [hinv.pq_pair x hxmem, hinv.pq_pair p hp] at this
          exact this
        have hopt : ∀ c : W, ShortestPathService.WalkCost G s x.1.node c →
            x.1.distance ≤ c := by
          intro c hw
          refine pop_min_bound G s st hinv hnn x.1.distance ?_ x.1.node c
            hw hnvis
          intro p hp
          rw [hinv.pq_pair p hp]
          exact hminD p hp
        have hset : setAdd st.visited x.1.node
            = st.visited ++ [x.1.node] := by
          unfold setAdd
          rw [if_neg hnvis]
        rw [hset]
        by_cases htgt : x.1.node = t
        · rw [if_pos htgt]
          refine ⟨hinv.sound, ?_, hinv.dom⟩
          intro c hw dt hdt
          rw [← htgt] at hdt
          have : dt = ((x.1.distance : W) : WithTop W) :=
            Option.some.inj (hdt.symm.trans hdnode)
          rw [this, WithTop.coe_le_coe]
          exact hopt c (htgt ▸ hw)
        · rw [if_neg htgt]
          -- relax the bucket of the processed vertex, then recurse
          have hcore2 : ShortestPathService.DijkCore G s
              { st with
                pq := q2
                visited := st.visited ++ [x.1.node] } := by
            refine ⟨hinv.dom, hinv.src, hinv.sound,
              fun p hp => hinv.pq_pair p (hmemq2 p hp),
              fun p hp => hinv.pq_sound p (hmemq2 p hp),
              fun p hp => hinv.pq_dom p (hmemq2 p hp),
              hq2heap, ?_, ?_⟩
            · intro u' hu'
              rcases List.mem_append.mp hu' with hu' | hu'
              · exact hinv.vis_opt u' hu'
              · rw [List.mem_singleton] at hu'
                subst hu'
                exact ⟨x.1.distance, hdnode, hopt⟩
            · intro v hv dv hdv
              have hvold : ¬ v ∈ st.visited :=
                fun h => hv (List.mem_append_left _ h)
              have hvx : v ≠ x.1.node :=
                fun h => hv (List.mem_append_right _
                  (by rw [h]; exact List.mem_singleton.mpr rfl))
              obtain ⟨p, hp, hpn, hpd⟩ := hinv.unvis_entry v hvold dv hdv
              have hpx : p ≠ x := by
                intro hpeq
                subst hpeq
                exact hvx hpn.symm
              have hprest : p ∈ rest := by
                rw [hheap] at hp
                rcases List.mem_cons.mp hp with hpeq | hp
                · exact absurd hpeq hpx
                · exact hp
              exact ⟨p, hq2sup p hprest, hpn, hpd⟩
          have hu2 : x.1.node ∈ (({ st with
              pq := q2
              visited := st.visited ++ [x.1.node] })
                : ShortestPathService.DijkState W).visited :=
            List.mem_append_right _ (List.mem_singleton.mpr rfl)
          have harcs : ∀ y ∈ (mapGet adj x.1.node).getD [],
              ShortestPathService.Arc G x.1.node y.1 y.2 :=
            fun y hy => (hadj x.1.node y).mp hy
          obtain ⟨hc3, hv3, hvarcs3, hmono3, hlen3⟩ :=
            dijkstraRelax_fold G s hwf x.1.node x.1.distance
              ((mapGet adj x.1.node).getD [])
              { st with pq := q2, visited := st.visited ++ [x.1.node] }
              hcore2 hu2 hdnode hwalkx harcs
          have hinv3 : ShortestPathService.DijkInv G s
              (ShortestPathService.dijkstraRelax x.1.node x.1.distance
                ((mapGet adj x.1.node).getD [])
                { st with
                  pq := q2
                  visited := st.visited ++ [x.1.node] }) := by
            refine ⟨hc3, ?_⟩
            intro u' hu' v w harc
            rw [hv3] at hu'
            rcases List.mem_append.mp hu' with hu' | hu'
            · refine hmono3 u' v w (List.mem_append_left _ hu') ?_
              rcases hinv.vis_arc u' hu' v w harc with hvv |
                ⟨du, dv, h1, h2, h3⟩
              · exact Or.inl (List.mem_append_left _ hvv)
              · exact Or.inr ⟨du, dv, h1, h2, h3⟩
            · rw [List.mem_singleton] at hu'
              subst hu'
              exact hvarcs3 (v, w) ((hadj x.1.node (v, w)).mpr harc)
          refine ih _ hinv3 ?_
          have hins := unvisitedAdjLen_insert adj st.visited x.1.node hnvis
          have hee : ({ st with
              pq := q2
              visited := st.visited ++ [x.1.node] }
                : ShortestPathService.DijkState W).pq.heap.length
              = rest.length := hq2len
          have hvv : ({ st with
              pq := q2
              visited := st.visited ++ [x.1.node] }
                : ShortestPathService.DijkState W).visited
              = st.visited ++ [x.1.node] := rfl
          rw [hvv] at hv3
          rw [hee] at hlen3
          rw [hv3]
          omega

/-- A one-element heap satisfies the heap layout invariant. -/
theorem heapProp_singleton {α W : Type} [LinearOrderedCommRing W]
    (x : α × W) : PriorityQueue.HeapProp [x] := by
  intro i j y z hj hiy hjz
  have hjl : j < 1 := get?_lt_length _ _ _ hjz
  omega

/-- With nothing visited, the unvisited adjacency length is the total
adjacency length. -/
theorem unvisitedAdjLen_nil {W : Type} [LinearOrderedCommRing W]
    (adj : List (String × List (String × W))) :
    ShortestPathService.unvisitedAdjLen adj []
      = ShortestPathService.wAdjTotalLen adj := by
  unfold ShortestPathService.unvisitedAdjLen ShortestPathService.wAdjTotalLen
  congr 1
  congr 1
  apply List.filter_eq_self.mpr
  intro p _
  simp

/-- The initial distance map of both solvers: every vertex is mapped, the
source to `0` and every other vertex to `⊤`. -/
theorem spInit_distances {W : Type} [LinearOrderedCommRing W]
    (G : GraphAPI W) (s x : String) :
    mapGet (G.vertices.foldl
        (fun m v => mapSet m v (if v = s then (0 : WithTop W) else ⊤)) []) x
      = if x ∈ G.vertices then some (if x = s then (0 : WithTop W) else ⊤)
        else none := by
  rw [mapGet_foldl_init]
  rfl

/-- The initial distance map satisfies Bellman-Ford's loop invariant. -/
theorem bf_init_inv {W : Type} [LinearOrderedCommRing W]
    (G : GraphAPI W) (s : String) (hs : s ∈ G.vertices) :
    ShortestPathService.BFInv G s
      (G.vertices.foldl
        (fun m v => mapSet m v (if v = s then (0 : WithTop W) else ⊤)) []) := by
  refine ⟨?_, ?_, ?_⟩
  · intro v hv
    exact ⟨_, by rw [spInit_distances, if_pos hv]⟩
  · refine ⟨0, ?_, le_refl 0⟩
    rw [spInit_distances, if_pos hs, if_pos rfl]
  · intro v c hc
    rw [spInit_distances] at hc
    by_cases hv : v ∈ G.vertices
    · rw [if_pos hv] at hc
      by_cases hvs : v = s
      · rw [if_pos hvs] at hc
        have h0 : ((c : W) : WithTop W) = ((0 : W) : WithTop W) := by
          rw [WithTop.coe_zero]
          exact (Option.some.inj hc).symm
        have hc0 : c = 0 := WithTop.coe_eq_coe.mp h0
        subst hvs
        subst hc0
        exact ShortestPathService.WalkCost.refl
      · rw [if_neg hvs] at hc
        exact absurd (Option.some.inj hc) (by simp)
    · rw [if_neg hv] at hc
      exact Option.noConfusion hc

/-- The initial Dijkstra state satisfies the full loop invariant. -/
theorem dijkstra_init_inv {W : Type} [LinearOrderedCommRing W]
    (G : GraphAPI W) (s : String) (hs : s ∈ G.vertices) :
    ShortestPathService.DijkInv G s
      ⟨G.vertices.foldl
        (fun m v => mapSet m v (if v = s then (0 : WithTop W) else ⊤)) [],
       G.vertices.foldl (fun m v => mapSet m v none) [],
       [], PriorityQueue.empty.enqueue ⟨s, 0⟩ 0⟩ := by
  have hbf := bf_init_inv G s hs
  have hpq : (PriorityQueue.empty.enqueue
      (⟨s, 0⟩ : ShortestPathService.DijkItem W) (0 : W)).heap
      = [((⟨s, 0⟩ : ShortestPathService.DijkItem W), (0 : W))] := rfl
  refine ⟨⟨hbf.dom, hbf.src, hbf.sound, ?_, ?_, ?_, ?_, ?_, ?_⟩, ?_⟩
  · intro p hp
    rw [hpq, List.mem_singleton] at hp
    subst hp
    rfl
  · intro p hp
    rw [hpq, List.mem_singleton] at hp
    subst hp
    exact ShortestPathService.WalkCost.refl
  · intro p hp
    rw [hpq, List.mem_singleton] at hp
    subst hp
    refine ⟨0, ?_, ?_⟩
    · rw [spInit_distances, if_pos hs, if_pos rfl]
    · rw [WithTop.coe_zero]
  · show PriorityQueue.HeapProp
      [((⟨s, 0⟩ : ShortestPathService.DijkItem W), (0 : W))]
    exact heapProp_singleton _
  · intro u hu
    exact absurd hu (List.not_mem_nil u)
  · intro v hv dv hdv
    rw [spInit_distances] at hdv
    by_cases hvv : v ∈ G.vertices
    · rw [if_pos hvv] at hdv
      by_cases hvs : v = s
      · rw [if_pos hvs] at hdv
        refine ⟨(⟨s, 0⟩, 0), List.mem_singleton.mpr rfl, hvs.symm, ?_⟩
        have h0 : ((dv : W) : WithTop W) = ((0 : W) : WithTop W) := by
          rw [WithTop.coe_zero]
          exact (Option.some.inj hdv).symm
        exact (WithTop.coe_eq_coe.mp h0).symm
      · rw [if_neg hvs] at hdv
        exact absurd (Option.some.inj hdv) (by simp)
    · rw [if_neg hvv] at hdv
      exact Option.noConfusion hdv
  · intro u hu
    exact absurd hu (List.not_mem_nil u)

/-! ## C1: Dijkstra vs Bellman-Ford on non-negative weights

With all weights non-negative both solvers compute the true shortest
distance, but the `path` they report may differ when several shortest
paths tie: each solver keeps the *first* optimal predecessor it finds, and
they scan in different orders (Dijkstra by frontier pops, Bellman-Ford by
edge-list position). -/

/-- C1 (counterexample): on `spTieGraph` (all weights non-negative) both
solvers succeed with total distance 2, but Dijkstra's path is `[A, C]`
while Bellman-Ford's is `[A, B, C]` — so they do not return the same
`path`. -/
theorem dijkstra_bellmanFord_paths_differ_on_tie :
    spTieGraph.edges.all (fun e => 0 ≤ e.weight) = true ∧
    ShortestPathService.SPOutcome.totalOf
      (ShortestPathService.dijkstra spTieGraph "A" "C" true)
      = some ((2 : ℤ) : WithTop ℤ) ∧
    ShortestPathService.SPOutcome.totalOf
      (ShortestPathService.bellmanFord spTieGraph "A" "C" true)
      = some ((2 : ℤ) : WithTop ℤ) ∧
    ShortestPathService.SPOutcome.pathOf
      (ShortestPathService.dijkstra spTieGraph "A" "C" true)
      = some ["A", "C"] ∧
    ShortestPathService.SPOutcome.pathOf
      (ShortestPathService.bellmanFord spTieGraph "A" "C" true)
      = some ["A", "B", "C"] ∧
    (["A", "C"] : List String) ≠ ["A", "B", "C"] := by
  decide

/-- C1 (amended): on every well-formed graph (edge endpoints among the
vertices) whose edge weights are all non-negative, whenever `dijkstra` and
`bellmanFord` both succeed on the same source/target pair they return the
same `totalDistance`.  The `path` components may differ under shortest-path
ties (see the counterexample), so the claim holds only for
`totalDistance`. -/
theorem dijkstra_bellmanFord_agree {W : Type} [LinearOrderedCommRing W]
    (G : GraphAPI W) (s t : String)
    (hwf : ∀ e ∈ G.edges, e.source ∈ G.vertices ∧ e.target ∈ G.vertices)
    (hnn : ∀ e ∈ G.edges, 0 ≤ e.weight)
    (rD rB : ShortestPathService.ShortestPathResult W)
    (hD : ShortestPathService.dijkstra G s t true = .ok rD)
    (hB : ShortestPathService.bellmanFord G s t true = .ok rB) :
    rD.totalDistance = rB.totalDistance := by
  unfold ShortestPathService.dijkstra at hD
  unfold ShortestPathService.bellmanFord at hB
  cases hval : ShortestPathService.validateGraph G .dijkstra with
  | some e =>
    rw [hval] at hD
    exact ShortestPathService.SPOutcome.noConfusion hD
  | none =>
  rw [hval] at hD
  dsimp only at hD
  have hn2 : ¬ G.vertices.length < 2 := by
    intro hlt
    unfold ShortestPathService.validateGraph at hval
    rw [if_pos hlt] at hval
    exact Option.noConfusion hval
  have hvb : ShortestPathService.validateGraph G .bellmanFord = none := by
    unfold ShortestPathService.validateGraph
    rw [if_neg hn2,
      if_neg (fun h => ShortestPathService.SPAlgorithm.noConfusion h.1)]
  rw [hvb] at hB
  dsimp only at hB
  unfold ShortestPathService.bellmanFordMain at hB
  have hs : s ∈ G.vertices := by
    by_contra hns
    rw [if_pos hns] at hD
    exact ShortestPathService.SPOutcome.noConfusion hD
  rw [if_neg (not_not_intro hs)] at hD hB
  have ht : t ∈ G.vertices := by
    by_contra hnt
    rw [if_pos hnt] at hD
    exact ShortestPathService.SPOutcome.noConfusion hD
  rw [if_neg (not_not_intro ht)] at hD hB
  by_cases hst : s = t
  · rw [if_pos hst] at hD hB
    cases hD
    cases hB
    rfl
  · rw [if_neg hst] at hD hB
    have hreach : ShortestPathService.isReachable G s t = true := by
      by_contra hr
      rw [if_pos hr] at hD
      exact ShortestPathService.SPOutcome.noConfusion hD
    rw [if_neg (not_not_intro hreach)] at hD hB
    dsimp only at hD hB
    -- Dijkstra's side: the loop specification at the initial state
    have hadj : ∀ u (x : String × W),
        x ∈ (mapGet (ShortestPathService.dijkstraAdjacency G true) u).getD []
          ↔ ShortestPathService.Arc G u x.1 x.2 :=
      fun u x => dijkstraAdjacency_arc G u x
    have hinit := dijkstra_init_inv G s hs
    have hpot0 : (1 : Nat) + ShortestPathService.unvisitedAdjLen
        (ShortestPathService.dijkstraAdjacency G true) []
        < ShortestPathService.wAdjTotalLen
            (ShortestPathService.dijkstraAdjacency G true) + 2 := by
      rw [unvisitedAdjLen_nil]
      omega
    obtain ⟨hsound, hLB, hdom⟩ :=
      dijkstraLoop_spec G s t hwf hnn
        (ShortestPathService.dijkstraAdjacency G true) hadj
        (ShortestPathService.wAdjTotalLen
          (ShortestPathService.dijkstraAdjacency G true) + 2)
        ⟨G.vertices.foldl
          (fun m v => mapSet m v (if v = s then (0 : WithTop W) else ⊤)) [],
         G.vertices.foldl (fun m v => mapSet m v none) [],
         [], PriorityQueue.empty.enqueue ⟨s, 0⟩ 0⟩
        hinit hpot0
    -- Bellman-Ford's side: invariant at the fixpoint
    cases hrel : ShortestPathService.bfHasRelaxable
        (G.edges ++
          (if G.graphType = GraphType.directed then []
           else G.edges.map (fun e =>
             ⟨e.id ++ "_reverse", e.target, e.source,
              if true then e.weight else 1⟩)))
        true
        (ShortestPathService.bfRounds
          (G.edges ++
            (if G.graphType = GraphType.directed then []
             else G.edges.map (fun e =>
               ⟨e.id ++ "_reverse", e.target, e.source,
                if true then e.weight else 1⟩)))
          true (G.vertices.length - 1)
          (G.vertices.foldl
            (fun m v => mapSet m v (if v = s then (0 : WithTop W) else ⊤)) [])
          (G.vertices.foldl (fun m v => mapSet m v none) [])).1 with
    | true =>
      rw [hrel] at hB
      rw [if_pos rfl] at hB
      exact ShortestPathService.SPOutcome.noConfusion hB
    | false =>
    rw [hrel] at hB
    rw [if_neg (fun h => Bool.noConfusion h)] at hB
    have hEL : (G.edges ++
        (if G.graphType = GraphType.directed then []
         else G.edges.map (fun e =>
           ⟨e.id ++ "_reverse", e.target, e.source,
            if true then e.weight else 1⟩)))
        = ShortestPathService.bfEdgeList G := rfl
    have hbfInv := bfRounds_inv G s (ShortestPathService.bfEdgeList G)
      (fun e he => bfEdgeList_arc_fwd G e he)
      (G.vertices.length - 1)
      (G.vertices.foldl
        (fun m v => mapSet m v (if v = s then (0 : WithTop W) else ⊤)) [])
      (G.vertices.foldl (fun m v => mapSet m v none) [])
      (bf_init_inv G s hs)
    rw [hEL] at hrel
    have hfix := bfHasRelaxable_false _ _ hrel
    have hlb := bf_fixpoint_lb G s hwf _ hbfInv hfix
    -- extract the two reported totals and compare them
    cases hD
    cases hB
    show (mapGet (ShortestPathService.dijkstraLoop _ t _ _).distances t).getD ⊤
      = (mapGet (ShortestPathService.bfRounds _ true _ _ _).1 t).getD ⊤
    rw [hEL]
    obtain ⟨dT, hdT⟩ := hdom t ht
    obtain ⟨dB, hdB⟩ := (hbfInv.dom) t ht
    rw [hdT, hdB, Option.getD_some, Option.getD_some]
    refine le_antisymm ?_ ?_
    · cases dB with
      | top => exact le_top
      | coe b =>
        have hw := hbfInv.sound t b hdB
        exact hLB b hw dT hdT
    · cases dT with
      | top => exact le_top
      | coe a =>
        have hw := hsound t a hdT
        obtain ⟨dz, hdz, hdzle⟩ := hlb t a hw
        have hzb : dz = dB := Option.some.inj (hdz.symm.trans hdB)
        exact hzb ▸ hdzle

/-- C1 witness: on `spTieGraph` (all weights non-negative, well-formed)
both solvers succeed, and the theorem yields the equality of their total
distances. -/
theorem dijkstra_bellmanFord_agree_witness :
    (∀ e ∈ spTieGraph.edges,
      e.source ∈ spTieGraph.vertices ∧
      e.target ∈ spTieGraph.vertices) ∧
    (∀ e ∈ spTieGraph.edges, (0 : ℤ) ≤ e.weight) ∧
    ∃ rD rB,
      ShortestPathService.dijkstra spTieGraph "A" "C" true
        = ShortestPathService.SPOutcome.ok rD ∧
      ShortestPathService.bellmanFord spTieGraph "A" "C" true
        = ShortestPathService.SPOutcome.ok rB ∧
      rD.totalDistance = rB.totalDistance := by
  refine ⟨by decide, by decide, _, _, rfl, rfl,
    dijkstra_bellmanFord_agree spTieGraph "A" "C" (by decide) (by decide)
      _ _ rfl rfl⟩

/-! ## C2: validation order of the shortest-path solvers -/

/-- C2 (counterexample): on a graph with 2 vertices and a negative edge,
`dijkstra` called with the absent source `C` reports the negative-weights
failure, not the unknown-vertex failure — the negative-weight scan runs
inside `validateGraph`, *before* the source/target existence checks. -/
theorem dijkstra_negative_check_precedes_unknown_vertex :
    2 ≤ spNegAbsentGraph.vertices.length ∧
    ¬ "C" ∈ spNegAbsentGraph.vertices ∧
    ShortestPathService.dijkstra spNegAbsentGraph "C" "A" true
      = .err ⟨.negative_weights,
          "Dijkstra algorithm cannot handle negative edge weights. Use Bellman-Ford instead."⟩ := by
  decide

/-- C2 (amended): the actual validation order.  (a) fewer than 2 vertices
fails first, for both solvers, with kind `validation`; (b) then, for
Dijkstra only, any negative edge weight fails with the distinct kind
`negative_weights` — even when source or target is absent; (c,d) then an
absent source fails with kind `validation` and the unknown-source message
(for Dijkstra, provided no weight is negative; for Bellman-Ford
unconditionally, as it never checks weights); (e,f) then an absent target
likewise; (g) the `negative_weights` kind is distinguishable from the
`validation` kind shared by the insufficient-vertices and unknown-vertex
failures. -/
theorem shortest_path_validation_order {W : Type} [LinearOrderedCommRing W] :
    (∀ (G : GraphAPI W) (s t : String), G.vertices.length < 2 →
      ShortestPathService.dijkstra G s t true
        = .err ⟨.validation, "Shortest path computation requires at least 2 vertices"⟩ ∧
      ShortestPathService.bellmanFord G s t true
        = .err ⟨.validation, "Shortest path computation requires at least 2 vertices"⟩) ∧
    (∀ (G : GraphAPI W) (s t : String), 2 ≤ G.vertices.length →
      (∃ e ∈ G.edges, e.weight < 0) →
      ShortestPathService.dijkstra G s t true
        = .err ⟨.negative_weights,
            "Dijkstra algorithm cannot handle negative edge weights. Use Bellman-Ford instead."⟩) ∧
    (∀ (G : GraphAPI W) (s t : String), 2 ≤ G.vertices.length →
      (∀ e ∈ G.edges, 0 ≤ e.weight) → ¬ s ∈ G.vertices →
      ShortestPathService.dijkstra G s t true
        = .err ⟨.validation,
            "Source vertex \"" ++ s ++ "\" does not exist in the graph"⟩) ∧
    (∀ (G : GraphAPI W) (s t : String), 2 ≤ G.vertices.length →
      ¬ s ∈ G.vertices →
      ShortestPathService.bellmanFord G s t true
        = .err ⟨.validation,
            "Source vertex \"" ++ s ++ "\" does not exist in the graph"⟩) ∧
    (∀ (G : GraphAPI W) (s t : String), 2 ≤ G.vertices.length →
      (∀ e ∈ G.edges, 0 ≤ e.weight) → s ∈ G.vertices → ¬ t ∈ G.vertices →
      ShortestPathService.dijkstra G s t true
        = .err ⟨.validation,
            "Target vertex \"" ++ t ++ "\" does not exist in the graph"⟩) ∧
    (∀ (G : GraphAPI W) (s t : String), 2 ≤ G.vertices.length →
      s ∈ G.vertices → ¬ t ∈ G.vertices →
      ShortestPathService.bellmanFord G s t true
        = .err ⟨.validation,
            "Target vertex \"" ++ t ++ "\" does not exist in the graph"⟩) ∧
    ShortestPathService.SPErrorType.negative_weights
      ≠ ShortestPathService.SPErrorType.validation := by
  have hvd : ∀ (G : GraphAPI W), 2 ≤ G.vertices.length →
      (∀ e ∈ G.edges, 0 ≤ e.weight) →
      ShortestPathService.validateGraph G .dijkstra = none := by
    intro G hge hnoneg
    have h2 : ¬ G.vertices.length < 2 := by omega
    have hany : (G.edges.any (fun e => decide (e.weight < 0))) = false := by
      rw [List.any_eq_false]
      intro e he
      simpa using hnoneg e he
    simp [ShortestPathService.validateGraph, if_neg h2, hany]
  have hvb : ∀ (G : GraphAPI W), 2 ≤ G.vertices.length →
      ShortestPathService.validateGraph G .bellmanFord = none := by
    intro G hge
    have h2 : ¬ G.vertices.length < 2 := by omega
    simp [ShortestPathService.validateGraph, if_neg h2]
  refine ⟨?_, ?_, ?_, ?_, ?_, ?_, by decide⟩
  · intro G s t hlt
    have hv : ∀ a, ShortestPathService.validateGraph G a =
        some ⟨.validation,
          "Shortest path computation requires at least 2 vertices"⟩ := by
      intro a
      simp only [ShortestPathService.validateGraph, if_pos hlt]
    constructor
    · simp only [ShortestPathService.dijkstra, hv]
    · simp only [ShortestPathService.bellmanFord, hv]
      split
      · rfl
      · next h => exact absurd (not_not.1 h) (by decide)
  · intro G s t hge hneg
    have h2 : ¬ G.vertices.length < 2 := by omega
    have hany : (G.edges.any (fun e => decide (e.weight < 0))) = true := by
      rcases hneg with ⟨e, he, hw⟩
      exact List.any_eq_true.2 ⟨e, he, by simpa using hw⟩
    have hv : ShortestPathService.validateGraph G .dijkstra =
        some ⟨.negative_weights,
          "Dijkstra algorithm cannot handle negative edge weights. Use Bellman-Ford instead."⟩ := by
      simp [ShortestPathService.validateGraph, if_neg h2, hany]
    simp only [ShortestPathService.dijkstra, hv]
  · intro G s t hge hnoneg hs
    simp only [ShortestPathService.dijkstra, hvd G hge hnoneg, if_pos hs]
  · intro G s t hge hs
    simp only [ShortestPathService.bellmanFord, hvb G hge,
      ShortestPathService.bellmanFordMain, if_pos hs]
  · intro G s t hge hnoneg hs ht
    simp only [ShortestPathService.dijkstra, hvd G hge hnoneg,
      if_neg (not_not_intro hs), if_pos ht]
  · intro G s t hge hs ht
    simp only [ShortestPathService.bellmanFord, hvb G hge,
      ShortestPathService.bellmanFordMain, if_neg (not_not_intro hs),
      if_pos ht]

/-- C2 witness: the amended ordering instantiated on concrete graphs — a
1-vertex graph fails with the insufficient-vertices message; the 2-vertex
negative-edge graph with absent source fails with `negative_weights`; an
all-non-negative 2-vertex graph with absent source fails with the
unknown-source message, for both solvers. -/
theorem shortest_path_validation_order_witness :
    ShortestPathService.dijkstra
        (⟨["A"], [], GraphType.undirected⟩ : GraphAPI ℤ) "A" "B" true
      = .err ⟨.validation, "Shortest path computation requires at least 2 vertices"⟩ ∧
    ShortestPathService.dijkstra spNegAbsentGraph "C" "A" true
      = .err ⟨.negative_weights,
          "Dijkstra algorithm cannot handle negative edge weights. Use Bellman-Ford instead."⟩ ∧
    ShortestPathService.dijkstra
        (⟨["A", "B"], [⟨"A-B", "A", "B", 1⟩], GraphType.undirected⟩ : GraphAPI ℤ)
        "C" "A" true
      = .err ⟨.validation, "Source vertex \"C\" does not exist in the graph"⟩ ∧
    ShortestPathService.bellmanFord
        (⟨["A", "B"], [⟨"A-B", "A", "B", 1⟩], GraphType.undirected⟩ : GraphAPI ℤ)
        "C" "A" true
      = .err ⟨.validation, "Source vertex \"C\" does not exist in the graph"⟩ :=
  ⟨(shortest_path_validation_order.1 ⟨["A"], [], GraphType.undirected⟩ "A" "B"
      (by decide)).1,
   shortest_path_validation_order.2.1 spNegAbsentGraph "C" "A" (by decide)
     ⟨⟨"A-B", "A", "B", -1⟩, by decide, by decide⟩,
   shortest_path_validation_order.2.2.1
     ⟨["A", "B"], [⟨"A-B", "A", "B", 1⟩], GraphType.undirected⟩ "C" "A"
     (by decide) (by decide) (by decide),
   shortest_path_validation_order.2.2.2.1
     ⟨["A", "B"], [⟨"A-B", "A", "B", 1⟩], GraphType.undirected⟩ "C" "A"
     (by decide) (by decide)⟩

/-! ## C5: a stored zero weight is not preserved by `getEdges` -/

/-- C5: the store records the weight 0 faithfully, but `getEdges` maps the
stored weight through `attributes.weight || 1`, and `0` is falsy in
JavaScript — so an edge whose weight is 0 (whether added with weight 0 or
re-weighted to 0) is reported with weight 1, not 0. -/
theorem zero_weight_edge_reported_as_one :
    (storeWithZeroWeightEdge.map (fun S =>
        ((Store.getEdges S.graph).map MGEdge.weight,
         S.graph.edgeRecs.map MGEdge.weight)))
      = some ([1], [0]) ∧
    (storeWithZeroedWeightEdge.map (fun S =>
        (Store.getEdges S.graph).map MGEdge.weight))
      = some [1] ∧
    ((1 : ℤ) = 0 → False) := by
  decide

/-! ## C3: the Hamiltonian vertex ceiling is checked only after the
Dirac/Ore branches, which do run the search -/

/-- C3 (counterexample): the complete graph `k16` has 16 > 15 vertices,
yet `findHamiltonianPath` does not refuse it: the Dirac branch runs the
backtracking search (the result carries `searchStats`) and returns a
*positive* result with the Dirac reason. -/
theorem hamiltonian_search_runs_beyond_ceiling_for_dirac :
    k16.vertices.length > 15 ∧
    (HamiltonianPathService.findHamiltonianPath k16).hasHamiltonianPath
      = true ∧
    (HamiltonianPathService.findHamiltonianPath k16).reason
      = some "Graph satisfies Dirac's theorem (every vertex degree ≥ n/2)" ∧
    (HamiltonianPathService.findHamiltonianPath k16).searchStats ≠ none := by
  set_option maxRecDepth 100000 in decide

/-- C3 (amended): the ceiling applies only after the earlier branches: for
every graph with more than 15 vertices that is connected, has at least one
edge, and satisfies neither Dirac's condition (`2·minDegree ≥ n`) nor
Ore's condition, `findHamiltonianPath` refuses to search and returns the
negative result whose reason reports the vertex ceiling and which carries
no search statistics.  (Graphs in Dirac's or Ore's range are searched
despite the ceiling, as the counterexample shows.) -/
theorem hamiltonian_ceiling_refusal {W : Type} (G : GraphAPI W)
    (hn : G.vertices.length > 15)
    (hedges : (HamiltonianPathService.analyzeGraph G).edgeCount ≠ 0)
    (hconn : (HamiltonianPathService.analyzeGraph G).isConnected = true)
    (hdirac : ¬ 2 * (HamiltonianPathService.analyzeGraph G).minDegree
      ≥ G.vertices.length)
    (hore : HamiltonianPathService.satisfiesOreTheorem G
      (HamiltonianPathService.analyzeGraph G) = false) :
    HamiltonianPathService.findHamiltonianPath G
      = ⟨false, false, none, none, none,
         some ("Graph has " ++ toString G.vertices.length ++
           " vertices. Hamiltonian path search is limited to " ++
           toString HamiltonianPathService.maxVerticesForExhaustiveSearch ++
           " vertices due to computational complexity."),
         none⟩ := by
  have h0 : ¬ G.vertices.length = 0 := by omega
  have h1 : ¬ G.vertices.length = 1 := by omega
  have hc : ¬ ¬ (HamiltonianPathService.analyzeGraph G).isConnected = true := by
    simp [hconn]
  have hndirac : ¬ (2 * (HamiltonianPathService.analyzeGraph G).minDegree
      ≥ G.vertices.length ∧
      (HamiltonianPathService.searchHamiltonianPath G).hasHamiltonianPath
        = true) := fun h => hdirac h.1
  have hnore : ¬ (HamiltonianPathService.satisfiesOreTheorem G
      (HamiltonianPathService.analyzeGraph G) = true ∧
      (HamiltonianPathService.searchHamiltonianPath G).hasHamiltonianPath
        = true) := by
    rintro ⟨h, -⟩
    rw [hore] at h
    cases h
  have hn' : G.vertices.length >
      HamiltonianPathService.maxVerticesForExhaustiveSearch := hn
  simp only [HamiltonianPathService.findHamiltonianPath, if_neg h0, if_neg h1,
    if_neg hedges, if_neg hc, if_neg hndirac, if_neg hnore, if_pos hn']

/-! ## MST support: walks, chains, exchange, counting -/

namespace MinimumSpanningTreeService

variable {W : Type} [LinearOrderedCommRing W]

theorem joins_symm {e : MGEdge (Option W)} {u v : String}
    (h : Joins e u v) : Joins e v u :=
  h.elim (fun h => Or.inr h) (fun h => Or.inl h)

theorem sstep_symm {S : List (MGEdge (Option W))} {u v : String}
    (h : SStep S u v) : SStep S v u := by
  obtain ⟨e, he, hj⟩ := h
  exact ⟨e, he, joins_symm hj⟩

theorem sstep_mono {S T : List (MGEdge (Option W))} {u v : String}
    (hsub : ∀ e ∈ S, e ∈ T) (h : SStep S u v) : SStep T u v := by
  obtain ⟨e, he, hj⟩ := h
  exact ⟨e, hsub e he, hj⟩

theorem ewalk_trans {S : List (MGEdge (Option W))} {a b c : String}
    (h1 : EWalk S a b) (h2 : EWalk S b c) : EWalk S a c := by
  induction h2 with
  | refl => exact h1
  | step _ hs ih => exact .step ih hs

theorem ewalk_single {S : List (MGEdge (Option W))} {u v : String}
    (h : SStep S u v) : EWalk S u v :=
  .step .refl h

theorem ewalk_symm {S : List (MGEdge (Option W))} {a b : String}
    (h : EWalk S a b) : EWalk S b a := by
  induction h with
  | refl => exact .refl
  | step _ hs ih => exact ewalk_trans (ewalk_single (sstep_symm hs)) ih

theorem ewalk_mono {S T : List (MGEdge (Option W))} {a b : String}
    (hsub : ∀ e ∈ S, e ∈ T) (h : EWalk S a b) : EWalk T a b := by
  induction h with
  | refl => exact .refl
  | step _ hs ih => exact .step ih (sstep_mono hsub hs)

theorem ewalk_nil {a b : String}
    (h : EWalk ([] : List (MGEdge (Option W))) a b) : a = b := by
  induction h with
  | refl => rfl
  | step _ hs ih =>
    obtain ⟨e, he, _⟩ := hs
    exact absurd he (List.not_mem_nil e)

theorem relChain_tail {R : String → String → Prop} {a : String}
    {l : List String} (h : RelChain R (a :: l)) : RelChain R l := by
  cases l with
  | nil => trivial
  | cons b rest => exact h.2

theorem relChain_suffix {R : String → String → Prop} :
    ∀ (l1 l2 : List String), RelChain R (l1 ++ l2) → RelChain R l2 := by
  intro l1
  induction l1 with
  | nil => intro l2 h; exact h
  | cons a rest ih =>
    intro l2 h
    exact ih l2 (relChain_tail h)

theorem relChain_snoc {R : String → String → Prop} :
    ∀ (l : List String) (b c : String), RelChain R l →
      l.getLast? = some b → R b c → RelChain R (l ++ [c]) := by
  intro l
  induction l with
  | nil => intro b c _ hl; exact absurd hl (by simp)
  | cons a rest ih =>
    intro b c hch hl hr
    cases rest with
    | nil =>
      have hb : a = b := by
        simp at hl
        exact hl
      subst hb
      exact ⟨hr, trivial⟩
    | cons x rest2 =>
      have hl2 : (x :: rest2).getLast? = some b := by
        rw [List.getLast?_cons_cons] at hl
        exact hl
      exact ⟨hch.1, ih b c hch.2 hl2 hr⟩

theorem ewalk_to_chain {S : List (MGEdge (Option W))} {a b : String}
    (h : EWalk S a b) : ∃ l, RelChain (SStep S) l ∧ l.head? = some a ∧
      l.getLast? = some b := by
  induction h with
  | refl => exact ⟨[a], trivial, rfl, rfl⟩
  | @step b0 c0 _ hs ih =>
    obtain ⟨l, hc, hh, hl⟩ := ih
    refine ⟨l ++ [c0], relChain_snoc l b0 c0 hc hl hs, ?_, ?_⟩
    · cases l with
      | nil => exact absurd hh (by simp)
      | cons x rest => exact hh
    · rw [List.getLast?_concat]

theorem chain_to_ewalk {S : List (MGEdge (Option W))} :
    ∀ (l : List String) (a b : String), RelChain (SStep S) l →
      l.head? = some a → l.getLast? = some b → EWalk S a b := by
  intro l
  induction l with
  | nil => intro a b _ hh; exact absurd hh (by simp)
  | cons x rest ih =>
    intro a b hch hh hl
    have hx : x = a := by
      simp at hh
      exact hh
    subst hx
    cases rest with
    | nil =>
      have hb : x = b := by
        simp at hl
        exact hl
      subst hb
      exact .refl
    | cons y rest2 =>
      have hl2 : (y :: rest2).getLast? = some b := by
        rw [List.getLast?_cons_cons] at hl
        exact hl
      exact ewalk_trans (ewalk_single hch.1) (ih y b hch.2 rfl hl2)

theorem chain_dedup_aux {R : String → String → Prop} :
    ∀ (n : Nat) (l : List String), l.length ≤ n → RelChain R l →
      ∃ l', RelChain R l' ∧ l'.head? = l.head? ∧
        l'.getLast? = l.getLast? ∧ l'.Nodup ∧ ∀ x ∈ l', x ∈ l := by
  intro n
  induction n with
  | zero =>
    intro l hlen _
    have : l = [] := List.eq_nil_of_length_eq_zero (Nat.le_zero.mp hlen)
    subst this
    exact ⟨[], trivial, rfl, rfl, List.nodup_nil, by simp⟩
  | succ n ih =>
    intro l hlen hch
    cases l with
    | nil => exact ⟨[], trivial, rfl, rfl, List.nodup_nil, by simp⟩
    | cons x rest =>
    by_cases hx : x ∈ rest
    · obtain ⟨r1, r2, hr⟩ := List.append_of_mem hx
      subst hr
      have hch2 : RelChain R (x :: r2) :=
        relChain_suffix (x :: r1) (x :: r2) hch
      have hlen2 : (x :: r2).length ≤ n := by
        simp only [List.length_cons, List.length_append] at hlen ⊢
        omega
      obtain ⟨l', h1, h2, h3, h4, h5⟩ := ih (x :: r2) hlen2 hch2
      refine ⟨l', h1, ?_, ?_, h4, ?_⟩
      · rw [h2]
        rfl
      · rw [h3]
        have hne : (x :: r2) ≠ [] := by simp
        rw [← List.cons_append, List.getLast?_append_of_ne_nil _ hne]
      · intro z hz
        have hz2 := h5 z hz
        rcases List.mem_cons.mp hz2 with h | h
        · exact h ▸ List.mem_cons_self _ _
        · exact List.mem_cons_of_mem _
            (List.mem_append_right _ (List.mem_cons_of_mem _ h))
    · cases rest with
      | nil =>
        exact ⟨[x], trivial, rfl, rfl, List.nodup_singleton x, by simp⟩
      | cons y rest2 =>
        have hch2 : RelChain R (y :: rest2) := hch.2
        have hlen2 : (y :: rest2).length ≤ n := by
          simp only [List.length_cons] at hlen ⊢
          omega
        obtain ⟨l', h1, h2, h3, h4, h5⟩ := ih (y :: rest2) hlen2 hch2
        cases l' with
        | nil => exact absurd h2.symm (by simp)
        | cons z l2 =>
        have hz : z = y := by
          simp at h2
          exact h2
        subst z
        refine ⟨x :: y :: l2, ⟨hch.1, h1⟩, rfl, ?_, ?_, ?_⟩
        · rw [List.getLast?_cons_cons]
          rw [show (y :: l2).getLast? = (y :: rest2).getLast? from h3]
          rw [List.getLast?_cons_cons]
        · refine List.nodup_cons.mpr ⟨?_, h4⟩
          intro hmem
          exact hx (by
            have := h5 x hmem
            simpa using this)
        · intro w hw
          rcases List.mem_cons.mp hw with hw | hw
          · exact hw ▸ List.mem_cons_self _ _
          · exact List.mem_cons_of_mem _ (h5 w hw)

theorem ewalk_nodup_chain {S : List (MGEdge (Option W))} {a b : String}
    (h : EWalk S a b) :
    ∃ l, RelChain (SStep S) l ∧ l.head? = some a ∧
      l.getLast? = some b ∧ l.Nodup := by
  obtain ⟨l, hc, hh, hl⟩ := ewalk_to_chain h
  obtain ⟨l', h1, h2, h3, h4, _⟩ :=
    chain_dedup_aux l.length l (le_refl _) hc
  exact ⟨l', h1, by rw [h2, hh], by rw [h3, hl], h4⟩

theorem ewalk_erase_split {S : List (MGEdge (Option W))}
    {f : MGEdge (Option W)} {u v : String} (h : EWalk S u v) :
    EWalk (S.erase f) u v ∨
    (EWalk (S.erase f) u f.source ∧ EWalk (S.erase f) f.target v) ∨
    (EWalk (S.erase f) u f.target ∧ EWalk (S.erase f) f.source v) := by
  induction h with
  | refl => exact Or.inl .refl
  | @step b c hw hs ih =>
    by_cases hef : SStep (S.erase f) b c
    · rcases ih with h1 | ⟨h1, h2⟩ | ⟨h1, h2⟩
      · exact Or.inl (.step h1 hef)
      · exact Or.inr (Or.inl ⟨h1, .step h2 hef⟩)
      · exact Or.inr (Or.inr ⟨h1, .step h2 hef⟩)
    · obtain ⟨e, he, hj⟩ := hs
      have hef2 : e = f := by
        by_contra hne
        exact hef ⟨e, (List.mem_erase_of_ne hne).mpr he, hj⟩
      subst hef2
      rcases hj with ⟨hs1, ht1⟩ | ⟨hs1, ht1⟩
      · rcases ih with h1 | ⟨h1, h2⟩ | ⟨h1, h2⟩
        · exact Or.inr (Or.inl ⟨by rw [hs1]; exact h1, by rw [ht1]; exact .refl⟩)
        · exact Or.inr (Or.inl ⟨h1, by rw [ht1]; exact .refl⟩)
        · exact Or.inl (by rw [← ht1]; exact h1)
      · rcases ih with h1 | ⟨h1, h2⟩ | ⟨h1, h2⟩
        · exact Or.inr (Or.inr ⟨by rw [ht1]; exact h1, by rw [hs1]; exact .refl⟩)
        · exact Or.inl (by rw [← hs1]; exact h1)
        · exact Or.inr (Or.inr ⟨h1, by rw [hs1]; exact .refl⟩)

theorem chain_avoid_vertex {S : List (MGEdge (Option W))}
    {e : MGEdge (Option W)} (a : String)
    (hea : e.source = a ∨ e.target = a) :
    ∀ (m : List String) (c b : String), RelChain (SStep S) m →
      m.head? = some c → m.getLast? = some b → ¬ a ∈ m →
      EWalk (S.erase e) c b := by
  intro m
  induction m with
  | nil => intro c b _ hh; exact absurd hh (by simp)
  | cons p rest ih =>
    intro c b hch hh hl ham
    have hp : p = c := by
      simp at hh
      exact hh
    subst p
    cases rest with
    | nil =>
      have hcb : c = b := by
        simp at hl
        exact hl
      subst hcb
      exact .refl
    | cons d rest2 =>
      have hlast2 : (d :: rest2).getLast? = some b := by
        rw [List.getLast?_cons_cons] at hl
        exact hl
      obtain ⟨g, hg, hjg⟩ := hch.1
      have hge : g ≠ e := by
        intro hge
        subst hge
        have hca : c ≠ a := fun h => ham (h ▸ List.mem_cons_self _ _)
        have hda : d ≠ a := fun h =>
          ham (h ▸ List.mem_cons_of_mem _ (List.mem_cons_self _ _))
        rcases hjg with ⟨h1, h2⟩ | ⟨h1, h2⟩ <;> rcases hea with h3 | h3
        · exact hca (h1.symm.trans h3)
        · exact hda (h2.symm.trans h3)
        · exact hda (h1.symm.trans h3)
        · exact hca (h2.symm.trans h3)
      have hstep : SStep (S.erase e) c d :=
        ⟨g, (List.mem_erase_of_ne hge).mpr hg, hjg⟩
      have ham2 : ¬ a ∈ d :: rest2 :=
        fun h => ham (List.mem_cons_of_mem _ h)
      exact ewalk_trans (ewalk_single hstep)
        (ih d b hch.2 rfl hlast2 ham2)

/-- Walking from inside `C` to outside `C` crosses it: a crossing edge `f`
of `S` exists with `S - f` still reaching `f` from both walk ends. -/
theorem chain_cross_split {S : List (MGEdge (Option W))}
    (C : String → Prop) :
    ∀ (l : List String) (a b : String), RelChain (SStep S) l → l.Nodup →
      l.head? = some a → l.getLast? = some b → C a → ¬ C b →
      ∃ f ∈ S, ∃ x y, Joins f x y ∧ C x ∧ ¬ C y ∧
        EWalk (S.erase f) a x ∧ EWalk (S.erase f) y b := by
  intro l
  induction l with
  | nil => intro a b _ _ hh; exact absurd hh (by simp)
  | cons p rest ih =>
    intro a b hch hnd hh hl hCa hCb
    have hp : p = a := by
      simp at hh
      exact hh
    subst p
    cases rest with
    | nil =>
      have hab : a = b := by
        simp at hl
        exact hl
      exact absurd (hab ▸ hCa) hCb
    | cons c rest2 =>
      have hlast2 : (c :: rest2).getLast? = some b := by
        rw [List.getLast?_cons_cons] at hl
        exact hl
      by_cases hCc : C c
      · obtain ⟨f, hf, x, y, hj, hCx, hCy, hax, hyb⟩ :=
          ih c b hch.2 (List.nodup_cons.mp hnd).2 rfl hlast2 hCc hCb
        refine ⟨f, hf, x, y, hj, hCx, hCy, ?_, hyb⟩
        obtain ⟨e, he, hje⟩ := hch.1
        have hef : e ≠ f := by
          intro hef
          subst hef
          rcases hje with ⟨h1, h2⟩ | ⟨h1, h2⟩ <;>
            rcases hj with ⟨h3, h4⟩ | ⟨h3, h4⟩
          · exact hCy ((h2.symm.trans h4) ▸ hCc)
          · exact hCy ((h1.symm.trans h3) ▸ hCa)
          · exact hCy ((h2.symm.trans h4) ▸ hCa)
          · exact hCy ((h1.symm.trans h3) ▸ hCc)
        exact ewalk_trans
          (ewalk_single ⟨e, (List.mem_erase_of_ne hef).mpr he, hje⟩) hax
      · obtain ⟨e, he, hje⟩ := hch.1
        refine ⟨e, he, a, c, hje, hCa, hCc, .refl, ?_⟩
        have hea : e.source = a ∨ e.target = a := by
          rcases hje with ⟨h1, _⟩ | ⟨_, h2⟩
          · exact Or.inl h1
          · exact Or.inr h2
        have ham : ¬ a ∈ c :: rest2 := (List.nodup_cons.mp hnd).1
        exact chain_avoid_vertex a hea (c :: rest2) c b hch.2 rfl
          hlast2 ham

theorem ewalk_cross_split {S : List (MGEdge (Option W))} {a b : String}
    (C : String → Prop) (h : EWalk S a b) (hCa : C a) (hCb : ¬ C b) :
    ∃ f ∈ S, ∃ x y, Joins f x y ∧ C x ∧ ¬ C y ∧
      EWalk (S.erase f) a x ∧ EWalk (S.erase f) y b := by
  obtain ⟨l, h1, h2, h3, h4⟩ := ewalk_nodup_chain h
  exact chain_cross_split C l a b h1 h4 h2 h3 hCa hCb

/-- Exchanging the crossing edge `f` for the new edge `e` preserves every
connection of `S`. -/
theorem ewalk_swap {S : List (MGEdge (Option W))}
    {f e : MGEdge (Option W)} {a b x y : String}
    (hax : EWalk (S.erase f) a x) (hyb : EWalk (S.erase f) y b)
    (hjf : Joins f x y) (hje : Joins e a b) :
    ∀ u v, EWalk S u v → EWalk (S.erase f ++ [e]) u v := by
  have hmono : ∀ g ∈ S.erase f, g ∈ S.erase f ++ [e] :=
    fun g hg => List.mem_append_left _ hg
  have hstep : EWalk (S.erase f ++ [e]) a b :=
    ewalk_single ⟨e, List.mem_append_right _ (List.mem_cons_self _ _), hje⟩
  have hbr : EWalk (S.erase f ++ [e]) x y :=
    ewalk_trans (ewalk_mono hmono (ewalk_symm hax))
      (ewalk_trans hstep (ewalk_mono hmono (ewalk_symm hyb)))
  have hbst : EWalk (S.erase f ++ [e]) f.source f.target := by
    rcases hjf with ⟨h1, h2⟩ | ⟨h1, h2⟩
    · rw [h1, h2]
      exact hbr
    · rw [h1, h2]
      exact ewalk_symm hbr
  intro u v h
  rcases ewalk_erase_split (f := f) h with h1 | ⟨h1, h2⟩ | ⟨h1, h2⟩
  · exact ewalk_mono hmono h1
  · exact ewalk_trans (ewalk_mono hmono h1)
      (ewalk_trans hbst (ewalk_mono hmono h2))
  · exact ewalk_trans (ewalk_mono hmono h1)
      (ewalk_trans (ewalk_symm hbst) (ewalk_mono hmono h2))

/-- A walk within a `C`-closed edge set stays in `C` and uses only edges
starting in `C`. -/
theorem ewalk_restrict {S T : List (MGEdge (Option W))}
    (C : String → Prop) (hcl : ∀ e ∈ S, (C e.source ↔ C e.target))
    (hsub : ∀ e ∈ S, C e.source → e ∈ T) {u v : String}
    (h : EWalk S u v) (hCu : C u) : C v ∧ EWalk T u v := by
  induction h with
  | refl => exact ⟨hCu, .refl⟩
  | @step b c hw hs ih =>
    obtain ⟨hCb, hTw⟩ := ih
    obtain ⟨e, he, hj⟩ := hs
    have hCes : C e.source := by
      rcases hj with ⟨h1, _⟩ | ⟨_, h2⟩
      · rw [h1]
        exact hCb
      · refine (hcl e he).mpr ?_
        rw [h2]
        exact hCb
    have hCc : C c := by
      rcases hj with ⟨_, h2⟩ | ⟨h1, _⟩
      · exact h2 ▸ ((hcl e he).mp hCes)
      · exact h1 ▸ hCes
    exact ⟨hCc, .step hTw ⟨e, hsub e he hCes, hj⟩⟩

theorem length_filter_split {α : Type} (p : α → Bool) :
    ∀ l : List α,
      (l.filter p).length + (l.filter (fun x => ! p x)).length
        = l.length := by
  intro l
  induction l with
  | nil => rfl
  | cons x rest ih =>
    cases hx : p x
    · rw [List.filter_cons, List.filter_cons, hx]
      rw [if_neg (by simp), if_pos (by simp)]
      simp only [List.length_cons]
      omega
    · rw [List.filter_cons, List.filter_cons, hx]
      rw [if_pos rfl, if_neg (by simp)]
      simp only [List.length_cons]
      omega

/-- An empty edge set connects only equal vertices. -/
theorem connects_nil_bound {V : List String} (hnd : V.Nodup)
    (hconn : ∀ u ∈ V, ∀ v ∈ V,
      EWalk ([] : List (MGEdge (Option W))) u v) : V.length ≤ 1 := by
  cases V with
  | nil => simp
  | cons v rest =>
    cases rest with
    | nil => simp
    | cons w rest2 =>
      have hvw : v = w := ewalk_nil (hconn v (by simp) w (by simp))
      have hninr : ¬ v ∈ w :: rest2 := (List.nodup_cons.mp hnd).1
      exact absurd (by rw [hvw]; exact List.mem_cons_self w rest2) hninr

/-- Counting lower bound: connecting `|V|` distinct vertices needs at
least `|V| - 1` edges. -/
theorem connects_length_lb_aux :
    ∀ (n : Nat) (S : List (MGEdge (Option W))) (V : List String),
      S.length ≤ n → V.Nodup → (∀ u ∈ V, ∀ v ∈ V, EWalk S u v) →
      V.length ≤ S.length + 1 := by
  intro n
  induction n with
  | zero =>
    intro S V hlen hnd hconn
    have hS : S = [] := List.eq_nil_of_length_eq_zero (Nat.le_zero.mp hlen)
    subst hS
    have h1 := connects_nil_bound hnd hconn
    simpa using h1
  | succ n ih =>
    intro S V hlen hnd hconn
    cases S with
    | nil =>
      have h1 := connects_nil_bound hnd hconn
      simpa using h1
    | cons f S0 =>
    classical
    have hCcl : ∀ e ∈ S0, (EWalk S0 e.source f.source
        ↔ EWalk S0 e.target f.source) := by
      intro e he
      have hst : EWalk S0 e.source e.target :=
        ewalk_single ⟨e, he, Or.inl ⟨rfl, rfl⟩⟩
      exact ⟨fun h => ewalk_trans (ewalk_symm hst) h,
        fun h => ewalk_trans hst h⟩
    have herase : (f :: S0).erase f = S0 := List.erase_cons_head f S0
    have hV1 : ∀ u ∈ V.filter
          (fun v => decide (EWalk S0 v f.source)),
        ∀ v ∈ V.filter (fun v => decide (EWalk S0 v f.source)),
        EWalk (S0.filter (fun e => decide (EWalk S0 e.source f.source)))
          u v := by
      intro u hu v hv
      obtain ⟨huV, huq⟩ := List.mem_filter.mp hu
      obtain ⟨hvV, hvq⟩ := List.mem_filter.mp hv
      have huw : EWalk S0 u f.source := of_decide_eq_true huq
      have hvw : EWalk S0 v f.source := of_decide_eq_true hvq
      have huv : EWalk S0 u v := ewalk_trans huw (ewalk_symm hvw)
      refine (ewalk_restrict (fun z => EWalk S0 z f.source) hCcl
        ?_ huv huw).2
      intro e he hC
      exact List.mem_filter.mpr ⟨he, decide_eq_true hC⟩
    have hV2 : ∀ u ∈ V.filter
          (fun v => ! decide (EWalk S0 v f.source)),
        ∀ v ∈ V.filter (fun v => ! decide (EWalk S0 v f.source)),
        EWalk (S0.filter
          (fun e => ! decide (EWalk S0 e.source f.source))) u v := by
      intro u hu v hv
      obtain ⟨huV, huq⟩ := List.mem_filter.mp hu
      obtain ⟨hvV, hvq⟩ := List.mem_filter.mp hv
      have hun : ¬ EWalk S0 u f.source := by
        intro hw
        rw [decide_eq_true hw] at huq
        exact Bool.noConfusion huq
      have hvn : ¬ EWalk S0 v f.source := by
        intro hw
        rw [decide_eq_true hw] at hvq
        exact Bool.noConfusion hvq
      have huv : EWalk S0 u v := by
        rcases ewalk_erase_split (f := f) (hconn u huV v hvV) with
          h1 | ⟨h1, h2⟩ | ⟨h1, h2⟩
        · rw [herase] at h1
          exact h1
        · rw [herase] at h1
          exact absurd h1 hun
        · rw [herase] at h2
          exact absurd (ewalk_symm h2) hvn
      have hncl : ∀ e ∈ S0, (¬ EWalk S0 e.source f.source
          ↔ ¬ EWalk S0 e.target f.source) :=
        fun e he => not_congr (hCcl e he)
      refine (ewalk_restrict (fun z => ¬ EWalk S0 z f.source) hncl
        ?_ huv hun).2
      intro e he hC
      exact List.mem_filter.mpr ⟨he, by
        rw [decide_eq_false hC]
        rfl⟩
    have hb1 := ih (S0.filter (fun e => decide (EWalk S0 e.source f.source)))
      (V.filter (fun v => decide (EWalk S0 v f.source)))
      (le_trans (List.length_filter_le _ _) (by simp at hlen; omega))
      (hnd.filter _) hV1
    have hb2 := ih
      (S0.filter (fun e => ! decide (EWalk S0 e.source f.source)))
      (V.filter (fun v => ! decide (EWalk S0 v f.source)))
      (le_trans (List.length_filter_le _ _) (by simp at hlen; omega))
      (hnd.filter _) hV2
    have hVsplit := length_filter_split
      (fun v => decide (EWalk S0 v f.source)) V
    have hSsplit := length_filter_split
      (fun e => decide (EWalk S0 e.source f.source)) S0
    simp only [List.length_cons]
    omega

theorem connects_card_bound {S : List (MGEdge (Option W))}
    {V : List String} (hnd : V.Nodup)
    (hconn : ∀ u ∈ V, ∀ v ∈ V, EWalk S u v) :
    V.length ≤ S.length + 1 :=
  connects_length_lb_aux S.length S V (le_refl _) hnd hconn

theorem count_filter_le {α : Type} [DecidableEq α] (p : α → Bool)
    (a : α) : ∀ l : List α, List.count a (l.filter p) ≤ List.count a l := by
  intro l
  induction l with
  | nil => exact le_refl _
  | cons x rest ih =>
    rw [List.filter_cons]
    by_cases hx : p x = true
    · rw [if_pos hx, List.count_cons, List.count_cons]
      omega
    · rw [if_neg hx, List.count_cons]
      omega

theorem erase_count_subset {α : Type} [DecidableEq α]
    {l1 l2 : List α} (h : ∀ x, List.count x l1 ≤ List.count x l2)
    (g : α) : ∀ x ∈ l1.erase g, x ∈ l2.erase g := by
  intro x hx
  have h1 : 0 < List.count x (l1.erase g) :=
    List.count_pos_iff_mem.mpr hx
  rw [List.count_erase] at h1
  have h2 : 0 < List.count x (l2.erase g) := by
    rw [List.count_erase]
    have hle := h x
    by_cases hxg : g = x
    · have hbeq : (g == x) = true := beq_iff_eq.mpr hxg
      rw [if_pos hbeq] at h1 ⊢
      omega
    · have hbeq : ¬ ((g == x) = true) := fun hb => hxg (beq_iff_eq.mp hb)
      rw [if_neg hbeq] at h1 ⊢
      omega
  exact List.count_pos_iff_mem.mp h2

/-- Counting upper bound: if every edge of a connecting set is essential,
there are at most `|V| - 1` edges. -/
theorem essential_length_ub_aux :
    ∀ (n : Nat) (S : List (MGEdge (Option W))) (V : List String),
      S.length ≤ n → V.Nodup → V ≠ [] →
      (∀ e ∈ S, e.source ∈ V ∧ e.target ∈ V) →
      (∀ u ∈ V, ∀ v ∈ V, EWalk S u v) →
      (∀ f ∈ S, ¬ (∀ u ∈ V, ∀ v ∈ V, EWalk (S.erase f) u v)) →
      S.length + 1 ≤ V.length := by
  intro n
  induction n with
  | zero =>
    intro S V hlen _ hne _ _ _
    have hS : S = [] := List.eq_nil_of_length_eq_zero (Nat.le_zero.mp hlen)
    subst hS
    simp only [List.length_nil]
    exact Nat.one_le_iff_ne_zero.mpr
      (fun h => hne (List.eq_nil_of_length_eq_zero h))
  | succ n ih =>
    intro S V hlen hnd hne hep hconn hess
    cases S with
    | nil =>
      simp only [List.length_nil]
      exact Nat.one_le_iff_ne_zero.mpr
        (fun h => hne (List.eq_nil_of_length_eq_zero h))
    | cons f S0 =>
    classical
    have herase : (f :: S0).erase f = S0 := List.erase_cons_head f S0
    have hfS : f ∈ f :: S0 := List.mem_cons_self _ _
    have hfsV : f.source ∈ V := (hep f hfS).1
    have hftV : f.target ∈ V := (hep f hfS).2
    -- the two endpoints of f are separated by its removal
    have hnotconn : ¬ EWalk S0 f.source f.target := by
      intro hwst
      apply hess f hfS
      rw [herase]
      intro u hu v hv
      rcases ewalk_erase_split (f := f) (hconn u hu v hv) with
        h1 | ⟨h1, h2⟩ | ⟨h1, h2⟩
      · rw [herase] at h1
        exact h1
      · rw [herase] at h1 h2
        exact ewalk_trans h1 (ewalk_trans hwst h2)
      · rw [herase] at h1 h2
        exact ewalk_trans h1 (ewalk_trans (ewalk_symm hwst) h2)
    -- every vertex falls on one side
    have hsides : ∀ v ∈ V, EWalk S0 v f.source ∨ EWalk S0 v f.target := by
      intro v hv
      rcases ewalk_erase_split (f := f) (hconn v hv f.source hfsV) with
        h1 | ⟨h1, h2⟩ | ⟨h1, h2⟩
      · rw [herase] at h1
        exact Or.inl h1
      · rw [herase] at h1
        exact Or.inl h1
      · rw [herase] at h1
        exact Or.inr h1
    have hCcl : ∀ e ∈ S0, (EWalk S0 e.source f.source
        ↔ EWalk S0 e.target f.source) := by
      intro e he
      have hst : EWalk S0 e.source e.target :=
        ewalk_single ⟨e, he, Or.inl ⟨rfl, rfl⟩⟩
      exact ⟨fun h => ewalk_trans (ewalk_symm hst) h,
        fun h => ewalk_trans hst h⟩
    -- the two vertex sides and the two edge sides
    have hV1conn : ∀ u ∈ V.filter (fun v => decide (EWalk S0 v f.source)),
        ∀ v ∈ V.filter (fun v => decide (EWalk S0 v f.source)),
        EWalk (S0.filter (fun e => decide (EWalk S0 e.source f.source)))
          u v := by
      intro u hu v hv
      obtain ⟨huV, huq⟩ := List.mem_filter.mp hu
      obtain ⟨hvV, hvq⟩ := List.mem_filter.mp hv
      have huw : EWalk S0 u f.source := of_decide_eq_true huq
      have hvw : EWalk S0 v f.source := of_decide_eq_true hvq
      refine (ewalk_restrict (fun z => EWalk S0 z f.source) hCcl
        ?_ (ewalk_trans huw (ewalk_symm hvw)) huw).2
      intro e he hC
      exact List.mem_filter.mpr ⟨he, decide_eq_true hC⟩
    have hV2conn : ∀ u ∈ V.filter
          (fun v => ! decide (EWalk S0 v f.source)),
        ∀ v ∈ V.filter (fun v => ! decide (EWalk S0 v f.source)),
        EWalk (S0.filter
          (fun e => ! decide (EWalk S0 e.source f.source))) u v := by
      intro u hu v hv
      obtain ⟨huV, huq⟩ := List.mem_filter.mp hu
      obtain ⟨hvV, hvq⟩ := List.mem_filter.mp hv
      have hun : ¬ EWalk S0 u f.source := by
        intro hw
        rw [decide_eq_true hw] at huq
        exact Bool.noConfusion huq
      have hvn : ¬ EWalk S0 v f.source := by
        intro hw
        rw [decide_eq_true hw] at hvq
        exact Bool.noConfusion hvq
      have hut : EWalk S0 u f.target := (hsides u huV).resolve_left hun
      have hvt : EWalk S0 v f.target := (hsides v hvV).resolve_left hvn
      have hncl : ∀ e ∈ S0, (¬ EWalk S0 e.source f.source
          ↔ ¬ EWalk S0 e.target f.source) :=
        fun e he => not_congr (hCcl e he)
      refine (ewalk_restrict (fun z => ¬ EWalk S0 z f.source) hncl
        ?_ (ewalk_trans hut (ewalk_symm hvt)) hun).2
      intro e he hC
      exact List.mem_filter.mpr ⟨he, by rw [decide_eq_false hC]; rfl⟩
    -- bridging: a redundant edge on either side is redundant in S
    have hbridge : ∀ g ∈ S0,
        EWalk ((f :: S0).erase g) g.source g.target →
        False := by
      intro g hg hgw
      apply hess g (List.mem_cons_of_mem _ hg)
      intro u hu v hv
      rcases ewalk_erase_split (f := g) (hconn u hu v hv) with
        h1 | ⟨h1, h2⟩ | ⟨h1, h2⟩
      · exact h1
      · exact ewalk_trans h1 (ewalk_trans hgw h2)
      · exact ewalk_trans h1 (ewalk_trans (ewalk_symm hgw) h2)
    -- essentialness descends to each side
    have hess1 : ∀ g ∈ S0.filter
          (fun e => decide (EWalk S0 e.source f.source)),
        ¬ (∀ u ∈ V.filter (fun v => decide (EWalk S0 v f.source)),
           ∀ v ∈ V.filter (fun v => decide (EWalk S0 v f.source)),
           EWalk ((S0.filter
             (fun e => decide (EWalk S0 e.source f.source))).erase g)
             u v) := by
      intro g hg hcg
      obtain ⟨hgS0, hgq⟩ := List.mem_filter.mp hg
      have hgs : EWalk S0 g.source f.source := of_decide_eq_true hgq
      have hgt : EWalk S0 g.target f.source :=
        (hCcl g hgS0).mp hgs
      have hgsV : g.source ∈ V := (hep g (List.mem_cons_of_mem _ hgS0)).1
      have hgtV : g.target ∈ V := (hep g (List.mem_cons_of_mem _ hgS0)).2
      have hgs1 : g.source ∈ V.filter
          (fun v => decide (EWalk S0 v f.source)) :=
        List.mem_filter.mpr ⟨hgsV, decide_eq_true hgs⟩
      have hgt1 : g.target ∈ V.filter
          (fun v => decide (EWalk S0 v f.source)) :=
        List.mem_filter.mpr ⟨hgtV, decide_eq_true hgt⟩
      have hw := hcg g.source hgs1 g.target hgt1
      refine hbridge g hgS0 (ewalk_mono ?_ hw)
      intro x hx
      have hcount : ∀ y, List.count y (S0.filter
          (fun e => decide (EWalk S0 e.source f.source)))
          ≤ List.count y (f :: S0) := by
        intro y
        exact le_trans (count_filter_le _ y _)
          (by rw [List.count_cons]; exact Nat.le_add_right _ _)
      exact erase_count_subset hcount g x hx
    have hess2 : ∀ g ∈ S0.filter
          (fun e => ! decide (EWalk S0 e.source f.source)),
        ¬ (∀ u ∈ V.filter (fun v => ! decide (EWalk S0 v f.source)),
           ∀ v ∈ V.filter (fun v => ! decide (EWalk S0 v f.source)),
           EWalk ((S0.filter
             (fun e => ! decide (EWalk S0 e.source f.source))).erase g)
             u v) := by
      intro g hg hcg
      obtain ⟨hgS0, hgq⟩ := List.mem_filter.mp hg
      have hgs : ¬ EWalk S0 g.source f.source := by
        intro hw
        rw [decide_eq_true hw] at hgq
        exact Bool.noConfusion hgq
      have hgt : ¬ EWalk S0 g.target f.source :=
        fun hw => hgs ((hCcl g hgS0).mpr hw)
      have hgsV : g.source ∈ V := (hep g (List.mem_cons_of_mem _ hgS0)).1
      have hgtV : g.target ∈ V := (hep g (List.mem_cons_of_mem _ hgS0)).2
      have hgs1 : g.source ∈ V.filter
          (fun v => ! decide (EWalk S0 v f.source)) :=
        List.mem_filter.mpr ⟨hgsV, by rw [decide_eq_false hgs]; rfl⟩
      have hgt1 : g.target ∈ V.filter
          (fun v => ! decide (EWalk S0 v f.source)) :=
        List.mem_filter.mpr ⟨hgtV, by rw [decide_eq_false hgt]; rfl⟩
      have hw := hcg g.source hgs1 g.target hgt1
      refine hbridge g hgS0 (ewalk_mono ?_ hw)
      intro x hx
      have hcount : ∀ y, List.count y (S0.filter
          (fun e => ! decide (EWalk S0 e.source f.source)))
          ≤ List.count y (f :: S0) := by
        intro y
        exact le_trans (count_filter_le _ y _)
          (by rw [List.count_cons]; exact Nat.le_add_right _ _)
      exact erase_count_subset hcount g x hx
    -- endpoints stay on their side
    have hep1 : ∀ e ∈ S0.filter
          (fun e => decide (EWalk S0 e.source f.source)),
        e.source ∈ V.filter (fun v => decide (EWalk S0 v f.source)) ∧
        e.target ∈ V.filter (fun v => decide (EWalk S0 v f.source)) := by
      intro e he
      obtain ⟨heS0, heq⟩ := List.mem_filter.mp he
      have hes : EWalk S0 e.source f.source := of_decide_eq_true heq
      have het : EWalk S0 e.target f.source := (hCcl e heS0).mp hes
      exact ⟨List.mem_filter.mpr
          ⟨(hep e (List.mem_cons_of_mem _ heS0)).1, decide_eq_true hes⟩,
        List.mem_filter.mpr
          ⟨(hep e (List.mem_cons_of_mem _ heS0)).2, decide_eq_true het⟩⟩
    have hep2 : ∀ e ∈ S0.filter
          (fun e => ! decide (EWalk S0 e.source f.source)),
        e.source ∈ V.filter (fun v => ! decide (EWalk S0 v f.source)) ∧
        e.target ∈ V.filter
          (fun v => ! decide (EWalk S0 v f.source)) := by
      intro e he
      obtain ⟨heS0, heq⟩ := List.mem_filter.mp he
      have hes : ¬ EWalk S0 e.source f.source := by
        intro hw
        rw [decide_eq_true hw] at heq
        exact Bool.noConfusion heq
      have het : ¬ EWalk S0 e.target f.source :=
        fun hw => hes ((hCcl e heS0).mpr hw)
      exact ⟨List.mem_filter.mpr
          ⟨(hep e (List.mem_cons_of_mem _ heS0)).1,
           by rw [decide_eq_false hes]; rfl⟩,
        List.mem_filter.mpr
          ⟨(hep e (List.mem_cons_of_mem _ heS0)).2,
           by rw [decide_eq_false het]; rfl⟩⟩
    -- both sides are inhabited
    have hfs1 : f.source ∈ V.filter
        (fun v => decide (EWalk S0 v f.source)) :=
      List.mem_filter.mpr ⟨hfsV, decide_eq_true .refl⟩
    have hft2 : f.target ∈ V.filter
        (fun v => ! decide (EWalk S0 v f.source)) :=
      List.mem_filter.mpr ⟨hftV, by
        rw [decide_eq_false (fun hw => hnotconn (ewalk_symm hw))]
        rfl⟩
    have hne1 : V.filter (fun v => decide (EWalk S0 v f.source)) ≠ [] :=
      fun h => by rw [h] at hfs1; exact List.not_mem_nil _ hfs1
    have hne2 : V.filter (fun v => ! decide (EWalk S0 v f.source)) ≠ [] :=
      fun h => by rw [h] at hft2; exact List.not_mem_nil _ hft2
    have hb1 := ih (S0.filter (fun e => decide (EWalk S0 e.source f.source)))
      (V.filter (fun v => decide (EWalk S0 v f.source)))
      (le_trans (List.length_filter_le _ _) (by simp at hlen; omega))
      (hnd.filter _) hne1 hep1 hV1conn hess1
    have hb2 := ih
      (S0.filter (fun e => ! decide (EWalk S0 e.source f.source)))
      (V.filter (fun v => ! decide (EWalk S0 v f.source)))
      (le_trans (List.length_filter_le _ _) (by simp at hlen; omega))
      (hnd.filter _) hne2 hep2 hV2conn hess2
    have hVsplit := length_filter_split
      (fun v => decide (EWalk S0 v f.source)) V
    have hSsplit := length_filter_split
      (fun e => decide (EWalk S0 e.source f.source)) S0
    simp only [List.length_cons]
    omega

/-- Extraction: any connecting edge set contains a spanning sub-multiset
of exactly `|V| - 1` edges. -/
theorem exists_spanning_submultiset :
    ∀ (n : Nat) (S : List (MGEdge (Option W))) (V : List String),
      S.length ≤ n → V.Nodup → V ≠ [] →
      (∀ e ∈ S, e.source ∈ V ∧ e.target ∈ V) →
      (∀ u ∈ V, ∀ v ∈ V, EWalk S u v) →
      ∃ M, (∀ x, List.count x M ≤ List.count x S) ∧
        (∀ u ∈ V, ∀ v ∈ V, EWalk M u v) ∧
        M.length = V.length - 1 := by
  intro n
  induction n with
  | zero =>
    intro S V hlen hnd hne hep hconn
    have hS : S = [] := List.eq_nil_of_length_eq_zero (Nat.le_zero.mp hlen)
    subst hS
    have hb := connects_nil_bound hnd hconn
    refine ⟨[], fun x => le_refl _, ?_, ?_⟩
    · intro u hu v hv
      exact hconn u hu v hv
    · simp only [List.length_nil]
      omega
  | succ n ih =>
    intro S V hlen hnd hne hep hconn
    classical
    by_cases hred : ∃ f ∈ S, ∀ u ∈ V, ∀ v ∈ V, EWalk (S.erase f) u v
    · obtain ⟨f, hf, hconn2⟩ := hred
      have hlen2 : (S.erase f).length ≤ n := by
        rw [List.length_erase_of_mem hf]
        omega
      have hep2 : ∀ e ∈ S.erase f, e.source ∈ V ∧ e.target ∈ V :=
        fun e he => hep e (List.mem_of_mem_erase he)
      obtain ⟨M, hM1, hM2, hM3⟩ := ih (S.erase f) V hlen2 hnd hne
        hep2 hconn2
      refine ⟨M, ?_, hM2, hM3⟩
      intro x
      refine le_trans (hM1 x) ?_
      rw [List.count_erase]
      omega
    · have hess : ∀ f ∈ S, ¬ (∀ u ∈ V, ∀ v ∈ V, EWalk (S.erase f) u v) :=
        fun f hf hc => hred ⟨f, hf, hc⟩
      have hub := essential_length_ub_aux S.length S V (le_refl _)
        hnd hne hep hconn hess
      have hlb := connects_card_bound hnd hconn
      exact ⟨S, fun x => le_refl _, hconn, by omega⟩

/-- Choosing a minimizer out of a nonempty list. -/
theorem exists_list_min {α : Type} (f : α → W) :
    ∀ (l : List α), l ≠ [] → ∃ m ∈ l, ∀ x ∈ l, f m ≤ f x := by
  intro l
  induction l with
  | nil => intro h; exact absurd rfl h
  | cons a rest ih =>
    intro _
    cases rest with
    | nil =>
      refine ⟨a, List.mem_cons_self _ _, ?_⟩
      intro x hx
      rw [List.mem_singleton.mp hx]
    | cons b rest2 =>
      obtain ⟨m, hm, hmin⟩ := ih (by simp)
      by_cases ham : f a ≤ f m
      · refine ⟨a, List.mem_cons_self _ _, ?_⟩
        intro x hx
        rcases List.mem_cons.mp hx with hx | hx
        · rw [hx]
        · exact le_trans ham (hmin x hx)
      · refine ⟨m, List.mem_cons_of_mem _ hm, ?_⟩
        intro x hx
        rcases List.mem_cons.mp hx with hx | hx
        · rw [hx]
          exact le_of_not_le ham
        · exact hmin x hx

/-- Replacing each edge of a walk by a same-endpoints edge of another
list preserves connections. -/
theorem ewalk_map_ends {T O : List (MGEdge (Option W))}
    (h : ∀ e ∈ T, ∃ o ∈ O, Joins o e.source e.target) {u v : String}
    (hw : EWalk T u v) : EWalk O u v := by
  induction hw with
  | refl => exact .refl
  | @step b c _ hs ih =>
    obtain ⟨e, he, hj⟩ := hs
    obtain ⟨o, ho, hjo⟩ := h e he
    refine .step ih ⟨o, ho, ?_⟩
    rcases hj with ⟨h1, h2⟩ | ⟨h1, h2⟩
    · rw [h1, h2] at hjo
      exact hjo
    · rw [h1, h2] at hjo
      exact joins_symm hjo

/-- A spanning-tree list never repeats an edge value. -/
theorem stree_count_le_one {T : List (MGEdge (Option W))}
    {V : List String} (hnd : V.Nodup) (hne : V ≠ [])
    (hconn : ∀ u ∈ V, ∀ v ∈ V, EWalk T u v)
    (hlen : T.length = V.length - 1) (x : MGEdge (Option W)) :
    List.count x T ≤ 1 := by
  by_contra hcon
  push_neg at hcon
  have hx2 : 2 ≤ List.count x T := hcon
  have hceq : List.count x (T.erase x) = List.count x T - 1 :=
    List.count_erase_self x T
  have hmemx : x ∈ T.erase x := by
    have hpos : 0 < List.count x (T.erase x) := by omega
    exact List.count_pos_iff_mem.mp hpos
  have hconn2 : ∀ u ∈ V, ∀ v ∈ V, EWalk (T.erase x) u v := by
    intro u hu v hv
    have hb : EWalk (T.erase x) x.source x.target :=
      ewalk_single ⟨x, hmemx, Or.inl ⟨rfl, rfl⟩⟩
    rcases ewalk_erase_split (f := x) (hconn u hu v hv) with
      h1 | ⟨h1, h2⟩ | ⟨h1, h2⟩
    · exact h1
    · exact ewalk_trans h1 (ewalk_trans hb h2)
    · exact ewalk_trans h1 (ewalk_trans (ewalk_symm hb) h2)
  have hb2 := connects_card_bound hnd hconn2
  have hxT : x ∈ T := by
    have : 0 < List.count x T := by omega
    exact List.count_pos_iff_mem.mp this
  have hlen2 : (T.erase x).length = T.length - 1 :=
    List.length_erase_of_mem hxT
  have hVpos : 0 < V.length :=
    List.length_pos_of_ne_nil hne
  have hcl : List.count x T ≤ T.length := List.count_le_length x T
  omega

/-- A minimum spanning-tree list exists for every well-formed connected
graph. -/
theorem exists_min_stree (G : GraphAPI (Option W))
    (hnd : G.vertices.Nodup) (hne : G.vertices ≠ [])
    (hwf : ∀ e ∈ G.edges, e.source ∈ G.vertices ∧ e.target ∈ G.vertices)
    (hconn : Connects G.vertices G.edges) :
    ∃ M, IsMinSTree G M ∧
      ∀ x, List.count x M ≤ List.count x G.edges := by
  classical
  obtain ⟨M0, hM01, hM02, hM03⟩ := exists_spanning_submultiset
    G.edges.length G.edges G.vertices (le_refl _) hnd hne hwf hconn
  obtain ⟨M0s, hperm0, hsub0⟩ :=
    List.subperm_ext_iff.mpr (fun x _ => hM01 x)
  have hM0mem : M0s ∈ G.edges.sublists.filter
      (fun S => decide ((∀ u ∈ G.vertices, ∀ v ∈ G.vertices, EWalk S u v)
        ∧ S.length = G.vertices.length - 1)) := by
    refine List.mem_filter.mpr ⟨List.mem_sublists.mpr hsub0, ?_⟩
    refine decide_eq_true ⟨?_, ?_⟩
    · intro u hu v hv
      exact ewalk_mono (fun e he => hperm0.mem_iff.mpr he)
        (hM02 u hu v hv)
    · rw [hperm0.length_eq]
      exact hM03
  obtain ⟨m, hmmem, hmmin⟩ := exists_list_min sumW
    (G.edges.sublists.filter
      (fun S => decide ((∀ u ∈ G.vertices, ∀ v ∈ G.vertices, EWalk S u v)
        ∧ S.length = G.vertices.length - 1)))
    (fun h => by rw [h] at hM0mem; exact List.not_mem_nil _ hM0mem)
  obtain ⟨hmsub, hmprop⟩ := List.mem_filter.mp hmmem
  have hmp := of_decide_eq_true hmprop
  have hmsub2 : List.Sublist m G.edges := List.mem_sublists.mp hmsub
  refine ⟨m, ⟨⟨?_, hmp.1, hmp.2⟩, ?_⟩, fun x => hmsub2.count_le x⟩
  · intro e he
    exact ⟨e, hmsub2.subset he, rfl, Or.inl ⟨rfl, rfl⟩⟩
  · -- minimality over all spanning-tree lists, via canonicalisation
    intro T hT
    obtain ⟨hTlink, hTconn, hTlen⟩ := hT
    have horig : ∀ e ∈ T, (if h : LinkOf G e then Classical.choose h
        else e) ∈ G.edges ∧
        (if h : LinkOf G e then Classical.choose h else e).weight
          = e.weight ∧
        Joins (if h : LinkOf G e then Classical.choose h else e)
          e.source e.target := by
      intro e he
      have hl := hTlink e he
      rw [dif_pos hl]
      obtain ⟨h1, h2, h3⟩ := Classical.choose_spec hl
      exact ⟨h1, h2, h3⟩
    have hT0conn : ∀ u ∈ G.vertices, ∀ v ∈ G.vertices,
        EWalk (T.map (fun e => if h : LinkOf G e then Classical.choose h
          else e)) u v := by
      intro u hu v hv
      refine ewalk_map_ends ?_ (hTconn u hu v hv)
      intro e he
      exact ⟨_, List.mem_map_of_mem _ he, (horig e he).2.2⟩
    have hT0len : (T.map (fun e => if h : LinkOf G e then
        Classical.choose h else e)).length = G.vertices.length - 1 := by
      rw [List.length_map]
      exact hTlen
    have hT0sum : sumW (T.map (fun e => if h : LinkOf G e then
        Classical.choose h else e)) = sumW T := by
      unfold sumW
      rw [List.map_map]
      refine congrArg List.sum ?_
      refine List.map_congr_left ?_
      intro e he
      show ekey (if h : LinkOf G e then Classical.choose h else e) = ekey e
      unfold ekey
      rw [(horig e he).2.1]
    have hT0cnt : ∀ x, List.count x (T.map (fun e =>
        if h : LinkOf G e then Classical.choose h else e))
        ≤ List.count x G.edges := by
      intro x
      by_cases hx : x ∈ T.map (fun e => if h : LinkOf G e then
          Classical.choose h else e)
      · have hxE : x ∈ G.edges := by
          obtain ⟨e, he, hex⟩ := List.mem_map.mp hx
          rw [← hex]
          exact (horig e he).1
        have h1 : List.count x (T.map (fun e =>
            if h : LinkOf G e then Classical.choose h else e)) ≤ 1 :=
          stree_count_le_one hnd hne hT0conn hT0len x
        have h2 : 1 ≤ List.count x G.edges :=
          List.count_pos_iff_mem.mpr hxE
        omega
      · rw [List.count_eq_zero_of_not_mem hx]
        omega
    obtain ⟨T0s, hperm, hsub⟩ := List.subperm_ext_iff.mpr
      (fun x _ => hT0cnt x)
    have hT0smem : T0s ∈ G.edges.sublists.filter
        (fun S => decide ((∀ u ∈ G.vertices, ∀ v ∈ G.vertices,
          EWalk S u v) ∧ S.length = G.vertices.length - 1)) := by
      refine List.mem_filter.mpr ⟨List.mem_sublists.mpr hsub, ?_⟩
      refine decide_eq_true ⟨?_, ?_⟩
      · intro u hu v hv
        exact ewalk_mono (fun e he => hperm.mem_iff.mpr he)
          (hT0conn u hu v hv)
      · rw [hperm.length_eq]
        exact hT0len
    have hT0ssum : sumW T0s = sumW T := by
      rw [← hT0sum]
      exact (hperm.map ekey).sum_eq
    exact le_trans (hmmin T0s hT0smem) (le_of_eq hT0ssum)

/-! ### Union-find verification -/

theorem mapSet_length_none {α : Type} (k : String) (v : α) :
    ∀ m : List (String × α), mapGet m k = none →
      (mapSet m k v).length = m.length + 1 := by
  intro m
  induction m with
  | nil => intro _; rfl
  | cons p rest ih =>
    intro hg
    rw [show mapSet (p :: rest) k v
        = if p.1 = k then (k, v) :: rest else p :: mapSet rest k v from by
      cases p; rfl]
    rw [show mapGet (p :: rest) k
        = if p.1 = k then some p.2 else mapGet rest k from by
      cases p; rfl] at hg
    by_cases hk : p.1 = k
    · rw [if_pos hk] at hg
      exact Option.noConfusion hg
    · rw [if_neg hk] at hg
      rw [if_neg hk]
      simp only [List.length_cons, ih hg]

theorem mapSet_length_some {α : Type} (k : String) (v : α) :
    ∀ (m : List (String × α)) (w : α), mapGet m k = some w →
      (mapSet m k v).length = m.length := by
  intro m
  induction m with
  | nil => intro w hg; exact Option.noConfusion hg
  | cons p rest ih =>
    intro w hg
    rw [show mapSet (p :: rest) k v
        = if p.1 = k then (k, v) :: rest else p :: mapSet rest k v from by
      cases p; rfl]
    rw [show mapGet (p :: rest) k
        = if p.1 = k then some p.2 else mapGet rest k from by
      cases p; rfl] at hg
    by_cases hk : p.1 = k
    · rw [if_pos hk]
      rfl
    · rw [if_neg hk] at hg
      rw [if_neg hk]
      simp only [List.length_cons, ih w hg]

theorem foldl_mapSet_length {β : Type} (f : String → β) :
    ∀ (l : List String) (init : List (String × β)), l.Nodup →
      (∀ v ∈ l, mapGet init v = none) →
      (l.foldl (fun m v => mapSet m v (f v)) init).length
        = init.length + l.length := by
  intro l
  induction l with
  | nil => intro init _ _; rfl
  | cons x rest ih =>
    intro init hnd hnone
    rw [List.foldl_cons]
    rw [ih (mapSet init x (f x)) (List.nodup_cons.mp hnd).2 ?_]
    · rw [mapSet_length_none x (f x) init
        (hnone x (List.mem_cons_self _ _))]
      simp only [List.length_cons]
      omega
    · intro v hv
      rw [mapGet_mapSet_ne init x v (f x)
        (fun hvx => (List.nodup_cons.mp hnd).1 (hvx ▸ hv))]
      exact hnone v (List.mem_cons_of_mem _ hv)

theorem uf_init_eq :
    ∀ (l : List String) (uf : UnionFindService.UnionFind),
      l.foldl (fun uf e => (⟨mapSet uf.parent e e, mapSet uf.rank e 0,
        uf.componentCount + 1⟩ : UnionFindService.UnionFind)) uf
      = ⟨l.foldl (fun m v => mapSet m v v) uf.parent,
         l.foldl (fun m v => mapSet m v 0) uf.rank,
         uf.componentCount + l.length⟩ := by
  intro l
  induction l with
  | nil => intro uf; rfl
  | cons x rest ih =>
    intro uf
    rw [List.foldl_cons, ih]
    have harith : uf.componentCount + 1 + rest.length
        = uf.componentCount + (rest.length + 1) := by omega
    rw [show (x :: rest).foldl (fun m v => mapSet m v v) uf.parent
        = rest.foldl (fun m v => mapSet m v v) (mapSet uf.parent x x)
      from rfl]
    rw [show (x :: rest).foldl (fun m v => mapSet m v 0) uf.rank
        = rest.foldl (fun m v => mapSet m v 0) (mapSet uf.rank x 0)
      from rfl]
    rw [show (x :: rest).length = rest.length + 1 from rfl]
    rw [harith]

theorem uf_init_parent_get (V : List String) (x : String) :
    mapGet (UnionFindService.init V).parent x
      = if x ∈ V then some x else none := by
  unfold UnionFindService.init
  rw [uf_init_eq]
  show mapGet (V.foldl (fun m v => mapSet m v v) []) x = _
  rw [mapGet_foldl_init (fun v => v)]
  rfl

theorem uf_init_state (V : List String) (hnd : V.Nodup) :
    UFState (W := W) V [] (fun v => v) (UnionFindService.init V) := by
  refine ⟨?_, ?_, ?_, ?_, ?_, ?_, ?_, ?_⟩
  · unfold UnionFindService.init
    rw [uf_init_eq]
    show (V.foldl (fun m v => mapSet m v v) []).length = V.length
    rw [foldl_mapSet_length (fun v => v) V [] hnd (fun v _ => rfl)]
    simp
  · intro v hv
    rw [uf_init_parent_get, if_neg hv]
  · intro v hv
    exact ⟨[v], by simp, rfl, rfl, List.nodup_singleton v,
      by simp [hv], trivial⟩
  · intro v hv
    rw [uf_init_parent_get, if_pos hv]
  · intro v hv
    exact hv
  · intro v _
    rfl
  · intro v p hvp
    rw [uf_init_parent_get] at hvp
    by_cases hv : v ∈ V
    · rw [if_pos hv] at hvp
      have : v = p := Option.some.inj hvp
      exact ⟨this, this ▸ hv⟩
    · rw [if_neg hv] at hvp
      exact Option.noConfusion hvp
  · intro u hu v hv
    constructor
    · intro hw
      exact ewalk_nil hw
    · intro hw
      show EWalk [] u v
      rw [hw]
      exact .refl

theorem ufstate_dom {V : List String} {acc : List (MGEdge (Option W))}
    {ρ : String → String} {uf : UnionFindService.UnionFind}
    (hst : UFState V acc ρ uf) {v : String} (hv : v ∈ V) :
    ∃ p, mapGet uf.parent v = some p := by
  obtain ⟨l, hlne, hhead, hlast, hnd, hmem, hch⟩ := hst.chains v hv
  cases l with
  | nil => exact absurd rfl hlne
  | cons x rest =>
    have hx : x = v := by
      simp at hhead
      exact hhead
    subst x
    cases rest with
    | nil =>
      have hrv : ρ v = v := by
        simp at hlast
        exact hlast.symm
      refine ⟨v, ?_⟩
      have h := hst.root_self v hv
      rw [hrv] at h
      exact h
    | cons y rest2 => exact ⟨y, hch.1⟩

theorem ufstate_root_fix {V : List String} {acc : List (MGEdge (Option W))}
    {ρ : String → String} {uf : UnionFindService.UnionFind}
    (hst : UFState V acc ρ uf) {v : String} (hv : v ∈ V)
    (hself : mapGet uf.parent v = some v) : ρ v = v := by
  obtain ⟨l, hlne, hhead, hlast, hnd, hmem, hch⟩ := hst.chains v hv
  cases l with
  | nil => exact absurd rfl hlne
  | cons x rest =>
    have hx : x = v := by
      simp at hhead
      exact hhead
    subst x
    cases rest with
    | nil =>
      simp at hlast
      exact hlast.symm
    | cons y rest2 =>
      have hy : y = v := Option.some.inj ((hch.1).symm.trans hself)
      subst y
      exact absurd (List.mem_cons_self v rest2)
        (List.nodup_cons.mp hnd).1

theorem relChain_mapset_notdrop {p : List (String × String)}
    {key val : String} :
    ∀ l, ¬ key ∈ l.dropLast →
      RelChain (fun a b => mapGet p a = some b) l →
      RelChain (fun a b => mapGet (mapSet p key val) a = some b) l := by
  intro l
  induction l with
  | nil => intro _ _; trivial
  | cons x rest ih =>
    intro hk hch
    cases rest with
    | nil => trivial
    | cons y rest2 =>
      have hdl : (x :: y :: rest2).dropLast = x :: (y :: rest2).dropLast :=
        rfl
      have hxk : x ≠ key := by
        intro hxe
        apply hk
        rw [hdl, ← hxe]
        exact List.mem_cons_self _ _
      refine ⟨?_, ih ?_ hch.2⟩
      · show mapGet (mapSet p key val) x = some y
        rw [mapGet_mapSet_ne p key x val hxk]
        exact hch.1
      · intro hkm
        apply hk
        rw [hdl]
        exact List.mem_cons_of_mem _ hkm

theorem relChain_rho_const (ρ : String → String)
    (uf : UnionFindService.UnionFind)
    (hcompat : ∀ v p, mapGet uf.parent v = some p → ρ v = ρ p) :
    ∀ (l : List String) (w x : String),
      RelChain (fun a b => mapGet uf.parent a = some b) l →
      l.head? = some w → x ∈ l → ρ x = ρ w := by
  intro l
  induction l with
  | nil => intro w x _ _ hx; exact absurd hx (List.not_mem_nil x)
  | cons a rest ih =>
    intro w x hch hh hx
    have ha : a = w := by
      simp at hh
      exact hh
    subst a
    rcases List.mem_cons.mp hx with hx | hx
    · rw [hx]
    · cases rest with
      | nil => exact absurd hx (List.not_mem_nil x)
      | cons b rest2 =>
        have h1 : ρ x = ρ b := ih b x hch.2 rfl hx
        have h2 : ρ w = ρ b := hcompat w b hch.1
        rw [h1, h2]

theorem relChain_prefix {R : String → String → Prop} :
    ∀ (l1 : List String) (x : String) (rest : List String),
      RelChain R (l1 ++ x :: rest) → RelChain R (l1 ++ [x]) := by
  intro l1
  induction l1 with
  | nil => intro x rest _; trivial
  | cons a l2 ih =>
    intro x rest hch
    cases l2 with
    | nil =>
      cases rest with
      | nil => exact hch
      | cons r rest2 => exact ⟨hch.1, trivial⟩
    | cons b l3 =>
      exact ⟨hch.1, ih x rest hch.2⟩

theorem head_append_cons {l1 : List String} {x : String}
    (t t' : List String) :
    (l1 ++ x :: t).head? = (l1 ++ x :: t').head? := by
  cases l1 with
  | nil => rfl
  | cons a l2 => rfl

theorem getLast_mem_of_eq {l : List String} {x : String}
    (h : l.getLast? = some x) : x ∈ l := by
  cases l with
  | nil => exact absurd h (by simp)
  | cons a rest =>
    rw [List.getLast?_eq_getLast (a :: rest) (by simp)] at h
    rw [← Option.some.inj h]
    exact List.getLast_mem (by simp)

/-- Path compression: re-pointing a non-root vertex directly at its root
preserves the union-find invariant. -/
theorem ufstate_compress (V : List String)
    (acc : List (MGEdge (Option W))) (ρ : String → String)
    (uf1 : UnionFindService.UnionFind) (v : String)
    (hst : UFState V acc ρ uf1) (hv : v ∈ V) (hnroot : ρ v ≠ v)
    (uf2 : UnionFindService.UnionFind)
    (hp2 : uf2.parent = mapSet uf1.parent v (ρ v)) :
    UFState V acc ρ uf2 := by
  obtain ⟨pv, hpv⟩ := ufstate_dom hst hv
  refine ⟨?_, ?_, ?_, ?_, hst.root_mem, hst.root_idem, ?_, hst.compl⟩
  · rw [hp2, mapSet_length_some v (ρ v) uf1.parent pv hpv]
    exact hst.plen
  · intro x hx
    have hxv : x ≠ v := fun h => hx (h ▸ hv)
    rw [hp2, mapGet_mapSet_ne uf1.parent v x (ρ v) hxv]
    exact hst.nodom x hx
  · intro w hw
    obtain ⟨l, hlne, hh, hl, hnd, hmem, hch⟩ := hst.chains w hw
    by_cases hvl : v ∈ l.dropLast
    · -- the chain passes through v strictly before its end: compress it
      have hvml : v ∈ l := List.dropLast_subset l hvl
      obtain ⟨l1, rest, hsplit⟩ := List.append_of_mem hvml
      subst hsplit
      have hrest : rest ≠ [] := by
        intro hr
        subst hr
        have hthis : (l1 ++ [v]).dropLast = l1 := List.dropLast_concat
        rw [hthis] at hvl
        exact (List.disjoint_of_nodup_append hnd) hvl
          (List.mem_cons_self _ _)
      have hrw : ρ v = ρ w :=
        relChain_rho_const ρ uf1
          (fun a b hab => (hst.parent_compat a b hab).1)
          (l1 ++ v :: rest) w v hch hh
          (List.mem_append_right _ (List.mem_cons_self _ _))
      refine ⟨l1 ++ [v, ρ v], ?_, ?_, ?_, ?_, ?_, ?_⟩
      · simp
      · show (l1 ++ v :: [ρ v]).head? = some w
        rw [head_append_cons [ρ v] rest]
        exact hh
      · have hassoc : l1 ++ [v, ρ v] = (l1 ++ [v]) ++ [ρ v] := by simp
        rw [hassoc, List.getLast?_concat, hrw]
      · have hsl : List.Sublist (l1 ++ [v]) (l1 ++ v :: rest) :=
          List.Sublist.append_left
            (List.Sublist.cons₂ v (List.nil_sublist rest)) l1
        have hnd1 : (l1 ++ [v]).Nodup := List.Nodup.sublist hsl hnd
        have hrl : rest.getLast? = some (ρ w) := by
          have e1 : (l1 ++ v :: rest).getLast? = (v :: rest).getLast? :=
            List.getLast?_append_of_ne_nil l1 (by simp)
          have e2 : (v :: rest).getLast? = rest.getLast? := by
            have hvr : v :: rest = [v] ++ rest := rfl
            rw [hvr]
            exact List.getLast?_append_of_ne_nil [v] hrest
          rw [← e2, ← e1]
          exact hl
        have hrhow : ρ v ∈ rest := by
          rw [hrw]
          exact getLast_mem_of_eq hrl
        have hassoc2 : (l1 ++ [v]) ++ rest = l1 ++ v :: rest := by simp
        have hnd2 : ((l1 ++ [v]) ++ rest).Nodup := by
          rw [hassoc2]
          exact hnd
        have hdisj : ∀ a ∈ l1 ++ [v], ¬ a ∈ rest :=
          fun a ha hb => List.disjoint_of_nodup_append hnd2 ha hb
        have hassoc : l1 ++ [v, ρ v] = (l1 ++ [v]) ++ [ρ v] := by simp
        rw [hassoc]
        refine List.nodup_append.mpr ⟨hnd1, List.nodup_singleton _, ?_⟩
        intro a ha hb
        rw [List.mem_singleton.mp hb] at ha
        exact hdisj (ρ v) ha hrhow
      · intro x hx
        rcases List.mem_append.mp hx with hx | hx
        · exact hmem x (List.mem_append_left _ hx)
        · rcases List.mem_cons.mp hx with hx | hx
          · rw [hx]
            exact hmem v hvml
          · rw [List.mem_singleton.mp hx]
            exact hst.root_mem v hv
      · have hpre : RelChain (fun a b => mapGet uf1.parent a = some b)
            (l1 ++ [v]) := relChain_prefix l1 v rest hch
        have hnotd : ¬ v ∈ (l1 ++ [v]).dropLast := by
          have hthis : (l1 ++ [v]).dropLast = l1 := List.dropLast_concat
          rw [hthis]
          intro hvl1
          exact (List.disjoint_of_nodup_append hnd) hvl1
            (List.mem_cons_self _ _)
        have htrans : RelChain
            (fun a b => mapGet (mapSet uf1.parent v (ρ v)) a = some b)
            (l1 ++ [v]) := relChain_mapset_notdrop (l1 ++ [v]) hnotd hpre
        have hlastv : (l1 ++ [v]).getLast? = some v :=
          List.getLast?_concat _
        have hsn := relChain_snoc (l1 ++ [v]) v (ρ v) htrans hlastv
          (mapGet_mapSet_self uf1.parent v (ρ v))
        rw [hp2]
        have hassoc : l1 ++ [v, ρ v] = (l1 ++ [v]) ++ [ρ v] := by simp
        rw [hassoc]
        exact hsn
    · refine ⟨l, hlne, hh, hl, hnd, hmem, ?_⟩
      rw [hp2]
      exact relChain_mapset_notdrop l hvl hch
  · intro w hw
    have hne : ρ w ≠ v := by
      intro h
      apply hnroot
      have h2 := hst.root_idem w hw
      rw [h] at h2
      exact h2
    rw [hp2, mapGet_mapSet_ne uf1.parent v (ρ w) (ρ v) hne]
    exact hst.root_self w hw
  · intro x p hxp
    by_cases hxv : x = v
    · subst x
      rw [hp2, mapGet_mapSet_self] at hxp
      have hpr : p = ρ v := Option.some.inj hxp.symm
      subst p
      exact ⟨(hst.root_idem v hv).symm, hst.root_mem v hv⟩
    · rw [hp2, mapGet_mapSet_ne uf1.parent v x (ρ v) hxv] at hxp
      exact hst.parent_compat x p hxp

/-- `findGo` returns the root of its argument and preserves the
invariant, provided the fuel covers the (duplicate-free) parent chain. -/
theorem findGo_spec (V : List String) (acc : List (MGEdge (Option W)))
    (ρ : String → String) :
    ∀ (k : Nat) (uf : UnionFindService.UnionFind) (v : String)
      (l : List String),
      UFState V acc ρ uf → v ∈ V →
      l.head? = some v → l.getLast? = some (ρ v) → l.Nodup →
      (∀ x ∈ l, x ∈ V) →
      RelChain (fun a b => mapGet uf.parent a = some b) l →
      l.length ≤ k →
      (UnionFindService.findGo k uf v).1 = some (ρ v) ∧
      UFState V acc ρ (UnionFindService.findGo k uf v).2 := by
  intro k
  induction k with
  | zero =>
    intro uf v l _ _ hh _ _ _ _ hlen
    have hl0 : l = [] := List.eq_nil_of_length_eq_zero (Nat.le_zero.mp hlen)
    subst hl0
    exact absurd hh (by simp)
  | succ k ih =>
    intro uf v l hst hv hh hl hnd hmem hch hlen
    obtain ⟨p, hp⟩ := ufstate_dom hst hv
    rw [show UnionFindService.findGo (k + 1) uf v
        = (match mapGet uf.parent v with
          | none => (none, uf)
          | some p =>
            if p = v then (some v, uf)
            else
              match UnionFindService.findGo k uf p with
              | (some root, uf2) =>
                (some root, { uf2 with parent := mapSet uf2.parent v root })
              | (none, uf2) => (none, uf2)) from rfl]
    rw [hp]
    dsimp only
    by_cases hpv : p = v
    · rw [if_pos hpv]
      subst p
      have hrv : ρ v = v := ufstate_root_fix hst hv hp
      exact ⟨by rw [hrv], hst⟩
    · rw [if_neg hpv]
      cases l with
      | nil => exact absurd hh (by simp)
      | cons x rest =>
      have hx : x = v := by
        simp at hh
        exact hh
      subst x
      cases rest with
      | nil =>
        have hrv : ρ v = v := by
          simp at hl
          exact hl.symm
        have hself := hst.root_self v hv
        rw [hrv] at hself
        exact absurd (Option.some.inj (hp.symm.trans hself)) hpv
      | cons y rest2 =>
      have hy : y = p := Option.some.inj ((hch.1).symm.trans hp)
      subst y
      have hpV : p ∈ V := hmem p
        (List.mem_cons_of_mem _ (List.mem_cons_self _ _))
      have hrvp : ρ v = ρ p := (hst.parent_compat v p hp).1
      have hlast2 : (p :: rest2).getLast? = some (ρ p) := by
        rw [List.getLast?_cons_cons] at hl
        rw [← hrvp]
        exact hl
      have hnd2 : (p :: rest2).Nodup := (List.nodup_cons.mp hnd).2
      have hmem2 : ∀ x ∈ p :: rest2, x ∈ V :=
        fun x hx => hmem x (List.mem_cons_of_mem _ hx)
      have hlen2 : (p :: rest2).length ≤ k := by
        simp only [List.length_cons] at hlen ⊢
        omega
      have hrec := ih uf p (p :: rest2) hst hpV rfl hlast2 hnd2
        hmem2 hch.2 hlen2
      rcases hfg : UnionFindService.findGo k uf p with ⟨o, uf2⟩
      rw [hfg] at hrec
      obtain ⟨ho, hst2⟩ := hrec
      have ho2 : o = some (ρ p) := ho
      subst ho2
      dsimp only
      constructor
      · rw [hrvp]
      · have hnroot : ρ v ≠ v := by
          intro hroot
          have hself := hst.root_self v hv
          rw [hroot] at hself
          exact hpv (Option.some.inj (hp.symm.trans hself))
        refine ufstate_compress V acc ρ uf2 v hst2 hv hnroot _ ?_
        show mapSet uf2.parent v (ρ p) = mapSet uf2.parent v (ρ v)
        rw [hrvp]

/-- `find` returns the root and preserves the invariant. -/
theorem find_spec {V : List String} {acc : List (MGEdge (Option W))}
    {ρ : String → String} {uf : UnionFindService.UnionFind} {v : String}
    (hst : UFState V acc ρ uf) (hv : v ∈ V) :
    (UnionFindService.find uf v).1 = some (ρ v) ∧
    UFState V acc ρ (UnionFindService.find uf v).2 := by
  obtain ⟨l, hlne, hh, hl, hnd, hmem, hch⟩ := hst.chains v hv
  have hsub : l.Subperm V := List.subperm_of_subset hnd hmem
  have hlen : l.length ≤ V.length := hsub.length_le
  have hplen := hst.plen
  exact findGo_spec V acc ρ (uf.parent.length + 1) uf v l hst hv hh hl
    hnd hmem hch (by omega)

theorem head_append_ne_nil {l : List String} (t : List String)
    (h : l ≠ []) : (l ++ t).head? = l.head? := by
  cases l with
  | nil => exact absurd rfl h
  | cons a rest => rfl

theorem getLast_not_mem_dropLast {l : List String} {x : String}
    (hnd : l.Nodup) (hl : l.getLast? = some x) : ¬ x ∈ l.dropLast := by
  intro hx
  cases l with
  | nil => exact absurd hl (by simp)
  | cons a rest =>
    have hne : a :: rest ≠ [] := by simp
    have hsplit : (a :: rest).dropLast ++ [(a :: rest).getLast hne]
        = a :: rest := List.dropLast_append_getLast hne
    have hxl : (a :: rest).getLast hne = x := by
      rw [List.getLast?_eq_getLast _ hne] at hl
      exact Option.some.inj hl
    have hnd2 : ((a :: rest).dropLast
        ++ [(a :: rest).getLast hne]).Nodup := by
      rw [hsplit]
      exact hnd
    exact List.disjoint_of_nodup_append hnd2 hx
      (by rw [hxl]; exact List.mem_singleton.mpr rfl)

/-- Linking the root of `a` under the root of `b` merges the two classes:
the invariant holds for the accepted edge list extended with an edge
joining `a` and `b`. -/
theorem ufstate_link (V : List String) (acc : List (MGEdge (Option W)))
    (ρ : String → String) (uf : UnionFindService.UnionFind)
    (hst : UFState V acc ρ uf)
    (hepacc : ∀ g ∈ acc, g.source ∈ V ∧ g.target ∈ V)
    (a b : String) (ha : a ∈ V) (hb : b ∈ V)
    (e : MGEdge (Option W)) (hje : Joins e a b) (hne : ρ a ≠ ρ b)
    (uf2 : UnionFindService.UnionFind)
    (hp2 : uf2.parent = mapSet uf.parent (ρ a) (ρ b)) :
    UFState V (acc ++ [e])
      (fun x => if ρ x = ρ a then ρ b else ρ x) uf2 := by
  have hraV : ρ a ∈ V := hst.root_mem a ha
  have hrbV : ρ b ∈ V := hst.root_mem b hb
  obtain ⟨pa, hpa⟩ := ufstate_dom hst hraV
  have hidb : ρ (ρ b) = ρ b := hst.root_idem b hb
  have hida : ρ (ρ a) = ρ a := hst.root_idem a ha
  refine ⟨?_, ?_, ?_, ?_, ?_, ?_, ?_, ?_⟩
  · rw [hp2, mapSet_length_some (ρ a) (ρ b) uf.parent pa hpa]
    exact hst.plen
  · intro x hx
    have hxv : x ≠ ρ a := fun h => hx (h ▸ hraV)
    rw [hp2, mapGet_mapSet_ne uf.parent (ρ a) x (ρ b) hxv]
    exact hst.nodom x hx
  · intro w hw
    obtain ⟨l, hlne, hh, hl, hnd, hmem, hch⟩ := hst.chains w hw
    have hrhoelem : ∀ x ∈ l, ρ x = ρ w :=
      fun x hx => relChain_rho_const ρ uf
        (fun c d hcd => (hst.parent_compat c d hcd).1) l w x hch hh hx
    by_cases hcase : ρ w = ρ a
    · -- the merged side: extend the chain to the new root
      have hlast : l.getLast? = some (ρ a) := by
        rw [hl, hcase]
      have hnotd : ¬ ρ a ∈ l.dropLast :=
        getLast_not_mem_dropLast hnd hlast
      have htrans : RelChain
          (fun c d => mapGet (mapSet uf.parent (ρ a) (ρ b)) c = some d)
          l := relChain_mapset_notdrop l hnotd hch
      have hsn := relChain_snoc l (ρ a) (ρ b) htrans hlast
        (mapGet_mapSet_self uf.parent (ρ a) (ρ b))
      refine ⟨l ++ [ρ b], by simp [hlne], ?_, ?_, ?_, ?_, ?_⟩
      · rw [head_append_ne_nil _ hlne]
        exact hh
      · rw [List.getLast?_concat]
        rw [if_pos hcase]
      · refine List.nodup_append.mpr
          ⟨hnd, List.nodup_singleton _, ?_⟩
        intro x hx hxb
        rw [List.mem_singleton.mp hxb] at hx
        have := hrhoelem (ρ b) hx
        rw [hidb, hcase] at this
        exact hne this.symm
      · intro x hx
        rcases List.mem_append.mp hx with hx | hx
        · exact hmem x hx
        · rw [List.mem_singleton.mp hx]
          exact hrbV
      · rw [hp2]
        exact hsn
    · -- untouched side: the chain is unchanged
      have hnomem : ¬ ρ a ∈ l := by
        intro hmem2
        have := hrhoelem (ρ a) hmem2
        rw [hida] at this
        exact hcase this.symm
      refine ⟨l, hlne, hh, ?_, hnd, hmem, ?_⟩
      · rw [hl]
        rw [if_neg hcase]
      · rw [hp2]
        exact relChain_mapset_notdrop l
          (fun h => hnomem (List.dropLast_subset l h)) hch
  · intro w hw
    by_cases hcase : ρ w = ρ a
    · rw [if_pos hcase]
      have hbna : ρ b ≠ ρ a := fun h => hne h.symm
      rw [hp2, mapGet_mapSet_ne uf.parent (ρ a) (ρ b) (ρ b) hbna]
      have h := hst.root_self b hb
      exact h
    · rw [if_neg hcase]
      rw [hp2, mapGet_mapSet_ne uf.parent (ρ a) (ρ w) (ρ b) hcase]
      exact hst.root_self w hw
  · intro w hw
    by_cases hcase : ρ w = ρ a
    · rw [if_pos hcase]
      exact hrbV
    · rw [if_neg hcase]
      exact hst.root_mem w hw
  · intro w hw
    by_cases hcase : ρ w = ρ a
    · rw [if_pos hcase]
      rw [if_neg (by rw [hidb]; exact fun h => hne h.symm)]
      exact hidb
    · rw [if_neg hcase]
      rw [if_neg (by rw [hst.root_idem w hw]; exact hcase)]
      exact hst.root_idem w hw
  · intro x p hxp
    by_cases hxa : x = ρ a
    · subst x
      rw [hp2, mapGet_mapSet_self] at hxp
      have hpb : p = ρ b := Option.some.inj hxp.symm
      subst p
      constructor
      · rw [if_pos hida, if_neg (by rw [hidb]; exact fun h => hne h.symm)]
        exact hidb.symm
      · exact hrbV
    · rw [hp2, mapGet_mapSet_ne uf.parent (ρ a) x (ρ b) hxa] at hxp
      obtain ⟨hcomp, hpV⟩ := hst.parent_compat x p hxp
      refine ⟨?_, hpV⟩
      rw [hcomp]
  · intro u hu v hv
    constructor
    · -- a walk in acc ++ [e] keeps the merged root
      intro hw
      have hfwd : ∀ c, EWalk (acc ++ [e]) u c → c ∈ V →
          (if ρ u = ρ a then ρ b else ρ u)
            = (if ρ c = ρ a then ρ b else ρ c) := by
        intro c hwc hcV
        clear hw hv
        induction hwc with
        | refl => rfl
        | @step m c2 hwm hs ih =>
          obtain ⟨g, hg, hj⟩ := hs
          have hmV : m ∈ V := by
            rcases List.mem_append.mp hg with hg | hg
            · have hend := hepacc g hg
              rcases hj with ⟨h1, _⟩ | ⟨_, h2⟩
              · exact h1 ▸ hend.1
              · exact h2 ▸ hend.2
            · rw [List.mem_singleton.mp hg] at hj
              rcases hje with ⟨h3, h4⟩ | ⟨h3, h4⟩ <;>
                rcases hj with ⟨h1, _⟩ | ⟨_, h2⟩
              · exact (h1.symm.trans h3) ▸ ha
              · exact (h2.symm.trans h4) ▸ hb
              · exact (h1.symm.trans h3) ▸ hb
              · exact (h2.symm.trans h4) ▸ ha
          have hstep : (if ρ m = ρ a then ρ b else ρ m)
              = (if ρ c2 = ρ a then ρ b else ρ c2) := by
            rcases List.mem_append.mp hg with hg | hg
            · have hend := hepacc g hg
              have hmc2 : m ∈ V ∧ c2 ∈ V := by
                rcases hj with ⟨h1, h2⟩ | ⟨h1, h2⟩
                · exact ⟨h1 ▸ hend.1, h2 ▸ hend.2⟩
                · exact ⟨h2 ▸ hend.2, h1 ▸ hend.1⟩
              have hrmc : ρ m = ρ c2 :=
                (hst.compl m hmc2.1 c2 hmc2.2).mp
                  (ewalk_single ⟨g, hg, hj⟩)
              rw [hrmc]
            · rw [List.mem_singleton.mp hg] at hj
              have hab2 : (if ρ a = ρ a then ρ b else ρ a)
                  = (if ρ b = ρ a then ρ b else ρ b) := by
                rw [if_pos rfl, if_neg (fun h => hne h.symm)]
              rcases hje with ⟨h3, h4⟩ | ⟨h3, h4⟩ <;>
                rcases hj with ⟨h1, h2⟩ | ⟨h1, h2⟩
              · rw [h1.symm.trans h3, h2.symm.trans h4]
                exact hab2
              · rw [h2.symm.trans h4, h1.symm.trans h3]
                exact hab2.symm
              · rw [h1.symm.trans h3, h2.symm.trans h4]
                exact hab2.symm
              · rw [h2.symm.trans h4, h1.symm.trans h3]
                exact hab2
          exact (ih hmV).trans hstep
      exact hfwd v hw hv
    · intro hr
      have hmono : ∀ g ∈ acc, g ∈ acc ++ [e] :=
        fun g hg => List.mem_append_left _ hg
      have hestep : EWalk (acc ++ [e]) a b :=
        ewalk_single ⟨e, List.mem_append_right _ (List.mem_cons_self _ _),
          hje⟩
      by_cases hu2 : ρ u = ρ a <;> by_cases hv2 : ρ v = ρ a
      · have : ρ u = ρ v := hu2.trans hv2.symm
        exact ewalk_mono hmono ((hst.compl u hu v hv).mpr this)
      · rw [if_pos hu2, if_neg hv2] at hr
        have hua : EWalk acc u a := (hst.compl u hu a ha).mpr hu2
        have hbv : EWalk acc b v := (hst.compl b hb v hv).mpr hr
        exact ewalk_trans (ewalk_mono hmono hua)
          (ewalk_trans hestep (ewalk_mono hmono hbv))
      · rw [if_neg hu2, if_pos hv2] at hr
        have hub : EWalk acc u b := (hst.compl u hu b hb).mpr hr
        have hav : EWalk acc a v := (hst.compl a ha v hv).mpr hv2.symm
        exact ewalk_trans (ewalk_mono hmono hub)
          (ewalk_trans (ewalk_symm hestep) (ewalk_mono hmono hav))
      · rw [if_neg hu2, if_neg hv2] at hr
        exact ewalk_mono hmono ((hst.compl u hu v hv).mpr hr)

/-- `union` returns `true` exactly when the two vertices are in distinct
components of the accepted edges, and maintains the invariant (for the
extended edge list when it merges). -/
theorem union_spec {V : List String} {acc : List (MGEdge (Option W))}
    {ρ : String → String} {uf : UnionFindService.UnionFind}
    (hst : UFState V acc ρ uf)
    (hepacc : ∀ g ∈ acc, g.source ∈ V ∧ g.target ∈ V)
    {a b : String} (ha : a ∈ V) (hb : b ∈ V)
    (e : MGEdge (Option W)) (hje : Joins e a b) :
    (EWalk acc a b →
      (UnionFindService.union uf a b).1 = false ∧
      UFState V acc ρ (UnionFindService.union uf a b).2) ∧
    (¬ EWalk acc a b →
      (UnionFindService.union uf a b).1 = true ∧
      ∃ ρ2, UFState V (acc ++ [e]) ρ2
        (UnionFindService.union uf a b).2) := by
  obtain ⟨hf1, hst1⟩ := find_spec hst ha
  rcases hfa : UnionFindService.find uf a with ⟨o1, uf1⟩
  rw [hfa] at hf1 hst1
  dsimp only at hf1 hst1
  subst hf1
  obtain ⟨hf2, hst2⟩ := find_spec hst1 hb
  rcases hfb : UnionFindService.find uf1 b with ⟨o2, uf2⟩
  rw [hfb] at hf2 hst2
  dsimp only at hf2 hst2
  subst hf2
  rw [show UnionFindService.union uf a b
      = (match UnionFindService.find uf a with
        | (none, uf) => (false, uf)
        | (some root1, uf) =>
          match UnionFindService.find uf b with
          | (none, uf) => (false, uf)
          | (some root2, uf) =>
            if root1 = root2 then (false, uf)
            else
              let rank1 := (mapGet uf.rank root1).getD 0
              let rank2 := (mapGet uf.rank root2).getD 0
              if rank1 < rank2 then
                (true, { uf with parent := mapSet uf.parent root1 root2,
                                 componentCount := uf.componentCount - 1 })
              else if rank1 > rank2 then
                (true, { uf with parent := mapSet uf.parent root2 root1,
                                 componentCount := uf.componentCount - 1 })
              else
                (true, ⟨mapSet uf.parent root2 root1,
                        mapSet uf.rank root1 (rank1 + 1),
                        uf.componentCount - 1⟩)) from rfl]
  rw [hfa]
  dsimp only
  rw [hfb]
  dsimp only
  have hiff := hst.compl a ha b hb
  by_cases hr : ρ a = ρ b
  · rw [if_pos hr]
    constructor
    · intro _
      exact ⟨rfl, hst2⟩
    · intro hnw
      exact absurd (hiff.mpr hr) hnw
  · rw [if_neg hr]
    have hwneg : ¬ EWalk acc a b := fun hw => hr (hiff.mp hw)
    by_cases hrk : (mapGet uf2.rank (ρ a)).getD 0
        < (mapGet uf2.rank (ρ b)).getD 0
    · rw [if_pos hrk]
      refine ⟨fun hw => absurd hw hwneg, fun _ => ⟨rfl, ?_⟩⟩
      exact ⟨_, ufstate_link V acc ρ uf2 hst2 hepacc a b ha hb e hje hr
        _ rfl⟩
    · rw [if_neg hrk]
      by_cases hrk2 : (mapGet uf2.rank (ρ a)).getD 0
          > (mapGet uf2.rank (ρ b)).getD 0
      · rw [if_pos hrk2]
        refine ⟨fun hw => absurd hw hwneg, fun _ => ⟨rfl, ?_⟩⟩
        exact ⟨_, ufstate_link V acc ρ uf2 hst2 hepacc b a hb ha e
          (joins_symm hje) (fun h => hr h.symm) _ rfl⟩
      · rw [if_neg hrk2]
        refine ⟨fun hw => absurd hw hwneg, fun _ => ⟨rfl, ?_⟩⟩
        exact ⟨_, ufstate_link V acc ρ uf2 hst2 hepacc b a hb ha e
          (joins_symm hje) (fun h => hr h.symm) _ rfl⟩

/-! ### Kruskal's algorithm -/

theorem subset_of_count_le {α : Type} [DecidableEq α]
    {A B : List α} (h : ∀ y, List.count y A ≤ List.count y B) :
    ∀ x ∈ A, x ∈ B := by
  intro x hx
  have h1 : 0 < List.count x A := List.count_pos_iff_mem.mpr hx
  have h2 := h x
  exact List.count_pos_iff_mem.mp (by omega)

theorem sumW_append (A B : List (MGEdge (Option W))) :
    sumW (A ++ B) = sumW A + sumW B := by
  unfold sumW
  rw [List.map_append, List.sum_append]

theorem sumW_cons (e : MGEdge (Option W)) (l : List (MGEdge (Option W))) :
    sumW (e :: l) = ekey e + sumW l := by
  unfold sumW
  rw [List.map_cons, List.sum_cons]

theorem sumW_perm {A B : List (MGEdge (Option W))} (h : A.Perm B) :
    sumW A = sumW B := (h.map ekey).sum_eq

theorem sumW_erase {f : MGEdge (Option W)} {M : List (MGEdge (Option W))}
    (h : f ∈ M) : sumW M = ekey f + sumW (M.erase f) := by
  rw [sumW_perm (List.perm_cons_erase h), sumW_cons]

/-- Count-equal lists carry spanning-tree structure across. -/
theorem istree_count_eq {G : GraphAPI (Option W)}
    {A M : List (MGEdge (Option W))}
    (hcnt : ∀ x, List.count x A = List.count x M) (hT : IsSTree G M) :
    IsSTree G A ∧ sumW A = sumW M := by
  have hperm : A.Perm M := List.perm_iff_count.mpr hcnt
  obtain ⟨hlink, hconn, hlen⟩ := hT
  refine ⟨⟨fun e he => hlink e (hperm.mem_iff.mp he), ?_, ?_⟩,
    sumW_perm hperm⟩
  · intro u hu v hv
    exact ewalk_mono (fun e he => hperm.mem_iff.mpr he) (hconn u hu v hv)
  · rw [hperm.length_eq]
    exact hlen

theorem count_cons_split {α : Type} [DecidableEq α] (x e : α)
    (l : List α) :
    List.count x (e :: l) = List.count x l + List.count x [e] := by
  by_cases hxe : x = e
  · subst hxe
    simp
  · simp [List.count_cons, hxe]

theorem insertByWeight_count (e : MGEdge (Option W)) :
    ∀ (l : List (MGEdge (Option W))) (x : MGEdge (Option W)),
      List.count x (insertByWeight e l)
        = List.count x l + List.count x [e] := by
  intro l
  induction l with
  | nil =>
    intro x
    simp [insertByWeight]
  | cons y ys ih =>
    intro x
    unfold insertByWeight
    by_cases hle : y.weight.getD 0 ≤ e.weight.getD 0
    · rw [if_pos hle]
      rw [count_cons_split x y (insertByWeight e ys), ih x,
        count_cons_split x y ys]
      omega
    · rw [if_neg hle]
      exact count_cons_split x e (y :: ys)

theorem insertByWeight_mem {e x : MGEdge (Option W)} :
    ∀ l, x ∈ insertByWeight e l ↔ x = e ∨ x ∈ l := by
  intro l
  induction l with
  | nil =>
    simp [insertByWeight]
  | cons y ys ih =>
    unfold insertByWeight
    by_cases hle : y.weight.getD 0 ≤ e.weight.getD 0
    · rw [if_pos hle]
      constructor
      · intro h
        rcases List.mem_cons.mp h with h | h
        · exact Or.inr (h ▸ List.mem_cons_self _ _)
        · rcases ih.mp h with h | h
          · exact Or.inl h
          · exact Or.inr (List.mem_cons_of_mem _ h)
      · intro h
        rcases h with h | h
        · exact List.mem_cons_of_mem _ (ih.mpr (Or.inl h))
        · rcases List.mem_cons.mp h with h | h
          · exact h ▸ List.mem_cons_self _ _
          · exact List.mem_cons_of_mem _ (ih.mpr (Or.inr h))
    · rw [if_neg hle]
      constructor
      · intro h
        rcases List.mem_cons.mp h with h | h
        · exact Or.inl h
        · exact Or.inr h
      · intro h
        rcases h with h | h
        · exact h ▸ List.mem_cons_self _ _
        · exact List.mem_cons_of_mem _ h

theorem insertByWeight_sorted (e : MGEdge (Option W)) :
    ∀ l, List.Pairwise (fun e1 e2 => ekey e1 ≤ ekey e2) l →
      List.Pairwise (fun e1 e2 => ekey e1 ≤ ekey e2)
        (insertByWeight e l) := by
  intro l
  induction l with
  | nil =>
    intro _
    simp [insertByWeight]
  | cons y ys ih =>
    intro hp
    obtain ⟨hy, hys⟩ := List.pairwise_cons.mp hp
    unfold insertByWeight
    by_cases hle : y.weight.getD 0 ≤ e.weight.getD 0
    · rw [if_pos hle]
      refine List.pairwise_cons.mpr ⟨?_, ih hys⟩
      intro z hz
      rcases (insertByWeight_mem ys).mp hz with hz | hz
      · rw [hz]
        exact hle
      · exact hy z hz
    · rw [if_neg hle]
      have hey : ekey e ≤ ekey y := le_of_not_le hle
      refine List.pairwise_cons.mpr ⟨?_, hp⟩
      intro z hz
      rcases List.mem_cons.mp hz with hz | hz
      · rw [hz]
        exact hey
      · exact le_trans hey (hy z hz)

theorem sortByWeight_count_aux :
    ∀ (E acc : List (MGEdge (Option W))) (x : MGEdge (Option W)),
      List.count x (E.foldl (fun acc e => insertByWeight e acc) acc)
        = List.count x acc + List.count x E := by
  intro E
  induction E with
  | nil =>
    intro acc x
    simp
  | cons e rest ih =>
    intro acc x
    rw [List.foldl_cons, ih, insertByWeight_count e acc x,
      count_cons_split x e rest]
    omega

theorem sortByWeight_count (E : List (MGEdge (Option W)))
    (x : MGEdge (Option W)) :
    List.count x (sortByWeight E) = List.count x E := by
  unfold sortByWeight
  rw [sortByWeight_count_aux E [] x]
  simp

theorem sortByWeight_sorted_aux :
    ∀ (E acc : List (MGEdge (Option W))),
      List.Pairwise (fun e1 e2 => ekey e1 ≤ ekey e2) acc →
      List.Pairwise (fun e1 e2 => ekey e1 ≤ ekey e2)
        (E.foldl (fun acc e => insertByWeight e acc) acc) := by
  intro E
  induction E with
  | nil => intro acc h; exact h
  | cons e rest ih =>
    intro acc h
    rw [List.foldl_cons]
    exact ih _ (insertByWeight_sorted e acc h)

theorem sortByWeight_sorted (E : List (MGEdge (Option W))) :
    List.Pairwise (fun e1 e2 => ekey e1 ≤ ekey e2) (sortByWeight E) :=
  sortByWeight_sorted_aux E [] List.Pairwise.nil

theorem sumW_single (e : MGEdge (Option W)) : sumW [e] = ekey e := by
  simp [sumW]

/-- A walk may drop an edge whose endpoints the rest already connects. -/
theorem ewalk_drop_redundant {acc rest : List (MGEdge (Option W))}
    {e : MGEdge (Option W)}
    (hred : EWalk (acc ++ rest) e.source e.target) :
    ∀ u v, EWalk (acc ++ e :: rest) u v → EWalk (acc ++ rest) u v := by
  intro u v h
  induction h with
  | refl => exact .refl
  | @step b c hw hs ih =>
    obtain ⟨g, hg, hj⟩ := hs
    rcases List.mem_append.mp hg with hga | hgr
    · exact .step ih ⟨g, List.mem_append_left _ hga, hj⟩
    · rcases List.mem_cons.mp hgr with hge | hgr
      · subst hge
        rcases hj with ⟨h1, h2⟩ | ⟨h1, h2⟩
        · rw [h1, h2] at hred
          exact ewalk_trans ih hred
        · rw [h1, h2] at hred
          exact ewalk_trans ih (ewalk_symm hred)
      · exact .step ih ⟨g, List.mem_append_right _ hgr, hj⟩

/-- The full Kruskal loop invariant: processing a sorted remainder from a
state whose union-find mirrors the accepted edges, with the accepted list
extendible (by a sub-multiset `D` of the remainder) to a minimum spanning
tree, yields a minimum spanning tree and its exact total weight. -/
theorem kruskalLoop_spec (G : GraphAPI (Option W))
    (hnd : G.vertices.Nodup) (h2 : 2 ≤ G.vertices.length) :
    ∀ (remaining : List (MGEdge (Option W)))
      (uf : UnionFindService.UnionFind) (acc : List (MGEdge (Option W)))
      (tw : W) (ρ : String → String),
      UFState G.vertices acc ρ uf →
      (∀ g ∈ acc, g.source ∈ G.vertices ∧ g.target ∈ G.vertices) →
      (∀ e ∈ remaining, e.source ∈ G.vertices ∧ e.target ∈ G.vertices) →
      (∀ e ∈ remaining, e ∈ G.edges) →
      List.Pairwise (fun e1 e2 => ekey e1 ≤ ekey e2) remaining →
      tw = sumW acc →
      (∃ M D, IsMinSTree G M ∧
        (∀ x, List.count x M = List.count x acc + List.count x D) ∧
        (∀ x, List.count x D ≤ List.count x remaining)) →
      IsMinSTree G
        (kruskalLoop G.vertices.length remaining uf acc tw).1 ∧
      (kruskalLoop G.vertices.length remaining uf acc tw).2
        = sumW (kruskalLoop G.vertices.length remaining uf acc tw).1 := by
  intro remaining
  induction remaining with
  | nil =>
    intro uf acc tw ρ hst hepacc hepr hsubE hsorted htw hMD
    obtain ⟨M, D, hMmin, hcnt, hDle⟩ := hMD
    have hDnil : D = [] := by
      cases hD : D with
      | nil => rfl
      | cons d ds =>
        exfalso
        have h1 : 0 < List.count d D := by
          rw [hD, List.count_cons_self]
          omega
        have h2 := hDle d
        rw [List.count_nil] at h2
        omega
    subst hDnil
    have hacnt : ∀ x, List.count x acc = List.count x M := by
      intro x
      rw [hcnt x, List.count_nil]
      omega
    obtain ⟨hTree, hSum⟩ := istree_count_eq hacnt hMmin.1
    refine ⟨⟨hTree, fun T hT => ?_⟩, ?_⟩
    · show sumW acc ≤ sumW T
      rw [hSum]
      exact hMmin.2 T hT
    · show tw = sumW acc
      exact htw
  | cons e rest ih =>
    intro uf acc tw ρ hst hepacc hepr hsubE hsorted htw hMD
    classical
    have heV : e.source ∈ G.vertices ∧ e.target ∈ G.vertices :=
      hepr e (List.mem_cons_self _ _)
    have hjee : Joins e e.source e.target := Or.inl ⟨rfl, rfl⟩
    have huspec := union_spec hst hepacc heV.1 heV.2 e hjee
    rcases hu : UnionFindService.union uf e.source e.target with ⟨flag, uf2⟩
    rw [hu] at huspec
    obtain ⟨M, D, hMmin, hcnt, hDle⟩ := hMD
    by_cases hw : EWalk acc e.source e.target
    · -- e is rejected: its endpoints are already joined
      obtain ⟨hflag, hst2⟩ := huspec.1 hw
      dsimp only at hflag hst2
      subst hflag
      have hredl : kruskalLoop G.vertices.length (e :: rest) uf acc tw
          = kruskalLoop G.vertices.length rest uf2 acc tw := by
        simp only [kruskalLoop, hu]
      rw [hredl]
      refine ih uf2 acc tw ρ hst2 hepacc
        (fun g hg => hepr g (List.mem_cons_of_mem _ hg))
        (fun g hg => hsubE g (List.mem_cons_of_mem _ hg))
        (List.pairwise_cons.mp hsorted).2 htw ⟨M, D, hMmin, hcnt, ?_⟩
      -- the redundant edge cannot occur in the future part of the tree
      have heD : ¬ e ∈ D := by
        intro heD
        have h3 : 0 < List.count e D := List.count_pos_iff.mpr heD
        have haccM : ∀ g ∈ acc, g ∈ M.erase e := by
          intro g hg
          have hg1 : 0 < List.count g acc := List.count_pos_iff.mpr hg
          have hg2 := hcnt g
          have hg4 := hcnt e
          refine List.count_pos_iff.mp ?_
          rw [List.count_erase]
          by_cases hge : e = g
          · subst hge
            rw [if_pos (beq_self_eq_true e)]
            omega
          · have hbeq : ¬ ((e == g) = true) :=
              fun hb => hge (beq_iff_eq.mp hb)
            rw [if_neg hbeq]
            omega
        have hbridge : EWalk (M.erase e) e.source e.target :=
          ewalk_mono haccM hw
        have hconn2 : ∀ u ∈ G.vertices, ∀ v ∈ G.vertices,
            EWalk (M.erase e) u v := by
          intro u hu v hv
          rcases ewalk_erase_split (f := e) (hMmin.1.2.1 u hu v hv) with
            h1 | ⟨h1, hh2⟩ | ⟨h1, hh2⟩
          · exact h1
          · exact ewalk_trans h1 (ewalk_trans hbridge hh2)
          · exact ewalk_trans h1 (ewalk_trans (ewalk_symm hbridge) hh2)
        have hcard := connects_card_bound hnd hconn2
        have heM : e ∈ M := by
          refine List.count_pos_iff.mp ?_
          have := hcnt e
          omega
        have hlen2 : (M.erase e).length = M.length - 1 :=
          List.length_erase_of_mem heM
        have hMlen : M.length = G.vertices.length - 1 := hMmin.1.2.2
        have hMpos : 0 < M.length := by
          rw [hMlen]
          omega
        omega
      intro x
      have h5 := hDle x
      by_cases hxe : x = e
      · subst hxe
        have : List.count x D = 0 := List.count_eq_zero.mpr heD
        omega
      · rw [List.count_cons_of_ne hxe] at h5
        exact h5
    · -- e is accepted: its endpoints are in distinct components
      obtain ⟨hflag, ρ2, hst2⟩ := huspec.2 hw
      dsimp only at hflag hst2
      subst hflag
      have hepacc2 : ∀ g ∈ acc ++ [e],
          g.source ∈ G.vertices ∧ g.target ∈ G.vertices := by
        intro g hg
        rcases List.mem_append.mp hg with hg | hg
        · exact hepacc g hg
        · rw [List.mem_singleton.mp hg]
          exact heV
      -- the extendibility invariant survives the acceptance
      have hMD' : ∃ M' D', IsMinSTree G M' ∧
          (∀ x, List.count x M'
            = List.count x (acc ++ [e]) + List.count x D') ∧
          (∀ x, List.count x D' ≤ List.count x rest) := by
        by_cases heD : e ∈ D
        · -- the minimum tree already planned to use e
          have hpos : 0 < List.count e D := List.count_pos_iff.mpr heD
          refine ⟨M, D.erase e, hMmin, ?_, ?_⟩
          · intro x
            rw [hcnt x, List.count_append, List.count_erase]
            by_cases hxe : e = x
            · subst hxe
              rw [if_pos (beq_self_eq_true e)]
              have h1 : List.count e [e] = 1 := by simp
              omega
            · have hbeq : ¬ ((e == x) = true) :=
                fun hb => hxe (beq_iff_eq.mp hb)
              rw [if_neg hbeq]
              have h1 : List.count x [e] = 0 :=
                List.count_eq_zero.mpr
                  (fun hc => hxe (List.mem_singleton.mp hc).symm)
              omega
          · intro x
            have h5 := hDle x
            rw [List.count_erase]
            by_cases hxe : e = x
            · have hbeq : (e == x) = true := beq_iff_eq.mpr hxe
              rw [if_pos hbeq]
              rw [← hxe] at h5 ⊢
              rw [List.count_cons_self] at h5
              omega
            · have hbeq : ¬ ((e == x) = true) :=
                fun hb => hxe (beq_iff_eq.mp hb)
              rw [if_neg hbeq]
              rw [List.count_cons_of_ne (fun h => hxe h.symm)] at h5
              omega
        · -- exchange a crossing edge of the minimum tree for e
          have hMw : EWalk M e.source e.target :=
            hMmin.1.2.1 _ heV.1 _ heV.2
          obtain ⟨f, hfM, x, y, hjf, hCx, hCy, hax, hyb⟩ :=
            ewalk_cross_split (fun z => EWalk acc e.source z) hMw
              EWalk.refl hw
          have hfacc : ¬ f ∈ acc := by
            intro hfa
            apply hCy
            refine ewalk_trans hCx ?_
            have hfw : EWalk acc f.source f.target :=
              ewalk_single ⟨f, hfa, Or.inl ⟨rfl, rfl⟩⟩
            rcases hjf with ⟨h1a, h2a⟩ | ⟨h1a, h2a⟩
            · rw [h1a, h2a] at hfw
              exact hfw
            · rw [h1a, h2a] at hfw
              exact ewalk_symm hfw
          have hfD : f ∈ D := by
            have h1 : 0 < List.count f M := List.count_pos_iff.mpr hfM
            have h2a := hcnt f
            have h3 : List.count f acc = 0 := List.count_eq_zero.mpr hfacc
            exact List.count_pos_iff.mp (by omega)
          have hfDpos : 0 < List.count f D := List.count_pos_iff.mpr hfD
          have hkey : ekey e ≤ ekey f := by
            by_cases hfe : f = e
            · rw [hfe]
            · have h4 := hDle f
              rw [List.count_cons_of_ne hfe] at h4
              have hfrest : f ∈ rest := List.count_pos_iff.mp (by omega)
              exact (List.pairwise_cons.mp hsorted).1 f hfrest
          have hswap := ewalk_swap hax hyb hjf
            (Or.inl ⟨rfl, rfl⟩ : Joins e e.source e.target)
          have hfMlen : (M.erase f).length = M.length - 1 :=
            List.length_erase_of_mem hfM
          have hMlen : M.length = G.vertices.length - 1 := hMmin.1.2.2
          have hMpos : 0 < M.length := by
            rw [hMlen]
            omega
          have hlink : ∀ g ∈ M.erase f ++ [e], LinkOf G g := by
            intro g hg
            rcases List.mem_append.mp hg with hg | hg
            · exact hMmin.1.1 g (List.mem_of_mem_erase hg)
            · rw [List.mem_singleton.mp hg]
              exact ⟨e, hsubE e (List.mem_cons_self _ _), rfl,
                Or.inl ⟨rfl, rfl⟩⟩
          have hconn' : Connects G.vertices (M.erase f ++ [e]) :=
            fun u hu v hv => hswap u v (hMmin.1.2.1 u hu v hv)
          have hlen' : (M.erase f ++ [e]).length
              = G.vertices.length - 1 := by
            rw [List.length_append, List.length_singleton, hfMlen, hMlen]
            omega
          have hsum' : sumW (M.erase f ++ [e])
              = sumW M - ekey f + ekey e := by
            rw [sumW_append, sumW_single, sumW_erase hfM]
            ring
          have hmin' : IsMinSTree G (M.erase f ++ [e]) := by
            refine ⟨⟨hlink, hconn', hlen'⟩, ?_⟩
            intro T hT
            have hWle : sumW (M.erase f ++ [e]) ≤ sumW M := by
              rw [hsum']
              calc sumW M - ekey f + ekey e
                  ≤ sumW M - ekey f + ekey f := add_le_add_left hkey _
                _ = sumW M := by ring
            exact le_trans hWle (hMmin.2 T hT)
          refine ⟨M.erase f ++ [e], D.erase f, hmin', ?_, ?_⟩
          · intro z
            rw [List.count_append, List.count_append, List.count_erase,
              List.count_erase, hcnt z]
            by_cases hfz : f = z
            · have hbeq : (f == z) = true := beq_iff_eq.mpr hfz
              rw [if_pos hbeq]
              rw [← hfz]
              have h3 : List.count f acc = 0 := List.count_eq_zero.mpr hfacc
              omega
            · have hbeq : ¬ ((f == z) = true) :=
                fun hb => hfz (beq_iff_eq.mp hb)
              rw [if_neg hbeq]
              omega
          · intro z
            rw [List.count_erase]
            have h5 := hDle z
            have hce := List.count_cons z e rest
            by_cases hze : z = e
            · have : List.count z D = 0 := by
                rw [hze]
                exact List.count_eq_zero.mpr heD
              by_cases hfz : f = z
              · have hbeq : (f == z) = true := beq_iff_eq.mpr hfz
                rw [if_pos hbeq]
                omega
              · have hbeq : ¬ ((f == z) = true) :=
                  fun hb => hfz (beq_iff_eq.mp hb)
                rw [if_neg hbeq]
                omega
            · rw [List.count_cons_of_ne hze] at h5
              by_cases hfz : f = z
              · have hbeq : (f == z) = true := beq_iff_eq.mpr hfz
                rw [if_pos hbeq]
                omega
              · have hbeq : ¬ ((f == z) = true) :=
                  fun hb => hfz (beq_iff_eq.mp hb)
                rw [if_neg hbeq]
                omega
      obtain ⟨M', D', hmin', hcnt', hDle'⟩ := hMD'
      have htw2 : tw + e.weight.getD 0 = sumW (acc ++ [e]) := by
        rw [htw, sumW_append, sumW_single]
        rfl
      by_cases hbreak : (acc ++ [e]).length = G.vertices.length - 1
      · -- early break: the accepted list already has |V| - 1 edges
        have hredl : kruskalLoop G.vertices.length (e :: rest) uf acc tw
            = (acc ++ [e], tw + e.weight.getD 0) := by
          simp only [kruskalLoop, hu, if_pos hbreak]
        rw [hredl]
        have hperm : M'.Perm ((acc ++ [e]) ++ D') :=
          List.perm_iff_count.mpr
            (fun z => by rw [hcnt' z]; simp only [List.count_append])
        have hlenM : M'.length = G.vertices.length - 1 := hmin'.1.2.2
        have hlen2 : M'.length = (acc ++ [e]).length + D'.length := by
          rw [hperm.length_eq, List.length_append]
        have hD'nil : D' = [] :=
          List.eq_nil_of_length_eq_zero (by omega)
        subst hD'nil
        have hacnt : ∀ z, List.count z (acc ++ [e])
            = List.count z M' := by
          intro z
          rw [hcnt' z, List.count_nil]
          omega
        obtain ⟨hTree, hSum⟩ := istree_count_eq hacnt hmin'.1
        exact ⟨⟨hTree, fun T hT => hSum ▸ hmin'.2 T hT⟩, htw2⟩
      · -- continue with the extended accepted list
        have hredl : kruskalLoop G.vertices.length (e :: rest) uf acc tw
            = kruskalLoop G.vertices.length rest uf2 (acc ++ [e])
                (tw + e.weight.getD 0) := by
          simp only [kruskalLoop, hu, if_neg hbreak]
        rw [hredl]
        exact ih uf2 (acc ++ [e]) (tw + e.weight.getD 0) ρ2 hst2 hepacc2
          (fun g hg => hepr g (List.mem_cons_of_mem _ hg))
          (fun g hg => hsubE g (List.mem_cons_of_mem _ hg))
          (List.pairwise_cons.mp hsorted).2 htw2
          ⟨M', D', hmin', hcnt', hDle'⟩

/-! ### The DFS connectivity check succeeds on connected graphs -/

theorem mapGet_eq_none_iff {α : Type} :
    ∀ (m : List (String × α)) (k : String),
      mapGet m k = none ↔ ¬ k ∈ m.map Prod.fst := by
  intro m
  induction m with
  | nil =>
    intro k
    simp [mapGet]
  | cons hd tl ih =>
    obtain ⟨k', v⟩ := hd
    intro k
    by_cases hk : k' = k
    · subst hk
      simp [mapGet]
    · rw [show mapGet ((k', v) :: tl) k = mapGet tl k from by
        show (if k' = k then some v else mapGet tl k) = mapGet tl k
        rw [if_neg hk], ih k, List.map_cons]
      simp [List.mem_cons, show ¬ k = k' from fun h => hk h.symm]

theorem mapSet_map_fst {α : Type} :
    ∀ (m : List (String × α)) (k : String) (v : α),
      k ∈ m.map Prod.fst →
      (mapSet m k v).map Prod.fst = m.map Prod.fst := by
  intro m
  induction m with
  | nil =>
    intro k v hk
    simp at hk
  | cons hd tl ih =>
    obtain ⟨k', v'⟩ := hd
    intro k v hk
    by_cases hkk : k' = k
    · subst hkk
      show (if k' = k' then (k', v) :: tl
          else (k', v') :: mapSet tl k' v).map Prod.fst
          = ((k', v') :: tl).map Prod.fst
      rw [if_pos rfl, List.map_cons, List.map_cons]
    · have hk2 : k ∈ tl.map Prod.fst := by
        rw [List.map_cons] at hk
        rcases List.mem_cons.mp hk with h | h
        · exact absurd h.symm hkk
        · exact h
      show (if k' = k then (k, v) :: tl
          else (k', v') :: mapSet tl k v).map Prod.fst
          = ((k', v') :: tl).map Prod.fst
      rw [if_neg hkk, List.map_cons, List.map_cons, ih k v hk2]

theorem mapSet_append_of_none {α : Type} :
    ∀ (m : List (String × α)) (k : String) (v : α),
      mapGet m k = none → mapSet m k v = m ++ [(k, v)] := by
  intro m
  induction m with
  | nil =>
    intro k v _
    rfl
  | cons hd tl ih =>
    obtain ⟨k', v'⟩ := hd
    intro k v hget
    have hk : ¬ k' = k := by
      intro h
      rw [show mapGet ((k', v') :: tl) k
          = if k' = k then some v' else mapGet tl k from rfl,
        if_pos h] at hget
      exact Option.noConfusion hget
    have hg2 : mapGet tl k = none := by
      rw [show mapGet ((k', v') :: tl) k
          = if k' = k then some v' else mapGet tl k from rfl,
        if_neg hk] at hget
      exact hget
    show (if k' = k then (k, v) :: tl else (k', v') :: mapSet tl k v)
        = (k', v') :: (tl ++ [(k, v)])
    rw [if_neg hk, ih k v hg2]

theorem mapGet_append_right {α : Type} :
    ∀ (m1 m2 : List (String × α)) (k : String),
      mapGet m1 k = none → mapGet (m1 ++ m2) k = mapGet m2 k := by
  intro m1
  induction m1 with
  | nil =>
    intro m2 k _
    rfl
  | cons hd tl ih =>
    obtain ⟨k', v'⟩ := hd
    intro m2 k hget
    have hk : ¬ k' = k := by
      intro h
      rw [show mapGet ((k', v') :: tl) k
          = if k' = k then some v' else mapGet tl k from rfl,
        if_pos h] at hget
      exact Option.noConfusion hget
    have hg2 : mapGet tl k = none := by
      rw [show mapGet ((k', v') :: tl) k
          = if k' = k then some v' else mapGet tl k from rfl,
        if_neg hk] at hget
      exact hget
    show (if k' = k then some v' else mapGet (tl ++ m2) k) = mapGet m2 k
    rw [if_neg hk, ih m2 k hg2]

theorem foldl_mapSet_fresh {β : Type} (f : String → β) :
    ∀ (l : List String) (acc : List (String × β)),
      (∀ v ∈ l, mapGet acc v = none) → l.Nodup →
      l.foldl (fun m v => mapSet m v (f v)) acc
        = acc ++ l.map (fun v => (v, f v)) := by
  intro l
  induction l with
  | nil =>
    intro acc _ _
    simp
  | cons a t ih =>
    intro acc hfresh hnd
    have hfr2 : ∀ v ∈ t, mapGet (acc ++ [(a, f a)]) v = none := by
      intro v hv
      rw [mapGet_append_right acc [(a, f a)] v
        (hfresh v (List.mem_cons_of_mem _ hv))]
      show (if a = v then some (f a) else mapGet [] v) = none
      rw [if_neg (fun h => (List.nodup_cons.mp hnd).1
        (show a ∈ t by rw [h]; exact hv))]
      rfl
    rw [List.foldl_cons,
      mapSet_append_of_none acc a (f a) (hfresh a (List.mem_cons_self a t)),
      ih (acc ++ [(a, f a)]) hfr2 (List.nodup_cons.mp hnd).2]
    simp

/-- One endpoint half-step of the connectivity adjacency fold preserves
the key list. -/
theorem half_fst (m : List (String × List String)) (k t : String) :
    (match mapGet m k with
      | some s => mapSet m k (setAdd s t)
      | none => m).map Prod.fst = m.map Prod.fst := by
  cases h : mapGet m k with
  | none => rfl
  | some s =>
    apply mapSet_map_fst
    by_contra hmem
    rw [(mapGet_eq_none_iff m k).mpr hmem] at h
    exact Option.noConfusion h

/-- Bucket membership across one endpoint half-step. -/
theorem half_mem (m : List (String × List String)) (k t : String)
    (hk : k ∈ m.map Prod.fst) (v u : String) :
    u ∈ (mapGet (match mapGet m k with
          | some s => mapSet m k (setAdd s t)
          | none => m) v).getD []
      ↔ u ∈ (mapGet m v).getD [] ∨ (v = k ∧ u = t) := by
  cases h : mapGet m k with
  | none =>
    exact absurd ((mapGet_eq_none_iff m k).mp h) (not_not_intro hk)
  | some s =>
    by_cases hv : v = k
    · subst hv
      rw [mapGet_mapSet_self, h]
      show u ∈ setAdd s t ↔ u ∈ s ∨ (v = v ∧ u = t)
      rw [mem_setAdd]
      constructor
      · rintro (h1 | h1)
        · exact Or.inl h1
        · exact Or.inr ⟨rfl, h1⟩
      · rintro (h1 | ⟨_, h1⟩)
        · exact Or.inl h1
        · exact Or.inr h1
    · rw [mapGet_mapSet_ne m k v (setAdd s t) hv]
      constructor
      · exact Or.inl
      · rintro (h1 | ⟨h1, _⟩)
        · exact h1
        · exact absurd h1 hv

theorem joins_flip (e : MGEdge (Option W)) (v u : String) :
    Joins e v u ↔ (v = e.source ∧ u = e.target)
      ∨ (v = e.target ∧ u = e.source) := by
  unfold Joins
  constructor
  · rintro (⟨h1, h2⟩ | ⟨h1, h2⟩)
    · exact Or.inl ⟨h1.symm, h2.symm⟩
    · exact Or.inr ⟨h2.symm, h1.symm⟩
  · rintro (⟨h1, h2⟩ | ⟨h1, h2⟩)
    · exact Or.inl ⟨h1.symm, h2.symm⟩
    · exact Or.inr ⟨h2.symm, h1.symm⟩

/-- The connectivity adjacency fold preserves the key list. -/
theorem dfsAdjFold_fst :
    ∀ (E : List (MGEdge (Option W)))
      (m : List (String × List String)),
      (E.foldl (fun m e =>
        let m := match mapGet m e.source with
                 | some s => mapSet m e.source (setAdd s e.target)
                 | none => m
        match mapGet m e.target with
        | some s => mapSet m e.target (setAdd s e.source)
        | none => m) m).map Prod.fst = m.map Prod.fst := by
  intro E
  induction E with
  | nil =>
    intro m
    rfl
  | cons e E ih =>
    intro m
    rw [List.foldl_cons, ih]
    exact (half_fst (match mapGet m e.source with
      | some s => mapSet m e.source (setAdd s e.target)
      | none => m) e.target e.source).trans (half_fst m e.source e.target)

/-- Bucket membership after the connectivity adjacency fold: the initial
buckets plus one entry per incident edge, in both directions. -/
theorem dfsAdjFold_mem :
    ∀ (E : List (MGEdge (Option W)))
      (m : List (String × List String)),
      (∀ e ∈ E, e.source ∈ m.map Prod.fst ∧ e.target ∈ m.map Prod.fst) →
      ∀ v u, u ∈ (mapGet (E.foldl (fun m e =>
          let m := match mapGet m e.source with
                   | some s => mapSet m e.source (setAdd s e.target)
                   | none => m
          match mapGet m e.target with
          | some s => mapSet m e.target (setAdd s e.source)
          | none => m) m) v).getD []
        ↔ u ∈ (mapGet m v).getD [] ∨ ∃ e ∈ E, Joins e v u := by
  intro E
  induction E with
  | nil =>
    intro m _ v u
    simp
  | cons e E ih =>
    intro m hep v u
    have heps : e.source ∈ m.map Prod.fst :=
      (hep e (List.mem_cons_self _ _)).1
    have hept : e.target ∈ m.map Prod.fst :=
      (hep e (List.mem_cons_self _ _)).2
    have hm1fst : (match mapGet m e.source with
        | some s => mapSet m e.source (setAdd s e.target)
        | none => m).map Prod.fst = m.map Prod.fst :=
      half_fst m e.source e.target
    have hstepfst : ((fun m (e : MGEdge (Option W)) =>
        let m := match mapGet m e.source with
                 | some s => mapSet m e.source (setAdd s e.target)
                 | none => m
        match mapGet m e.target with
        | some s => mapSet m e.target (setAdd s e.source)
        | none => m) m e).map Prod.fst = m.map Prod.fst :=
      (half_fst (match mapGet m e.source with
        | some s => mapSet m e.source (setAdd s e.target)
        | none => m) e.target e.source).trans (half_fst m e.source e.target)
    rw [List.foldl_cons, ih _ (fun g hg => by
      rw [hstepfst]
      exact hep g (List.mem_cons_of_mem _ hg)) v u]
    have hh2 := half_mem (match mapGet m e.source with
      | some s => mapSet m e.source (setAdd s e.target)
      | none => m) e.target e.source
      (by rw [hm1fst]; exact hept) v u
    have hh1 := half_mem m e.source e.target heps v u
    constructor
    · rintro (hbase | hE)
      · rcases hh2.mp hbase with hbase2 | ⟨h1, h2⟩
        · rcases hh1.mp hbase2 with hbase3 | ⟨h1, h2⟩
          · exact Or.inl hbase3
          · exact Or.inr ⟨e, List.mem_cons_self _ _,
              (joins_flip e v u).mpr (Or.inl ⟨h1, h2⟩)⟩
        · exact Or.inr ⟨e, List.mem_cons_self _ _,
            (joins_flip e v u).mpr (Or.inr ⟨h1, h2⟩)⟩
      · obtain ⟨g, hg, hj⟩ := hE
        exact Or.inr ⟨g, List.mem_cons_of_mem _ hg, hj⟩
    · rintro (hbase | ⟨g, hg, hj⟩)
      · exact Or.inl (hh2.mpr (Or.inl (hh1.mpr (Or.inl hbase))))
      · rcases List.mem_cons.mp hg with hge | hgE
        · subst hge
          rcases (joins_flip g v u).mp hj with ⟨h1, h2⟩ | ⟨h1, h2⟩
          · exact Or.inl (hh2.mpr (Or.inl (hh1.mpr (Or.inr ⟨h1, h2⟩))))
          · exact Or.inl (hh2.mpr (Or.inr ⟨h1, h2⟩))
        · exact Or.inr ⟨g, hgE, hj⟩

/-- Dropping an unvisited key's bucket from the unvisited total. -/
theorem keyed_sum_congr {α : Type} (f : α → Nat) (c : String) :
    ∀ (l : List (String × α)) (visited : List String),
      ¬ c ∈ l.map Prod.fst →
      ((l.filter (fun p => ¬ p.1 ∈ visited ++ [c])).map
        (fun p => f p.2)).sum
        = ((l.filter (fun p => ¬ p.1 ∈ visited)).map
            (fun p => f p.2)).sum := by
  intro l
  induction l with
  | nil =>
    intro visited _
    rfl
  | cons hd tl ih =>
    intro visited hc
    have hck : ¬ c ∈ tl.map Prod.fst := by
      intro h
      exact hc (by rw [List.map_cons]; exact List.mem_cons_of_mem _ h)
    have hhd : ¬ hd.1 = c := by
      intro h
      exact hc (by rw [List.map_cons, ← h]; exact List.mem_cons_self _ _)
    rw [List.filter_cons, List.filter_cons]
    by_cases hm : hd.1 ∈ visited
    · rw [if_neg (by simp [hm]), if_neg (by simp [hm])]
      exact ih visited hck
    · rw [if_pos (by simp [List.mem_append, hm, hhd]),
        if_pos (by simp [hm])]
      rw [List.map_cons, List.sum_cons, List.map_cons, List.sum_cons,
        ih visited hck]

/-- Visiting a key moves its bucket's length out of the unvisited total. -/
theorem keyed_sum_visit {α : Type} (f : α → Nat) :
    ∀ (l : List (String × α)) (visited : List String) (c : String)
      (b : α),
      (l.map Prod.fst).Nodup → mapGet l c = some b → ¬ c ∈ visited →
      ((l.filter (fun p => ¬ p.1 ∈ visited)).map (fun p => f p.2)).sum
        = f b + ((l.filter (fun p => ¬ p.1 ∈ visited ++ [c])).map
            (fun p => f p.2)).sum := by
  intro l
  induction l with
  | nil =>
    intro visited c b _ hget _
    exact Option.noConfusion hget
  | cons hd tl ih =>
    obtain ⟨k, a⟩ := hd
    intro visited c b hnd hget hcv
    have hndk : ¬ k ∈ tl.map Prod.fst := by
      rw [List.map_cons] at hnd
      exact (List.nodup_cons.mp hnd).1
    have hndtl : (tl.map Prod.fst).Nodup := by
      rw [List.map_cons] at hnd
      exact (List.nodup_cons.mp hnd).2
    rw [List.filter_cons, List.filter_cons]
    by_cases hk : k = c
    · subst hk
      have hb : a = b := by
        have h1 : mapGet ((k, a) :: tl) k = some a := by
          show (if k = k then some a else mapGet tl k) = some a
          rw [if_pos rfl]
        exact Option.some.inj (h1.symm.trans hget)
      subst hb
      rw [if_pos (by simp [hcv]), if_neg (by simp)]
      rw [List.map_cons, List.sum_cons, keyed_sum_congr f k tl visited hndk]
    · have hget2 : mapGet tl c = some b := by
        have h1 : mapGet ((k, a) :: tl) c = mapGet tl c := by
          show (if k = c then some a else mapGet tl c) = mapGet tl c
          rw [if_neg hk]
        exact h1.symm.trans hget
      by_cases hm : k ∈ visited
      · rw [if_neg (by simp [hm]),
          if_neg (by simp [List.mem_append, hm])]
        exact ih visited c b hndtl hget2 hcv
      · rw [if_pos (by simp [hm]),
          if_pos (by simp [List.mem_append, hm, hk])]
        rw [List.map_cons, List.sum_cons, List.map_cons, List.sum_cons,
          ih visited c b hndtl hget2 hcv]
        omega

/-- The full invariant of the iterative DFS: starting from a duplicate-free
visited set and a stack of vertices, with every visited vertex's bucket
covered by visited-or-stack, the loop returns a duplicate-free superset of
both that is closed under adjacency. -/
theorem dfsLoop_spec (adj : List (String × List String))
    (V : List String) (hnd : V.Nodup)
    (hfst : adj.map Prod.fst = V)
    (hbV : ∀ v u, u ∈ (mapGet adj v).getD [] → u ∈ V) :
    ∀ (fuel : Nat) (stack visited : List String),
      stack.length
        + ((adj.filter (fun p => ¬ p.1 ∈ visited)).map
            (fun p => p.2.length)).sum < fuel →
      visited.Nodup →
      (∀ v ∈ visited, v ∈ V) →
      (∀ v ∈ stack, v ∈ V) →
      (∀ v ∈ visited, ∀ u ∈ (mapGet adj v).getD [],
        u ∈ visited ∨ u ∈ stack) →
      (GraphUtils.dfsLoop adj fuel stack visited).Nodup ∧
      (∀ v ∈ GraphUtils.dfsLoop adj fuel stack visited, v ∈ V) ∧
      (∀ v ∈ visited, v ∈ GraphUtils.dfsLoop adj fuel stack visited) ∧
      (∀ v ∈ stack, v ∈ GraphUtils.dfsLoop adj fuel stack visited) ∧
      (∀ v ∈ GraphUtils.dfsLoop adj fuel stack visited,
        ∀ u ∈ (mapGet adj v).getD [],
          u ∈ GraphUtils.dfsLoop adj fuel stack visited) := by
  intro fuel
  induction fuel with
  | zero =>
    intro stack visited hpot
    exact absurd hpot (Nat.not_lt_zero _)
  | succ fuel ih =>
    intro stack visited hpot hvnd hvV hsV hclo
    cases hlast : stack.getLast? with
    | none =>
      have hstack : stack = [] := by
        cases hs : stack with
        | nil => rfl
        | cons a t =>
          exfalso
          rw [hs] at hlast
          rw [List.getLast?_eq_getLast (a :: t) (by simp)] at hlast
          exact Option.noConfusion hlast
      subst hstack
      have hred : GraphUtils.dfsLoop adj (fuel + 1) [] visited
          = visited := rfl
      rw [hred]
      refine ⟨hvnd, hvV, fun v hv => hv,
        fun v hv => absurd hv (List.not_mem_nil v), ?_⟩
      intro v hv u hu
      rcases hclo v hv u hu with h | h
      · exact h
      · exact absurd h (List.not_mem_nil u)
    | some current =>
      have hcur_mem : current ∈ stack := getLast_mem_of_eq hlast
      have hcurV : current ∈ V := hsV current hcur_mem
      have hsne : stack ≠ [] := by
        intro h
        rw [h] at hlast
        exact Option.noConfusion hlast
      have hsplit : stack.dropLast ++ [current] = stack := by
        have h1 := List.dropLast_append_getLast hsne
        rw [List.getLast?_eq_getLast stack hsne] at hlast
        rw [Option.some.inj hlast] at h1
        exact h1
      have hmem_iff : ∀ x, x ∈ stack
          ↔ x ∈ stack.dropLast ∨ x = current := by
        intro x
        constructor
        · intro hx
          rw [← hsplit] at hx
          rcases List.mem_append.mp hx with h | h
          · exact Or.inl h
          · exact Or.inr (List.mem_singleton.mp h)
        · intro hx
          rw [← hsplit]
          rcases hx with h | h
          · exact List.mem_append_left _ h
          · exact List.mem_append_right _ (List.mem_singleton.mpr h)
      have hdlV : ∀ v ∈ stack.dropLast, v ∈ V :=
        fun v hv => hsV v ((hmem_iff v).mpr (Or.inl hv))
      have hslen : 0 < stack.length := List.length_pos_of_ne_nil hsne
      have hdllen : stack.dropLast.length = stack.length - 1 :=
        List.length_dropLast stack
      by_cases hcv : current ∈ visited
      · -- pop an already visited vertex
        have hred : GraphUtils.dfsLoop adj (fuel + 1) stack visited
            = GraphUtils.dfsLoop adj fuel stack.dropLast visited := by
          simp only [GraphUtils.dfsLoop, hlast]
          rw [if_pos hcv]
        rw [hred]
        have hclo2 : ∀ v ∈ visited, ∀ u ∈ (mapGet adj v).getD [],
            u ∈ visited ∨ u ∈ stack.dropLast := by
          intro v hv u hu
          rcases hclo v hv u hu with h | h
          · exact Or.inl h
          · rcases (hmem_iff u).mp h with h2 | h2
            · exact Or.inr h2
            · exact Or.inl (h2 ▸ hcv)
        obtain ⟨h1, h2, h3, h4, h5⟩ := ih stack.dropLast visited
          (by omega) hvnd hvV hdlV hclo2
        refine ⟨h1, h2, h3, fun v hv => ?_, h5⟩
        rcases (hmem_iff v).mp hv with h | h
        · exact h4 v h
        · exact h3 v (by rw [h]; exact hcv)
      · -- visit a new vertex
        have hget : ∃ b, mapGet adj current = some b := by
          cases hg : mapGet adj current with
          | none =>
            exfalso
            rw [mapGet_eq_none_iff adj current, hfst] at hg
            exact hg hcurV
          | some b => exact ⟨b, rfl⟩
        obtain ⟨b, hb⟩ := hget
        have hbdef : (mapGet adj current).getD [] = b := by
          rw [hb]
          rfl
        have hred : GraphUtils.dfsLoop adj (fuel + 1) stack visited
            = GraphUtils.dfsLoop adj fuel
                (stack.dropLast ++ ((mapGet adj current).getD []).filter
                  (fun n => ¬ n ∈ visited ++ [current]))
                (visited ++ [current]) := by
          simp only [GraphUtils.dfsLoop, hlast]
          rw [if_neg hcv]
        rw [hred]
        have hvnd2 : (visited ++ [current]).Nodup := by
          refine List.nodup_append.mpr
            ⟨hvnd, List.nodup_singleton _, ?_⟩
          intro x hx hxc
          rw [List.mem_singleton.mp hxc] at hx
          exact hcv hx
        have hvV2 : ∀ v ∈ visited ++ [current], v ∈ V := by
          intro v hv
          rcases List.mem_append.mp hv with h | h
          · exact hvV v h
          · rw [List.mem_singleton.mp h]
            exact hcurV
        have hsV2 : ∀ v ∈ stack.dropLast
            ++ ((mapGet adj current).getD []).filter
              (fun n => ¬ n ∈ visited ++ [current]), v ∈ V := by
          intro v hv
          rcases List.mem_append.mp hv with h | h
          · exact hdlV v h
          · exact hbV current v (List.mem_of_mem_filter h)
        have hclo2 : ∀ v ∈ visited ++ [current],
            ∀ u ∈ (mapGet adj v).getD [],
            u ∈ visited ++ [current] ∨ u ∈ stack.dropLast
              ++ ((mapGet adj current).getD []).filter
                (fun n => ¬ n ∈ visited ++ [current]) := by
          intro v hv u hu
          rcases List.mem_append.mp hv with h | h
          · rcases hclo v h u hu with h2 | h2
            · exact Or.inl (List.mem_append_left _ h2)
            · rcases (hmem_iff u).mp h2 with h3 | h3
              · exact Or.inr (List.mem_append_left _ h3)
              · exact Or.inl (List.mem_append_right _
                  (List.mem_singleton.mpr h3))
          · rw [List.mem_singleton.mp h] at hu
            by_cases hu2 : u ∈ visited ++ [current]
            · exact Or.inl hu2
            · refine Or.inr (List.mem_append_right _ ?_)
              exact List.mem_filter.mpr ⟨hu, by simp [hu2]⟩
        have hpot2 : (stack.dropLast
            ++ ((mapGet adj current).getD []).filter
              (fun n => ¬ n ∈ visited ++ [current])).length
            + ((adj.filter (fun p => ¬ p.1 ∈ visited ++ [current])).map
                (fun p => p.2.length)).sum < fuel := by
          have hsum := keyed_sum_visit List.length adj
            visited current b (by rw [hfst]; exact hnd) hb hcv
          have hflen : (((mapGet adj current).getD []).filter
              (fun n => ¬ n ∈ visited ++ [current])).length
              ≤ b.length := by
            rw [hbdef]
            exact List.length_filter_le _ b
          rw [List.length_append]
          omega
        obtain ⟨h1, h2, h3, h4, h5⟩ := ih _ _ hpot2 hvnd2 hvV2 hsV2 hclo2
        refine ⟨h1, h2, fun v hv => h3 v (List.mem_append_left _ hv),
          fun v hv => ?_, h5⟩
        rcases (hmem_iff v).mp hv with h | h
        · exact h4 v (List.mem_append_left _ h)
        · exact h3 v (List.mem_append_right _
            (List.mem_singleton.mpr h))

/-- On a connected graph the DFS from the head vertex visits every vertex
exactly once. -/
theorem dfs_cover (G : GraphAPI (Option W))
    (adj : List (String × List String))
    (hnd : G.vertices.Nodup) (h2 : 2 ≤ G.vertices.length)
    (hwf : ∀ e ∈ G.edges, e.source ∈ G.vertices ∧ e.target ∈ G.vertices)
    (hconn : Connects G.vertices G.edges)
    (hfst : adj.map Prod.fst = G.vertices)
    (hadjmem : ∀ v u, u ∈ (mapGet adj v).getD []
      ↔ ∃ e ∈ G.edges, Joins e v u) :
    (GraphUtils.dfsLoop adj (GraphUtils.dfsAdjTotalLen adj + 2)
      [G.vertices.headD ""] []).length = G.vertices.length := by
  have hVne : G.vertices ≠ [] := by
    intro h
    rw [h] at h2
    simp at h2
  have hstart : G.vertices.headD "" ∈ G.vertices := by
    cases hv : G.vertices with
    | nil => exact absurd hv hVne
    | cons a t => exact List.mem_cons_self a t
  have hbV : ∀ v u, u ∈ (mapGet adj v).getD [] → u ∈ G.vertices := by
    intro v u hu
    obtain ⟨e, he, hj⟩ := (hadjmem v u).mp hu
    rcases hj with ⟨_, h2a⟩ | ⟨h1a, _⟩
    · exact h2a ▸ (hwf e he).2
    · exact h1a ▸ (hwf e he).1
  have hfilter : adj.filter (fun p => ¬ p.1 ∈ ([] : List String))
      = adj := by
    refine List.filter_eq_self.mpr ?_
    intro a _
    simp
  have hpot : ([G.vertices.headD ""] : List String).length
      + ((adj.filter (fun p => ¬ p.1 ∈ ([] : List String))).map
          (fun p => p.2.length)).sum
      < GraphUtils.dfsAdjTotalLen adj + 2 := by
    rw [hfilter, List.length_singleton]
    have : GraphUtils.dfsAdjTotalLen adj
        = (adj.map (fun p => p.2.length)).sum := rfl
    omega
  obtain ⟨h1, h2R, h3, h4, h5⟩ := dfsLoop_spec adj G.vertices hnd hfst hbV
    (GraphUtils.dfsAdjTotalLen adj + 2) [G.vertices.headD ""] [] hpot
    List.nodup_nil (fun v hv => absurd hv (List.not_mem_nil v))
    (fun v hv => by rw [List.mem_singleton.mp hv]; exact hstart)
    (fun v hv => absurd hv (List.not_mem_nil v))
  have hstartR : G.vertices.headD ""
      ∈ GraphUtils.dfsLoop adj (GraphUtils.dfsAdjTotalLen adj + 2)
        [G.vertices.headD ""] [] :=
    h4 _ (List.mem_singleton.mpr rfl)
  have hwalkR : ∀ v, EWalk G.edges (G.vertices.headD "") v →
      v ∈ GraphUtils.dfsLoop adj (GraphUtils.dfsAdjTotalLen adj + 2)
        [G.vertices.headD ""] [] := by
    intro v hw
    induction hw with
    | refl => exact hstartR
    | @step b c hwb hs ihw =>
      obtain ⟨e, he, hj⟩ := hs
      exact h5 b ihw c ((hadjmem b c).mpr ⟨e, he, hj⟩)
  have hVR : ∀ v ∈ G.vertices,
      v ∈ GraphUtils.dfsLoop adj (GraphUtils.dfsAdjTotalLen adj + 2)
        [G.vertices.headD ""] [] :=
    fun v hv => hwalkR v (hconn (G.vertices.headD "") hstart v hv)
  exact le_antisymm
    (List.Subperm.length_le (List.subperm_of_subset h1 h2R))
    (List.Subperm.length_le (List.subperm_of_subset hnd hVR))

/-- `isGraphConnected` answers `true` on every connected well-formed
graph. -/
theorem isGraphConnected_true (G : GraphAPI (Option W))
    (hnd : G.vertices.Nodup)
    (hwf : ∀ e ∈ G.edges, e.source ∈ G.vertices ∧ e.target ∈ G.vertices)
    (hconn : Connects G.vertices G.edges) :
    GraphUtils.isGraphConnected G = true := by
  unfold GraphUtils.isGraphConnected
  by_cases h0 : G.vertices.length = 0
  · rw [if_pos h0]
  · rw [if_neg h0]
    by_cases h1 : G.vertices.length = 1
    · rw [if_pos h1]
    · rw [if_neg h1]
      have h2 : 2 ≤ G.vertices.length := by omega
      have hinitfst : ((G.vertices.foldl (fun m v => mapSet m v [])
          ([] : List (String × List String)))).map Prod.fst
          = G.vertices := by
        rw [foldl_mapSet_fresh (fun _ => ([] : List String)) G.vertices []
          (fun v _ => rfl) hnd, List.nil_append, List.map_map]
        exact List.map_id _
      have hinitget : ∀ v, mapGet (G.vertices.foldl
          (fun m v => mapSet m v []) ([] : List (String × List String))) v
          = if v ∈ G.vertices then some [] else none := by
        intro v
        exact mapGet_foldl_init (fun _ => ([] : List String))
          G.vertices [] v
      refine decide_eq_true (dfs_cover G _ hnd h2 hwf hconn ?_ ?_)
      · rw [dfsAdjFold_fst]
        exact hinitfst
      · intro v u
        rw [dfsAdjFold_mem G.edges _ (fun e he => by
          rw [hinitfst]
          exact hwf e he) v u]
        have hbase : u ∈ (mapGet (G.vertices.foldl
            (fun m v => mapSet m v [])
            ([] : List (String × List String))) v).getD [] ↔ False := by
          rw [hinitget v]
          by_cases hv : v ∈ G.vertices
          · rw [if_pos hv]
            simp
          · rw [if_neg hv]
            simp
        rw [hbase]
        constructor
        · rintro (h | h)
          · exact absurd h id
          · exact h
        · exact Or.inr


/-! ### Kruskal's solver returns a minimum spanning tree -/

/-- Successful validation under the C6 hypotheses. -/
theorem validate_none (G : GraphAPI (Option W))
    (h2 : 2 ≤ G.vertices.length)
    (hdir : ¬ G.graphType = GraphType.directed)
    (hwts : ∀ e ∈ G.edges, e.weight ≠ none)
    (hnd : G.vertices.Nodup)
    (hwf : ∀ e ∈ G.edges, e.source ∈ G.vertices ∧ e.target ∈ G.vertices)
    (hconn : Connects G.vertices G.edges) :
    validateAndCheckConnectivity G = none := by
  have hvg : validateGraph G = none := by
    unfold validateGraph
    rw [if_neg hdir, if_neg (by omega), if_neg ?_]
    intro hany
    obtain ⟨e, he, hp⟩ := List.any_eq_true.mp hany
    exact hwts e he (of_decide_eq_true hp)
  unfold validateAndCheckConnectivity
  rw [hvg]
  rw [if_neg (not_not_intro (isGraphConnected_true G hnd hwf hconn))]

/-- `kruskalMST` succeeds and returns a minimum spanning tree together
with its exact total weight. -/
theorem kruskalMST_correct (G : GraphAPI (Option W))
    (hnd : G.vertices.Nodup) (h2 : 2 ≤ G.vertices.length)
    (hdir : ¬ G.graphType = GraphType.directed)
    (hwts : ∀ e ∈ G.edges, e.weight ≠ none)
    (hwf : ∀ e ∈ G.edges, e.source ∈ G.vertices ∧ e.target ∈ G.vertices)
    (hconn : Connects G.vertices G.edges) :
    ∃ r, kruskalMST G = MSTResponse.success r ∧
      r.algorithm = "kruskal" ∧ IsMinSTree G r.edges ∧
      r.totalWeight = sumW r.edges := by
  have hval := validate_none G h2 hdir hwts hnd hwf hconn
  have hne : G.vertices ≠ [] := by
    intro h
    rw [h] at h2
    simp at h2
  have hsortcnt : ∀ x, List.count x (sortByWeight G.edges)
      = List.count x G.edges := fun x => sortByWeight_count G.edges x
  have hsortmem : ∀ e ∈ sortByWeight G.edges, e ∈ G.edges :=
    subset_of_count_le (fun y => le_of_eq (hsortcnt y))
  obtain ⟨M, hMmin, hMcnt⟩ := exists_min_stree G hnd hne hwf hconn
  have hspec := kruskalLoop_spec G hnd h2 (sortByWeight G.edges)
    (UnionFindService.init G.vertices) [] 0 (fun v => v)
    (uf_init_state G.vertices hnd)
    (fun g hg => absurd hg (List.not_mem_nil g))
    (fun e he => hwf e (hsortmem e he))
    hsortmem
    (sortByWeight_sorted G.edges)
    rfl
    ⟨M, M, hMmin, fun x => by rw [List.count_nil]; omega,
      fun x => by rw [hsortcnt x]; exact hMcnt x⟩
  refine ⟨⟨(kruskalLoop G.vertices.length (sortByWeight G.edges)
      (UnionFindService.init G.vertices) [] 0).1,
    (kruskalLoop G.vertices.length (sortByWeight G.edges)
      (UnionFindService.init G.vertices) [] 0).2, "kruskal"⟩,
    ?_, rfl, hspec.1, hspec.2⟩
  unfold kruskalMST
  rw [hval]

/-! ### Prim's adjacency structure -/

theorem halfA_fst
    (m : List (String × List (String × Option W × String))) (k : String)
    (x : String × Option W × String) :
    (match mapGet m k with
      | some l => mapSet m k (l ++ [x])
      | none => m).map Prod.fst = m.map Prod.fst := by
  cases h : mapGet m k with
  | none => rfl
  | some l =>
    apply mapSet_map_fst
    by_contra hmem
    rw [(mapGet_eq_none_iff m k).mpr hmem] at h
    exact Option.noConfusion h

theorem halfA_mem
    (m : List (String × List (String × Option W × String))) (k : String)
    (x : String × Option W × String) (hk : k ∈ m.map Prod.fst)
    (v : String) (y : String × Option W × String) :
    y ∈ (mapGet (match mapGet m k with
          | some l => mapSet m k (l ++ [x])
          | none => m) v).getD []
      ↔ y ∈ (mapGet m v).getD [] ∨ (v = k ∧ y = x) := by
  cases h : mapGet m k with
  | none =>
    exact absurd ((mapGet_eq_none_iff m k).mp h) (not_not_intro hk)
  | some l =>
    by_cases hv : v = k
    · subst hv
      rw [mapGet_mapSet_self, h]
      show y ∈ l ++ [x] ↔ y ∈ l ∨ (v = v ∧ y = x)
      rw [List.mem_append, List.mem_singleton]
      constructor
      · rintro (h1 | h1)
        · exact Or.inl h1
        · exact Or.inr ⟨rfl, h1⟩
      · rintro (h1 | ⟨_, h1⟩)
        · exact Or.inl h1
        · exact Or.inr h1
    · rw [mapGet_mapSet_ne m k v (l ++ [x]) hv]
      constructor
      · exact Or.inl
      · rintro (h1 | ⟨h1, _⟩)
        · exact h1
        · exact absurd h1 hv

theorem primAdjFold_fst :
    ∀ (E : List (MGEdge (Option W)))
      (m : List (String × List (String × Option W × String))),
      (E.foldl (fun m e =>
        let m := match mapGet m e.source with
                 | some l => mapSet m e.source
                     (l ++ [(e.target, e.weight, e.id)])
                 | none => m
        match mapGet m e.target with
        | some l => mapSet m e.target (l ++ [(e.source, e.weight, e.id)])
        | none => m) m).map Prod.fst = m.map Prod.fst := by
  intro E
  induction E with
  | nil =>
    intro m
    rfl
  | cons e E ih =>
    intro m
    rw [List.foldl_cons, ih]
    exact (halfA_fst (match mapGet m e.source with
      | some l => mapSet m e.source (l ++ [(e.target, e.weight, e.id)])
      | none => m) e.target (e.source, e.weight, e.id)).trans
      (halfA_fst m e.source (e.target, e.weight, e.id))

theorem primAdjFold_mem :
    ∀ (E : List (MGEdge (Option W)))
      (m : List (String × List (String × Option W × String))),
      (∀ e ∈ E, e.source ∈ m.map Prod.fst ∧ e.target ∈ m.map Prod.fst) →
      ∀ v y, y ∈ (mapGet (E.foldl (fun m e =>
          let m := match mapGet m e.source with
                   | some l => mapSet m e.source
                       (l ++ [(e.target, e.weight, e.id)])
                   | none => m
          match mapGet m e.target with
          | some l => mapSet m e.target
              (l ++ [(e.source, e.weight, e.id)])
          | none => m) m) v).getD []
        ↔ y ∈ (mapGet m v).getD [] ∨ ∃ e ∈ E,
            ((v = e.source ∧ y = (e.target, e.weight, e.id)) ∨
             (v = e.target ∧ y = (e.source, e.weight, e.id))) := by
  intro E
  induction E with
  | nil =>
    intro m _ v y
    simp
  | cons e E ih =>
    intro m hep v y
    have heps : e.source ∈ m.map Prod.fst :=
      (hep e (List.mem_cons_self _ _)).1
    have hept : e.target ∈ m.map Prod.fst :=
      (hep e (List.mem_cons_self _ _)).2
    have hm1fst : (match mapGet m e.source with
        | some l => mapSet m e.source (l ++ [(e.target, e.weight, e.id)])
        | none => m).map Prod.fst = m.map Prod.fst :=
      halfA_fst m e.source (e.target, e.weight, e.id)
    have hstepfst : ((fun m (e : MGEdge (Option W)) =>
        let m := match mapGet m e.source with
                 | some l => mapSet m e.source
                     (l ++ [(e.target, e.weight, e.id)])
                 | none => m
        match mapGet m e.target with
        | some l => mapSet m e.target (l ++ [(e.source, e.weight, e.id)])
        | none => m) m e).map Prod.fst = m.map Prod.fst :=
      (halfA_fst (match mapGet m e.source with
        | some l => mapSet m e.source (l ++ [(e.target, e.weight, e.id)])
        | none => m) e.target (e.source, e.weight, e.id)).trans
        (halfA_fst m e.source (e.target, e.weight, e.id))
    rw [List.foldl_cons, ih _ (fun g hg => by
      rw [hstepfst]
      exact hep g (List.mem_cons_of_mem _ hg)) v y]
    have hh2 := halfA_mem (match mapGet m e.source with
      | some l => mapSet m e.source (l ++ [(e.target, e.weight, e.id)])
      | none => m) e.target (e.source, e.weight, e.id)
      (by rw [hm1fst]; exact hept) v y
    have hh1 := halfA_mem m e.source (e.target, e.weight, e.id) heps v y
    constructor
    · rintro (hbase | hE)
      · rcases hh2.mp hbase with hbase2 | ⟨h1, h2⟩
        · rcases hh1.mp hbase2 with hbase3 | ⟨h1, h2⟩
          · exact Or.inl hbase3
          · exact Or.inr ⟨e, List.mem_cons_self _ _, Or.inl ⟨h1, h2⟩⟩
        · exact Or.inr ⟨e, List.mem_cons_self _ _, Or.inr ⟨h1, h2⟩⟩
      · obtain ⟨g, hg, hj⟩ := hE
        exact Or.inr ⟨g, List.mem_cons_of_mem _ hg, hj⟩
    · rintro (hbase | ⟨g, hg, hj⟩)
      · exact Or.inl (hh2.mpr (Or.inl (hh1.mpr (Or.inl hbase))))
      · rcases List.mem_cons.mp hg with hge | hgE
        · subst hge
          rcases hj with ⟨h1, h2⟩ | ⟨h1, h2⟩
          · exact Or.inl (hh2.mpr (Or.inl (hh1.mpr (Or.inr ⟨h1, h2⟩))))
          · exact Or.inl (hh2.mpr (Or.inr ⟨h1, h2⟩))
        · exact Or.inr ⟨g, hgE, hj⟩

theorem primAdjacency_fst (G : GraphAPI (Option W))
    (hnd : G.vertices.Nodup) :
    (primAdjacency G).map Prod.fst = G.vertices := by
  unfold primAdjacency
  rw [primAdjFold_fst]
  rw [foldl_mapSet_fresh
    (fun _ => ([] : List (String × Option W × String))) G.vertices []
    (fun v _ => rfl) hnd, List.nil_append, List.map_map]
  exact List.map_id _

theorem primAdjacency_mem (G : GraphAPI (Option W))
    (hnd : G.vertices.Nodup)
    (hwf : ∀ e ∈ G.edges, e.source ∈ G.vertices ∧ e.target ∈ G.vertices)
    (v : String) (y : String × Option W × String) :
    y ∈ (mapGet (primAdjacency G) v).getD []
      ↔ ∃ e ∈ G.edges,
          ((v = e.source ∧ y = (e.target, e.weight, e.id)) ∨
           (v = e.target ∧ y = (e.source, e.weight, e.id))) := by
  have hinitfst : ((G.vertices.foldl (fun m v => mapSet m v [])
      ([] : List (String × List (String × Option W × String))))).map
      Prod.fst = G.vertices := by
    rw [foldl_mapSet_fresh
      (fun _ => ([] : List (String × Option W × String))) G.vertices []
      (fun v _ => rfl) hnd, List.nil_append, List.map_map]
    exact List.map_id _
  unfold primAdjacency
  rw [primAdjFold_mem G.edges _ (fun e he => by
    rw [hinitfst]
    exact hwf e he) v y]
  have hbase : y ∈ (mapGet (G.vertices.foldl (fun m v => mapSet m v [])
      ([] : List (String × List (String × Option W × String)))) v).getD []
      ↔ False := by
    rw [mapGet_foldl_init
      (fun _ => ([] : List (String × Option W × String))) G.vertices [] v]
    by_cases hv : v ∈ G.vertices
    · rw [if_pos hv]
      simp
    · rw [if_neg hv]
      simp [mapGet]
  rw [hbase]
  constructor
  · rintro (h | h)
    · exact absurd h id
    · exact h
  · exact Or.inr

/-! ### Prim's frontier queue folds -/

/-- The conditional neighbor-enqueue fold of Prim's main loop. -/
theorem enqueueFoldF_spec (c : String) (visited : List String) :
    ∀ (ns : List (String × Option W × String))
      (pq : PriorityQueue (PrimItem W) W),
      PriorityQueue.HeapProp pq.heap →
      PriorityQueue.HeapProp ((ns.foldl (fun pq n =>
        if n.1 ∈ visited then pq
        else pq.enqueue ⟨n.1, n.2.1, n.2.2, c⟩ (n.2.1.getD 0)) pq).heap) ∧
      (∀ y, y ∈ (ns.foldl (fun pq n =>
          if n.1 ∈ visited then pq
          else pq.enqueue ⟨n.1, n.2.1, n.2.2, c⟩ (n.2.1.getD 0)) pq).heap
        ↔ y ∈ pq.heap ∨ ∃ n ∈ ns, ¬ n.1 ∈ visited ∧
            y = (⟨n.1, n.2.1, n.2.2, c⟩, n.2.1.getD 0)) ∧
      (ns.foldl (fun pq n =>
        if n.1 ∈ visited then pq
        else pq.enqueue ⟨n.1, n.2.1, n.2.2, c⟩
          (n.2.1.getD 0)) pq).heap.length
        ≤ pq.heap.length + ns.length := by
  intro ns
  induction ns with
  | nil =>
    intro pq hp
    refine ⟨hp, fun y => ?_, by simp⟩
    constructor
    · exact Or.inl
    · rintro (h | ⟨n, hn, _⟩)
      · exact h
      · exact absurd hn (List.not_mem_nil n)
  | cons n ns ih =>
    intro pq hp
    rw [List.foldl_cons]
    by_cases hn : n.1 ∈ visited
    · rw [if_pos hn]
      obtain ⟨h1, h2, h3⟩ := ih pq hp
      refine ⟨h1, fun y => ?_, by rw [List.length_cons]; omega⟩
      rw [h2 y]
      constructor
      · rintro (h | ⟨n2, hn2, hnv2, hy⟩)
        · exact Or.inl h
        · exact Or.inr ⟨n2, List.mem_cons_of_mem _ hn2, hnv2, hy⟩
      · rintro (h | ⟨n2, hn2, hnv2, hy⟩)
        · exact Or.inl h
        · rcases List.mem_cons.mp hn2 with hne | hn2
          · exact absurd (hne ▸ hn) hnv2
          · exact Or.inr ⟨n2, hn2, hnv2, hy⟩
    · rw [if_neg hn]
      obtain ⟨hq1, hq2, hq3⟩ := enqueue_spec pq
        (⟨n.1, n.2.1, n.2.2, c⟩ : PrimItem W) (n.2.1.getD 0) hp
      obtain ⟨h1, h2, h3⟩ := ih (pq.enqueue ⟨n.1, n.2.1, n.2.2, c⟩
        (n.2.1.getD 0)) hq1
      refine ⟨h1, fun y => ?_, by rw [List.length_cons]; omega⟩
      rw [h2 y]
      constructor
      · rintro (h | ⟨n2, hn2, hnv2, hy⟩)
        · rcases (hq2 y).mp h with h | h
          · exact Or.inl h
          · exact Or.inr ⟨n, List.mem_cons_self _ _, hn, h⟩
        · exact Or.inr ⟨n2, List.mem_cons_of_mem _ hn2, hnv2, hy⟩
      · rintro (h | ⟨n2, hn2, hnv2, hy⟩)
        · exact Or.inl ((hq2 y).mpr (Or.inl h))
        · rcases List.mem_cons.mp hn2 with hne | hn2
          · subst hne
            exact Or.inl ((hq2 y).mpr (Or.inr hy))
          · exact Or.inr ⟨n2, hn2, hnv2, hy⟩

/-- The unconditional start-neighbor enqueue fold of `primMST`. -/
theorem enqueueFoldAll_spec (c : String) :
    ∀ (ns : List (String × Option W × String))
      (pq : PriorityQueue (PrimItem W) W),
      PriorityQueue.HeapProp pq.heap →
      PriorityQueue.HeapProp ((ns.foldl (fun pq n =>
        pq.enqueue ⟨n.1, n.2.1, n.2.2, c⟩ (n.2.1.getD 0)) pq).heap) ∧
      (∀ y, y ∈ (ns.foldl (fun pq n =>
          pq.enqueue ⟨n.1, n.2.1, n.2.2, c⟩ (n.2.1.getD 0)) pq).heap
        ↔ y ∈ pq.heap ∨ ∃ n ∈ ns,
            y = (⟨n.1, n.2.1, n.2.2, c⟩, n.2.1.getD 0)) ∧
      (ns.foldl (fun pq n =>
        pq.enqueue ⟨n.1, n.2.1, n.2.2, c⟩ (n.2.1.getD 0)) pq).heap.length
        ≤ pq.heap.length + ns.length := by
  intro ns
  induction ns with
  | nil =>
    intro pq hp
    refine ⟨hp, fun y => ?_, by simp⟩
    constructor
    · exact Or.inl
    · rintro (h | ⟨n, hn, _⟩)
      · exact h
      · exact absurd hn (List.not_mem_nil n)
  | cons n ns ih =>
    intro pq hp
    rw [List.foldl_cons]
    obtain ⟨hq1, hq2, hq3⟩ := enqueue_spec pq
      (⟨n.1, n.2.1, n.2.2, c⟩ : PrimItem W) (n.2.1.getD 0) hp
    obtain ⟨h1, h2, h3⟩ := ih (pq.enqueue ⟨n.1, n.2.1, n.2.2, c⟩
      (n.2.1.getD 0)) hq1
    refine ⟨h1, fun y => ?_, by rw [List.length_cons]; omega⟩
    rw [h2 y]
    constructor
    · rintro (h | ⟨n2, hn2, hy⟩)
      · rcases (hq2 y).mp h with h | h
        · exact Or.inl h
        · exact Or.inr ⟨n, List.mem_cons_self _ _, h⟩
      · exact Or.inr ⟨n2, List.mem_cons_of_mem _ hn2, hy⟩
    · rintro (h | ⟨n2, hn2, hy⟩)
      · exact Or.inl ((hq2 y).mpr (Or.inl h))
      · rcases List.mem_cons.mp hn2 with hne | hn2
        · subst hne
          exact Or.inl ((hq2 y).mpr (Or.inr hy))
        · exact Or.inr ⟨n2, hn2, hy⟩


/-! ### Prim's main loop -/

/-- The full Prim loop invariant: from a state whose accepted edges form a
tree on the duplicate-free visited set, whose frontier queue holds one
live entry per cut-crossing edge at that edge's weight, and whose
accepted edges extend (by some list `D`) to a minimum spanning tree, the
loop returns a minimum spanning tree and its exact total weight. -/
theorem primLoop_spec (G : GraphAPI (Option W))
    (hnd : G.vertices.Nodup) (h2 : 2 ≤ G.vertices.length)
    (hwf : ∀ e ∈ G.edges, e.source ∈ G.vertices ∧ e.target ∈ G.vertices)
    (hconn : Connects G.vertices G.edges) :
    ∀ (fuel : Nat) (pq : PriorityQueue (PrimItem W) W)
      (visited : List String) (mstEdges : List (MGEdge (Option W)))
      (tw : W),
      pq.heap.length + primUnvisitedAdjLen (primAdjacency G) visited
        < fuel →
      PriorityQueue.HeapProp pq.heap →
      visited.Nodup → visited ≠ [] →
      (∀ v ∈ visited, v ∈ G.vertices) →
      (∀ g ∈ mstEdges, g.source ∈ visited ∧ g.target ∈ visited) →
      (∀ g ∈ mstEdges, LinkOf G g) →
      (∀ u ∈ visited, ∀ v ∈ visited, EWalk mstEdges u v) →
      mstEdges.length = visited.length - 1 →
      tw = sumW mstEdges →
      (∀ it pr, (it, pr) ∈ pq.heap → it.fromV ∈ visited ∧
        pr = it.weight.getD 0 ∧
        ∃ e ∈ G.edges, e.weight = it.weight ∧
          Joins e it.fromV it.vertex) →
      (∀ e ∈ G.edges, ∀ u v, Joins e u v → u ∈ visited →
        ¬ v ∈ visited →
        ∃ it pr, (it, pr) ∈ pq.heap ∧ it.vertex = v ∧
          pr = e.weight.getD 0) →
      (∃ M D, IsMinSTree G M ∧
        (∀ x, List.count x M
          = List.count x mstEdges + List.count x D)) →
      IsMinSTree G (primLoop (primAdjacency G) G.vertices.length fuel
        pq visited mstEdges tw).1 ∧
      (primLoop (primAdjacency G) G.vertices.length fuel pq visited
        mstEdges tw).2
        = sumW (primLoop (primAdjacency G) G.vertices.length fuel pq
            visited mstEdges tw).1 := by
  intro fuel
  induction fuel with
  | zero =>
    intro pq visited mstEdges tw hpot
    exact absurd hpot (Nat.not_lt_zero _)
  | succ fuel ih =>
    intro pq visited mstEdges tw hpot hp hvnd hvne hvV hep hlink hconnv
      hlen htw hentries hcomp hMD
    by_cases hstop : pq.isEmpty = true ∨
        ¬ mstEdges.length < G.vertices.length - 1
    · -- the loop stops and returns the accepted edges
      have hred : primLoop (primAdjacency G) G.vertices.length (fuel + 1)
          pq visited mstEdges tw = (mstEdges, tw) := by
        simp only [primLoop]
        rw [if_pos hstop]
      have hlenge : ¬ mstEdges.length < G.vertices.length - 1 := by
        rcases hstop with hemp | hlenge2
        · by_contra hlt
          have hempty : pq.heap = [] := by
            cases hh : pq.heap with
            | nil => rfl
            | cons a t =>
              exfalso
              rw [show pq.isEmpty = pq.heap.isEmpty from rfl, hh] at hemp
              exact Bool.noConfusion hemp
          have h1 : 0 < visited.length := List.length_pos_of_ne_nil hvne
          have hex : ∃ v ∈ G.vertices, ¬ v ∈ visited := by
            by_contra hno
            push_neg at hno
            have hsub := List.subperm_of_subset hnd hno
            have := hsub.length_le
            omega
          obtain ⟨v0, hv0V, hv0nv⟩ := hex
          obtain ⟨u0, hu0⟩ : ∃ u, u ∈ visited := by
            cases hvis : visited with
            | nil => exact absurd hvis hvne
            | cons a t => exact ⟨a, List.mem_cons_self a t⟩
          have hw := hconn u0 (hvV u0 hu0) v0 hv0V
          obtain ⟨f, hf, xx, yy, hjf, hCx, hCy, _, _⟩ :=
            ewalk_cross_split (fun z => z ∈ visited) hw hu0 hv0nv
          obtain ⟨it, pr, hitmem, _, _⟩ := hcomp f hf xx yy hjf hCx hCy
          rw [hempty] at hitmem
          exact absurd hitmem (List.not_mem_nil _)
        · exact hlenge2
      have hmstlen : mstEdges.length = G.vertices.length - 1 := by
        have hsub := List.subperm_of_subset hvnd hvV
        have := hsub.length_le
        have h1 : 0 < visited.length := List.length_pos_of_ne_nil hvne
        omega
      obtain ⟨M, D, hMmin, hcnt⟩ := hMD
      have hperm : M.Perm (mstEdges ++ D) :=
        List.perm_iff_count.mpr (fun z => by
          rw [hcnt z, List.count_append])
      have hMlen : M.length = G.vertices.length - 1 := hMmin.1.2.2
      have hlen2 : M.length = mstEdges.length + D.length := by
        rw [hperm.length_eq, List.length_append]
      have hDnil : D = [] := List.eq_nil_of_length_eq_zero (by omega)
      subst hDnil
      have hacnt : ∀ z, List.count z mstEdges = List.count z M := by
        intro z
        rw [hcnt z, List.count_nil]
        omega
      obtain ⟨hTree, hSum⟩ := istree_count_eq hacnt hMmin.1
      rw [hred]
      refine ⟨⟨hTree, fun T hT => ?_⟩, htw⟩
      show sumW mstEdges ≤ sumW T
      rw [hSum]
      exact hMmin.2 T hT
    · -- one more iteration
      have hnemp : ¬ pq.isEmpty = true := fun h => hstop (Or.inl h)
      have hlt : mstEdges.length < G.vertices.length - 1 := by
        by_contra h
        exact hstop (Or.inr h)
      have hheapne : pq.heap ≠ [] := by
        intro h
        refine hnemp ?_
        rw [show pq.isEmpty = pq.heap.isEmpty from rfl, h]
        rfl
      obtain ⟨x, rest, hh⟩ : ∃ x rest, pq.heap = x :: rest := by
        cases hh : pq.heap with
        | nil => exact absurd hh hheapne
        | cons a t => exact ⟨a, t, rfl⟩
      obtain ⟨hdq1, hdqp, hdqsub, hdqsup, hdqlen, hdqmin⟩ :=
        dequeue_spec pq hp x rest hh
      rcases hdq : pq.dequeue with ⟨o, pq1⟩
      rw [hdq] at hdq1 hdqp hdqsub hdqsup hdqlen
      dsimp only at hdq1 hdqp hdqsub hdqsup hdqlen
      subst hdq1
      have hpqlen : pq.heap.length = rest.length + 1 := by
        rw [hh, List.length_cons]
      by_cases hcv : x.1.vertex ∈ visited
      · -- the dequeued vertex is already in the tree: skip it
        have hred : primLoop (primAdjacency G) G.vertices.length
            (fuel + 1) pq visited mstEdges tw
            = primLoop (primAdjacency G) G.vertices.length fuel pq1
                visited mstEdges tw := by
          simp only [primLoop, hdq]
          rw [if_neg hstop, if_pos hcv]
        rw [hred]
        refine ih pq1 visited mstEdges tw (by omega) hdqp hvnd hvne hvV
          hep hlink hconnv hlen htw ?_ ?_ hMD
        · intro it pr hmem
          refine hentries it pr ?_
          rw [hh]
          exact List.mem_cons_of_mem _ (hdqsub _ hmem)
        · intro e he u v hj hu hv
          obtain ⟨it, pr, hitmem, hvert, hpr⟩ := hcomp e he u v hj hu hv
          have hne : (it, pr) ≠ x := by
            intro hx
            apply hv
            have : it = x.1 := by rw [← hx]
            rw [← hvert, this]
            exact hcv
          have hinrest : (it, pr) ∈ rest := by
            rw [hh] at hitmem
            rcases List.mem_cons.mp hitmem with h | h
            · exact absurd h hne
            · exact h
          exact ⟨it, pr, hdqsup _ hinrest, hvert, hpr⟩
      · -- the dequeued vertex is new: grow the tree
        have hxent := hentries x.1 x.2 (by
          rw [show (x.1, x.2) = x from rfl, hh]
          exact List.mem_cons_self _ _)
        obtain ⟨hfromv, hx2, e0, he0, he0w, he0j⟩ := hxent
        have hcV : x.1.vertex ∈ G.vertices := by
          rcases he0j with ⟨h1, h2a⟩ | ⟨h1, h2a⟩
          · exact h2a ▸ (hwf e0 he0).2
          · exact h1 ▸ (hwf e0 he0).1
        have hsetadd : setAdd visited x.1.vertex
            = visited ++ [x.1.vertex] := by
          unfold setAdd
          rw [if_neg hcv]
        obtain ⟨b, hb⟩ : ∃ b, mapGet (primAdjacency G) x.1.vertex
            = some b := by
          cases hg : mapGet (primAdjacency G) x.1.vertex with
          | none =>
            exfalso
            rw [mapGet_eq_none_iff, primAdjacency_fst G hnd] at hg
            exact hg hcV
          | some b => exact ⟨b, rfl⟩
        have hbnbrs : (mapGet (primAdjacency G) x.1.vertex).getD [] = b := by
          rw [hb]
          rfl
        have hfold := enqueueFoldF_spec x.1.vertex
          (setAdd visited x.1.vertex)
          ((mapGet (primAdjacency G) x.1.vertex).getD []) pq1 hdqp
        have hred : primLoop (primAdjacency G) G.vertices.length
            (fuel + 1) pq visited mstEdges tw
            = primLoop (primAdjacency G) G.vertices.length fuel
                (((mapGet (primAdjacency G) x.1.vertex).getD []).foldl
                  (fun pq n =>
                    if n.1 ∈ setAdd visited x.1.vertex then pq
                    else pq.enqueue ⟨n.1, n.2.1, n.2.2, x.1.vertex⟩
                      (n.2.1.getD 0)) pq1)
                (setAdd visited x.1.vertex)
                (mstEdges ++ [⟨x.1.edgeId, x.1.fromV, x.1.vertex,
                  x.1.weight⟩])
                (tw + x.1.weight.getD 0) := by
          simp only [primLoop, hdq]
          rw [if_neg hstop, if_neg hcv]
        rw [hred]
        obtain ⟨hF1, hF2, hF3⟩ := hfold
        rw [hsetadd] at hF1 hF2 hF3
        -- the new accepted edge
        have hjg : Joins (⟨x.1.edgeId, x.1.fromV, x.1.vertex, x.1.weight⟩
            : MGEdge (Option W)) x.1.fromV x.1.vertex :=
          Or.inl ⟨rfl, rfl⟩
        have hgmem : (⟨x.1.edgeId, x.1.fromV, x.1.vertex, x.1.weight⟩
            : MGEdge (Option W)) ∈ mstEdges
              ++ [⟨x.1.edgeId, x.1.fromV, x.1.vertex, x.1.weight⟩] :=
          List.mem_append_right _ (List.mem_singleton.mpr rfl)
        have hgw : EWalk (mstEdges ++ [⟨x.1.edgeId, x.1.fromV,
            x.1.vertex, x.1.weight⟩]) x.1.fromV x.1.vertex :=
          ewalk_single ⟨_, hgmem, hjg⟩
        have hold : ∀ u ∈ visited, ∀ v ∈ visited,
            EWalk (mstEdges ++ [⟨x.1.edgeId, x.1.fromV, x.1.vertex,
              x.1.weight⟩]) u v :=
          fun u hu v hv => ewalk_mono
            (fun g hg => List.mem_append_left _ hg) (hconnv u hu v hv)
        rw [hsetadd]
        refine ih (((mapGet (primAdjacency G) x.1.vertex).getD []).foldl
            (fun pq n =>
              if n.1 ∈ visited ++ [x.1.vertex] then pq
              else pq.enqueue ⟨n.1, n.2.1, n.2.2, x.1.vertex⟩
                (n.2.1.getD 0)) pq1)
          (visited ++ [x.1.vertex])
          (mstEdges ++ [⟨x.1.edgeId, x.1.fromV, x.1.vertex, x.1.weight⟩])
          (tw + x.1.weight.getD 0)
          ?_ hF1 ?_ (by simp) ?_ ?_ ?_ ?_ ?_ ?_ ?_ ?_ ?_
        · -- termination potential
          have hU : primUnvisitedAdjLen (primAdjacency G) visited
              = b.length + primUnvisitedAdjLen (primAdjacency G)
                  (visited ++ [x.1.vertex]) := by
            unfold primUnvisitedAdjLen
            exact keyed_sum_visit List.length (primAdjacency G) visited
              x.1.vertex b
              (by rw [primAdjacency_fst G hnd]; exact hnd) hb hcv
          have hblen : ((mapGet (primAdjacency G) x.1.vertex).getD
              []).length = b.length := by
            rw [hbnbrs]
          omega
        · -- visited stays duplicate-free
          refine List.nodup_append.mpr
            ⟨hvnd, List.nodup_singleton _, ?_⟩
          intro z hz hzc
          rw [List.mem_singleton.mp hzc] at hz
          exact hcv hz
        · -- visited stays within the vertex list
          intro v hv
          rcases List.mem_append.mp hv with h | h
          · exact hvV v h
          · rw [List.mem_singleton.mp h]
            exact hcV
        · -- tree endpoints stay visited
          intro g hg
          rcases List.mem_append.mp hg with h | h
          · exact ⟨List.mem_append_left _ (hep g h).1,
              List.mem_append_left _ (hep g h).2⟩
          · rw [List.mem_singleton.mp h]
            exact ⟨List.mem_append_left _ hfromv,
              List.mem_append_right _ (List.mem_singleton.mpr rfl)⟩
        · -- tree edges are graph edges
          intro g hg
          rcases List.mem_append.mp hg with h | h
          · exact hlink g h
          · rw [List.mem_singleton.mp h]
            exact ⟨e0, he0, he0w, he0j⟩
        · -- the grown tree connects the grown visited set
          intro u hu v hv
          rcases List.mem_append.mp hu with hu | hu <;>
            rcases List.mem_append.mp hv with hv | hv
          · exact hold u hu v hv
          · rw [List.mem_singleton.mp hv]
            exact ewalk_trans (hold u hu _ hfromv) hgw
          · rw [List.mem_singleton.mp hu]
            exact ewalk_trans (ewalk_symm hgw) (hold _ hfromv v hv)
          · rw [List.mem_singleton.mp hu, List.mem_singleton.mp hv]
            exact EWalk.refl
        · -- length bookkeeping
          rw [List.length_append, List.length_append,
            List.length_singleton, List.length_singleton]
          have h1 : 0 < visited.length := List.length_pos_of_ne_nil hvne
          omega
        · -- running total
          rw [htw, sumW_append, sumW_single]
          rfl
        · -- every queue entry is a real frontier record
          intro it pr hmem
          rcases (hF2 (it, pr)).mp hmem with hmem | ⟨n, hn, hnv, hy⟩
          · have hold2 := hentries it pr (by
              rw [hh]
              exact List.mem_cons_of_mem _ (hdqsub _ hmem))
            exact ⟨List.mem_append_left _ hold2.1, hold2.2.1, hold2.2.2⟩
          · have hit : it = ⟨n.1, n.2.1, n.2.2, x.1.vertex⟩ :=
              congrArg Prod.fst hy
            have hpr : pr = n.2.1.getD 0 := congrArg Prod.snd hy
            obtain ⟨e, he, hcase⟩ :=
              (primAdjacency_mem G hnd hwf x.1.vertex n).mp hn
            subst hit
            subst hpr
            refine ⟨List.mem_append_right _ (List.mem_singleton.mpr rfl),
              rfl, e, he, ?_, ?_⟩
            · rcases hcase with ⟨_, hn2⟩ | ⟨_, hn2⟩ <;>
                rw [hn2]
            · rcases hcase with ⟨h1, hn2⟩ | ⟨h1, hn2⟩
              · refine Or.inl ⟨h1.symm, ?_⟩
                rw [hn2]
              · refine Or.inr ⟨?_, h1.symm⟩
                rw [hn2]
        · -- queue completeness on the new cut
          intro e he u v hj hu hv
          have hvnv : ¬ v ∈ visited :=
            fun h => hv (List.mem_append_left _ h)
          have hvnc : ¬ v = x.1.vertex :=
            fun h => hv (List.mem_append_right _
              (List.mem_singleton.mpr h))
          rcases List.mem_append.mp hu with hu | hu
          · obtain ⟨it, pr, hitmem, hvert, hpr⟩ :=
              hcomp e he u v hj hu hvnv
            have hne : (it, pr) ≠ x := by
              intro hx
              apply hvnc
              have h1 : it = x.1 := by rw [← hx]
              rw [← hvert, h1]
            have hinrest : (it, pr) ∈ rest := by
              rw [hh] at hitmem
              rcases List.mem_cons.mp hitmem with h1 | h1
              · exact absurd h1 hne
              · exact h1
            exact ⟨it, pr, (hF2 (it, pr)).mpr
              (Or.inl (hdqsup _ hinrest)), hvert, hpr⟩
          · rw [List.mem_singleton.mp hu] at hj
            rcases hj with ⟨h1, h2a⟩ | ⟨h1, h2a⟩
            · have hn : (e.target, e.weight, e.id)
                  ∈ (mapGet (primAdjacency G) x.1.vertex).getD [] :=
                (primAdjacency_mem G hnd hwf x.1.vertex _).mpr
                  ⟨e, he, Or.inl ⟨h1.symm, rfl⟩⟩
              refine ⟨⟨e.target, e.weight, e.id, x.1.vertex⟩,
                e.weight.getD 0, (hF2 _).mpr (Or.inr
                  ⟨(e.target, e.weight, e.id), hn, ?_, rfl⟩), h2a, rfl⟩
              show ¬ e.target ∈ visited ++ [x.1.vertex]
              rw [h2a]
              exact hv
            · have hn : (e.source, e.weight, e.id)
                  ∈ (mapGet (primAdjacency G) x.1.vertex).getD [] :=
                (primAdjacency_mem G hnd hwf x.1.vertex _).mpr
                  ⟨e, he, Or.inr ⟨h2a.symm, rfl⟩⟩
              refine ⟨⟨e.source, e.weight, e.id, x.1.vertex⟩,
                e.weight.getD 0, (hF2 _).mpr (Or.inr
                  ⟨(e.source, e.weight, e.id), hn, ?_, rfl⟩), h1, rfl⟩
              show ¬ e.source ∈ visited ++ [x.1.vertex]
              rw [h1]
              exact hv
        · -- the extension invariant survives via the cut property
          obtain ⟨M, D, hMmin, hcnt⟩ := hMD
          have hMw : EWalk M x.1.fromV x.1.vertex :=
            hMmin.1.2.1 _ (hvV _ hfromv) _ hcV
          obtain ⟨f, hfM, xx, yy, hjf, hCxx, hCyy, hax, hyb⟩ :=
            ewalk_cross_split (fun z => z ∈ visited) hMw hfromv hcv
          have hfmst : ¬ f ∈ mstEdges := by
            intro hfmst
            rcases hjf with ⟨h1a, h2a⟩ | ⟨h1a, h2a⟩
            · exact hCyy (h2a ▸ (hep f hfmst).2)
            · exact hCyy (h1a ▸ (hep f hfmst).1)
          have hfD : f ∈ D := by
            have h1 : 0 < List.count f M := List.count_pos_iff.mpr hfM
            have h2a := hcnt f
            have h3 : List.count f mstEdges = 0 :=
              List.count_eq_zero.mpr hfmst
            exact List.count_pos_iff.mp (by omega)
          have hfDpos : 0 < List.count f D := List.count_pos_iff.mpr hfD
          obtain ⟨e1, he1, hw1, hj1⟩ := hMmin.1.1 f hfM
          have hj1xy : Joins e1 xx yy := by
            rcases hjf with ⟨h1a, h2a⟩ | ⟨h1a, h2a⟩
            · rw [h1a, h2a] at hj1
              exact hj1
            · rw [h1a, h2a] at hj1
              exact joins_symm hj1
          obtain ⟨it2, pr2, hmem2, hvert2, hpr2⟩ :=
            hcomp e1 he1 xx yy hj1xy hCxx hCyy
          have hkey : ekey (⟨x.1.edgeId, x.1.fromV, x.1.vertex,
              x.1.weight⟩ : MGEdge (Option W)) ≤ ekey f := by
            have hmin := hdqmin (it2, pr2) hmem2
            have hekg : ekey (⟨x.1.edgeId, x.1.fromV, x.1.vertex,
                x.1.weight⟩ : MGEdge (Option W)) = x.2 := hx2.symm
            have hekf : pr2 = ekey f := by
              rw [hpr2]
              unfold ekey
              rw [hw1]
            rw [hekg, ← hekf]
            exact hmin
          have hswap := ewalk_swap hax hyb hjf hjg
          have hfMlen : (M.erase f).length = M.length - 1 :=
            List.length_erase_of_mem hfM
          have hMlen : M.length = G.vertices.length - 1 := hMmin.1.2.2
          have hMpos : 0 < M.length := by
            rw [hMlen]
            omega
          have hlink2 : ∀ g ∈ M.erase f ++ [⟨x.1.edgeId, x.1.fromV,
              x.1.vertex, x.1.weight⟩], LinkOf G g := by
            intro g hg
            rcases List.mem_append.mp hg with hg | hg
            · exact hMmin.1.1 g (List.mem_of_mem_erase hg)
            · rw [List.mem_singleton.mp hg]
              exact ⟨e0, he0, he0w, he0j⟩
          have hconn2 : Connects G.vertices (M.erase f
              ++ [⟨x.1.edgeId, x.1.fromV, x.1.vertex, x.1.weight⟩]) :=
            fun u hu v hv => hswap u v (hMmin.1.2.1 u hu v hv)
          have hlen2 : (M.erase f ++ [(⟨x.1.edgeId, x.1.fromV,
              x.1.vertex, x.1.weight⟩ : MGEdge (Option W))]).length
              = G.vertices.length - 1 := by
            rw [List.length_append, List.length_singleton, hfMlen, hMlen]
            omega
          have hsum2 : sumW (M.erase f ++ [⟨x.1.edgeId, x.1.fromV,
              x.1.vertex, x.1.weight⟩])
              = sumW M - ekey f + ekey (⟨x.1.edgeId, x.1.fromV,
                  x.1.vertex, x.1.weight⟩ : MGEdge (Option W)) := by
            rw [sumW_append, sumW_single, sumW_erase hfM]
            ring
          have hmin2 : IsMinSTree G (M.erase f ++ [⟨x.1.edgeId,
              x.1.fromV, x.1.vertex, x.1.weight⟩]) := by
            refine ⟨⟨hlink2, hconn2, hlen2⟩, ?_⟩
            intro T hT
            have hWle : sumW (M.erase f ++ [⟨x.1.edgeId, x.1.fromV,
                x.1.vertex, x.1.weight⟩]) ≤ sumW M := by
              rw [hsum2]
              calc sumW M - ekey f + ekey (⟨x.1.edgeId, x.1.fromV,
                    x.1.vertex, x.1.weight⟩ : MGEdge (Option W))
                  ≤ sumW M - ekey f + ekey f := add_le_add_left hkey _
                _ = sumW M := by ring
            exact le_trans hWle (hMmin.2 T hT)
          refine ⟨M.erase f ++ [⟨x.1.edgeId, x.1.fromV, x.1.vertex,
            x.1.weight⟩], D.erase f, hmin2, ?_⟩
          intro z
          rw [List.count_append, List.count_append, List.count_erase,
            List.count_erase, hcnt z]
          have h3 : List.count f mstEdges = 0 :=
            List.count_eq_zero.mpr hfmst
          by_cases hfz : f = z
          · have hbeq : (f == z) = true := beq_iff_eq.mpr hfz
            rw [if_pos hbeq]
            rw [← hfz]
            omega
          · have hbeq : ¬ ((f == z) = true) :=
              fun hb => hfz (beq_iff_eq.mp hb)
            rw [if_neg hbeq]
            omega


/-- `primMST` (with no explicit start vertex) succeeds and returns a
minimum spanning tree together with its exact total weight. -/
theorem primMST_correct (G : GraphAPI (Option W))
    (hnd : G.vertices.Nodup) (h2 : 2 ≤ G.vertices.length)
    (hdir : ¬ G.graphType = GraphType.directed)
    (hwts : ∀ e ∈ G.edges, e.weight ≠ none)
    (hwf : ∀ e ∈ G.edges, e.source ∈ G.vertices ∧ e.target ∈ G.vertices)
    (hconn : Connects G.vertices G.edges) :
    ∃ r, primMST G none = MSTResponse.success r ∧
      r.algorithm = "prim" ∧ IsMinSTree G r.edges ∧
      r.totalWeight = sumW r.edges := by
  have hval := validate_none G h2 hdir hwts hnd hwf hconn
  have hVne : G.vertices ≠ [] := by
    intro h
    rw [h] at h2
    simp at h2
  have hstart : G.vertices.headD "" ∈ G.vertices := by
    cases hv : G.vertices with
    | nil => exact absurd hv hVne
    | cons a t => exact List.mem_cons_self a t
  obtain ⟨M, hMmin, _⟩ := exists_min_stree G hnd hVne hwf hconn
  have hemptyhp : PriorityQueue.HeapProp
      ((PriorityQueue.empty : PriorityQueue (PrimItem W) W)).heap := by
    intro i j x y hc hx hy
    simp [PriorityQueue.empty] at hx
  obtain ⟨hP1, hP2, hP3⟩ := enqueueFoldAll_spec (G.vertices.headD "")
    ((mapGet (primAdjacency G) (G.vertices.headD "")).getD [])
    PriorityQueue.empty hemptyhp
  obtain ⟨b, hb⟩ : ∃ b, mapGet (primAdjacency G)
      (G.vertices.headD "") = some b := by
    cases hg : mapGet (primAdjacency G) (G.vertices.headD "") with
    | none =>
      exfalso
      rw [mapGet_eq_none_iff, primAdjacency_fst G hnd] at hg
      exact hg hstart
    | some b => exact ⟨b, rfl⟩
  have hbn : (mapGet (primAdjacency G) (G.vertices.headD "")).getD []
      = b := by
    rw [hb]
    rfl
  have hU0 : primAdjTotalLen (primAdjacency G)
      = b.length + primUnvisitedAdjLen (primAdjacency G)
          [G.vertices.headD ""] := by
    have hfull : (primAdjacency G).filter
        (fun p => ¬ p.1 ∈ ([] : List String)) = primAdjacency G := by
      refine List.filter_eq_self.mpr ?_
      intro a _
      simp
    have hv := keyed_sum_visit List.length (primAdjacency G) []
      (G.vertices.headD "") b
      (by rw [primAdjacency_fst G hnd]; exact hnd) hb
      (List.not_mem_nil _)
    rw [hfull] at hv
    rw [List.nil_append] at hv
    unfold primAdjTotalLen primUnvisitedAdjLen
    exact hv
  have hspec := primLoop_spec G hnd h2 hwf hconn
    (primAdjTotalLen (primAdjacency G) + 2)
    (((mapGet (primAdjacency G) (G.vertices.headD "")).getD []).foldl
      (fun pq n => pq.enqueue ⟨n.1, n.2.1, n.2.2, G.vertices.headD ""⟩
        (n.2.1.getD 0)) PriorityQueue.empty)
    [G.vertices.headD ""] [] 0
    (by
      have hlen0 : ((PriorityQueue.empty :
          PriorityQueue (PrimItem W) W)).heap.length = 0 := rfl
      have hblen : ((mapGet (primAdjacency G)
          (G.vertices.headD "")).getD []).length = b.length := by
        rw [hbn]
      omega)
    hP1 (List.nodup_singleton _) (by simp)
    (fun v hv => by rw [List.mem_singleton.mp hv]; exact hstart)
    (fun g hg => absurd hg (List.not_mem_nil g))
    (fun g hg => absurd hg (List.not_mem_nil g))
    (fun u hu v hv => by
      rw [List.mem_singleton.mp hu, List.mem_singleton.mp hv]
      exact EWalk.refl)
    (by simp)
    rfl
    (by
      intro it pr hmem
      rcases (hP2 (it, pr)).mp hmem with hmem | ⟨n, hn, hy⟩
      · exact absurd hmem (List.not_mem_nil _)
      · have hit : it = ⟨n.1, n.2.1, n.2.2, G.vertices.headD ""⟩ :=
          congrArg Prod.fst hy
        have hpr : pr = n.2.1.getD 0 := congrArg Prod.snd hy
        obtain ⟨e, he, hcase⟩ :=
          (primAdjacency_mem G hnd hwf (G.vertices.headD "") n).mp hn
        subst hit
        subst hpr
        refine ⟨List.mem_singleton.mpr rfl, rfl, e, he, ?_, ?_⟩
        · rcases hcase with ⟨_, hn2⟩ | ⟨_, hn2⟩ <;>
            rw [hn2]
        · rcases hcase with ⟨h1, hn2⟩ | ⟨h1, hn2⟩
          · refine Or.inl ⟨h1.symm, ?_⟩
            rw [hn2]
          · refine Or.inr ⟨?_, h1.symm⟩
            rw [hn2])
    (by
      intro e he u v hj hu hv
      rw [List.mem_singleton.mp hu] at hj
      rcases hj with ⟨h1, h2a⟩ | ⟨h1, h2a⟩
      · have hn : (e.target, e.weight, e.id)
            ∈ (mapGet (primAdjacency G) (G.vertices.headD "")).getD [] :=
          (primAdjacency_mem G hnd hwf (G.vertices.headD "") _).mpr
            ⟨e, he, Or.inl ⟨h1.symm, rfl⟩⟩
        exact ⟨⟨e.target, e.weight, e.id, G.vertices.headD ""⟩,
          e.weight.getD 0, (hP2 _).mpr (Or.inr
            ⟨(e.target, e.weight, e.id), hn, rfl⟩), h2a, rfl⟩
      · have hn : (e.source, e.weight, e.id)
            ∈ (mapGet (primAdjacency G) (G.vertices.headD "")).getD [] :=
          (primAdjacency_mem G hnd hwf (G.vertices.headD "") _).mpr
            ⟨e, he, Or.inr ⟨h2a.symm, rfl⟩⟩
        exact ⟨⟨e.source, e.weight, e.id, G.vertices.headD ""⟩,
          e.weight.getD 0, (hP2 _).mpr (Or.inr
            ⟨(e.source, e.weight, e.id), hn, rfl⟩), h1, rfl⟩)
    ⟨M, M, hMmin, fun x => by rw [List.count_nil]; omega⟩
  refine ⟨⟨(primLoop (primAdjacency G) G.vertices.length
      (primAdjTotalLen (primAdjacency G) + 2)
      (((mapGet (primAdjacency G) (G.vertices.headD "")).getD []).foldl
        (fun pq n => pq.enqueue ⟨n.1, n.2.1, n.2.2, G.vertices.headD ""⟩
          (n.2.1.getD 0)) PriorityQueue.empty)
      [G.vertices.headD ""] [] 0).1,
    (primLoop (primAdjacency G) G.vertices.length
      (primAdjTotalLen (primAdjacency G) + 2)
      (((mapGet (primAdjacency G) (G.vertices.headD "")).getD []).foldl
        (fun pq n => pq.enqueue ⟨n.1, n.2.1, n.2.2, G.vertices.headD ""⟩
          (n.2.1.getD 0)) PriorityQueue.empty)
      [G.vertices.headD ""] [] 0).2, "prim"⟩,
    ?_, rfl, hspec.1, hspec.2⟩
  unfold primMST
  rw [hval]

end MinimumSpanningTreeService

/-! ## C6: Kruskal and Prim agree on the total weight -/

theorem mstWitnessGraph_connects :
    MinimumSpanningTreeService.Connects mstWitnessGraph.vertices
      mstWitnessGraph.edges := by
  have hAB : MinimumSpanningTreeService.EWalk mstWitnessGraph.edges
      "A" "B" :=
    MinimumSpanningTreeService.ewalk_single
      ⟨⟨"A-B", "A", "B", some 1⟩, by decide, Or.inl ⟨rfl, rfl⟩⟩
  have hBC : MinimumSpanningTreeService.EWalk mstWitnessGraph.edges
      "B" "C" :=
    MinimumSpanningTreeService.ewalk_single
      ⟨⟨"B-C", "B", "C", some 1⟩, by decide, Or.inl ⟨rfl, rfl⟩⟩
  have hAC := MinimumSpanningTreeService.ewalk_trans hAB hBC
  intro u hu v hv
  have hu2 : u = "A" ∨ u = "B" ∨ u = "C" := by
    simpa [mstWitnessGraph] using hu
  have hv2 : v = "A" ∨ v = "B" ∨ v = "C" := by
    simpa [mstWitnessGraph] using hv
  rcases hu2 with rfl | rfl | rfl <;> rcases hv2 with rfl | rfl | rfl
  · exact MinimumSpanningTreeService.EWalk.refl
  · exact hAB
  · exact hAC
  · exact MinimumSpanningTreeService.ewalk_symm hAB
  · exact MinimumSpanningTreeService.EWalk.refl
  · exact hBC
  · exact MinimumSpanningTreeService.ewalk_symm hAC
  · exact MinimumSpanningTreeService.ewalk_symm hBC
  · exact MinimumSpanningTreeService.EWalk.refl

/-- C6: on every well-formed connected undirected graph with at least two
vertices (duplicate-free vertex list, edge endpoints among the vertices)
whose edges all carry a defined weight, `kruskalMST` and `primMST` both
succeed and their results have the same `totalWeight`. -/
theorem kruskal_prim_agree {W : Type} [LinearOrderedCommRing W]
    (G : GraphAPI (Option W))
    (hnd : G.vertices.Nodup) (h2 : 2 ≤ G.vertices.length)
    (hdir : ¬ G.graphType = GraphType.directed)
    (hwts : ∀ e ∈ G.edges, ¬ e.weight = none)
    (hwf : ∀ e ∈ G.edges, e.source ∈ G.vertices ∧ e.target ∈ G.vertices)
    (hconn : MinimumSpanningTreeService.Connects G.vertices G.edges) :
    ∃ rK rP,
      MinimumSpanningTreeService.kruskalMST G
        = MinimumSpanningTreeService.MSTResponse.success rK ∧
      MinimumSpanningTreeService.primMST G none
        = MinimumSpanningTreeService.MSTResponse.success rP ∧
      rK.totalWeight = rP.totalWeight := by
  obtain ⟨rK, hK1, _, hK3, hK4⟩ :=
    MinimumSpanningTreeService.kruskalMST_correct G hnd h2 hdir hwts
      hwf hconn
  obtain ⟨rP, hP1, _, hP3, hP4⟩ :=
    MinimumSpanningTreeService.primMST_correct G hnd h2 hdir hwts
      hwf hconn
  refine ⟨rK, rP, hK1, hP1, ?_⟩
  rw [hK4, hP4]
  exact le_antisymm (hK3.2 rP.edges hP3.1) (hP3.2 rK.edges hK3.1)

/-- C6 witness: the weighted triangle `mstWitnessGraph` satisfies every
hypothesis, and both solvers succeed on it with equal totals. -/
theorem kruskal_prim_agree_witness :
    mstWitnessGraph.vertices.Nodup ∧
    2 ≤ mstWitnessGraph.vertices.length ∧
    ¬ mstWitnessGraph.graphType = GraphType.directed ∧
    (∀ e ∈ mstWitnessGraph.edges, ¬ e.weight = none) ∧
    (∀ e ∈ mstWitnessGraph.edges,
      e.source ∈ mstWitnessGraph.vertices ∧
      e.target ∈ mstWitnessGraph.vertices) ∧
    (∃ rK rP,
      MinimumSpanningTreeService.kruskalMST mstWitnessGraph
        = MinimumSpanningTreeService.MSTResponse.success rK ∧
      MinimumSpanningTreeService.primMST mstWitnessGraph none
        = MinimumSpanningTreeService.MSTResponse.success rP ∧
      rK.totalWeight = rP.totalWeight) :=
  ⟨by decide, by decide, by decide, by decide, by decide,
   kruskal_prim_agree mstWitnessGraph (by decide) (by decide)
     (by decide) (by decide) (by decide) mstWitnessGraph_connects⟩

/-! ## C9: validation order of the MST solvers -/

/-- C9: both MST solvers check their preconditions in the order directed →
insufficient vertices → missing weights → disconnected, each with its own
distinct failure kind; and on the spec's disconnected `{A-B, C-D}`
scenario `kruskalMST` fails with the `not_connected` kind. -/
theorem mst_validation_order {W : Type} [LinearOrderedCommRing W] :
    (∀ (G : GraphAPI (Option W)), G.graphType = GraphType.directed →
      MinimumSpanningTreeService.kruskalMST G
        = .failure ⟨.directed_graph, "MST can only be computed for undirected graphs"⟩ ∧
      MinimumSpanningTreeService.primMST G none
        = .failure ⟨.directed_graph, "MST can only be computed for undirected graphs"⟩) ∧
    (∀ (G : GraphAPI (Option W)), ¬ G.graphType = GraphType.directed →
      G.vertices.length < 2 →
      MinimumSpanningTreeService.kruskalMST G
        = .failure ⟨.insufficient_vertices, "MST requires at least 2 vertices"⟩ ∧
      MinimumSpanningTreeService.primMST G none
        = .failure ⟨.insufficient_vertices, "MST requires at least 2 vertices"⟩) ∧
    (∀ (G : GraphAPI (Option W)), ¬ G.graphType = GraphType.directed →
      2 ≤ G.vertices.length → (∃ e ∈ G.edges, e.weight = none) →
      MinimumSpanningTreeService.kruskalMST G
        = .failure ⟨.not_weighted, "MST requires all edges to have weights"⟩ ∧
      MinimumSpanningTreeService.primMST G none
        = .failure ⟨.not_weighted, "MST requires all edges to have weights"⟩) ∧
    (∀ (G : GraphAPI (Option W)), ¬ G.graphType = GraphType.directed →
      2 ≤ G.vertices.length → (∀ e ∈ G.edges, e.weight ≠ none) →
      GraphUtils.isGraphConnected G = false →
      MinimumSpanningTreeService.kruskalMST G
        = .failure ⟨.not_connected, "Graph must be connected to compute MST"⟩ ∧
      MinimumSpanningTreeService.primMST G none
        = .failure ⟨.not_connected, "Graph must be connected to compute MST"⟩) ∧
    (MinimumSpanningTreeService.MSTErrorType.directed_graph
        ≠ MinimumSpanningTreeService.MSTErrorType.insufficient_vertices ∧
     MinimumSpanningTreeService.MSTErrorType.directed_graph
        ≠ MinimumSpanningTreeService.MSTErrorType.not_weighted ∧
     MinimumSpanningTreeService.MSTErrorType.directed_graph
        ≠ MinimumSpanningTreeService.MSTErrorType.not_connected ∧
     MinimumSpanningTreeService.MSTErrorType.insufficient_vertices
        ≠ MinimumSpanningTreeService.MSTErrorType.not_weighted ∧
     MinimumSpanningTreeService.MSTErrorType.insufficient_vertices
        ≠ MinimumSpanningTreeService.MSTErrorType.not_connected ∧
     MinimumSpanningTreeService.MSTErrorType.not_weighted
        ≠ MinimumSpanningTreeService.MSTErrorType.not_connected) ∧
    MinimumSpanningTreeService.kruskalMST mstDisconnectedGraph
      = .failure ⟨.not_connected, "Graph must be connected to compute MST"⟩ := by
  refine ⟨?_, ?_, ?_, ?_, by decide, by decide⟩
  · intro G hdir
    have hv : MinimumSpanningTreeService.validateAndCheckConnectivity G =
        some ⟨.directed_graph, "MST can only be computed for undirected graphs"⟩ := by
      simp only [MinimumSpanningTreeService.validateAndCheckConnectivity,
        MinimumSpanningTreeService.validateGraph, if_pos hdir]
    exact ⟨by simp only [MinimumSpanningTreeService.kruskalMST, hv],
           by simp only [MinimumSpanningTreeService.primMST, hv]⟩
  · intro G hdir hlt
    have hv : MinimumSpanningTreeService.validateAndCheckConnectivity G =
        some ⟨.insufficient_vertices, "MST requires at least 2 vertices"⟩ := by
      simp only [MinimumSpanningTreeService.validateAndCheckConnectivity,
        MinimumSpanningTreeService.validateGraph, if_neg hdir, if_pos hlt]
    exact ⟨by simp only [MinimumSpanningTreeService.kruskalMST, hv],
           by simp only [MinimumSpanningTreeService.primMST, hv]⟩
  · intro G hdir hge hsome
    have h2 : ¬ G.vertices.length < 2 := by omega
    have hany : (G.edges.any (fun e => decide (e.weight = none))) = true := by
      rcases hsome with ⟨e, he, hw⟩
      exact List.any_eq_true.2 ⟨e, he, by simpa using hw⟩
    have hv : MinimumSpanningTreeService.validateAndCheckConnectivity G =
        some ⟨.not_weighted, "MST requires all edges to have weights"⟩ := by
      simp [MinimumSpanningTreeService.validateAndCheckConnectivity,
        MinimumSpanningTreeService.validateGraph, if_neg hdir, if_neg h2, hany]
    exact ⟨by simp only [MinimumSpanningTreeService.kruskalMST, hv],
           by simp only [MinimumSpanningTreeService.primMST, hv]⟩
  · intro G hdir hge hdefined hconn
    have h2 : ¬ G.vertices.length < 2 := by omega
    have hany : (G.edges.any (fun e => decide (e.weight = none))) = false := by
      rw [List.any_eq_false]
      intro e he
      simpa using hdefined e he
    have hv : MinimumSpanningTreeService.validateAndCheckConnectivity G =
        some ⟨.not_connected, "Graph must be connected to compute MST"⟩ := by
      simp [MinimumSpanningTreeService.validateAndCheckConnectivity,
        MinimumSpanningTreeService.validateGraph, if_neg hdir, if_neg h2, hany,
        hconn]
    exact ⟨by simp only [MinimumSpanningTreeService.kruskalMST, hv],
           by simp only [MinimumSpanningTreeService.primMST, hv]⟩

/-- C9 witness: the four failure kinds materialize in order on concrete
graphs — a directed graph, a single-vertex graph, a graph with an
undefined weight, and the disconnected `{A-B, C-D}` scenario. -/
theorem mst_validation_order_witness :
    MinimumSpanningTreeService.kruskalMST
        (⟨["A", "B"], [⟨"A-B", "A", "B", some 1⟩], GraphType.directed⟩ :
          GraphAPI (Option ℤ))
      = .failure ⟨.directed_graph, "MST can only be computed for undirected graphs"⟩ ∧
    MinimumSpanningTreeService.primMST
        (⟨["A"], [], GraphType.undirected⟩ : GraphAPI (Option ℤ)) none
      = .failure ⟨.insufficient_vertices, "MST requires at least 2 vertices"⟩ ∧
    MinimumSpanningTreeService.kruskalMST
        (⟨["A", "B"], [⟨"A-B", "A", "B", none⟩], GraphType.undirected⟩ :
          GraphAPI (Option ℤ))
      = .failure ⟨.not_weighted, "MST requires all edges to have weights"⟩ ∧
    MinimumSpanningTreeService.kruskalMST mstDisconnectedGraph
      = .failure ⟨.not_connected, "Graph must be connected to compute MST"⟩ :=
  ⟨(mst_validation_order.1 ⟨["A", "B"], [⟨"A-B", "A", "B", some 1⟩],
      GraphType.directed⟩ (by decide)).1,
   (mst_validation_order.2.1 ⟨["A"], [], GraphType.undirected⟩ (by decide)
      (by decide)).2,
   (mst_validation_order.2.2.1 ⟨["A", "B"], [⟨"A-B", "A", "B", none⟩],
      GraphType.undirected⟩ (by decide) (by decide)
      ⟨⟨"A-B", "A", "B", none⟩, by decide, rfl⟩).1,
   (mst_validation_order.2.2.2.1 mstDisconnectedGraph (by decide) (by decide)
      (by decide) (by decide)).1⟩

/-- C3 witness: on the 16-vertex path graph `p16` — connected, one more
vertex than the ceiling, outside Dirac's and Ore's range — the search is
refused with the ceiling reason. -/
theorem hamiltonian_ceiling_refusal_witness :
    HamiltonianPathService.findHamiltonianPath p16
      = ⟨false, false, none, none, none,
         some ("Graph has " ++ toString p16.vertices.length ++
           " vertices. Hamiltonian path search is limited to " ++
           toString HamiltonianPathService.maxVerticesForExhaustiveSearch ++
           " vertices due to computational complexity."),
         none⟩ :=
  hamiltonian_ceiling_refusal p16 (by decide) (by decide) (by decide)
    (by decide) (by decide)

end GraphStuff
